import Mathlib

/-!
# Marble interpreter: lexer, parser, renderer and evaluator

A shallow embedding of `intepreter/marble` (token.go, lexer.go, ast.go, parser.go,
object.go, environment.go, eval.go).

Conventions of the embedding.
* A Go `string` or `[]byte` is a list of byte values (`Bytes`).
* Go `int64` values are `Int`s reduced by `wrap64`; Go `int` positions are `Int`s.
* Go `float64` is the IEEE-754 binary64 model `F64` (round to nearest, ties to even).
* A Go interface value that may be `nil` is an `Option`; a nil-pointer dereference or an
  out-of-range index is the result `panic`.
* Every heap allocation `&T{...}` of a runtime object draws a fresh address from the
  evaluation state; pointer comparison is comparison of addresses.
* Recursive procedures carry a fuel argument; running out of fuel is reported as a
  distinct result (`none` for the parser, `timeout` for the evaluator).
-/

namespace Marble

/-! ## Byte strings -/

abbrev Bytes := List Nat

/-- ASCII text as a byte string. -/
def str (s : String) : Bytes := s.toList.map Char.toNat

/-- Go `strings.Contains(s, sub)`, as a proposition. -/
def Contains (s sub : Bytes) : Prop := ∃ pre post : Bytes, s = pre ++ sub ++ post

/-- Decimal digits of a natural number, most significant first (`fuel` bounds the digit count). -/
def natDigits : Nat → Nat → Bytes → Bytes
  | 0, _, acc => acc
  | fuel + 1, n, acc =>
    if n < 10 then (48 + n) :: acc else natDigits fuel (n / 10) ((48 + n % 10) :: acc)

/-- Go `fmt.Sprintf("%v", n)` for an integer. -/
def decimal (n : Int) : Bytes :=
  if n < 0 then 45 :: natDigits (n.natAbs + 1) n.natAbs [] else natDigits (n.natAbs + 1) n.natAbs []

/-- Go `strings.Join(parts, sep)`. -/
def join (sep : Bytes) : List Bytes → Bytes
  | [] => []
  | [x] => x
  | x :: y :: rest => x ++ sep ++ join sep (y :: rest)

/-- Go slice expression `input[lo:hi]` for `lo ≤ hi ≤ len(input)`. -/
def slice (input : Bytes) (lo hi : Nat) : Bytes := (input.drop lo).take (hi - lo)

/-! ## 64-bit integers -/

/-- Reduction of an integer to signed 64-bit two's complement. -/
def wrap64 (x : Int) : Int := (x + 2 ^ 63) % 2 ^ 64 - 2 ^ 63

def minInt64 : Int := -(2 ^ 63)
def maxInt64 : Int := 2 ^ 63 - 1

/-- Membership in the range of Go `int64`. -/
def isInt64 (x : Int) : Prop := minInt64 ≤ x ∧ x ≤ maxInt64

/-! ## IEEE-754 binary64 -/

/-- A binary64 value: `fin neg m e` is `(-1)^neg * m * 2^e`, kept with `m` odd (or `m = 0`, `e = 0`). -/
inductive F64 where
  | nan
  | inf (neg : Bool)
  | fin (neg : Bool) (m : Nat) (e : Int)
  deriving DecidableEq, Repr

namespace F64

/-- Strip factors of two from the significand. -/
def norm : Nat → Nat → Int → Nat × Int
  | 0, m, e => (m, e)
  | fuel + 1, m, e =>
    if m = 0 then (0, 0) else if m % 2 = 0 then norm fuel (m / 2) (e + 1) else (m, e)

def mk (neg : Bool) (m : Nat) (e : Int) : F64 :=
  let r := norm (m + 1) m e
  fin neg r.1 r.2

def zero : F64 := fin false 0 0

/-- Floor of the binary logarithm (`0` at `0`); `fuel` bounds the number of halvings. -/
def log2 : Nat → Nat → Nat
  | 0, _ => 0
  | fuel + 1, n => if n < 2 then 0 else log2 fuel (n / 2) + 1

/-- Is `n / d ≥ 2^e` (for `d > 0`). -/
def geTwoPow (n d : Nat) (e : Int) : Bool :=
  if 0 ≤ e then decide (d * 2 ^ e.toNat ≤ n) else decide (d ≤ n * 2 ^ (-e).toNat)

/-- Round the positive rational `n / d` to the nearest binary64, ties to even; values at or
beyond `2^1024` after rounding become an infinity. -/
def roundRatio (neg : Bool) (n d : Nat) : F64 :=
  if n = 0 then fin neg 0 0
  else
    let e0 : Int := (log2 n n : Int) - (log2 d d : Int)
    let e : Int := if geTwoPow n d e0 then e0 else e0 - 1
    let p : Int := max e (-1022) - 52
    let N : Nat := if 0 ≤ p then n else n * 2 ^ (-p).toNat
    let D : Nat := if 0 ≤ p then d * 2 ^ p.toNat else d
    let q := N / D
    let r := N % D
    let q1 := if D < 2 * r ∨ (2 * r = D ∧ q % 2 = 1) then q + 1 else q
    if geTwoPow q1 1 (1024 - p) then inf neg else mk neg q1 p

/-- Round the dyadic `m * 2^e`. -/
def roundDyadic (neg : Bool) (m : Nat) (e : Int) : F64 :=
  if 0 ≤ e then roundRatio neg (m * 2 ^ e.toNat) 1 else roundRatio neg m (2 ^ (-e).toNat)

/-- Go conversion `float64(i)` of an `int64`. -/
def ofInt (i : Int) : F64 := roundRatio (decide (i < 0)) i.natAbs 1

/-- The finite value scaled to an integer multiple of `2^e0`, `e0 ≤ e`. -/
def scaled (neg : Bool) (m : Nat) (e e0 : Int) : Int :=
  let v : Int := (m * 2 ^ (e - e0).toNat : Nat)
  if neg then -v else v

def neg : F64 → F64
  | nan => nan
  | inf s => inf (!s)
  | fin s m e => fin (!s) m e

def add : F64 → F64 → F64
  | nan, _ => nan
  | _, nan => nan
  | inf s, inf t => if s = t then inf s else nan
  | inf s, fin _ _ _ => inf s
  | fin _ _ _, inf t => inf t
  | fin s m e, fin t k f =>
    let e0 := min e f
    let sum := scaled s m e e0 + scaled t k f e0
    if sum = 0 then fin (s && t) 0 0 else roundDyadic (decide (sum < 0)) sum.natAbs e0

def sub (a b : F64) : F64 := add a (neg b)

def mul : F64 → F64 → F64
  | nan, _ => nan
  | _, nan => nan
  | inf s, inf t => inf (xor s t)
  | inf s, fin t k _ => if k = 0 then nan else inf (xor s t)
  | fin s m _, inf t => if m = 0 then nan else inf (xor s t)
  | fin s m e, fin t k f => roundDyadic (xor s t) (m * k) (e + f)

def div : F64 → F64 → F64
  | nan, _ => nan
  | _, nan => nan
  | inf _, inf _ => nan
  | inf s, fin t _ _ => inf (xor s t)
  | fin s _ _, inf t => fin (xor s t) 0 0
  | fin s m e, fin t k f =>
    if k = 0 then (if m = 0 then nan else inf (xor s t))
    else
      let g := e - f
      if 0 ≤ g then roundRatio (xor s t) (m * 2 ^ g.toNat) k
      else roundRatio (xor s t) m (k * 2 ^ (-g).toNat)

/-- Go `a == b` on `float64`. -/
def eq : F64 → F64 → Bool
  | nan, _ => false
  | _, nan => false
  | inf s, inf t => s == t
  | inf _, fin _ _ _ => false
  | fin _ _ _, inf _ => false
  | fin s m e, fin t k f => (m == 0 && k == 0) || (s == t && m == k && e == f)

/-- Go `a < b` on `float64`. -/
def lt : F64 → F64 → Bool
  | nan, _ => false
  | _, nan => false
  | inf s, inf t => s && !t
  | inf s, fin _ _ _ => s
  | fin _ _ _, inf t => !t
  | fin s m e, fin t k f => decide (scaled s m e (min e f) < scaled t k f (min e f))

/-- Go `a <= b` on `float64`. -/
def le (a b : F64) : Bool := lt a b || eq a b

end F64

/-! ## token.go -/

inductive TokenType where
  | ILLEGAL | EOF
  | IDENTIFIER | STRING | FLOAT | INTEGER
  | ASSIGN | ADD | SUBTRACT | MULTIPLY | DIVIDE | NEGATE
  | LT | GT | LTE | GTE | EQ | NOTEQ
  | COMMA | SEMICOLON
  | LPAREN | RPAREN | LBRACE | RBRACE | LBRACKET | RBRACKET
  | FUNCTION | VARIABLE | TRUE | FALSE | IF | ELSE | RETURN
  deriving DecidableEq, Repr

/-- The string constant behind each token type. -/
def TokenType.name : TokenType → Bytes
  | .ILLEGAL => str "ILLEGAL" | .EOF => str "EOF"
  | .IDENTIFIER => str "IDENTIFIER" | .STRING => str "STRING"
  | .FLOAT => str "FLOAT" | .INTEGER => str "INTEGER"
  | .ASSIGN => str "=" | .ADD => str "+" | .SUBTRACT => str "-"
  | .MULTIPLY => str "*" | .DIVIDE => str "/" | .NEGATE => str "!"
  | .LT => str "<" | .GT => str ">" | .LTE => str "<=" | .GTE => str ">="
  | .EQ => str "==" | .NOTEQ => str "!="
  | .COMMA => str "," | .SEMICOLON => str ";"
  | .LPAREN => str "(" | .RPAREN => str ")" | .LBRACE => str "\x7b" | .RBRACE => str "\x7d"
  | .LBRACKET => str "[" | .RBRACKET => str "]"
  | .FUNCTION => str "FUNCTION" | .VARIABLE => str "VARIABLE"
  | .TRUE => str "TRUE" | .FALSE => str "FALSE"
  | .IF => str "IF" | .ELSE => str "ELSE" | .RETURN => str "RETURN"

structure Token where
  Typ : TokenType
  Literal : Bytes
  LineNumber : Int
  ColNumber : Int
  deriving DecidableEq, Repr

/-- The zero value of `Token` has the empty string as its type, which is none of the
constants; the parser overwrites it before reading it, so `ILLEGAL` stands in for it. -/
def Token.zero : Token := ⟨.ILLEGAL, [], 0, 0⟩

/-! ## lexer.go -/

structure Lexer where
  input : Bytes
  currentByte : Nat
  currentIndex : Nat
  nextIndex : Nat
  currentLineNumber : Int
  currentColNumber : Int
  deriving DecidableEq, Repr

namespace Lexer

def readByte (l : Lexer) : Lexer :=
  let b := if l.input.length ≤ l.nextIndex then 0 else l.input.getD l.nextIndex 0
  { l with
    currentByte := b
    currentIndex := l.nextIndex
    nextIndex := l.nextIndex + 1
    currentLineNumber := if b = 10 then l.currentLineNumber + 1 else l.currentLineNumber
    currentColNumber := (if b = 10 then -1 else l.currentColNumber) + 1 }

def peekNextByte (l : Lexer) : Nat :=
  if l.input.length ≤ l.nextIndex then 0 else l.input.getD l.nextIndex 0

/-- Number of bytes not yet read, plus one: a bound on the iterations of every scanning loop. -/
def budget (l : Lexer) : Nat := l.input.length + 1 - l.nextIndex

def isWhitespace (b : Nat) : Bool := b = 32 || b = 9 || b = 10 || b = 13

/-- The loop `for l.currentByte is whitespace { l.readByte() }`; the flag tells whether it ran. -/
def skipWhitespace : Nat → Lexer → Bool → Lexer × Bool
  | 0, l, modified => (l, modified)
  | fuel + 1, l, modified =>
    if isWhitespace l.currentByte then skipWhitespace fuel l.readByte true else (l, modified)

/-- The loop `for { l.readByte(); if l.currentByte == 0 || l.currentByte == '\n' { break } }`. -/
def skipComment : Nat → Lexer → Lexer
  | 0, l => l
  | fuel + 1, l =>
    let l1 := l.readByte
    if l1.currentByte = 0 ∨ l1.currentByte = 10 then l1 else skipComment fuel l1

def skipWhitespaceAndCommentsLoop : Nat → Lexer → Lexer
  | 0, l => l
  | fuel + 1, l =>
    let r := skipWhitespace (l.budget + 1) l false
    let l1 := r.1
    if l1.currentByte = 47 ∧ l1.peekNextByte = 47 then
      skipWhitespaceAndCommentsLoop fuel (skipComment (l1.budget + 1) l1)
    else if r.2 then skipWhitespaceAndCommentsLoop fuel l1
    else l1

def skipWhitespaceAndComments (l : Lexer) : Lexer :=
  skipWhitespaceAndCommentsLoop (l.budget + 1) l

def newToken (l : Lexer) (tt : TokenType) (literal : Bytes) : Token :=
  ⟨tt, literal, l.currentLineNumber + 1, l.currentColNumber⟩

def readOperator (l : Lexer) (previous : Nat) (single combined : TokenType) : Token × Lexer :=
  if l.peekNextByte = 61 then
    let l1 := l.readByte
    (⟨combined, [previous, 61], l1.currentLineNumber + 1, l1.currentColNumber - 1⟩, l1)
  else (l.newToken single [previous], l)

/-- The loop `for { l.readByte(); if l.currentByte == 0 || l.currentByte == '"' { break } }`. -/
def readStringLoop : Nat → Lexer → Lexer
  | 0, l => l
  | fuel + 1, l =>
    let l1 := l.readByte
    if l1.currentByte = 0 ∨ l1.currentByte = 34 then l1 else readStringLoop fuel l1

def readString (l : Lexer) : Token × Lexer :=
  let currentIndex := l.currentIndex + 1
  let lineNumber := l.currentLineNumber + 1
  let colNumber := l.currentColNumber
  let l1 := readStringLoop (l.budget + 1) l
  (⟨.STRING, slice l1.input currentIndex l1.currentIndex, lineNumber, colNumber⟩, l1)

def validIdentifierByte (char : Nat) : Bool :=
  (97 ≤ char && char ≤ 122) || (65 ≤ char && char ≤ 90) || char = 95

/-- The loop `for validIdentifierByte(l.currentByte) { l.readByte() }`. -/
def readIdentifierLoop : Nat → Lexer → Lexer
  | 0, l => l
  | fuel + 1, l => if validIdentifierByte l.currentByte then readIdentifierLoop fuel l.readByte else l

def keyword (literal : Bytes) : TokenType :=
  if literal = str "func" then .FUNCTION
  else if literal = str "var" then .VARIABLE
  else if literal = str "true" then .TRUE
  else if literal = str "false" then .FALSE
  else if literal = str "if" then .IF
  else if literal = str "else" then .ELSE
  else if literal = str "return" then .RETURN
  else .IDENTIFIER

def readIdentifier (l : Lexer) : Token × Lexer :=
  let currentIndex := l.currentIndex
  let lineNumber := l.currentLineNumber + 1
  let colNumber := l.currentColNumber
  let l1 := readIdentifierLoop (l.budget + 1) l
  let literal := slice l1.input currentIndex l1.currentIndex
  (⟨keyword literal, literal, lineNumber, colNumber⟩, l1)

def validNumberDigit (char : Nat) : Bool := 48 ≤ char && char ≤ 57

/-- The loop of `readNumber`; the flag is `periodPresence`. -/
def readNumberLoop : Nat → Lexer → Bool → Lexer × Bool
  | 0, l, periodPresence => (l, periodPresence)
  | fuel + 1, l, periodPresence =>
    if validNumberDigit l.currentByte then
      let l1 := l.readByte
      if l1.currentByte = 46 ∧ periodPresence = false ∧ validNumberDigit l1.peekNextByte = true then
        readNumberLoop fuel l1.readByte true
      else readNumberLoop fuel l1 periodPresence
    else (l, periodPresence)

def readNumber (l : Lexer) : Token × Lexer :=
  let currentIndex := l.currentIndex
  let lineNumber := l.currentLineNumber + 1
  let colNumber := l.currentColNumber
  let r := readNumberLoop (l.budget + 1) l false
  let l1 := r.1
  (⟨if r.2 then .FLOAT else .INTEGER, slice l1.input currentIndex l1.currentIndex,
    lineNumber, colNumber⟩, l1)

/-- Go `string(b)` for a byte `b`: the UTF-8 encoding of the code point `b`. -/
def byteToString (b : Nat) : Bytes :=
  if b < 128 then [b] else [192 + b / 64, 128 + b % 64]

def NextToken (l0 : Lexer) : Token × Lexer :=
  let l := skipWhitespaceAndComments l0
  let b := l.currentByte
  if b = 61 then let r := l.readOperator b .ASSIGN .EQ; (r.1, r.2.readByte)
  else if b = 43 then (l.newToken .ADD (str "+"), l.readByte)
  else if b = 45 then (l.newToken .SUBTRACT (str "-"), l.readByte)
  else if b = 42 then (l.newToken .MULTIPLY (str "*"), l.readByte)
  else if b = 47 then (l.newToken .DIVIDE (str "/"), l.readByte)
  else if b = 33 then let r := l.readOperator b .NEGATE .NOTEQ; (r.1, r.2.readByte)
  else if b = 60 then let r := l.readOperator b .LT .LTE; (r.1, r.2.readByte)
  else if b = 62 then let r := l.readOperator b .GT .GTE; (r.1, r.2.readByte)
  else if b = 44 then (l.newToken .COMMA (str ","), l.readByte)
  else if b = 59 then (l.newToken .SEMICOLON (str ";"), l.readByte)
  else if b = 40 then (l.newToken .LPAREN (str "("), l.readByte)
  else if b = 41 then (l.newToken .RPAREN (str ")"), l.readByte)
  else if b = 123 then (l.newToken .LBRACE (str "\x7b"), l.readByte)
  else if b = 125 then (l.newToken .RBRACE (str "\x7d"), l.readByte)
  else if b = 91 then (l.newToken .LBRACKET (str "["), l.readByte)
  else if b = 93 then (l.newToken .RBRACKET (str "]"), l.readByte)
  else if b = 34 then let r := l.readString; (r.1, r.2.readByte)
  else if b = 0 then (l.newToken .EOF [], l.readByte)
  else if validIdentifierByte b then l.readIdentifier
  else if validNumberDigit b then l.readNumber
  else (l.newToken .ILLEGAL (byteToString b), l.readByte)

end Lexer

def NewLexer (input : Bytes) : Lexer :=
  Lexer.readByte ⟨input, 0, 0, 0, 0, 0⟩

/-- The first `n` tokens of an input. -/
def tokens : Nat → Lexer → List Token
  | 0, _ => []
  | n + 1, l => let r := l.NextToken; r.1 :: tokens n r.2

/-! ## ast.go -/

structure Identifier where
  token : Token
  deriving DecidableEq, Repr

mutual
/-- An `expression` interface value. `nil` is the nil interface; the constructors named
`nil...` are the typed nil pointers that the parser returns from a failed production. -/
inductive Expr where
  | nil
  | identifier (token : Token)
  | integerLiteral (token : Token) (value : Int)
  | nilIntegerLiteral
  | floatLiteral (token : Token) (value : F64)
  | nilFloatLiteral
  | booleanLiteral (token : Token) (value : Bool)
  | stringLiteral (token : Token)
  | arrayLiteral (token : Token) (elements : List Expr)
  | prefixExpression (operator : Token) (right : Expr)
  | infixExpression (operator : Token) (left right : Expr)
  | ifExpression (token : Token) (condition : Expr) (consequence : BlockStatement)
      (alternative : Option BlockStatement)
  | nilIfExpression
  | functionExpression (token : Token) (parameters : List Identifier) (body : BlockStatement)
  | nilFunctionExpression
  | callExpression (token : Token) (function : Expr) (arguments : List Expr)
  | indexExpression (token : Token) (left index : Expr)
  | nilIndexExpression
/-- A non-nil `statement` as stored in a program or a block. -/
inductive Statement where
  | varStatement (token : Token) (name : Identifier) (value : Expr)
  | returnStatement (token : Token) (value : Expr)
  | expressionStatement (token : Token) (value : Expr)
inductive BlockStatement where
  | mk (token : Token) (statements : List Statement)
end

structure Program where
  statements : List Statement

def BlockStatement.statements : BlockStatement → List Statement
  | .mk _ stmts => stmts

/-- Concatenation of optional strings: the rendering panics as soon as one part does. -/
def cat : List (Option Bytes) → Option Bytes
  | [] => some []
  | none :: _ => none
  | some x :: rest => match cat rest with
    | none => none
    | some r => some (x ++ r)

mutual
/-- The `String()` methods of the expression nodes; `none` is the panic of a method call
on a nil interface. -/
def Expr.String : Expr → Option Bytes
  | .nil => none
  | .identifier token => some token.Literal
  | .integerLiteral token _ => some token.Literal
  | .nilIntegerLiteral => some []
  | .floatLiteral token _ => some token.Literal
  | .nilFloatLiteral => some []
  | .booleanLiteral token _ => some token.Literal
  | .stringLiteral token => some (str "\"" ++ token.Literal ++ str "\"")
  | .arrayLiteral _ elements =>
    match Expr.StringList elements with
    | none => none
    | some parts => some (str "[" ++ join (str ", ") parts ++ str "]")
  | .prefixExpression operator right =>
    cat [some (str "("), some operator.Literal, right.String, some (str ")")]
  | .infixExpression operator left right =>
    cat [some (str "("), left.String, some (str " "), some operator.Literal, some (str " "),
      right.String, some (str ")")]
  | .ifExpression token condition consequence none =>
    cat [some token.Literal, some (str " ("), condition.String, some (str ") "),
      consequence.String]
  | .ifExpression token condition consequence (some alternative) =>
    cat [some token.Literal, some (str " ("), condition.String, some (str ") "),
      consequence.String, some (str " else "), alternative.String]
  | .nilIfExpression => some []
  | .functionExpression token parameters body =>
    cat [some token.Literal, some (str "("),
      some (join (str ", ") (parameters.map fun i => i.token.Literal)), some (str ")"),
      body.String]
  | .nilFunctionExpression => some []
  | .callExpression _ function arguments =>
    match Expr.StringList arguments with
    | none => none
    | some parts =>
      cat [function.String, some (str "("), some (join (str ", ") parts), some (str ")")]
  | .indexExpression _ left index =>
    cat [some (str "("), left.String, some (str "["), index.String, some (str "])")]
  | .nilIndexExpression => some []
/-- The renderings of a list of expressions, in order. -/
def Expr.StringList : List Expr → Option (List Bytes)
  | [] => some []
  | e :: rest =>
    match e.String, Expr.StringList rest with
    | some x, some xs => some (x :: xs)
    | _, _ => none
def Statement.String : Statement → Option Bytes
  | .varStatement token name value =>
    cat [some token.Literal, some (str " "), some name.token.Literal, some (str " = "),
      value.String, some (str ";")]
  | .returnStatement token value =>
    cat [some token.Literal, some (str " "), value.String, some (str ";")]
  | .expressionStatement _ value => cat [value.String, some (str ";")]
/-- The concatenated renderings of a list of statements. -/
def Statement.StringList : List Statement → Option Bytes
  | [] => some []
  | s :: rest =>
    match s.String, Statement.StringList rest with
    | some x, some xs => some (x ++ xs)
    | _, _ => none
def BlockStatement.String : BlockStatement → Option Bytes
  | .mk _ statements => cat [some (str "\x7b"), Statement.StringList statements, some (str "\x7d")]
end

def Program.String (p : Program) : Option Bytes := Statement.StringList p.statements

/-! ## parser.go -/

def lowest : Nat := 1
def equals : Nat := 2
def less_greater : Nat := 3
def add_subtract : Nat := 4
def multiply_divide : Nat := 5
def prefixPrecedence : Nat := 6
def call : Nat := 7
def index : Nat := 8

def tokenPrecedence : TokenType → Nat
  | .EQ | .NOTEQ => equals
  | .LT | .GT | .LTE | .GTE => less_greater
  | .ADD | .SUBTRACT => add_subtract
  | .MULTIPLY | .DIVIDE => multiply_divide
  | .LPAREN => call
  | .LBRACKET => index
  | _ => lowest

/-- Value of a digit string in the given base; `none` when a byte is not a digit of the base. -/
def digitsValue (base : Nat) : Bytes → Nat → Option Nat
  | [], acc => some acc
  | b :: rest, acc =>
    if 48 ≤ b ∧ b < 48 + base then digitsValue base rest (acc * base + (b - 48)) else none

/-- Go `strconv.ParseInt(s, 0, 64)` on the literals the lexer produces (non-empty runs of
decimal digits): base 0 reads a leading `0` as the octal prefix; `none` is a non-nil `err`
(a syntax or a range error). Signs, underscores and the `0x`, `0o`, `0b` prefixes cannot
occur in an INTEGER token and are not modelled. -/
def parseInt (s : Bytes) : Option Int :=
  match s with
  | [] => none
  | b :: rest =>
    match (if b = 48 then digitsValue 8 rest 0 else digitsValue 10 (b :: rest) 0) with
    | none => none
    | some v => if v ≤ 2 ^ 63 - 1 then some (v : Int) else none

/-- Go `strconv.ParseFloat(s, 64)` on the literals the lexer produces (digits, one period,
digits): the correctly rounded binary64, and `none` (a range error) when it is infinite. -/
def parseFloat (s : Bytes) : Option F64 :=
  let whole := s.takeWhile (fun b => b != 46)
  let frac := (s.dropWhile (fun b => b != 46)).drop 1
  match whole, digitsValue 10 (whole ++ frac) 0 with
  | [], _ => none
  | _, none => none
  | _, some n =>
    match F64.roundRatio false n (10 ^ frac.length) with
    | .fin s m e => some (.fin s m e)
    | _ => none

structure Parser where
  l : Lexer
  issues : List Bytes
  next : Token
  current : Token
  deriving DecidableEq, Repr

namespace Parser

def nextToken (p : Parser) : Parser :=
  let r := p.l.NextToken
  { p with current := p.next, next := r.1, l := r.2 }

def expectToken (p : Parser) (t : TokenType) : Bool × Parser :=
  if p.next.Typ = t then (true, p.nextToken)
  else
    (false, { p with issues := p.issues ++
      [str "line " ++ decimal p.next.LineNumber ++ str " column " ++ decimal p.next.ColNumber ++
        str ": expected next token to be " ++ t.name ++ str ", got " ++ p.next.Typ.name ++
        str " instead"] })

/-- The parser for an expression at a given precedence, one level of recursion down. -/
abbrev PE := Nat → Parser → Option (Expr × Parser)

section productions

variable (pe : PE)

/-- Skip the optional `;` that ends a statement. -/
def skipSemicolon (p : Parser) : Parser :=
  if p.next.Typ = .SEMICOLON then p.nextToken else p

def parseVarStatement (p : Parser) : Option (Option Statement × Parser) :=
  let token := p.current
  match p.expectToken .IDENTIFIER with
  | (false, p1) => some (none, p1)
  | (true, p1) =>
    let name : Identifier := ⟨p1.current⟩
    match p1.expectToken .ASSIGN with
    | (false, p2) => some (none, p2)
    | (true, p2) =>
      match pe lowest p2.nextToken with
      | none => none
      | some (value, p3) => some (some (.varStatement token name value), skipSemicolon p3)

def parseReturnStatement (p : Parser) : Option (Option Statement × Parser) :=
  let token := p.current
  match pe lowest p.nextToken with
  | none => none
  | some (value, p1) => some (some (.returnStatement token value), skipSemicolon p1)

def parseExpressionStatement (p : Parser) : Option (Option Statement × Parser) :=
  let token := p.current
  match pe lowest p with
  | none => none
  | some (value, p1) => some (some (.expressionStatement token value), skipSemicolon p1)

/-- The result is `none` when the recursion budget is exhausted, and otherwise the
statement (absent when the production failed) with the parser after it. -/
def parseStatement (p : Parser) : Option (Option Statement × Parser) :=
  match p.current.Typ with
  | .VARIABLE => parseVarStatement pe p
  | .RETURN => parseReturnStatement pe p
  | _ => parseExpressionStatement pe p

def parseIntegerLiteral (p : Parser) : Expr × Parser :=
  match parseInt p.current.Literal with
  | none =>
    (.nilIntegerLiteral, { p with issues := p.issues ++
      [str "line " ++ decimal p.current.LineNumber ++ str " column " ++
        decimal p.current.ColNumber ++ str ": could not parse " ++ p.current.Literal ++
        str " as integer"] })
  | some value => (.integerLiteral p.current value, p)

def parseFloatLiteral (p : Parser) : Expr × Parser :=
  match parseFloat p.current.Literal with
  | none =>
    (.nilFloatLiteral, { p with issues := p.issues ++
      [str "line " ++ decimal p.current.LineNumber ++ str " column " ++
        decimal p.current.ColNumber ++ str ": could not parse " ++ p.current.Literal ++
        str " as float"] })
  | some value => (.floatLiteral p.current value, p)

/-- The loop `for p.next.Type == COMMA` of `parseExpressionList`. -/
def parseExpressionListLoop : Nat → List Expr → Parser → Option (List Expr × Parser)
  | 0, _, _ => none
  | fuel + 1, expressions, p =>
    if p.next.Typ = .COMMA then
      match pe lowest p.nextToken.nextToken with
      | none => none
      | some (e, p1) => parseExpressionListLoop fuel (expressions ++ [e]) p1
    else some (expressions, p)

/-- A failed list is the nil slice, which renders and evaluates as the empty one. -/
def parseExpressionList (fuel : Nat) (stop : TokenType) (p : Parser) :
    Option (List Expr × Parser) :=
  if p.next.Typ = stop then some ([], p.nextToken)
  else
    match pe lowest p.nextToken with
    | none => none
    | some (e, p1) =>
      match parseExpressionListLoop pe fuel [e] p1 with
      | none => none
      | some (expressions, p2) =>
        match p2.expectToken stop with
        | (false, p3) => some ([], p3)
        | (true, p3) => some (expressions, p3)

def parseArrayLiteral (fuel : Nat) (p : Parser) : Option (Expr × Parser) :=
  let token := p.current
  match parseExpressionList pe fuel .RBRACKET p with
  | none => none
  | some (elements, p1) => some (.arrayLiteral token elements, p1)

def parsePrefixExpression (p : Parser) : Option (Expr × Parser) :=
  let operator := p.current
  match pe prefixPrecedence p.nextToken with
  | none => none
  | some (right, p1) => some (.prefixExpression operator right, p1)

def parseInfixExpression (left : Expr) (p : Parser) : Option (Expr × Parser) :=
  let operator := p.current
  let precedence := tokenPrecedence p.current.Typ
  match pe precedence p.nextToken with
  | none => none
  | some (right, p1) => some (.infixExpression operator left right, p1)

def parseGroupedExpression (p : Parser) : Option (Expr × Parser) :=
  match pe lowest p.nextToken with
  | none => none
  | some (e, p1) =>
    match p1.expectToken .RPAREN with
    | (false, p2) => some (.nil, p2)
    | (true, p2) => some (e, p2)

/-- The loop `for p.current.Type != RBRACE && p.current.Type != EOF` of `parseBlockStatement`. -/
def parseBlockStatementLoop : Nat → List Statement → Parser → Option (List Statement × Parser)
  | 0, _, _ => none
  | fuel + 1, statements, p =>
    if p.current.Typ ≠ .RBRACE ∧ p.current.Typ ≠ .EOF then
      match parseStatement pe p with
      | none => none
      | some (none, p1) => parseBlockStatementLoop fuel statements p1.nextToken
      | some (some stmt, p1) => parseBlockStatementLoop fuel (statements ++ [stmt]) p1.nextToken
    else some (statements, p)

def parseBlockStatement (fuel : Nat) (p : Parser) : Option (BlockStatement × Parser) :=
  let token := p.current
  match parseBlockStatementLoop pe fuel [] p.nextToken with
  | none => none
  | some (statements, p1) => some (.mk token statements, p1)

def parseIfExpression (fuel : Nat) (p : Parser) : Option (Expr × Parser) :=
  let token := p.current
  match p.expectToken .LPAREN with
  | (false, p1) => some (.nilIfExpression, p1)
  | (true, p1) =>
    match pe lowest p1.nextToken with
    | none => none
    | some (condition, p2) =>
      match p2.expectToken .RPAREN with
      | (false, p3) => some (.nilIfExpression, p3)
      | (true, p3) =>
        match p3.expectToken .LBRACE with
        | (false, p4) => some (.nilIfExpression, p4)
        | (true, p4) =>
          match parseBlockStatement pe fuel p4 with
          | none => none
          | some (consequence, p5) =>
            if p5.next.Typ = .ELSE then
              match p5.nextToken.expectToken .LBRACE with
              | (false, p6) => some (.nilIfExpression, p6)
              | (true, p6) =>
                match parseBlockStatement pe fuel p6 with
                | none => none
                | some (alternative, p7) =>
                  some (.ifExpression token condition consequence (some alternative), p7)
            else some (.ifExpression token condition consequence none, p5)

/-- The loop `for p.next.Type == COMMA` of `parseFunctionParameters`. -/
def parseFunctionParametersLoop : Nat → List Identifier → Parser → Option (List Identifier × Parser)
  | 0, _, _ => none
  | fuel + 1, identifiers, p =>
    if p.next.Typ = .COMMA then
      let p1 := p.nextToken.nextToken
      parseFunctionParametersLoop fuel (identifiers ++ [⟨p1.current⟩]) p1
    else some (identifiers, p)

/-- A failed list is the nil slice, which renders and evaluates as the empty one. -/
def parseFunctionParameters (fuel : Nat) (p : Parser) : Option (List Identifier × Parser) :=
  if p.next.Typ = .RPAREN then some ([], p.nextToken)
  else
    let p1 := p.nextToken
    match parseFunctionParametersLoop fuel [⟨p1.current⟩] p1 with
    | none => none
    | some (identifiers, p2) =>
      match p2.expectToken .RPAREN with
      | (false, p3) => some ([], p3)
      | (true, p3) => some (identifiers, p3)

def parseFunctionExpression (fuel : Nat) (p : Parser) : Option (Expr × Parser) :=
  let token := p.current
  match p.expectToken .LPAREN with
  | (false, p1) => some (.nilFunctionExpression, p1)
  | (true, p1) =>
    match parseFunctionParameters fuel p1 with
    | none => none
    | some (parameters, p2) =>
      match p2.expectToken .LBRACE with
      | (false, p3) => some (.nilFunctionExpression, p3)
      | (true, p3) =>
        match parseBlockStatement pe fuel p3 with
        | none => none
        | some (body, p4) => some (.functionExpression token parameters body, p4)

def parseCallExpression (fuel : Nat) (function : Expr) (p : Parser) : Option (Expr × Parser) :=
  let token := p.current
  match parseExpressionList pe fuel .RPAREN p with
  | none => none
  | some (arguments, p1) => some (.callExpression token function arguments, p1)

def parseIndexExpression (left : Expr) (p : Parser) : Option (Expr × Parser) :=
  let token := p.current
  match pe lowest p.nextToken with
  | none => none
  | some (idx, p1) =>
    match p1.expectToken .RBRACKET with
    | (false, p2) => some (.nilIndexExpression, p2)
    | (true, p2) => some (.indexExpression token left idx, p2)

/-- The first `switch` of `parseExpression`: the prefix term for the current token. The
inner `none` is the `default` case, which returns from `parseExpression` at once. -/
def parsePrefixTerm (fuel : Nat) (p : Parser) : Option (Option Expr × Parser) :=
  let lift (r : Option (Expr × Parser)) : Option (Option Expr × Parser) :=
    r.map fun x => (some x.1, x.2)
  match p.current.Typ with
  | .IDENTIFIER => some (some (.identifier p.current), p)
  | .INTEGER => lift (some (parseIntegerLiteral p))
  | .FLOAT => lift (some (parseFloatLiteral p))
  | .TRUE => some (some (.booleanLiteral p.current true), p)
  | .FALSE => some (some (.booleanLiteral p.current false), p)
  | .STRING => some (some (.stringLiteral p.current), p)
  | .LBRACKET => lift (parseArrayLiteral pe fuel p)
  | .SUBTRACT | .NEGATE => lift (parsePrefixExpression pe p)
  | .LPAREN => lift (parseGroupedExpression pe p)
  | .IF => lift (parseIfExpression pe fuel p)
  | .FUNCTION => lift (parseFunctionExpression pe fuel p)
  | _ =>
    some (none, { p with issues := p.issues ++
      [str "missing prefix parse function for " ++ p.current.Typ.name] })

def isInfixOperator : TokenType → Bool
  | .ADD | .SUBTRACT | .MULTIPLY | .DIVIDE | .EQ | .NOTEQ | .LT | .LTE | .GT | .GTE => true
  | _ => false

/-- The loop `for p.next.Type != SEMICOLON && precedence < tokenPrecedence(p.next.Type)`
of `parseExpression`. -/
def parseExpressionLoop (fuel : Nat) (precedence : Nat) :
    Nat → Expr → Parser → Option (Expr × Parser)
  | 0, _, _ => none
  | k + 1, left, p =>
    if p.next.Typ ≠ .SEMICOLON ∧ precedence < tokenPrecedence p.next.Typ then
      if isInfixOperator p.next.Typ then
        match parseInfixExpression pe left p.nextToken with
        | none => none
        | some (e, p1) => parseExpressionLoop fuel precedence k e p1
      else if p.next.Typ = .LPAREN then
        match parseCallExpression pe fuel left p.nextToken with
        | none => none
        | some (e, p1) => parseExpressionLoop fuel precedence k e p1
      else if p.next.Typ = .LBRACKET then
        match parseIndexExpression pe left p.nextToken with
        | none => none
        | some (e, p1) => parseExpressionLoop fuel precedence k e p1
      else some (left, p)
    else some (left, p)

/-- The body of `parseExpression`, with the recursive calls made through `pe`. -/
def parseExpressionBody (fuel : Nat) (precedence : Nat) (p : Parser) : Option (Expr × Parser) :=
  match parsePrefixTerm pe fuel p with
  | none => none
  | some (none, p1) => some (.nil, p1)
  | some (some left, p1) => parseExpressionLoop pe fuel precedence fuel left p1

end productions

/-- The recursion budget `fuel` bounds the nesting depth and the iterations of each loop. -/
def parseExpression : Nat → Nat → Parser → Option (Expr × Parser)
  | 0, _, _ => none
  | fuel + 1, precedence, p => parseExpressionBody (parseExpression fuel) fuel precedence p

/-- The loop `for p.current.Type != EOF` of `ParseProgram`. -/
def ParseProgramLoop (fuel : Nat) : Nat → List Statement → Parser → Option (List Statement × Parser)
  | 0, _, _ => none
  | k + 1, statements, p =>
    if p.current.Typ ≠ .EOF then
      match parseStatement (parseExpression fuel) p with
      | none => none
      | some (none, p1) => ParseProgramLoop fuel k statements p1.nextToken
      | some (some stmt, p1) => ParseProgramLoop fuel k (statements ++ [stmt]) p1.nextToken
    else some (statements, p)

def ParseProgram (fuel : Nat) (p : Parser) : Option (Program × Parser) :=
  match ParseProgramLoop fuel fuel [] p with
  | none => none
  | some (statements, p1) => some (⟨statements⟩, p1)

def Errors (p : Parser) : List Bytes := p.issues

end Parser

def NewParser (l : Lexer) : Parser :=
  Parser.nextToken (Parser.nextToken ⟨l, [], Token.zero, Token.zero⟩)

/-- The pipeline of the tests and of `main`: lex and parse a whole input, returning the
program and the diagnostics. The budget exceeds the number of tokens of the input. -/
def Parse (input : Bytes) : Option (Program × List Bytes) :=
  match (NewParser (NewLexer input)).ParseProgram (input.length + 4) with
  | none => none
  | some (program, p) => some (program, p.Errors)

/-- Rendering of the parsed program when there are no diagnostics. -/
def renderParsed (input : Bytes) : Option Bytes :=
  match Parse input with
  | some (program, []) => program.String
  | _ => none

/-! ## object.go -/

/-- The keys of the `builtins` table. -/
inductive Builtin where
  | len | push | print
  deriving DecidableEq, Repr

/-- A runtime object behind its pointer: `addr` is the address of the allocation. The
environment of a function is the address of an `environment` in the evaluation state. -/
inductive Obj where
  | objInteger (addr : Nat) (value : Int)
  | objFloat (addr : Nat) (value : F64)
  | objBoolean (addr : Nat) (value : Bool)
  | objString (addr : Nat) (value : Bytes)
  | objArray (addr : Nat) (elements : List (Option Obj))
  | objNull (addr : Nat)
  | objReturn (addr : Nat) (value : Option Obj)
  | objError (addr : Nat) (message : Bytes)
  | objFunction (addr : Nat) (parameters : List Identifier) (body : BlockStatement) (env : Nat)
  | objBuiltin (addr : Nat) (function : Builtin)

/-- An `object` interface value; `none` is the nil interface. -/
abbrev Value := Option Obj

namespace Obj

def addr : Obj → Nat
  | objInteger a _ | objFloat a _ | objBoolean a _ | objString a _ | objArray a _ | objNull a
  | objReturn a _ | objError a _ | objFunction a _ _ _ | objBuiltin a _ => a

def objectType : Obj → Bytes
  | objInteger _ _ => str "INTEGER"
  | objFloat _ _ => str "FLOAT"
  | objBoolean _ _ => str "BOOLEAN"
  | objString _ _ => str "STRING"
  | objArray _ _ => str "ARRAY"
  | objNull _ => str "NULL"
  | objReturn _ _ => str "RETURN"
  | objError _ _ => str "ERROR"
  | objFunction _ _ _ _ => str "FUNCTION"
  | objBuiltin _ _ => str "BUILTIN"

/-- The type assertion `_, ok := o.(*objError)`. -/
def isError : Value → Bool
  | some (objError _ _) => true
  | _ => false

/-- The type assertion `_, ok := o.(*objReturn)`. -/
def isReturn : Value → Bool
  | some (objReturn _ _) => true
  | _ => false

/-- Go `a == b` on two `object` interface values: both nil, or the same dynamic type and
the same pointer. -/
def same : Value → Value → Bool
  | none, none => true
  | some a, some b => a.objectType == b.objectType && a.addr == b.addr
  | _, _ => false

mutual
/-- Whether the `String()` method returns (it panics on a nil element, a nil return value
or a function body holding a nil node). -/
def canString : Obj → Bool
  | objArray _ elements => canStringList elements
  | objReturn _ none => false
  | objReturn _ (some v) => canString v
  | objFunction _ _ body _ => body.String.isSome
  | _ => true
def canStringList : List (Option Obj) → Bool
  | [] => true
  | none :: _ => false
  | some o :: rest => canString o && canStringList rest
end

end Obj

def objectNull : Obj := .objNull 0
def objectTrue : Obj := .objBoolean 1 true
def objectFalse : Obj := .objBoolean 2 false

/-- The `builtins` table: each entry is allocated once, at package initialisation. -/
def builtins (name : Bytes) : Option Obj :=
  if name = str "len" then some (.objBuiltin 3 .len)
  else if name = str "push" then some (.objBuiltin 4 .push)
  else if name = str "print" then some (.objBuiltin 5 .print)
  else none

/-! ## environment.go -/

/-- Go `m[key] = value` on a map kept as an association list. -/
def mapSet : List (Bytes × Value) → Bytes → Value → List (Bytes × Value)
  | [], key, value => [(key, value)]
  | (k, v) :: rest, key, value =>
    if k = key then (key, value) :: rest else (k, v) :: mapSet rest key value

/-- Go `value, ok := m[key]`; `none` is `ok == false`. -/
def mapGet : List (Bytes × Value) → Bytes → Option Value
  | [], _ => none
  | (k, v) :: rest, key => if k = key then some v else mapGet rest key

structure Environment where
  store : List (Bytes × Value)
  outer : Option Nat

/-- The mutable state of an evaluation: the heap of environments (an `*environment` is an
index into `envs`), the next free object address, and the objects whose rendering `print`
has written to standard output, one line each. -/
structure EvalState where
  envs : List Environment
  nextAddr : Nat
  output : List Obj

namespace EvalState

/-- The state before anything is allocated; addresses 0 to 5 hold the package-level objects. -/
def initial : EvalState := ⟨[], 6, []⟩

/-- The state after one object allocation (its address is `st.nextAddr`). -/
def alloc (st : EvalState) : EvalState := { st with nextAddr := st.nextAddr + 1 }

def newEnclosedEnvironment (st : EvalState) (outer : Nat) : Nat × EvalState :=
  (st.envs.length, { st with envs := st.envs ++ [⟨[], some outer⟩] })

/-- The method `set` of the environment at address `env`. -/
def set (st : EvalState) (env : Nat) (key : Bytes) (value : Value) : EvalState :=
  match st.envs.get? env with
  | none => st
  | some e => { st with envs := st.envs.set env { e with store := mapSet e.store key value } }

/-- The recursion of `get` along the `outer` pointers, at most `fuel` links. -/
def getLoop (envs : List Environment) (key : Bytes) : Nat → Nat → Option Value
  | 0, _ => none
  | fuel + 1, env =>
    match envs.get? env with
    | none => none
    | some e =>
      match mapGet e.store key with
      | some v => some v
      | none =>
        match e.outer with
        | none => none
        | some o => getLoop envs key fuel o

/-- The method `get` of the environment at address `env`; `none` is `ok == false`. An
environment is allocated after its outer one, so a chain has at most `envs.length` links. -/
def get (st : EvalState) (env : Nat) (key : Bytes) : Option Value :=
  getLoop st.envs key st.envs.length env

end EvalState

def NewEnvironment (st : EvalState) : Nat × EvalState :=
  (st.envs.length, { st with envs := st.envs ++ [⟨[], none⟩] })

/-! ## eval.go -/

/-- Outcome of a call: it does not return within the recursion budget, it panics, or it
returns `a` and leaves the state `st`. -/
inductive Res (α : Type) where
  | timeout
  | panic
  | ok (a : α) (st : EvalState)

inductive Node where
  | program (p : Program)
  | statement (s : Statement)
  | block (b : BlockStatement)
  | expression (e : Expr)

/-- Allocation of an error object with the given message. -/
def newError (message : Bytes) (st : EvalState) : Res Value :=
  .ok (some (.objError st.nextAddr message)) st.alloc

/-- The prefix `line L col C: ` of the runtime messages. -/
def position (token : Token) : Bytes :=
  str "line " ++ decimal token.LineNumber ++ str " col " ++ decimal token.ColNumber ++ str ": "

def evalBoolean (b : Bool) : Obj := if b then objectTrue else objectFalse

def builtinLen (token : Token) (args : List Value) (st : EvalState) : Res Value :=
  match args with
  | [arg] =>
    match arg with
    | some (.objArray _ elements) =>
      .ok (some (.objInteger st.nextAddr (wrap64 elements.length))) st.alloc
    | some (.objString _ value) =>
      .ok (some (.objInteger st.nextAddr (wrap64 value.length))) st.alloc
    | some o => newError (position token ++ str "invalid argument type: " ++ o.objectType) st
    | none => .panic
  | _ => newError (position token ++ str "wrong number of arguments") st

def builtinPush (token : Token) (args : List Value) (st : EvalState) : Res Value :=
  match args with
  | [] | [_] => newError (position token ++ str "wrong number of arguments") st
  | arg :: rest =>
    match arg with
    | some (.objArray _ elements) => .ok (some (.objArray st.nextAddr (elements ++ rest))) st.alloc
    | some o => newError (position token ++ str "invalid argument type: " ++ o.objectType) st
    | none => .panic

def builtinPrint (args : List Value) (st : EvalState) : Res Value :=
  match args with
  | [] => .ok (some objectNull) st
  | none :: _ => .panic
  | some o :: rest =>
    if o.canString then builtinPrint rest { st with output := st.output ++ [o] } else .panic

/-- Call of the native function of a built-in object. -/
def callBuiltin (b : Builtin) (token : Token) (args : List Value) (st : EvalState) : Res Value :=
  match b with
  | .len => builtinLen token args st
  | .push => builtinPush token args st
  | .print => builtinPrint args st

def evalIdentifier (token : Token) (env : Nat) (st : EvalState) : Res Value :=
  match st.get env token.Literal with
  | some value => .ok value st
  | none =>
    match builtins token.Literal with
    | some value => .ok (some value) st
    | none =>
      newError (position token ++ str "identifier '" ++ token.Literal ++ str "' not found") st

def evalPrefixExpression (operator : Token) (right : Value) (st : EvalState) : Res Value :=
  if operator.Literal = str "!" then
    if Obj.same right (some objectFalse) || Obj.same right (some objectNull) then
      .ok (some objectTrue) st
    else .ok (some objectFalse) st
  else
    match right with
    | none => .panic
    | some r =>
      match (if operator.Literal = str "-" then right else none) with
      | some (.objInteger _ value) => .ok (some (.objInteger st.nextAddr (wrap64 (-value)))) st.alloc
      | some (.objFloat _ value) => .ok (some (.objFloat st.nextAddr value.neg)) st.alloc
      | _ =>
        newError (position operator ++ str "unknown operator: " ++ operator.Literal ++
          r.objectType) st

/-- The error at the end of the four infix evaluators. -/
def unknownOperator (operator : Token) (left right : Obj) (st : EvalState) : Res Value :=
  newError (position operator ++ str "unknown operator: " ++ left.objectType ++ str " " ++
    operator.Literal ++ str " " ++ right.objectType) st

/-- The operator `switch` of `evalIntegerInfixExpression` on the two `int64` values. -/
def evalIntegerInfixExpression (operator : Token) (left right : Obj) (st : EvalState) :
    Res Value :=
  match left, right with
  | .objInteger _ leftValue, .objInteger _ rightValue =>
    if operator.Literal = str "+" then
      .ok (some (.objInteger st.nextAddr (wrap64 (leftValue + rightValue)))) st.alloc
    else if operator.Literal = str "-" then
      .ok (some (.objInteger st.nextAddr (wrap64 (leftValue - rightValue)))) st.alloc
    else if operator.Literal = str "*" then
      .ok (some (.objInteger st.nextAddr (wrap64 (leftValue * rightValue)))) st.alloc
    else if operator.Literal = str "/" then
      if rightValue = 0 then newError (position operator ++ str "invalid division by zero") st
      else .ok (some (.objInteger st.nextAddr (wrap64 (Int.tdiv leftValue rightValue)))) st.alloc
    else if operator.Literal = str "<" then .ok (some (evalBoolean (leftValue < rightValue))) st
    else if operator.Literal = str ">" then .ok (some (evalBoolean (leftValue > rightValue))) st
    else if operator.Literal = str ">=" then .ok (some (evalBoolean (leftValue ≥ rightValue))) st
    else if operator.Literal = str "<=" then .ok (some (evalBoolean (leftValue ≤ rightValue))) st
    else if operator.Literal = str "==" then .ok (some (evalBoolean (leftValue = rightValue))) st
    else if operator.Literal = str "!=" then .ok (some (evalBoolean (leftValue ≠ rightValue))) st
    else unknownOperator operator left right st
  | _, _ => .panic

/-- The `float64` read from an operand by the type switch of `evalFloatInfixExpression`. -/
def floatOperand : Obj → F64
  | .objInteger _ value => F64.ofInt value
  | .objFloat _ value => value
  | _ => F64.zero

def evalFloatInfixExpression (operator : Token) (left right : Obj) (st : EvalState) :
    Res Value :=
  let leftValue := floatOperand left
  let rightValue := floatOperand right
  if operator.Literal = str "+" then
    .ok (some (.objFloat st.nextAddr (leftValue.add rightValue))) st.alloc
  else if operator.Literal = str "-" then
    .ok (some (.objFloat st.nextAddr (leftValue.sub rightValue))) st.alloc
  else if operator.Literal = str "*" then
    .ok (some (.objFloat st.nextAddr (leftValue.mul rightValue))) st.alloc
  else if operator.Literal = str "/" then
    if rightValue.eq F64.zero then newError (position operator ++ str "invalid division by zero") st
    else .ok (some (.objFloat st.nextAddr (leftValue.div rightValue))) st.alloc
  else if operator.Literal = str "<" then .ok (some (evalBoolean (leftValue.lt rightValue))) st
  else if operator.Literal = str ">" then .ok (some (evalBoolean (rightValue.lt leftValue))) st
  else if operator.Literal = str ">=" then .ok (some (evalBoolean (rightValue.le leftValue))) st
  else if operator.Literal = str "<=" then .ok (some (evalBoolean (leftValue.le rightValue))) st
  else if operator.Literal = str "==" then .ok (some (evalBoolean (leftValue.eq rightValue))) st
  else if operator.Literal = str "!=" then .ok (some (evalBoolean (!leftValue.eq rightValue))) st
  else unknownOperator operator left right st

def evalStringInfixExpression (operator : Token) (left right : Obj) (st : EvalState) :
    Res Value :=
  match left, right with
  | .objString _ leftValue, .objString _ rightValue =>
    if operator.Literal = str "+" then
      .ok (some (.objString st.nextAddr (leftValue ++ rightValue))) st.alloc
    else if operator.Literal = str "==" then .ok (some (evalBoolean (leftValue = rightValue))) st
    else if operator.Literal = str "!=" then .ok (some (evalBoolean (leftValue ≠ rightValue))) st
    else unknownOperator operator left right st
  | _, _ => .panic

/-- Whether the conditions of the `switch` call `right.objectType()`: they do once
the left operand is an integer, a float or a string. -/
def readsRightType (left : Obj) : Bool :=
  left.objectType = str "INTEGER" || left.objectType = str "FLOAT" || left.objectType = str "STRING"

def evalInfixExpression (operator : Token) (left right : Value) (st : EvalState) : Res Value :=
  match left with
  | none => .panic
  | some l =>
    match right with
    | none =>
      if readsRightType l then .panic
      else if operator.Literal = str "==" then .ok (some (evalBoolean (Obj.same left right))) st
      else if operator.Literal = str "!=" then .ok (some (evalBoolean (!Obj.same left right))) st
      else .panic
    | some r =>
      if l.objectType = str "INTEGER" ∧ r.objectType = str "INTEGER" then
        evalIntegerInfixExpression operator l r st
      else if (l.objectType = str "FLOAT" ∨ l.objectType = str "INTEGER") ∧
          (r.objectType = str "FLOAT" ∨ r.objectType = str "INTEGER") then
        evalFloatInfixExpression operator l r st
      else if l.objectType = str "STRING" ∧ r.objectType = str "STRING" then
        evalStringInfixExpression operator l r st
      else if operator.Literal = str "==" then .ok (some (evalBoolean (Obj.same left right))) st
      else if operator.Literal = str "!=" then .ok (some (evalBoolean (!Obj.same left right))) st
      else unknownOperator operator l r st

def evalArrayIndexExpression (token : Token) (left right : Obj) (st : EvalState) : Res Value :=
  match left, right with
  | .objArray _ elements, .objInteger _ index0 =>
    let count : Int := elements.length
    let index := if index0 < 0 then wrap64 (count + index0) else index0
    if index < 0 ∨ index ≥ count then
      newError (position token ++ str "index '" ++ decimal index ++ str "' is out of bounds") st
    else
      match elements.get? index.toNat with
      | some v => .ok v st
      | none => .panic
  | _, _ => .panic

def evalIndexExpression (token : Token) (left right : Value) (st : EvalState) : Res Value :=
  match left with
  | none => .panic
  | some l =>
    if l.objectType = str "ARRAY" then
      match right with
      | none => .panic
      | some r =>
        if r.objectType = str "INTEGER" then evalArrayIndexExpression token l r st
        else newError (position token ++ str "unsupported index operation: " ++ l.objectType) st
    else newError (position token ++ str "unsupported index operation: " ++ l.objectType) st

/-- The evaluator one level of recursion down: node, environment address, state. -/
abbrev Ev := Node → Nat → EvalState → Res Value

section evaluator

variable (ev : Ev)

/-- The loop of `evalProgram`; `result` is the local variable of that name. -/
def evalProgramLoop (env : Nat) : List Statement → Value → EvalState → Res Value
  | [], result, st => .ok result st
  | s :: rest, _, st =>
    match ev (.statement s) env st with
    | .ok result st1 =>
      match result with
      | some (.objReturn _ value) => .ok value st1
      | some (.objError _ _) => .ok result st1
      | _ => evalProgramLoop env rest result st1
    | .timeout => .timeout
    | .panic => .panic

def evalProgram (p : Program) (env : Nat) (st : EvalState) : Res Value :=
  evalProgramLoop ev env p.statements none st

/-- The loop of `evalBlockStatement`; `result` is the local variable of that name. -/
def evalBlockStatementLoop (env : Nat) : List Statement → Value → EvalState → Res Value
  | [], result, st => .ok result st
  | s :: rest, _, st =>
    match ev (.statement s) env st with
    | .ok result st1 =>
      if Obj.isReturn result || Obj.isError result then .ok result st1
      else evalBlockStatementLoop env rest result st1
    | .timeout => .timeout
    | .panic => .panic

def evalBlockStatement (b : BlockStatement) (env : Nat) (st : EvalState) : Res Value :=
  evalBlockStatementLoop ev env b.statements none st

def evalIfExpression (condition : Expr) (consequence : BlockStatement)
    (alternative : Option BlockStatement) (env : Nat) (st : EvalState) : Res Value :=
  match ev (.expression condition) env st with
  | .ok c st1 =>
    if Obj.isError c then .ok c st1
    else if !Obj.same c (some objectNull) && !Obj.same c (some objectFalse) then
      ev (.block consequence) env st1
    else
      match alternative with
      | some alt => ev (.block alt) env st1
      | none => .ok (some objectNull) st1
  | .timeout => .timeout
  | .panic => .panic

/-- The loop of `evalExpressions`: the flag is the second result, and on `false` the list
holds the error alone. -/
def evalExpressionsLoop (env : Nat) : List Expr → List Value → EvalState → Res (List Value × Bool)
  | [], result, st => .ok (result, true) st
  | e :: rest, result, st =>
    match ev (.expression e) env st with
    | .ok evaluated st1 =>
      if Obj.isError evaluated then .ok ([evaluated], false) st1
      else evalExpressionsLoop env rest (result ++ [evaluated]) st1
    | .timeout => .timeout
    | .panic => .panic

def evalExpressions (expressions : List Expr) (env : Nat) (st : EvalState) :
    Res (List Value × Bool) :=
  evalExpressionsLoop ev env expressions [] st

/-- The loop `for i := range function.parameters { env.set(..., args[i]) }`; the lengths
are equal when it runs. -/
def bindParameters (env : Nat) : List Identifier → List Value → EvalState → EvalState
  | p :: ps, a :: as, st => bindParameters env ps as (st.set env p.token.Literal a)
  | _, _, st => st

def applyFunction (token : Token) (o : Value) (args : List Value) (st : EvalState) : Res Value :=
  match o with
  | some (.objFunction _ parameters body fenv) =>
    if args.length ≠ parameters.length then
      newError (position token ++ str "wrong number of arguments") st
    else
      let r := st.newEnclosedEnvironment fenv
      match ev (.block body) r.1 (bindParameters r.1 parameters args r.2) with
      | .ok (some (.objReturn _ value)) st1 => .ok value st1
      | .ok evaluated st1 => .ok evaluated st1
      | .timeout => .timeout
      | .panic => .panic
  | some (.objBuiltin _ function) => callBuiltin function token args st
  | some other => newError (position token ++ str "'" ++ other.objectType ++ str "' is not a function") st
  | none => .panic

/-- The body of `Eval`, with the recursive calls made through `ev`. -/
def evalNode (node : Node) (env : Nat) (st : EvalState) : Res Value :=
  match node with
  | .program p => evalProgram ev p env st
  | .statement (.varStatement _ name value) =>
    match ev (.expression value) env st with
    | .ok v st1 => if Obj.isError v then .ok v st1 else .ok none (st1.set env name.token.Literal v)
    | .timeout => .timeout
    | .panic => .panic
  | .statement (.returnStatement _ value) =>
    match ev (.expression value) env st with
    | .ok v st1 =>
      if Obj.isError v then .ok v st1 else .ok (some (.objReturn st1.nextAddr v)) st1.alloc
    | .timeout => .timeout
    | .panic => .panic
  | .statement (.expressionStatement _ value) => ev (.expression value) env st
  | .block b => evalBlockStatement ev b env st
  | .expression .nil => .ok none st
  | .expression (.identifier token) => evalIdentifier token env st
  | .expression (.integerLiteral _ value) => .ok (some (.objInteger st.nextAddr value)) st.alloc
  | .expression (.floatLiteral _ value) => .ok (some (.objFloat st.nextAddr value)) st.alloc
  | .expression (.booleanLiteral _ value) => .ok (some (evalBoolean value)) st
  | .expression (.stringLiteral token) => .ok (some (.objString st.nextAddr token.Literal)) st.alloc
  | .expression (.arrayLiteral _ elements) =>
    match evalExpressions ev elements env st with
    | .ok (elems, true) st1 => .ok (some (.objArray st1.nextAddr elems)) st1.alloc
    | .ok (elems, false) st1 =>
      match elems with
      | e :: _ => .ok e st1
      | [] => .panic
    | .timeout => .timeout
    | .panic => .panic
  | .expression (.prefixExpression operator right) =>
    match ev (.expression right) env st with
    | .ok r st1 => if Obj.isError r then .ok r st1 else evalPrefixExpression operator r st1
    | .timeout => .timeout
    | .panic => .panic
  | .expression (.infixExpression operator left right) =>
    match ev (.expression left) env st with
    | .ok l st1 =>
      if Obj.isError l then .ok l st1
      else
        match ev (.expression right) env st1 with
        | .ok r st2 => if Obj.isError r then .ok r st2 else evalInfixExpression operator l r st2
        | .timeout => .timeout
        | .panic => .panic
    | .timeout => .timeout
    | .panic => .panic
  | .expression (.ifExpression _ condition consequence alternative) =>
    evalIfExpression ev condition consequence alternative env st
  | .expression (.functionExpression _ parameters body) =>
    .ok (some (.objFunction st.nextAddr parameters body env)) st.alloc
  | .expression (.callExpression token function arguments) =>
    match ev (.expression function) env st with
    | .ok f st1 =>
      if Obj.isError f then .ok f st1
      else
        match evalExpressions ev arguments env st1 with
        | .ok (args, true) st2 => applyFunction ev token f args st2
        | .ok (args, false) st2 =>
          match args with
          | e :: _ => .ok e st2
          | [] => .panic
        | .timeout => .timeout
        | .panic => .panic
    | .timeout => .timeout
    | .panic => .panic
  | .expression (.indexExpression token left index) =>
    match ev (.expression left) env st with
    | .ok l st1 =>
      if Obj.isError l then .ok l st1
      else
        match ev (.expression index) env st1 with
        | .ok i st2 => if Obj.isError i then .ok i st2 else evalIndexExpression token l i st2
        | .timeout => .timeout
        | .panic => .panic
    | .timeout => .timeout
    | .panic => .panic
  | .expression .nilIntegerLiteral => .panic
  | .expression .nilFloatLiteral => .panic
  | .expression .nilIfExpression => .panic
  | .expression .nilFunctionExpression => .panic
  | .expression .nilIndexExpression => .panic

end evaluator

/-- The function `Eval`: `fuel` bounds the depth of the recursion, and `timeout` is the
answer when the depth is not enough. -/
def Eval : Nat → Node → Nat → EvalState → Res Value
  | 0, _, _, _ => .timeout
  | fuel + 1, node, env, st => evalNode (Eval fuel) node env st

/-- The pipeline of the tests and of `main`: parse, and when there are no diagnostics
evaluate the program in a new top-level environment. `none` stands for a parse with
diagnostics (or one that exceeds its budget). -/
def Run (fuel : Nat) (input : Bytes) : Option (Res Value) :=
  match Parse input with
  | some (program, []) =>
    let r := NewEnvironment EvalState.initial
    some (Eval fuel (.program program) r.1 r.2)
  | _ => none

/-- The value returned by a run, when it returns. -/
def result : Option (Res Value) → Option Value
  | some (.ok v _) => some v
  | _ => none

/-! ## Vocabulary of the claims -/

instance (x : Int) : Decidable (isInt64 x) := by
  unfold isInt64; infer_instance

/-- A numeric operand: an integer or a float object. -/
def Obj.isNumeric : Obj → Bool
  | .objInteger _ _ | .objFloat _ _ => true
  | _ => false

/-- A string operand. -/
def Obj.isString : Obj → Bool
  | .objString _ _ => true
  | _ => false

/-- Two pointers to the same allocation: the same dynamic type and the same address. -/
def Obj.sameInstance (a b : Obj) : Prop := a.objectType = b.objectType ∧ a.addr = b.addr

instance (a b : Obj) : Decidable (Obj.sameInstance a b) := by
  unfold Obj.sameInstance; infer_instance

/-- The store that the loop of `bindParameters` builds from a store. -/
def bindStore : List Identifier → List Value → List (Bytes × Value) → List (Bytes × Value)
  | p :: ps, a :: as, s => bindStore ps as (mapSet s p.token.Literal a)
  | _, _, s => s

/-- The state in which `applyFunction` evaluates the body of a function object: a new
environment enclosed by `fenv`, at address `st.envs.length`, with the parameters bound. -/
def callState (st : EvalState) (parameters : List Identifier) (args : List Value) (fenv : Nat) :
    EvalState :=
  bindParameters st.envs.length parameters args (st.newEnclosedEnvironment fenv).2

/-- A result with a return-wrapper replaced by its inner value. -/
def unwrapReturn : Res Value → Res Value
  | .ok (some (.objReturn _ value)) st => .ok value st
  | r => r

/-- Every `outer` pointer refers to an environment allocated earlier. -/
def EvalState.WellFormed (st : EvalState) : Prop :=
  ∀ i e, st.envs.get? i = some e → ∀ o, e.outer = some o → o < i

/-- The evaluator `ev'` returns what `ev` returns wherever `ev` does not time out. -/
def Ev.Below (ev ev' : Ev) : Prop :=
  ∀ node env st, ev node env st = .timeout ∨ ev' node env st = ev node env st

/-- With enough fuel, `Eval` of the node in the environment `env` from the state `st`
returns `v` and leaves the state `st'`. -/
def Evals (node : Node) (env : Nat) (st : EvalState) (v : Value) (st' : EvalState) : Prop :=
  ∃ n, Eval n node env st = .ok v st'

/-- The test of `evalIfExpression`: the condition is neither the null nor the false singleton. -/
def Obj.truthy (c : Value) : Bool :=
  !Obj.same c (some objectNull) && !Obj.same c (some objectFalse)

/-- The statements evaluate in order from `st` to `st'`, none to a return-wrapper or an
error: the loops of `evalProgram` and `evalBlockStatement` run through them. -/
inductive RunsThrough (env : Nat) : List Statement → EvalState → EvalState → Prop where
  | nil (st : EvalState) : RunsThrough env [] st st
  | cons {s : Statement} {rest : List Statement} {st st1 st2 : EvalState} {v : Value} :
    Evals (.statement s) env st v st1 → Obj.isReturn v = false → Obj.isError v = false →
    RunsThrough env rest st1 st2 → RunsThrough env (s :: rest) st st2

/-- The expressions evaluate in order from `st` to `st'` to the values `vs`, none of them
an error: the loop of `evalExpressions` runs through them. -/
inductive ExprsThrough (env : Nat) : List Expr → EvalState → List Value → EvalState → Prop where
  | nil (st : EvalState) : ExprsThrough env [] st [] st
  | cons {e : Expr} {rest : List Expr} {st st1 st2 : EvalState} {v : Value} {vs : List Value} :
    Evals (.expression e) env st v st1 → Obj.isError v = false →
    ExprsThrough env rest st1 vs st2 → ExprsThrough env (e :: rest) st (v :: vs) st2

/-- The statement, evaluated in `env` from `st`, is a `return e` whose `e` evaluates to the
non-error value `v`, or an if-expression statement whose taken block runs through its
first statements and then reaches such a return, at any nesting depth; `st'` is the state
once the return-wrapper is allocated. -/
inductive ReachesReturn (env : Nat) : Statement → EvalState → Value → EvalState → Prop where
  | direct {token : Token} {e : Expr} {st st1 : EvalState} {v : Value} :
    Evals (.expression e) env st v st1 → Obj.isError v = false →
    ReachesReturn env (.returnStatement token e) st v st1.alloc
  | consequence {token tokenIf : Token} {condition : Expr} {consequence : BlockStatement}
      {alternative : Option BlockStatement} {pre post : List Statement} {s : Statement}
      {st st1 st2 st3 : EvalState} {c v : Value} :
    Evals (.expression condition) env st c st1 → Obj.isError c = false →
    Obj.truthy c = true → consequence.statements = pre ++ s :: post →
    RunsThrough env pre st1 st2 → ReachesReturn env s st2 v st3 →
    ReachesReturn env
      (.expressionStatement token (.ifExpression tokenIf condition consequence alternative))
      st v st3
  | alternative {token tokenIf : Token} {condition : Expr} {consequence alt : BlockStatement}
      {pre post : List Statement} {s : Statement} {st st1 st2 st3 : EvalState} {c v : Value} :
    Evals (.expression condition) env st c st1 → Obj.isError c = false →
    Obj.truthy c = false → alt.statements = pre ++ s :: post →
    RunsThrough env pre st1 st2 → ReachesReturn env s st2 v st3 →
    ReachesReturn env
      (.expressionStatement token (.ifExpression tokenIf condition consequence (some alt)))
      st v st3

/-- The relation `Calls node env st node' env' st'`: while `Eval` evaluates `node` in `env` from the
state `st`, it calls `Eval` on `node'` in `env'` from the state `st'`. One constructor for
each call of `Eval` in eval.go. -/
inductive Calls : Node → Nat → EvalState → Node → Nat → EvalState → Prop where
  | program_statement {p : Program} {pre post : List Statement} {s : Statement} {env : Nat}
      {st st1 : EvalState} :
    p.statements = pre ++ s :: post → RunsThrough env pre st st1 →
    Calls (.program p) env st (.statement s) env st1
  | block_statement {b : BlockStatement} {pre post : List Statement} {s : Statement} {env : Nat}
      {st st1 : EvalState} :
    b.statements = pre ++ s :: post → RunsThrough env pre st st1 →
    Calls (.block b) env st (.statement s) env st1
  | var_value {token : Token} {name : Identifier} {value : Expr} {env : Nat} {st : EvalState} :
    Calls (.statement (.varStatement token name value)) env st (.expression value) env st
  | return_value {token : Token} {value : Expr} {env : Nat} {st : EvalState} :
    Calls (.statement (.returnStatement token value)) env st (.expression value) env st
  | expression_statement {token : Token} {value : Expr} {env : Nat} {st : EvalState} :
    Calls (.statement (.expressionStatement token value)) env st (.expression value) env st
  | array_element {token : Token} {elements pre post : List Expr} {e : Expr} {env : Nat}
      {st st1 : EvalState} {vs : List Value} :
    elements = pre ++ e :: post → ExprsThrough env pre st vs st1 →
    Calls (.expression (.arrayLiteral token elements)) env st (.expression e) env st1
  | prefix_right {operator : Token} {right : Expr} {env : Nat} {st : EvalState} :
    Calls (.expression (.prefixExpression operator right)) env st (.expression right) env st
  | infix_left {operator : Token} {left right : Expr} {env : Nat} {st : EvalState} :
    Calls (.expression (.infixExpression operator left right)) env st (.expression left) env st
  | infix_right {operator : Token} {left right : Expr} {env : Nat} {st st1 : EvalState}
      {l : Value} :
    Evals (.expression left) env st l st1 → Obj.isError l = false →
    Calls (.expression (.infixExpression operator left right)) env st (.expression right) env st1
  | if_condition {token : Token} {condition : Expr} {consequence : BlockStatement}
      {alternative : Option BlockStatement} {env : Nat} {st : EvalState} :
    Calls (.expression (.ifExpression token condition consequence alternative)) env st
      (.expression condition) env st
  | if_consequence {token : Token} {condition : Expr} {consequence : BlockStatement}
      {alternative : Option BlockStatement} {env : Nat} {st st1 : EvalState} {c : Value} :
    Evals (.expression condition) env st c st1 → Obj.isError c = false → Obj.truthy c = true →
    Calls (.expression (.ifExpression token condition consequence alternative)) env st
      (.block consequence) env st1
  | if_alternative {token : Token} {condition : Expr} {consequence alt : BlockStatement}
      {env : Nat} {st st1 : EvalState} {c : Value} :
    Evals (.expression condition) env st c st1 → Obj.isError c = false → Obj.truthy c = false →
    Calls (.expression (.ifExpression token condition consequence (some alt))) env st
      (.block alt) env st1
  | call_function {token : Token} {function : Expr} {arguments : List Expr} {env : Nat}
      {st : EvalState} :
    Calls (.expression (.callExpression token function arguments)) env st
      (.expression function) env st
  | call_argument {token : Token} {function : Expr} {arguments pre post : List Expr} {e : Expr}
      {env : Nat} {st st1 st2 : EvalState} {f : Value} {vs : List Value} :
    Evals (.expression function) env st f st1 → Obj.isError f = false →
    arguments = pre ++ e :: post → ExprsThrough env pre st1 vs st2 →
    Calls (.expression (.callExpression token function arguments)) env st (.expression e) env st2
  | call_body {token : Token} {function : Expr} {arguments : List Expr} {env : Nat}
      {st st1 st2 : EvalState} {a fenv : Nat} {parameters : List Identifier}
      {body : BlockStatement} {args : List Value} :
    Evals (.expression function) env st (some (.objFunction a parameters body fenv)) st1 →
    ExprsThrough env arguments st1 args st2 → args.length = parameters.length →
    Calls (.expression (.callExpression token function arguments)) env st
      (.block body) st2.envs.length (callState st2 parameters args fenv)
  | index_left {token : Token} {left index : Expr} {env : Nat} {st : EvalState} :
    Calls (.expression (.indexExpression token left index)) env st (.expression left) env st
  | index_index {token : Token} {left index : Expr} {env : Nat} {st st1 : EvalState}
      {l : Value} :
    Evals (.expression left) env st l st1 → Obj.isError l = false →
    Calls (.expression (.indexExpression token left index)) env st (.expression index) env st1

/-- The relation `Raises node env st e st'`: during the evaluation of `node` in `env` from `st`, a call
of `Eval` (the outermost one, or one nested at any depth) or a call of a built-in returns
the error object `e`, leaving the state `st'`. -/
inductive Raises : Node → Nat → EvalState → Value → EvalState → Prop where
  | self {node : Node} {env : Nat} {st st' : EvalState} {e : Value} :
    Evals node env st e st' → Obj.isError e = true → Raises node env st e st'
  | builtin {token : Token} {function : Expr} {arguments : List Expr} {env : Nat}
      {st st1 st2 st3 : EvalState} {a : Nat} {b : Builtin} {args : List Value} {e : Value} :
    Evals (.expression function) env st (some (.objBuiltin a b)) st1 →
    ExprsThrough env arguments st1 args st2 → callBuiltin b token args st2 = .ok e st3 →
    Obj.isError e = true →
    Raises (.expression (.callExpression token function arguments)) env st e st3
  | nested {node node' : Node} {env env' : Nat} {st st' st'' : EvalState} {e : Value} :
    Calls node env st node' env' st' → Raises node' env' st' e st'' →
    Raises node env st e st''

/-- The byte of `inp` at offset `i`, and `0` past the end. -/
def byteAt (inp : Bytes) (i : Nat) : Nat := inp.getD i 0

/-- The lexer on the first line of `inp`, its current byte at offset `i`. -/
def lexAt (inp : Bytes) (i : Nat) : Lexer := ⟨inp, byteAt inp i, i, i + 1, 0, (i : Int) + 1⟩

/-- A token on the first line whose first byte is at `offset`. -/
def tokenAt (ty : TokenType) (literal : Bytes) (offset : Nat) : Token :=
  ⟨ty, literal, 1, (offset : Int) + 1⟩

/-- The text of an identifier: a non-empty run of identifier bytes that is not a keyword. -/
def isIdentifierText (w : Bytes) : Prop :=
  w ≠ [] ∧ (∀ x ∈ w, Lexer.validIdentifierByte x = true) ∧ Lexer.keyword w = .IDENTIFIER

instance (w : Bytes) : Decidable (isIdentifierText w) := by
  unfold isIdentifierText; infer_instance

/-- The ten binary operators: literal and token type. -/
def binaryOperators : List (Bytes × TokenType) :=
  [(str "==", .EQ), (str "!=", .NOTEQ), (str "<", .LT), (str ">", .GT), (str "<=", .LTE),
    (str ">=", .GTE), (str "+", .ADD), (str "-", .SUBTRACT), (str "*", .MULTIPLY),
    (str "/", .DIVIDE)]

/-- Token type of a one-byte binary operator. -/
def singleType (x : Nat) : TokenType :=
  if x = 60 then .LT else if x = 62 then .GT else if x = 43 then .ADD
  else if x = 45 then .SUBTRACT else if x = 42 then .MULTIPLY else .DIVIDE

/-- Token type of a two-byte binary operator, from its first byte. -/
def doubleType (x : Nat) : TokenType :=
  if x = 61 then .EQ else if x = 33 then .NOTEQ else if x = 60 then .LTE else .GTE

/-- The six comparison operators. -/
def comparisonOperators : List Bytes :=
  [str "<", str ">", str "<=", str ">=", str "==", str "!="]

/-- The name `key` is bound on the chain of the environment `env`, and `v` is its value in
the first environment of the chain, going outward, whose store holds it. -/
inductive BoundOnChain (envs : List Environment) (key : Bytes) : Nat → Value → Prop where
  | here {env : Nat} {e : Environment} {v : Value} :
    envs.get? env = some e → mapGet e.store key = some v → BoundOnChain envs key env v
  | outer {env o : Nat} {e : Environment} {v : Value} :
    envs.get? env = some e → mapGet e.store key = none → e.outer = some o →
    BoundOnChain envs key o v → BoundOnChain envs key env v

/-- The name `key` is bound in no environment of the chain of `env`. -/
inductive UnboundOnChain (envs : List Environment) (key : Bytes) : Nat → Prop where
  | last {env : Nat} {e : Environment} :
    envs.get? env = some e → mapGet e.store key = none → e.outer = none →
    UnboundOnChain envs key env
  | outer {env o : Nat} {e : Environment} :
    envs.get? env = some e → mapGet e.store key = none → e.outer = some o →
    UnboundOnChain envs key o → UnboundOnChain envs key env

/-- The names of the three built-in functions. -/
def builtinNames : List Bytes := [str "len", str "push", str "print"]

/-- The lexer has read past the input: no byte is left after the current one, which is the
0 that stands for the end. -/
def Lexer.exhausted (l : Lexer) : Prop := l.input.length ≤ l.nextIndex ∧ l.currentByte = 0

instance (l : Lexer) : Decidable l.exhausted := by
  unfold Lexer.exhausted; infer_instance

/-- A bound on the number of calls of `readByte` after which the lexer is exhausted. -/
def Lexer.remaining (l : Lexer) : Nat :=
  if l.exhausted then 0 else l.input.length - l.nextIndex + 1

/-- The lexer `l'` is `l` after some calls of `readByte`, possibly none. -/
inductive Lexer.ReadsTo : Lexer → Lexer → Prop where
  | refl (l : Lexer) : Lexer.ReadsTo l l
  | step {l l' : Lexer} : Lexer.ReadsTo l.readByte l' → Lexer.ReadsTo l l'

/-- The lexer after `n` calls of `NextToken`. -/
def lexerAfter : Nat → Lexer → Lexer
  | 0, l => l
  | n + 1, l => lexerAfter n l.NextToken.2

/-- One plus the number of newline bytes before offset `p`. -/
def lineOf (input : Bytes) (p : Nat) : Int := 1 + ((input.take p).count 10 : Nat)

/-- One plus the number of bytes between the last newline before offset `p`, or the start
of the input, and `p`. -/
def colOf (input : Bytes) (p : Nat) : Int :=
  1 + (((input.take p).reverse.takeWhile (fun b => b != 10)).length : Nat)

/-- The fields of the lexer agree with its position in the input: the current byte is the
one at `currentIndex`, the next index follows it, and while the position is inside the
input the counters hold its line (zero-based, a newline counted on its own byte) and its
column (zero on a newline). -/
def Lexer.Positioned (l : Lexer) : Prop :=
  l.nextIndex = l.currentIndex + 1 ∧ l.currentByte = byteAt l.input l.currentIndex ∧
  (l.currentIndex < l.input.length →
    l.currentLineNumber + 1 = lineOf l.input (l.currentIndex + 1) ∧
    l.currentColNumber = if l.currentByte = 10 then 0 else colOf l.input l.currentIndex)

/-- A bound on the number of calls of `nextToken` after which the current token of the
parser is EOF for good: the bytes left to the lexer, and the two tokens held. -/
def Parser.weight (p : Parser) : Nat :=
  if p.l.exhausted then
    if p.next.Typ = .EOF then (if p.current.Typ = .EOF then 0 else 1) else 2
  else p.l.remaining + 2

/-- The parser `p'` is not behind `p` in the input and has the diagnostics of `p`, in
order, followed by those recorded since. -/
def Parser.Advances (p p' : Parser) : Prop :=
  p'.weight ≤ p.weight ∧ ∃ extra, p'.issues = p.issues ++ extra

/-- The expression parser returns on every parser of weight at most `n - 2`, at a parser
that is not behind. -/
def Parser.PE.Total (pe : Parser.PE) (n : Nat) : Prop :=
  ∀ precedence p, Parser.weight p + 2 ≤ n → ∃ e p', pe precedence p = some (e, p') ∧ p.Advances p'

/-- The diagnostic of `parseIntegerLiteral` for a literal at the given line and column. -/
def integerIssue (literal : Bytes) (line column : Int) : Bytes :=
  str "line " ++ decimal line ++ str " column " ++ decimal column ++ str ": could not parse " ++
    literal ++ str " as integer"

/-- The diagnostic of `expectToken` for the expected kind `t` and the token `next` found. -/
def expectIssue (t : TokenType) (next : Token) : Bytes :=
  str "line " ++ decimal next.LineNumber ++ str " column " ++ decimal next.ColNumber ++
    str ": expected next token to be " ++ t.name ++ str ", got " ++ next.Typ.name ++
    str " instead"

/-- The parser with one more diagnostic and nothing consumed. -/
def Parser.withIssue (p : Parser) (issue : Bytes) : Parser :=
  { p with issues := p.issues ++ [issue] }

/-- The lexer `l` stands in an input that is `pre` followed by the input of `l'`, on the same
byte as `l'` and `pre.length` positions further; the line and column counters are free. -/
def Lexer.Shifted (pre : Bytes) (l l' : Lexer) : Prop :=
  l.input = pre ++ l'.input ∧ l.currentByte = l'.currentByte ∧
  l.currentIndex = l'.currentIndex + pre.length ∧ l.nextIndex = l'.nextIndex + pre.length

/-- Two results of `NextToken` with the same kind and literal, the lexers shifted. -/
def Lexer.TokenShifted (pre : Bytes) (r r' : Token × Lexer) : Prop :=
  r.1.Typ = r'.1.Typ ∧ r.1.Literal = r'.1.Literal ∧ Lexer.Shifted pre r.2 r'.2

/-- A run of whitespace bytes and line comments: a comment is `//`, a body of bytes that are
not newlines and satisfy `ok`, and the newline that ends it. -/
inductive Skipped (ok : Nat → Prop) : Bytes → Prop where
  | nil : Skipped ok []
  | whitespace {b : Nat} {w : Bytes} :
      Lexer.isWhitespace b = true → Skipped ok w → Skipped ok (b :: w)
  | comment {body w : Bytes} :
      (∀ x ∈ body, x ≠ 10 ∧ ok x) → Skipped ok w → Skipped ok (47 :: 47 :: (body ++ 10 :: w))

mutual
/-- No node of the expression is absent: neither the nil interface nor a typed nil. -/
def Expr.wellFormed : Expr → Bool
  | .nil => false
  | .identifier _ => true
  | .integerLiteral _ _ => true
  | .nilIntegerLiteral => false
  | .floatLiteral _ _ => true
  | .nilFloatLiteral => false
  | .booleanLiteral _ _ => true
  | .stringLiteral _ => true
  | .arrayLiteral _ elements => Expr.wellFormedList elements
  | .prefixExpression _ right => right.wellFormed
  | .infixExpression _ left right => left.wellFormed && right.wellFormed
  | .ifExpression _ condition consequence none =>
    condition.wellFormed && consequence.wellFormed
  | .ifExpression _ condition consequence (some alternative) =>
    condition.wellFormed && consequence.wellFormed && alternative.wellFormed
  | .nilIfExpression => false
  | .functionExpression _ _ body => body.wellFormed
  | .nilFunctionExpression => false
  | .callExpression _ function arguments =>
    function.wellFormed && Expr.wellFormedList arguments
  | .indexExpression _ left index => left.wellFormed && index.wellFormed
  | .nilIndexExpression => false
def Expr.wellFormedList : List Expr → Bool
  | [] => true
  | e :: rest => e.wellFormed && Expr.wellFormedList rest
def Statement.wellFormed : Statement → Bool
  | .varStatement _ _ value => value.wellFormed
  | .returnStatement _ value => value.wellFormed
  | .expressionStatement _ value => value.wellFormed
def Statement.wellFormedList : List Statement → Bool
  | [] => true
  | s :: rest => s.wellFormed && Statement.wellFormedList rest
def BlockStatement.wellFormed : BlockStatement → Bool
  | .mk _ statements => Statement.wellFormedList statements
end

def Program.wellFormed (p : Program) : Bool := Statement.wellFormedList p.statements

/-- The parser `p'` comes from `p` by calls of `nextToken` and by appending diagnostics. -/
inductive Parser.Steps : Parser → Parser → Prop where
  | refl (p : Parser) : Parser.Steps p p
  | next {p p' : Parser} : Parser.Steps p.nextToken p' → Parser.Steps p p'
  | issue {p p' : Parser} (msg : Bytes) : Parser.Steps (p.withIssue msg) p' → Parser.Steps p p'

/-- The parser went from `p` to `p'` by steps, and `good` holds when no diagnostic was
added on the way. -/
def Parser.Yields (p p' : Parser) (good : Prop) : Prop :=
  Parser.Steps p p' ∧ (p'.issues.length = p.issues.length → good)

/-- Whenever `pe` returns, it has gone by steps, and the expression is well formed when no
diagnostic was added. -/
def Parser.PE.Sound (pe : Parser.PE) : Prop :=
  ∀ precedence p e p', pe precedence p = some (e, p') →
    Parser.Yields p p' (e.wellFormed = true)

/-- The tokens that the parser holds came from the lexer in order: an EOF token among them
means that the lexer is past the last byte of its input, which holds no NUL. -/
def Parser.Drained (p : Parser) : Prop :=
  p.l.Positioned ∧ (∀ x ∈ p.l.input, x ≠ 0) ∧
  (p.current.Typ = .EOF → p.l.input.length < p.l.nextIndex) ∧
  (p.next.Typ = .EOF → p.l.input.length < p.l.nextIndex)

/-- The longest prefix of `rest` made of digits, optionally followed by one `.` and at least
one digit. -/
def numberLiteral (rest : Bytes) : Bytes :=
  match rest.dropWhile Lexer.validNumberDigit with
  | 46 :: d :: tail =>
    if Lexer.validNumberDigit d then
      rest.takeWhile Lexer.validNumberDigit ++
        46 :: (d :: tail).takeWhile Lexer.validNumberDigit
    else rest.takeWhile Lexer.validNumberDigit
  | _ => rest.takeWhile Lexer.validNumberDigit

/-! ## shell/main.go -/
/-- Go `s[lo:hi]` on a byte slice; `none` is the panic when the bounds are out of range. -/
def Shell.sliceOf (s : Bytes) (lo hi : Nat) : Option Bytes :=
  if lo ≤ hi ∧ hi ≤ s.length then some ((s.drop lo).take (hi - lo)) else none

/-- The loop `for _, index := range indicesToTrim` of `buildString`. -/
def Shell.buildStringLoop (s : Bytes) : List Nat → Nat → Bytes → Option (Nat × Bytes)
  | [], current, output => some (current, output)
  | index :: rest, current, output =>
    match Shell.sliceOf s current index with
    | none => none
    | some part => Shell.buildStringLoop s rest (index + 1) (output ++ part)

def Shell.buildString (s : Bytes) (startIndex lastIndex spaceCheckIndex : Nat)
    (indicesToTrim : List Nat) : Option (Bytes × Bytes) :=
  match Shell.buildStringLoop s indicesToTrim startIndex [] with
  | none => none
  | some (current, output) =>
    let written :=
      if current ≤ lastIndex then
        match Shell.sliceOf s current lastIndex with
        | none => none
        | some part => some (output ++ part)
      else some output
    match written with
    | none => none
    | some original =>
      if spaceCheckIndex < s.length ∧ s.getD spaceCheckIndex 0 = 32 then
        some (original, original ++ [32])
      else some (original, original)

/-- The local variables of `parseArg` that live across the iterations of its loop. -/
structure Shell.ArgState where
  args : List Bytes
  stringArgs : Bytes
  startIndex : Nat
  currentdelim : Nat
  indicesToTrim : List Nat
  deriving DecidableEq, Repr

/-- The statement after the `switch` in the loop of `parseArg`, reached unless the case
ended in `continue`. -/
def Shell.parseArgTail (arg : Bytes) (i : Nat) (st : Shell.ArgState) : Option Shell.ArgState :=
  if st.currentdelim = 0 ∧ (arg.length ≤ i + 1 ∨ arg.getD (i + 1) 0 = 32) then
    match Shell.buildString arg st.startIndex (i + 1) (i + 1) st.indicesToTrim with
    | none => none
    | some (original, sanitized) =>
      some { st with
        stringArgs := st.stringArgs ++ sanitized
        args := st.args ++ [original]
        startIndex := i + 1
        indicesToTrim := [] }
  else some st

/-- The test `arg[prevIndex] != '\\' || (prevPrevIndex >= 0 && arg[prevPrevIndex] == '\\')`
at an index `i` that has a predecessor. -/
def Shell.unescaped (arg : Bytes) (i : Nat) : Bool :=
  arg.getD (i - 1) 0 != 92 || (2 ≤ i && arg.getD (i - 2) 0 == 92)

/-- One iteration of the loop of `parseArg`, at index `i`; `none` is a panic. -/
def Shell.parseArgStep (arg : Bytes) (i : Nat) (st : Shell.ArgState) : Option Shell.ArgState :=
  let b := arg.getD i 0
  if b = 39 then
    if st.currentdelim = 39 then
      match Shell.buildString arg st.startIndex i (i + 1) [] with
      | none => none
      | some (original, sanitized) =>
        some { st with
          stringArgs := st.stringArgs ++ sanitized
          args := st.args ++ [original]
          startIndex := i + 1
          currentdelim := 0 }
    else if st.currentdelim = 0 then
      some { st with startIndex := i + 1, currentdelim := 39 }
    else some st
  else if b = 34 then
    if st.currentdelim = 34 then
      if i = 0 then none
      else if Shell.unescaped arg i then
        match Shell.buildString arg st.startIndex i (i + 1) st.indicesToTrim with
        | none => none
        | some (original, sanitized) =>
          some { st with
            stringArgs := st.stringArgs ++ sanitized
            args := st.args ++ [original]
            startIndex := i + 1
            currentdelim := 0
            indicesToTrim := [] }
      else Shell.parseArgTail arg i st
    else if st.currentdelim = 0 then
      if i = 0 ∨ Shell.unescaped arg i = true then
        some { st with startIndex := i + 1, currentdelim := 34 }
      else Shell.parseArgTail arg i st
    else Shell.parseArgTail arg i st
  else if b = 32 then
    if st.currentdelim = 0 then some { st with startIndex := i + 1 } else some st
  else if b = 92 then
    if st.currentdelim = 39 then some st
    else
      let noDelimSkip := i + 1 < arg.length ∧ st.currentdelim = 0
      let quotationDelimSkip := i + 1 < arg.length ∧ st.currentdelim = 34 ∧
        (arg.getD (i + 1) 0 = 92 ∨ arg.getD (i + 1) 0 = 34)
      if (noDelimSkip ∨ quotationDelimSkip) ∧ (i = 0 ∨ arg.getD (i - 1) 0 ≠ 92) then
        Shell.parseArgTail arg i { st with indicesToTrim := st.indicesToTrim ++ [i] }
      else Shell.parseArgTail arg i st
  else Shell.parseArgTail arg i st

/-- The loop `for i := range arg` of `parseArg`, from index `i` with `n` indices to go. -/
def Shell.parseArgLoop (arg : Bytes) : Nat → Nat → Shell.ArgState → Option Shell.ArgState
  | 0, _, st => some st
  | n + 1, i, st =>
    match Shell.parseArgStep arg i st with
    | none => none
    | some st1 => Shell.parseArgLoop arg n (i + 1) st1

/-- The function `parseArg`: the arguments and their concatenation. -/
def Shell.parseArg (arg : Bytes) : Option (List Bytes × Bytes) :=
  match Shell.parseArgLoop arg arg.length 0 ⟨[], [], 0, 0, []⟩ with
  | none => none
  | some st => some (st.args, st.stringArgs)

/-- The text that a double-quoted segment stands for: `\\` is one backslash, `\"` is one
double quote, and every other byte stands for itself. -/
def Shell.unquote : Bytes → Bytes
  | 92 :: 92 :: rest => 92 :: Shell.unquote rest
  | 92 :: 34 :: rest => 34 :: Shell.unquote rest
  | b :: rest => b :: Shell.unquote rest
  | [] => []

/-- The state `st'` has every environment of `st` other than the one at address `E`, as it
was, and possibly more environments after them. -/
def EvalState.Extends (E : Nat) (st st' : EvalState) : Prop :=
  st.envs.length ≤ st'.envs.length ∧
  ∀ i, i < st.envs.length → i ≠ E → st'.envs.get? i = st.envs.get? i

/-- A result that leaves the environments of `st` as they were. -/
def Res.Pure {α : Type} (st : EvalState) : Res α → Prop
  | .ok _ st' => st'.envs = st.envs
  | _ => True

/-- A result whose state extends `st` around the environment `E`. -/
def Res.Extends {α : Type} (E : Nat) (st : EvalState) : Res α → Prop
  | .ok _ st' => st.Extends E st'
  | _ => True

/-- Every call of the evaluator writes into its own environment and into new ones only. -/
def Ev.Framed (ev : Ev) : Prop := ∀ node E st, Res.Extends E st (ev node E st)

/-! ## Theorems -/

/-! ### C1: rendering after parsing -/

set_option maxRecDepth 100000 in
/-- C1 (evaluation at the failing input). The input `func("a b")` followed by an empty
block parses without diagnostics, because `parseFunctionParameters` takes the STRING token
as a parameter without looking at its kind; the program renders as `func(a b)` with the
empty block and a semicolon, and that rendering does not parse without diagnostics: its
first diagnostic is the missing `)` after `a`. -/
theorem render_of_string_parameter_is_not_reparsed :
    renderParsed (str "func(\x22a b\x22)\x7b\x7d") = some (str "func(a b)\x7b\x7d;") ∧
    (Parse (str "func(a b)\x7b\x7d;")).map (fun r => r.2.head?) =
      some (some (str "line 1 column 8: expected next token to be ), got IDENTIFIER instead")) := by
  constructor <;> decide

/-! ### Shared lemmas -/

theorem contains_suffix (pre sub : Bytes) : Contains (pre ++ sub) sub :=
  ⟨pre, [], by simp⟩

theorem contains_infix (pre sub post : Bytes) : Contains (pre ++ sub ++ post) sub :=
  ⟨pre, post, rfl⟩

theorem contains_unknown_operator (operator : Token) (l r : Obj) :
    Contains (position operator ++ str "unknown operator: " ++ l.objectType ++ str " " ++
      operator.Literal ++ str " " ++ r.objectType) (str "unknown operator") :=
  ⟨position operator, str ": " ++ l.objectType ++ str " " ++ operator.Literal ++ str " " ++
    r.objectType, by simp [str]⟩

theorem wrap64_range (z : Int) : isInt64 (wrap64 z) := by
  unfold isInt64 wrap64 minInt64 maxInt64
  constructor <;> omega

theorem wrap64_of_range (z : Int) (h : isInt64 z) : wrap64 z = z := by
  unfold isInt64 minInt64 maxInt64 at h
  unfold wrap64
  omega

theorem wrap64_congruent (z : Int) : (2 ^ 64 : Int) ∣ (wrap64 z - z) := by
  unfold wrap64
  omega

theorem tdiv_in_range (a b : Int) (ha : isInt64 a) (hb : b ≠ 0)
    (hm : ¬ (a = minInt64 ∧ b = -1)) : isInt64 (Int.tdiv a b) := by
  unfold isInt64 minInt64 maxInt64 at *
  by_cases h1 : b = 1
  · subst h1; simp; omega
  by_cases h2 : b = -1
  · subst h2
    have hneg : Int.tdiv a (-1) = -a := by simp [Int.tdiv_neg]
    rw [hneg]
    have hne : a ≠ -(2 ^ 63) := fun h => hm ⟨h, rfl⟩
    omega
  have hq : (Int.tdiv a b).natAbs = a.natAbs / b.natAbs := Int.natAbs_tdiv a b
  have hb2 : 2 ≤ b.natAbs := by omega
  have hle : a.natAbs / b.natAbs ≤ a.natAbs / 2 := Nat.div_le_div_left hb2 (by decide)
  omega

theorem evalBoolean_decide (p : Prop) [Decidable p] :
    evalBoolean (decide p) = if p then objectTrue else objectFalse := by
  by_cases h : p <;> simp [h, evalBoolean]

theorem mapGet_mapSet_same (s : List (Bytes × Value)) (k : Bytes) (v : Value) :
    mapGet (mapSet s k v) k = some v := by
  induction s with
  | nil => simp [mapSet, mapGet]
  | cons hd tl ih =>
    obtain ⟨k1, v1⟩ := hd
    by_cases h : k1 = k
    · simp [mapSet, mapGet, h]
    · simp [mapSet, mapGet, h, ih]

theorem mapGet_mapSet_other (s : List (Bytes × Value)) (k k1 : Bytes) (v : Value) (h : k ≠ k1) :
    mapGet (mapSet s k v) k1 = mapGet s k1 := by
  induction s with
  | nil => simp [mapSet, mapGet, h]
  | cons hd tl ih =>
    obtain ⟨k2, v2⟩ := hd
    by_cases h2 : k2 = k
    · subst h2; simp [mapSet, mapGet, h]
    · by_cases h3 : k2 = k1
      · subst h3; simp [mapSet, mapGet, h2]
      · simp [mapSet, mapGet, h2, h3, ih]

theorem set_last (base : List Environment) (s : List (Bytes × Value)) (o : Option Nat)
    (nextAddr : Nat) (output : List Obj) (k : Bytes) (v : Value) :
    EvalState.set ⟨base ++ [⟨s, o⟩], nextAddr, output⟩ base.length k v =
      ⟨base ++ [⟨mapSet s k v, o⟩], nextAddr, output⟩ := by
  simp [EvalState.set]

theorem bindParameters_last (base : List Environment) (o : Option Nat)
    (nextAddr : Nat) (output : List Obj) (ps : List Identifier) :
    ∀ (as : List Value) (s : List (Bytes × Value)),
    bindParameters base.length ps as ⟨base ++ [⟨s, o⟩], nextAddr, output⟩ =
      ⟨base ++ [⟨bindStore ps as s, o⟩], nextAddr, output⟩ := by
  induction ps with
  | nil => intro as s; cases as <;> rfl
  | cons p ps ih =>
    intro as s
    cases as with
    | nil => rfl
    | cons a as => simp [bindParameters, bindStore, set_last, ih]

theorem bindStore_other (ps : List Identifier) (key : Bytes)
    (h : ∀ p ∈ ps, p.token.Literal ≠ key) :
    ∀ (as : List Value) (s : List (Bytes × Value)), mapGet (bindStore ps as s) key = mapGet s key := by
  induction ps with
  | nil => intro as s; cases as <;> rfl
  | cons p ps ih =>
    intro as s
    cases as with
    | nil => rfl
    | cons a as =>
      simp only [bindStore]
      rw [ih (fun q hq => h q (List.mem_cons_of_mem _ hq))]
      exact mapGet_mapSet_other _ _ _ _ (h p (List.mem_cons_self _ _))

theorem bindStore_last_occurrence (ps : List Identifier) :
    ∀ (as : List Value) (s : List (Bytes × Value)) (i : Nat) (p : Identifier) (v : Value),
    ps.get? i = some p → as.get? i = some v →
    (∀ j q, i < j → ps.get? j = some q → q.token.Literal ≠ p.token.Literal) →
    mapGet (bindStore ps as s) p.token.Literal = some v := by
  induction ps with
  | nil => intro as s i p v hp; simp at hp
  | cons q ps ih =>
    intro as s i p v hp hv hlast
    cases as with
    | nil => simp at hv
    | cons a as =>
      cases i with
      | zero =>
        simp at hp hv
        subst hp; subst hv
        simp only [bindStore]
        rw [bindStore_other]
        · exact mapGet_mapSet_same _ _ _
        · intro r hr
          obtain ⟨j, hj⟩ := List.get?_of_mem hr
          exact hlast (j + 1) r (Nat.succ_pos j) (by simpa using hj)
      | succ i =>
        simp at hp hv
        simp only [bindStore]
        exact ih as _ i p v (by simpa using hp) (by simpa using hv)
          (fun j r hij hr => hlast (j + 1) r (by omega) (by simpa using hr))

theorem getLoop_append (base : List Environment) (x : Environment) (key : Bytes)
    (hwf : ∀ i e, base.get? i = some e → ∀ o, e.outer = some o → o < i) :
    ∀ (fuel env : Nat), env < base.length →
      EvalState.getLoop (base ++ [x]) key fuel env = EvalState.getLoop base key fuel env := by
  intro fuel
  induction fuel with
  | zero => intro env _; rfl
  | succ fuel ih =>
    intro env henv
    have h1 : (base ++ [x]).get? env = base.get? env := by
      simp [List.getElem?_append_left henv]
    simp only [EvalState.getLoop, h1]
    cases he : base.get? env with
    | none => rfl
    | some e =>
      simp only
      cases mapGet e.store key with
      | some v => rfl
      | none =>
        simp only
        cases ho : e.outer with
        | none => rfl
        | some o =>
          simp only
          exact ih o (lt_trans (hwf env e he o ho) henv)

theorem get_fresh (base : List Environment) (s : List (Bytes × Value)) (E : Nat)
    (nextAddr : Nat) (output : List Obj) (key : Bytes)
    (hwf : ∀ i e, base.get? i = some e → ∀ o, e.outer = some o → o < i) (hE : E < base.length) :
    EvalState.get ⟨base ++ [⟨s, some E⟩], nextAddr, output⟩ base.length key =
      match mapGet s key with
      | some v => some v
      | none => EvalState.get ⟨base, nextAddr, output⟩ E key := by
  simp only [EvalState.get, List.length_append, List.length_singleton, EvalState.getLoop]
  simp only [List.get?_eq_getElem?, List.getElem?_concat_length]
  cases mapGet s key with
  | some v => rfl
  | none =>
    simp only
    simpa using getLoop_append base ⟨s, some E⟩ key hwf base.length E hE

theorem callState_eq (st : EvalState) (parameters : List Identifier) (args : List Value)
    (fenv : Nat) :
    callState st parameters args fenv =
      ⟨st.envs ++ [⟨bindStore parameters args [], some fenv⟩], st.nextAddr, st.output⟩ := by
  obtain ⟨envs, nextAddr, output⟩ := st
  exact bindParameters_last envs (some fenv) nextAddr output parameters args []

theorem applyFunction_function (ev : Ev) (token : Token) (a : Nat) (parameters : List Identifier)
    (body : BlockStatement) (fenv : Nat) (args : List Value) (st : EvalState)
    (h : args.length = parameters.length) :
    applyFunction ev token (some (.objFunction a parameters body fenv)) args st =
      unwrapReturn (ev (.block body) st.envs.length (callState st parameters args fenv)) := by
  simp only [applyFunction, h, ne_eq, not_true_eq_false, if_false, callState,
    EvalState.newEnclosedEnvironment]
  split <;> simp_all [unwrapReturn]

/-! ### Monotonicity of `Eval` in its fuel -/

theorem evalProgramLoop_mono {ev ev' : Ev} (h : Ev.Below ev ev') (env : Nat) :
    ∀ (stmts : List Statement) (result : Value) (st : EvalState),
      evalProgramLoop ev env stmts result st = .timeout ∨
      evalProgramLoop ev' env stmts result st = evalProgramLoop ev env stmts result st := by
  intro stmts
  induction stmts with
  | nil => intro result st; exact Or.inr rfl
  | cons s rest ih =>
    intro result st
    simp only [evalProgramLoop]
    rcases h (.statement s) env st with h1 | h1
    · left; rw [h1]
    · rw [h1]
      cases ev (.statement s) env st with
      | timeout => exact Or.inl rfl
      | panic => exact Or.inr rfl
      | ok r st1 =>
        simp only
        split
        · exact Or.inr rfl
        · exact Or.inr rfl
        · exact ih _ _

theorem evalBlockStatementLoop_mono {ev ev' : Ev} (h : Ev.Below ev ev') (env : Nat) :
    ∀ (stmts : List Statement) (result : Value) (st : EvalState),
      evalBlockStatementLoop ev env stmts result st = .timeout ∨
      evalBlockStatementLoop ev' env stmts result st =
        evalBlockStatementLoop ev env stmts result st := by
  intro stmts
  induction stmts with
  | nil => intro result st; exact Or.inr rfl
  | cons s rest ih =>
    intro result st
    simp only [evalBlockStatementLoop]
    rcases h (.statement s) env st with h1 | h1
    · left; rw [h1]
    · rw [h1]
      cases ev (.statement s) env st with
      | timeout => exact Or.inl rfl
      | panic => exact Or.inr rfl
      | ok r st1 =>
        simp only
        split
        · exact Or.inr rfl
        · exact ih _ _

theorem evalExpressionsLoop_mono {ev ev' : Ev} (h : Ev.Below ev ev') (env : Nat) :
    ∀ (exprs : List Expr) (acc : List Value) (st : EvalState),
      evalExpressionsLoop ev env exprs acc st = .timeout ∨
      evalExpressionsLoop ev' env exprs acc st = evalExpressionsLoop ev env exprs acc st := by
  intro exprs
  induction exprs with
  | nil => intro acc st; exact Or.inr rfl
  | cons e rest ih =>
    intro acc st
    simp only [evalExpressionsLoop]
    rcases h (.expression e) env st with h1 | h1
    · left; rw [h1]
    · rw [h1]
      cases ev (.expression e) env st with
      | timeout => exact Or.inl rfl
      | panic => exact Or.inr rfl
      | ok r st1 =>
        simp only
        split
        · exact Or.inr rfl
        · exact ih _ _

theorem evalIfExpression_mono {ev ev' : Ev} (h : Ev.Below ev ev') (condition : Expr)
    (consequence : BlockStatement) (alternative : Option BlockStatement) (env : Nat)
    (st : EvalState) :
    evalIfExpression ev condition consequence alternative env st = .timeout ∨
    evalIfExpression ev' condition consequence alternative env st =
      evalIfExpression ev condition consequence alternative env st := by
  simp only [evalIfExpression]
  rcases h (.expression condition) env st with h1 | h1
  · left; rw [h1]
  · rw [h1]
    cases ev (.expression condition) env st with
    | timeout => exact Or.inl rfl
    | panic => exact Or.inr rfl
    | ok c st1 =>
      simp only
      split
      · exact Or.inr rfl
      · split
        · exact h _ _ _
        · cases alternative with
          | none => exact Or.inr rfl
          | some alt => exact h _ _ _

theorem applyFunction_mono {ev ev' : Ev} (h : Ev.Below ev ev') (token : Token) (o : Value)
    (args : List Value) (st : EvalState) :
    applyFunction ev token o args st = .timeout ∨
    applyFunction ev' token o args st = applyFunction ev token o args st := by
  unfold applyFunction
  split
  · split
    · exact Or.inr rfl
    · simp only
      rename_i parameters body fenv _
      rcases h (.block body) (st.newEnclosedEnvironment fenv).1
        (bindParameters (st.newEnclosedEnvironment fenv).1 parameters args
          (st.newEnclosedEnvironment fenv).2) with h1 | h1
      · left; rw [h1]
      · rw [h1]; exact Or.inr rfl
  · exact Or.inr rfl
  · exact Or.inr rfl
  · exact Or.inr rfl

theorem evalNode_mono {ev ev' : Ev} (h : Ev.Below ev ev') (node : Node) (env : Nat)
    (st : EvalState) :
    evalNode ev node env st = .timeout ∨ evalNode ev' node env st = evalNode ev node env st := by
  cases node with
  | program p => exact evalProgramLoop_mono h env _ _ _
  | block b => exact evalBlockStatementLoop_mono h env _ _ _
  | statement s =>
    cases s with
    | varStatement token name value =>
      simp only [evalNode]
      rcases h (.expression value) env st with h1 | h1
      · left; rw [h1]
      · right; rw [h1]
    | returnStatement token value =>
      simp only [evalNode]
      rcases h (.expression value) env st with h1 | h1
      · left; rw [h1]
      · right; rw [h1]
    | expressionStatement token value => exact h _ _ _
  | expression e =>
    cases e with
    | arrayLiteral token elements =>
      simp only [evalNode, evalExpressions]
      rcases evalExpressionsLoop_mono h env elements [] st with h1 | h1
      · left; rw [h1]
      · right; rw [h1]
    | prefixExpression operator right =>
      simp only [evalNode]
      rcases h (.expression right) env st with h1 | h1
      · left; rw [h1]
      · right; rw [h1]
    | infixExpression operator left right =>
      simp only [evalNode]
      rcases h (.expression left) env st with h1 | h1
      · left; rw [h1]
      · rw [h1]
        cases ev (.expression left) env st with
        | timeout => exact Or.inl rfl
        | panic => exact Or.inr rfl
        | ok l st1 =>
          simp only
          split
          · exact Or.inr rfl
          · rcases h (.expression right) env st1 with h2 | h2
            · left; rw [h2]
            · right; rw [h2]
    | ifExpression token condition consequence alternative =>
      exact evalIfExpression_mono h _ _ _ _ _
    | callExpression token function arguments =>
      simp only [evalNode]
      rcases h (.expression function) env st with h1 | h1
      · left; rw [h1]
      · rw [h1]
        cases ev (.expression function) env st with
        | timeout => exact Or.inl rfl
        | panic => exact Or.inr rfl
        | ok f st1 =>
          simp only
          split
          · exact Or.inr rfl
          · simp only [evalExpressions]
            rcases evalExpressionsLoop_mono h env arguments [] st1 with h2 | h2
            · left; rw [h2]
            · rw [h2]
              cases evalExpressionsLoop ev env arguments [] st1 with
              | timeout => exact Or.inl rfl
              | panic => exact Or.inr rfl
              | ok r st2 =>
                obtain ⟨args, flag⟩ := r
                cases flag with
                | true => exact applyFunction_mono h _ _ _ _
                | false => exact Or.inr rfl
    | indexExpression token left index =>
      simp only [evalNode]
      rcases h (.expression left) env st with h1 | h1
      · left; rw [h1]
      · rw [h1]
        cases ev (.expression left) env st with
        | timeout => exact Or.inl rfl
        | panic => exact Or.inr rfl
        | ok l st1 =>
          simp only
          split
          · exact Or.inr rfl
          · rcases h (.expression index) env st1 with h2 | h2
            · left; rw [h2]
            · right; rw [h2]
    | _ => exact Or.inr rfl

theorem Eval_below_succ (n : Nat) : Ev.Below (Eval n) (Eval (n + 1)) := by
  induction n with
  | zero => intro node env st; exact Or.inl rfl
  | succ n ih => intro node env st; exact evalNode_mono ih node env st

/-- More fuel does not change a result that is not `timeout`. -/
theorem Eval_mono {n m : Nat} (hnm : n ≤ m) {node : Node} {env : Nat} {st : EvalState}
    {r : Res Value} (h : Eval n node env st = r) (hr : r ≠ .timeout) :
    Eval m node env st = r := by
  induction hnm with
  | refl => exact h
  | step _ ih =>
    rename_i k _
    rcases Eval_below_succ k node env st with h1 | h1
    · rw [ih] at h1; exact absurd h1 hr
    · rw [h1]; exact ih

/-! ### Evaluation with enough fuel -/

theorem Evals.at_least {node : Node} {env : Nat} {st st' : EvalState} {v : Value}
    (h : Evals node env st v st') : ∃ N, ∀ m, N ≤ m → Eval m node env st = .ok v st' := by
  obtain ⟨n, hn⟩ := h
  exact ⟨n, fun m hm => Eval_mono hm hn (by simp)⟩

theorem Eval_succ (n : Nat) (node : Node) (env : Nat) (st : EvalState) :
    Eval (n + 1) node env st = evalNode (Eval n) node env st := rfl

theorem evalProgramLoop_continue {ev : Ev} {env : Nat} {s : Statement} {rest : List Statement}
    {result v : Value} {st st1 : EvalState} (h : ev (.statement s) env st = .ok v st1)
    (hr : Obj.isReturn v = false) (he : Obj.isError v = false) :
    evalProgramLoop ev env (s :: rest) result st = evalProgramLoop ev env rest v st1 := by
  simp only [evalProgramLoop, h]
  split
  · simp [Obj.isReturn] at hr
  · simp [Obj.isError] at he
  · rfl

theorem evalBlockStatementLoop_continue {ev : Ev} {env : Nat} {s : Statement}
    {rest : List Statement} {result v : Value} {st st1 : EvalState}
    (h : ev (.statement s) env st = .ok v st1)
    (hr : Obj.isReturn v = false) (he : Obj.isError v = false) :
    evalBlockStatementLoop ev env (s :: rest) result st =
      evalBlockStatementLoop ev env rest v st1 := by
  simp [evalBlockStatementLoop, h, hr, he]

/-- With enough fuel both statement loops run through a prefix that `RunsThrough`. -/
theorem RunsThrough.loops {env : Nat} {pre : List Statement} {st st1 : EvalState}
    (h : RunsThrough env pre st st1) :
    ∃ N, ∀ m, N ≤ m → ∀ (post : List Statement) (result : Value), ∃ result',
      evalProgramLoop (Eval m) env (pre ++ post) result st =
        evalProgramLoop (Eval m) env post result' st1 ∧
      evalBlockStatementLoop (Eval m) env (pre ++ post) result st =
        evalBlockStatementLoop (Eval m) env post result' st1 := by
  induction h with
  | nil st => exact ⟨0, fun m _ post result => ⟨result, rfl, rfl⟩⟩
  | cons hs hr he _ ih =>
    obtain ⟨N1, h1⟩ := hs.at_least
    obtain ⟨N2, h2⟩ := ih
    refine ⟨max N1 N2, fun m hm post result => ?_⟩
    obtain ⟨r', hp, hb⟩ := h2 m (le_trans (le_max_right _ _) hm) post _
    refine ⟨r', ?_, ?_⟩
    · rw [List.cons_append,
        evalProgramLoop_continue (h1 m (le_trans (le_max_left _ _) hm)) hr he, hp]
    · rw [List.cons_append,
        evalBlockStatementLoop_continue (h1 m (le_trans (le_max_left _ _) hm)) hr he, hb]

/-- With enough fuel the loop of `evalExpressions` runs through a prefix that
`ExprsThrough`, appending its values. -/
theorem ExprsThrough.loop {env : Nat} {pre : List Expr} {st st1 : EvalState} {vs : List Value}
    (h : ExprsThrough env pre st vs st1) :
    ∃ N, ∀ m, N ≤ m → ∀ (post : List Expr) (acc : List Value),
      evalExpressionsLoop (Eval m) env (pre ++ post) acc st =
        evalExpressionsLoop (Eval m) env post (acc ++ vs) st1 := by
  induction h with
  | nil st => exact ⟨0, fun m _ post acc => by simp⟩
  | cons he hne _ ih =>
    obtain ⟨N1, h1⟩ := he.at_least
    obtain ⟨N2, h2⟩ := ih
    refine ⟨max N1 N2, fun m hm post acc => ?_⟩
    rw [List.cons_append]
    simp only [evalExpressionsLoop, h1 m (le_trans (le_max_left _ _) hm), hne]
    simp [h2 m (le_trans (le_max_right _ _) hm)]

theorem isError_eq_true {e : Value} (h : Obj.isError e = true) :
    ∃ a m, e = some (.objError a m) := by
  cases e with
  | none => simp [Obj.isError] at h
  | some o => cases o <;> simp [Obj.isError] at h; exact ⟨_, _, rfl⟩

theorem evalProgramLoop_error {ev : Ev} {env : Nat} {s : Statement} {rest : List Statement}
    {result e : Value} {st st1 : EvalState} (h : ev (.statement s) env st = .ok e st1)
    (he : Obj.isError e = true) :
    evalProgramLoop ev env (s :: rest) result st = .ok e st1 := by
  obtain ⟨a, m, rfl⟩ := isError_eq_true he
  simp [evalProgramLoop, h]

theorem evalBlockStatementLoop_stop {ev : Ev} {env : Nat} {s : Statement}
    {rest : List Statement} {result e : Value} {st st1 : EvalState}
    (h : ev (.statement s) env st = .ok e st1)
    (he : Obj.isReturn e = true ∨ Obj.isError e = true) :
    evalBlockStatementLoop ev env (s :: rest) result st = .ok e st1 := by
  rcases he with he | he <;> simp [evalBlockStatementLoop, h, he]

theorem evalExpressionsLoop_error {ev : Ev} {env : Nat} {x : Expr} {rest : List Expr}
    {acc : List Value} {e : Value} {st st1 : EvalState}
    (h : ev (.expression x) env st = .ok e st1) (he : Obj.isError e = true) :
    evalExpressionsLoop ev env (x :: rest) acc st = .ok ([e], false) st1 := by
  simp [evalExpressionsLoop, h, he]

theorem unwrapReturn_error {e : Value} {st : EvalState} (he : Obj.isError e = true) :
    unwrapReturn (.ok e st) = .ok e st := by
  obtain ⟨a, m, rfl⟩ := isError_eq_true he
  rfl

/-- An error returned by a direct call of `Eval` is returned by the calling `Eval`. -/
theorem Calls.propagates {node node' : Node} {env env' : Nat} {st st' st'' : EvalState}
    {e : Value} (h : Calls node env st node' env' st') (hchild : Evals node' env' st' e st'')
    (he : Obj.isError e = true) : Evals node env st e st'' := by
  obtain ⟨N, hN⟩ := hchild.at_least
  cases h with
  | @program_statement p pre post s _ _ _ hp hpre =>
    obtain ⟨N1, h1⟩ := hpre.loops
    obtain ⟨r', hl, _⟩ := h1 (max N N1) (le_max_right _ _) (s :: post) none
    refine ⟨max N N1 + 1, ?_⟩
    rw [Eval_succ]
    simp only [evalNode, evalProgram, hp, hl]
    exact evalProgramLoop_error (hN _ (le_max_left _ _)) he
  | @block_statement b pre post s _ _ _ hp hpre =>
    obtain ⟨N1, h1⟩ := hpre.loops
    obtain ⟨r', _, hl⟩ := h1 (max N N1) (le_max_right _ _) (s :: post) none
    refine ⟨max N N1 + 1, ?_⟩
    rw [Eval_succ]
    simp only [evalNode, evalBlockStatement, hp, hl]
    exact evalBlockStatementLoop_stop (hN _ (le_max_left _ _)) (Or.inr he)
  | var_value =>
    refine ⟨N + 1, ?_⟩
    rw [Eval_succ]
    simp [evalNode, hN N le_rfl, he]
  | return_value =>
    refine ⟨N + 1, ?_⟩
    rw [Eval_succ]
    simp [evalNode, hN N le_rfl, he]
  | expression_statement =>
    refine ⟨N + 1, ?_⟩
    rw [Eval_succ]
    simp [evalNode, hN N le_rfl]
  | @array_element token elements pre post x _ _ _ vs hp hpre =>
    obtain ⟨N1, h1⟩ := hpre.loop
    refine ⟨max N N1 + 1, ?_⟩
    rw [Eval_succ]
    simp only [evalNode, evalExpressions, hp, h1 _ (le_max_right _ _),
      evalExpressionsLoop_error (hN _ (le_max_left _ _)) he]
  | prefix_right =>
    refine ⟨N + 1, ?_⟩
    rw [Eval_succ]
    simp [evalNode, hN N le_rfl, he]
  | infix_left =>
    refine ⟨N + 1, ?_⟩
    rw [Eval_succ]
    simp [evalNode, hN N le_rfl, he]
  | infix_right hl hne =>
    obtain ⟨N1, h1⟩ := hl.at_least
    refine ⟨max N N1 + 1, ?_⟩
    rw [Eval_succ]
    simp [evalNode, h1 _ (le_max_right _ _), hne, hN _ (le_max_left _ _), he]
  | if_condition =>
    refine ⟨N + 1, ?_⟩
    rw [Eval_succ]
    simp [evalNode, evalIfExpression, hN N le_rfl, he]
  | if_consequence hc hne ht =>
    obtain ⟨N1, h1⟩ := hc.at_least
    refine ⟨max N N1 + 1, ?_⟩
    rw [Eval_succ]
    simp only [Obj.truthy] at ht
    simp [evalNode, evalIfExpression, h1 _ (le_max_right _ _), hne, ht, hN _ (le_max_left _ _)]
  | if_alternative hc hne ht =>
    obtain ⟨N1, h1⟩ := hc.at_least
    refine ⟨max N N1 + 1, ?_⟩
    rw [Eval_succ]
    simp only [Obj.truthy] at ht
    simp only [evalNode, evalIfExpression, h1 _ (le_max_right _ _), hne, ht,
      hN _ (le_max_left _ _)]
    simp
  | call_function =>
    refine ⟨N + 1, ?_⟩
    rw [Eval_succ]
    simp [evalNode, hN N le_rfl, he]
  | @call_argument token function arguments pre post x _ _ st1 _ f vs hf hne hp hpre =>
    obtain ⟨N1, h1⟩ := hf.at_least
    obtain ⟨N2, h2⟩ := hpre.loop
    refine ⟨max N (max N1 N2) + 1, ?_⟩
    have hm1 : N1 ≤ max N (max N1 N2) := by omega
    have hm2 : N2 ≤ max N (max N1 N2) := by omega
    rw [Eval_succ]
    simp only [evalNode, evalExpressions, h1 _ hm1, hne, hp, h2 _ hm2,
      evalExpressionsLoop_error (hN _ (le_max_left _ _)) he]
    simp
  | @call_body token function arguments _ _ st1 st2 a fenv parameters body args hf hargs hlen =>
    obtain ⟨N1, h1⟩ := hf.at_least
    obtain ⟨N2, h2⟩ := hargs.loop
    refine ⟨max N (max N1 N2) + 1, ?_⟩
    have hm1 : N1 ≤ max N (max N1 N2) := by omega
    have hm2 : N2 ≤ max N (max N1 N2) := by omega
    have hl := h2 _ hm2 [] []
    simp only [List.append_nil, List.nil_append] at hl
    rw [Eval_succ]
    simp only [evalNode, evalExpressions, h1 _ hm1, hl, evalExpressionsLoop, Obj.isError]
    simp only [Bool.false_eq_true, if_false]
    rw [applyFunction_function _ _ _ _ _ _ _ _ hlen, hN _ (le_max_left _ _),
      unwrapReturn_error he]
  | index_left =>
    refine ⟨N + 1, ?_⟩
    rw [Eval_succ]
    simp [evalNode, hN N le_rfl, he]
  | index_index hl hne =>
    obtain ⟨N1, h1⟩ := hl.at_least
    refine ⟨max N N1 + 1, ?_⟩
    rw [Eval_succ]
    simp [evalNode, h1 _ (le_max_right _ _), hne, hN _ (le_max_left _ _), he]

/-- A statement that reaches a return evaluates to the return-wrapper of the value. -/
theorem ReachesReturn.evals {env : Nat} {s : Statement} {st st' : EvalState} {v : Value}
    (h : ReachesReturn env s st v st') :
    ∃ a, Evals (.statement s) env st (some (.objReturn a v)) st' := by
  induction h with
  | @direct token e st st1 v he hne =>
    obtain ⟨n, hn⟩ := he
    exact ⟨st1.nextAddr, n + 1, by rw [Eval_succ]; simp [evalNode, hn, hne]⟩
  | @consequence token tokenIf condition consequence alternative pre post s st st1 st2 st3 c v
      hc hne ht hstmts hpre _ ih =>
    obtain ⟨a, hs⟩ := ih
    obtain ⟨N1, h1⟩ := hc.at_least
    obtain ⟨N2, h2⟩ := hpre.loops
    obtain ⟨N3, h3⟩ := hs.at_least
    refine ⟨a, max N1 (max N2 N3) + 3, ?_⟩
    have hm1 : N1 ≤ max N1 (max N2 N3) + 1 := by omega
    have hm2 : N2 ≤ max N1 (max N2 N3) := by omega
    have hm3 : N3 ≤ max N1 (max N2 N3) := by omega
    obtain ⟨r', _, hb⟩ := h2 _ hm2 (s :: post) none
    have hblock : Eval (max N1 (max N2 N3) + 1) (.block consequence) env st1 =
        .ok (some (.objReturn a v)) st3 := by
      cases consequence with
      | mk tk stmts =>
        simp only [BlockStatement.statements] at hstmts
        subst hstmts
        rw [Eval_succ]
        simp only [evalNode, evalBlockStatement, BlockStatement.statements, hb]
        simp [evalBlockStatementLoop, h3 _ hm3, Obj.isReturn]
    simp only [Obj.truthy] at ht
    rw [Eval_succ]
    simp only [evalNode]
    rw [Eval_succ]
    simp only [evalNode, evalIfExpression, h1 _ hm1]
    simp [hne, ht, hblock]
  | @alternative token tokenIf condition consequence alt pre post s st st1 st2 st3 c v
      hc hne ht hstmts hpre _ ih =>
    obtain ⟨a, hs⟩ := ih
    obtain ⟨N1, h1⟩ := hc.at_least
    obtain ⟨N2, h2⟩ := hpre.loops
    obtain ⟨N3, h3⟩ := hs.at_least
    refine ⟨a, max N1 (max N2 N3) + 3, ?_⟩
    have hm1 : N1 ≤ max N1 (max N2 N3) + 1 := by omega
    have hm2 : N2 ≤ max N1 (max N2 N3) := by omega
    have hm3 : N3 ≤ max N1 (max N2 N3) := by omega
    obtain ⟨r', _, hb⟩ := h2 _ hm2 (s :: post) none
    have hblock : Eval (max N1 (max N2 N3) + 1) (.block alt) env st1 =
        .ok (some (.objReturn a v)) st3 := by
      cases alt with
      | mk tk stmts =>
        simp only [BlockStatement.statements] at hstmts
        subst hstmts
        rw [Eval_succ]
        simp only [evalNode, evalBlockStatement, BlockStatement.statements, hb]
        simp [evalBlockStatementLoop, h3 _ hm3, Obj.isReturn]
    simp only [Obj.truthy] at ht
    rw [Eval_succ]
    simp only [evalNode]
    rw [Eval_succ]
    simp only [evalNode, evalIfExpression, h1 _ hm1]
    simp [hne, ht, hblock]

/-! ### Lexing and parsing on one line -/

@[simp] theorem getD_eq_byteAt (inp : Bytes) (i : Nat) : inp[i]?.getD 0 = byteAt inp i := by
  simp [byteAt, List.getD_eq_getElem?_getD]

@[simp] theorem getD_eq_byteAt2 (inp : Bytes) (i : Nat) : List.getD inp i 0 = byteAt inp i := rfl

theorem byteAt_of_le {inp : Bytes} {i : Nat} (h : inp.length ≤ i) : byteAt inp i = 0 := by
  unfold byteAt
  rw [List.getD_eq_getElem?_getD, List.getElem?_eq_none h]; rfl

theorem byteAt_guard (inp : Bytes) (i : Nat) :
    (if inp.length ≤ i then 0 else byteAt inp i) = byteAt inp i := by
  by_cases h : inp.length ≤ i
  · simp [h, byteAt_of_le h]
  · simp [h]

theorem byteAt_ne_newline {inp : Bytes} (hnl : ∀ x ∈ inp, x ≠ 10) (j : Nat) :
    byteAt inp j ≠ 10 := by
  by_cases h : inp.length ≤ j
  · rw [byteAt_of_le h]; decide
  · unfold byteAt
    rw [List.getD_eq_getElem?_getD, List.getElem?_eq_getElem (Nat.lt_of_not_le h)]
    exact hnl _ (List.getElem_mem _)

theorem byteAt_append_offset (pre post : Bytes) (j : Nat) :
    byteAt (pre ++ post) (pre.length + j) = byteAt post j := by
  unfold byteAt
  simp only [List.getD_eq_getElem?_getD]
  rw [List.getElem?_append_right (Nat.le_add_right _ _)]
  simp

theorem byteAt_append_inside (w post : Bytes) (j : Nat) (h : j < w.length) :
    byteAt (w ++ post) j = byteAt w j := by
  unfold byteAt
  simp only [List.getD_eq_getElem?_getD]
  rw [List.getElem?_append_left h]

theorem byteAt_mem {w : Bytes} {j : Nat} (h : j < w.length) : byteAt w j ∈ w := by
  unfold byteAt
  rw [List.getD_eq_getElem?_getD, List.getElem?_eq_getElem h]
  exact List.getElem_mem _

theorem lt_length_of_byteAt_ne_zero {inp : Bytes} {i : Nat} (h : byteAt inp i ≠ 0) :
    i < inp.length := by
  by_contra hl
  exact h (byteAt_of_le (Nat.le_of_not_lt hl))

theorem NewLexer_eq (inp : Bytes) (hnl : ∀ x ∈ inp, x ≠ 10) : NewLexer inp = lexAt inp 0 := by
  have h0 := byteAt_ne_newline hnl 0
  simp only [NewLexer, Lexer.readByte, lexAt, getD_eq_byteAt2, byteAt_guard, h0, if_false]
  simp

theorem readByte_lexAt (inp : Bytes) (hnl : ∀ x ∈ inp, x ≠ 10) (i : Nat) :
    (lexAt inp i).readByte = lexAt inp (i + 1) := by
  have h0 := byteAt_ne_newline hnl (i + 1)
  simp only [Lexer.readByte, lexAt, getD_eq_byteAt2, byteAt_guard, h0, if_false]
  simp

theorem peekNextByte_lexAt (inp : Bytes) (i : Nat) :
    (lexAt inp i).peekNextByte = byteAt inp (i + 1) := by
  simp only [Lexer.peekNextByte, lexAt, getD_eq_byteAt2, byteAt_guard]

theorem budget_lexAt (inp : Bytes) (i : Nat) : (lexAt inp i).budget = inp.length - i := by
  simp [Lexer.budget, lexAt]

theorem currentByte_lexAt (inp : Bytes) (i : Nat) : (lexAt inp i).currentByte = byteAt inp i := rfl

/-- Skipping does nothing at a byte that is neither whitespace nor a slash. -/
theorem skip_nothing (inp : Bytes) (i : Nat)
    (hw : Lexer.isWhitespace (byteAt inp i) = false) (hs : byteAt inp i ≠ 47) :
    Lexer.skipWhitespaceAndComments (lexAt inp i) = lexAt inp i := by
  simp only [Lexer.skipWhitespaceAndComments, Lexer.skipWhitespaceAndCommentsLoop,
    Lexer.skipWhitespace, currentByte_lexAt, hw, hs, false_and, if_false, Bool.false_eq_true]

/-- Skipping at a space that is followed by a byte which is neither whitespace nor the
start of a comment moves to that byte. -/
theorem skip_one_space (inp : Bytes) (hnl : ∀ x ∈ inp, x ≠ 10) (i : Nat)
    (h32 : byteAt inp i = 32) (hw : Lexer.isWhitespace (byteAt inp (i + 1)) = false)
    (hc : ¬ (byteAt inp (i + 1) = 47 ∧ byteAt inp (i + 2) = 47)) :
    Lexer.skipWhitespaceAndComments (lexAt inp i) = lexAt inp (i + 1) := by
  have hi : i < inp.length := lt_length_of_byteAt_ne_zero (by rw [h32]; decide)
  obtain ⟨k, hk⟩ : ∃ k, inp.length - i = k + 1 := ⟨inp.length - i - 1, by omega⟩
  have hsk : Lexer.skipWhitespace (k + 1 + 1) (lexAt inp i) false = (lexAt inp (i + 1), true) := by
    have h1 : Lexer.isWhitespace 32 = true := by decide
    simp only [Lexer.skipWhitespace, currentByte_lexAt, h32, h1, if_true, readByte_lexAt inp hnl,
      hw, Bool.false_eq_true, if_false]
  have hsk1 : ∀ f, Lexer.skipWhitespace (f + 1) (lexAt inp (i + 1)) false =
      (lexAt inp (i + 1), false) := by
    intro f
    simp only [Lexer.skipWhitespace, currentByte_lexAt, hw, Bool.false_eq_true, if_false]
  unfold Lexer.skipWhitespaceAndComments
  rw [budget_lexAt, hk]
  simp only [Lexer.skipWhitespaceAndCommentsLoop, budget_lexAt, hk, hsk, currentByte_lexAt,
    peekNextByte_lexAt, hc, if_false, if_true, hsk1, Bool.false_eq_true]

theorem identifierByte_facts {b : Nat} (h : Lexer.validIdentifierByte b = true) :
    Lexer.isWhitespace b = false ∧ b ≠ 47 ∧ b ≠ 61 ∧ b ≠ 43 ∧ b ≠ 45 ∧ b ≠ 42 ∧ b ≠ 33 ∧
    b ≠ 60 ∧ b ≠ 62 ∧ b ≠ 44 ∧ b ≠ 59 ∧ b ≠ 40 ∧ b ≠ 41 ∧ b ≠ 123 ∧ b ≠ 125 ∧ b ≠ 91 ∧
    b ≠ 93 ∧ b ≠ 34 ∧ b ≠ 0 ∧ b ≠ 10 := by
  simp only [Lexer.validIdentifierByte, Bool.or_eq_true, Bool.and_eq_true, decide_eq_true_eq] at h
  refine ⟨?_, ?_, ?_, ?_, ?_, ?_, ?_, ?_, ?_, ?_, ?_, ?_, ?_, ?_, ?_, ?_, ?_, ?_, ?_, ?_⟩
  · simp only [Lexer.isWhitespace, Bool.or_eq_false_iff, decide_eq_false_iff_not]
    omega
  all_goals omega

theorem readIdentifierLoop_lexAt (inp : Bytes) (hnl : ∀ x ∈ inp, x ≠ 10) :
    ∀ (n i fuel : Nat),
      (∀ j, j < n → Lexer.validIdentifierByte (byteAt inp (i + j)) = true) →
      Lexer.validIdentifierByte (byteAt inp (i + n)) = false → n < fuel →
      Lexer.readIdentifierLoop fuel (lexAt inp i) = lexAt inp (i + n) := by
  intro n
  induction n with
  | zero =>
    intro i fuel _ hstop hf
    obtain ⟨f, rfl⟩ : ∃ f, fuel = f + 1 := ⟨fuel - 1, by omega⟩
    simp only [Nat.add_zero] at hstop
    simp only [Lexer.readIdentifierLoop, currentByte_lexAt, hstop, Bool.false_eq_true, if_false,
      Nat.add_zero]
  | succ n ih =>
    intro i fuel hv hstop hf
    obtain ⟨f, rfl⟩ : ∃ f, fuel = f + 1 := ⟨fuel - 1, by omega⟩
    have h0 : Lexer.validIdentifierByte (byteAt inp i) = true := by simpa using hv 0 (by omega)
    simp only [Lexer.readIdentifierLoop, currentByte_lexAt, h0, if_true, readByte_lexAt inp hnl]
    rw [ih (i + 1) f (fun j hj => by simpa [Nat.add_assoc, Nat.add_comm 1 j] using hv (j + 1) (by omega))
      (by simpa [Nat.add_assoc, Nat.add_comm 1 n] using hstop) (by omega)]
    congr 1
    omega

/-- When skipping leaves the lexer at the first byte of a run of `n` identifier bytes,
`NextToken` returns the run as an identifier or keyword and moves past it. -/
theorem NextToken_identifier (inp : Bytes) (hnl : ∀ x ∈ inp, x ≠ 10) (l0 : Lexer) (i n : Nat)
    (hsk : l0.skipWhitespaceAndComments = lexAt inp i) (hn : 0 < n)
    (hv : ∀ j, j < n → Lexer.validIdentifierByte (byteAt inp (i + j)) = true)
    (hstop : Lexer.validIdentifierByte (byteAt inp (i + n)) = false) :
    l0.NextToken =
      (⟨Lexer.keyword (slice inp i (i + n)), slice inp i (i + n), 1, (i : Int) + 1⟩,
        lexAt inp (i + n)) := by
  have h0 : Lexer.validIdentifierByte (byteAt inp i) = true := by simpa using hv 0 hn
  obtain ⟨_, h47, h61, h43, h45, h42, h33, h60, h62, h44, h59, h40, h41, h123, h125, h91, h93,
    h34, hz, _⟩ := identifierByte_facts h0
  have hlast : i + (n - 1) < inp.length :=
    lt_length_of_byteAt_ne_zero
      (identifierByte_facts (hv (n - 1) (by omega))).2.2.2.2.2.2.2.2.2.2.2.2.2.2.2.2.2.2.1
  have hloop := readIdentifierLoop_lexAt inp hnl n i ((lexAt inp i).budget + 1) hv hstop
    (by rw [budget_lexAt]; omega)
  simp only [Lexer.NextToken, hsk, currentByte_lexAt, h47, h61, h43, h45,
    h42, h33, h60, h62, h44, h59, h40, h41, h123, h125, h91, h93, h34, hz, if_false, h0, if_true,
    Lexer.readIdentifier, hloop]
  simp [lexAt]

/-- After the end of the input, `NextToken` returns EOF and moves on. -/
theorem NextToken_eof (inp : Bytes) (hnl : ∀ x ∈ inp, x ≠ 10) (i : Nat) (h : inp.length ≤ i) :
    (lexAt inp i).NextToken = (⟨.EOF, [], 1, (i : Int) + 1⟩, lexAt inp (i + 1)) := by
  have hb : byteAt inp i = 0 := byteAt_of_le h
  have hw : Lexer.isWhitespace (byteAt inp i) = false := by rw [hb]; decide
  have h47 : byteAt inp i ≠ 47 := by rw [hb]; decide
  simp only [Lexer.NextToken, skip_nothing inp i hw h47, currentByte_lexAt, hb,
    readByte_lexAt inp hnl]
  simp [Lexer.newToken, lexAt]

theorem NextToken_single (inp : Bytes) (hnl : ∀ x ∈ inp, x ≠ 10) (i x : Nat)
    (hx : x ∈ [60, 62, 43, 45, 42, 47])
    (h32 : byteAt inp i = 32) (h1 : byteAt inp (i + 1) = x) (hafter : byteAt inp (i + 2) = 32) :
    (lexAt inp i).NextToken = (⟨singleType x, [x], 1, (i : Int) + 2⟩, lexAt inp (i + 2)) := by
  have hcol : ((i + 1 : Nat) : Int) + 1 = (i : Int) + 2 := by push_cast; ring
  have hsk : Lexer.skipWhitespaceAndComments (lexAt inp i) = lexAt inp (i + 1) := by
    apply skip_one_space inp hnl i h32
    · simp only [List.mem_cons, List.mem_singleton, List.not_mem_nil, or_false] at hx
      rcases hx with rfl | rfl | rfl | rfl | rfl | rfl <;> rw [h1] <;> decide
    · intro h; rw [hafter] at h; exact absurd h.2 (by decide)
  simp only [List.mem_cons, List.mem_singleton, List.not_mem_nil, or_false] at hx
  rcases hx with rfl | rfl | rfl | rfl | rfl | rfl
  all_goals
    simp [Lexer.NextToken, hsk, currentByte_lexAt, h1, Lexer.readOperator,
      peekNextByte_lexAt, hafter, readByte_lexAt inp hnl, Lexer.newToken, hcol, singleType, str]
    simp [lexAt]
    omega

theorem NextToken_double (inp : Bytes) (hnl : ∀ x ∈ inp, x ≠ 10) (i x : Nat)
    (hx : x ∈ [61, 33, 60, 62])
    (h32 : byteAt inp i = 32) (h1 : byteAt inp (i + 1) = x) (h2 : byteAt inp (i + 2) = 61) :
    (lexAt inp i).NextToken = (⟨doubleType x, [x, 61], 1, (i : Int) + 2⟩, lexAt inp (i + 3)) := by
  have hcol : ((i + 1 + 1 : Nat) : Int) + 1 - 1 = (i : Int) + 2 := by push_cast; ring
  have hsk : Lexer.skipWhitespaceAndComments (lexAt inp i) = lexAt inp (i + 1) := by
    apply skip_one_space inp hnl i h32
    · simp only [List.mem_cons, List.mem_singleton, List.not_mem_nil, or_false] at hx
      rcases hx with rfl | rfl | rfl | rfl <;> rw [h1] <;> decide
    · intro h; rw [h2] at h; exact absurd h.2 (by decide)
  simp only [List.mem_cons, List.mem_singleton, List.not_mem_nil, or_false] at hx
  rcases hx with rfl | rfl | rfl | rfl
  all_goals
    simp [Lexer.NextToken, hsk, currentByte_lexAt, h1, Lexer.readOperator,
      peekNextByte_lexAt, h2, readByte_lexAt inp hnl, doubleType]
    simp [lexAt]
    omega

/-- At a space followed by a binary operator and another space, `NextToken` returns the
operator and moves past it. -/
theorem NextToken_operator (inp : Bytes) (hnl : ∀ x ∈ inp, x ≠ 10) (i : Nat)
    (o : Bytes × TokenType) (ho : o ∈ binaryOperators) (h32 : byteAt inp i = 32)
    (hbytes : ∀ j, j < o.1.length → byteAt inp (i + 1 + j) = byteAt o.1 j)
    (hafter : byteAt inp (i + 1 + o.1.length) = 32) :
    (lexAt inp i).NextToken = (⟨o.2, o.1, 1, (i : Int) + 2⟩, lexAt inp (i + 1 + o.1.length)) := by
  simp only [binaryOperators, List.mem_cons, List.mem_singleton, List.not_mem_nil, or_false] at ho
  rcases ho with rfl | rfl | rfl | rfl | rfl | rfl | rfl | rfl | rfl | rfl
  · exact NextToken_double inp hnl i 61 (by decide) h32 (hbytes 0 (by decide)) (hbytes 1 (by decide))
  · exact NextToken_double inp hnl i 33 (by decide) h32 (hbytes 0 (by decide)) (hbytes 1 (by decide))
  · exact NextToken_single inp hnl i 60 (by decide) h32 (hbytes 0 (by decide)) hafter
  · exact NextToken_single inp hnl i 62 (by decide) h32 (hbytes 0 (by decide)) hafter
  · exact NextToken_double inp hnl i 60 (by decide) h32 (hbytes 0 (by decide)) (hbytes 1 (by decide))
  · exact NextToken_double inp hnl i 62 (by decide) h32 (hbytes 0 (by decide)) (hbytes 1 (by decide))
  · exact NextToken_single inp hnl i 43 (by decide) h32 (hbytes 0 (by decide)) hafter
  · exact NextToken_single inp hnl i 45 (by decide) h32 (hbytes 0 (by decide)) hafter
  · exact NextToken_single inp hnl i 42 (by decide) h32 (hbytes 0 (by decide)) hafter
  · exact NextToken_single inp hnl i 47 (by decide) h32 (hbytes 0 (by decide)) hafter

theorem infixOperator_facts {ty : TokenType} (h : Parser.isInfixOperator ty = true) :
    ty ≠ .SEMICOLON ∧ lowest < tokenPrecedence ty := by
  cases ty <;> simp_all [Parser.isInfixOperator, tokenPrecedence, lowest, equals, less_greater,
    add_subtract, multiply_divide]

theorem parseExpression_succ (n precedence : Nat) (p : Parser) :
    Parser.parseExpression (n + 1) precedence p =
      Parser.parseExpressionBody (Parser.parseExpression n) n precedence p := rfl

theorem parseExpressionLoop_exit (pe : Parser.PE) (fuel precedence j : Nat) (left : Expr)
    (p : Parser) (h : p.next.Typ = .SEMICOLON ∨ ¬ precedence < tokenPrecedence p.next.Typ) :
    Parser.parseExpressionLoop pe fuel precedence (j + 1) left p = some (left, p) := by
  rcases h with h | h <;> simp [Parser.parseExpressionLoop, h]

theorem parseExpressionLoop_infix (pe : Parser.PE) (fuel precedence j : Nat) (left right : Expr)
    (p p' : Parser) (hop : Parser.isInfixOperator p.next.Typ = true)
    (hprec : precedence < tokenPrecedence p.next.Typ)
    (hr : pe (tokenPrecedence p.next.Typ) p.nextToken.nextToken = some (right, p')) :
    Parser.parseExpressionLoop pe fuel precedence (j + 1) left p =
      Parser.parseExpressionLoop pe fuel precedence j (.infixExpression p.next left right) p' := by
  have hs := (infixOperator_facts hop).1
  have hc : p.nextToken.current = p.next := rfl
  simp [Parser.parseExpressionLoop, hs, hprec, hop, Parser.parseInfixExpression, hc, hr]

theorem parseExpressionBody_identifier (pe : Parser.PE) (fuel precedence : Nat) (p : Parser)
    (h : p.current.Typ = .IDENTIFIER) :
    Parser.parseExpressionBody pe fuel precedence p =
      Parser.parseExpressionLoop pe fuel precedence fuel (.identifier p.current) p := by
  simp [Parser.parseExpressionBody, Parser.parsePrefixTerm, h]

/-- The parse of the token sequence identifier, operator, identifier, operator,
identifier, EOF, EOF. -/
theorem parse_two_operators (l0 l1 l2 l3 l4 l5 l6 l7 : Lexer) (tA tO1 tB tO2 tC e1 e2 : Token)
    (h0 : l0.NextToken = (tA, l1)) (h1 : l1.NextToken = (tO1, l2))
    (h2 : l2.NextToken = (tB, l3)) (h3 : l3.NextToken = (tO2, l4))
    (h4 : l4.NextToken = (tC, l5)) (h5 : l5.NextToken = (e1, l6))
    (h6 : l6.NextToken = (e2, l7))
    (hA : tA.Typ = .IDENTIFIER) (hB : tB.Typ = .IDENTIFIER) (hC : tC.Typ = .IDENTIFIER)
    (hO1 : Parser.isInfixOperator tO1.Typ = true) (hO2 : Parser.isInfixOperator tO2.Typ = true)
    (he1 : e1.Typ = .EOF) (k : Nat) :
    (NewParser l0).ParseProgram (k + 4) =
      some (⟨[.expressionStatement tA
        (if tokenPrecedence tO2.Typ ≤ tokenPrecedence tO1.Typ then
          .infixExpression tO2 (.infixExpression tO1 (.identifier tA) (.identifier tB))
            (.identifier tC)
        else
          .infixExpression tO1 (.identifier tA)
            (.infixExpression tO2 (.identifier tB) (.identifier tC)))]⟩,
        ⟨l7, [], e2, e1⟩) := by
  obtain ⟨hs2, hp2⟩ := infixOperator_facts hO2
  obtain ⟨hs1, hp1⟩ := infixOperator_facts hO1
  have hnp : NewParser l0 = ⟨l2, [], tO1, tA⟩ := by
    simp [NewParser, Parser.nextToken, h0, h1]
  have hP2 : Parser.nextToken (Parser.nextToken ⟨l2, [], tO1, tA⟩) = ⟨l4, [], tO2, tB⟩ := by
    simp [Parser.nextToken, h2, h3]
  have hP4 : Parser.nextToken (Parser.nextToken ⟨l4, [], tO2, tB⟩) = ⟨l6, [], e1, tC⟩ := by
    simp [Parser.nextToken, h4, h5]
  have hP5 : Parser.nextToken ⟨l6, [], e1, tC⟩ = ⟨l7, [], e2, e1⟩ := by
    simp [Parser.nextToken, h6]
  -- the last identifier, at any precedence above the lowest
  have hc : ∀ (n precedence : Nat), lowest ≤ precedence →
      Parser.parseExpression (n + 2) precedence ⟨l6, [], e1, tC⟩ =
        some (.identifier tC, ⟨l6, [], e1, tC⟩) := by
    intro n precedence hle
    rw [parseExpression_succ, parseExpressionBody_identifier _ _ _ _ hC]
    exact parseExpressionLoop_exit _ _ _ _ _ _
      (Or.inr (by simp only [he1, tokenPrecedence]; omega))
  have hexit : ∀ (pe : Parser.PE) (fuel precedence j : Nat) (left : Expr),
      lowest ≤ precedence →
      Parser.parseExpressionLoop pe fuel precedence (j + 1) left ⟨l6, [], e1, tC⟩ =
        some (left, ⟨l6, [], e1, tC⟩) := by
    intro pe fuel precedence j left hle
    exact parseExpressionLoop_exit _ _ _ _ _ _
      (Or.inr (by simp only [he1, tokenPrecedence]; omega))
  have hstmt : Parser.parseExpression (k + 4) lowest ⟨l2, [], tO1, tA⟩ =
      some (if tokenPrecedence tO2.Typ ≤ tokenPrecedence tO1.Typ then
          .infixExpression tO2 (.infixExpression tO1 (.identifier tA) (.identifier tB))
            (.identifier tC)
        else
          .infixExpression tO1 (.identifier tA)
            (.infixExpression tO2 (.identifier tB) (.identifier tC)), ⟨l6, [], e1, tC⟩) := by
    rw [parseExpression_succ, parseExpressionBody_identifier _ _ _ _ hA]
    by_cases hcmp : tokenPrecedence tO2.Typ ≤ tokenPrecedence tO1.Typ
    · -- the right operand of the first operator is `b` alone
      have hb : Parser.parseExpression (k + 3) (tokenPrecedence tO1.Typ) ⟨l4, [], tO2, tB⟩ =
          some (.identifier tB, ⟨l4, [], tO2, tB⟩) := by
        rw [parseExpression_succ, parseExpressionBody_identifier _ _ _ _ hB]
        exact parseExpressionLoop_exit _ _ _ _ _ _ (Or.inr (by simpa using hcmp))
      rw [show k + 3 = (k + 2) + 1 from rfl,
        parseExpressionLoop_infix _ _ _ _ _ (.identifier tB) _ ⟨l4, [], tO2, tB⟩ hO1 hp1
          (by rw [hP2]; exact hb)]
      rw [show k + 2 = (k + 1) + 1 from rfl,
        parseExpressionLoop_infix _ _ _ _ _ (.identifier tC) _ ⟨l6, [], e1, tC⟩ hO2 hp2
          (by rw [hP4]; exact hc (k + 1) _ (le_of_lt hp2))]
      rw [hexit _ _ _ _ _ le_rfl, if_pos hcmp]
    · have hlt : tokenPrecedence tO1.Typ < tokenPrecedence tO2.Typ := by omega
      have hb : Parser.parseExpression (k + 3) (tokenPrecedence tO1.Typ) ⟨l4, [], tO2, tB⟩ =
          some (.infixExpression tO2 (.identifier tB) (.identifier tC), ⟨l6, [], e1, tC⟩) := by
        rw [parseExpression_succ, parseExpressionBody_identifier _ _ _ _ hB]
        rw [show k + 2 = (k + 1) + 1 from rfl,
          parseExpressionLoop_infix _ _ _ _ _ (.identifier tC) _ ⟨l6, [], e1, tC⟩ hO2 hlt
            (by rw [hP4]; exact hc k _ (le_of_lt hp2))]
        rw [hexit _ _ _ _ _ (le_of_lt hp1)]
      rw [show k + 3 = (k + 2) + 1 from rfl,
        parseExpressionLoop_infix _ _ _ _ _ _ _ ⟨l6, [], e1, tC⟩ hO1 hp1
          (by rw [hP2]; exact hb)]
      rw [hexit _ _ _ _ _ le_rfl, if_neg hcmp]
  rw [hnp]
  have hsemi : Parser.skipSemicolon ⟨l6, [], e1, tC⟩ = ⟨l6, [], e1, tC⟩ := by
    simp [Parser.skipSemicolon, he1]
  simp only [Parser.ParseProgram, Parser.ParseProgramLoop, Parser.parseStatement, hA,
    Parser.parseExpressionStatement, hstmt, hsemi, hP5, he1]
  simp

theorem byteAt_seg (pre seg post : Bytes) (j : Nat) (h : j < seg.length) :
    byteAt (pre ++ (seg ++ post)) (pre.length + j) = byteAt seg j := by
  rw [byteAt_append_offset, byteAt_append_inside _ _ _ h]

theorem byteAt_after (pre seg post : Bytes) :
    byteAt (pre ++ (seg ++ post)) (pre.length + seg.length) = byteAt post 0 := by
  rw [byteAt_append_offset]
  have := byteAt_append_offset seg post 0
  simpa using this

theorem slice_seg (pre seg post : Bytes) :
    slice (pre ++ (seg ++ post)) pre.length (pre.length + seg.length) = seg := by
  simp [slice]

/-- Lexing an identifier at the start of the input, followed by a space or by the end. -/
theorem NextToken_identifier_first (w post : Bytes)
    (hnl : ∀ x ∈ w ++ post, x ≠ 10) (hw : isIdentifierText w)
    (hpost : post = [] ∨ ∃ t, post = 32 :: t) :
    (lexAt (w ++ post) 0).NextToken =
      (tokenAt .IDENTIFIER w 0, lexAt (w ++ post) w.length) := by
  obtain ⟨hne, hvalid, hkw⟩ := hw
  have hlen : 0 < w.length := List.length_pos.mpr hne
  have hb0 := identifierByte_facts (hvalid _ (byteAt_mem hlen))
  have e0 : byteAt (w ++ post) 0 = byteAt w 0 := byteAt_append_inside _ _ _ hlen
  have h := NextToken_identifier (w ++ post) hnl (lexAt (w ++ post) 0) 0 w.length
    (skip_nothing _ _ (by rw [e0]; exact hb0.1) (by rw [e0]; exact hb0.2.1)) hlen
    (fun j hj => by
      have := byteAt_seg [] w post j hj
      simp only [List.nil_append, List.length_nil] at this
      rw [this]; exact hvalid _ (byteAt_mem hj))
    (by
      have := byteAt_after [] w post
      simp only [List.nil_append, List.length_nil] at this
      rw [this]
      rcases hpost with rfl | ⟨t, rfl⟩ <;> rfl)
  have hs := slice_seg [] w post
  simp only [List.nil_append, List.length_nil] at hs
  rw [h, hs, hkw]
  simp [tokenAt]

/-- Lexing an identifier that follows a space and is followed by a space or by the end. -/
theorem NextToken_identifier_seg (pre w post : Bytes)
    (hnl : ∀ x ∈ pre ++ ([32] ++ (w ++ post)), x ≠ 10) (hw : isIdentifierText w)
    (hpost : post = [] ∨ ∃ t, post = 32 :: t) :
    (lexAt (pre ++ ([32] ++ (w ++ post))) pre.length).NextToken =
      (tokenAt .IDENTIFIER w (pre.length + 1),
        lexAt (pre ++ ([32] ++ (w ++ post))) (pre.length + 1 + w.length)) := by
  obtain ⟨hne, hvalid, hkw⟩ := hw
  have hlen : 0 < w.length := List.length_pos.mpr hne
  have hb0 := identifierByte_facts (hvalid _ (byteAt_mem hlen))
  have h32 : byteAt (pre ++ ([32] ++ (w ++ post))) pre.length = 32 := by
    have := byteAt_seg pre [32] (w ++ post) 0 (by simp)
    simpa using this
  have hbytes : ∀ j, j < w.length →
      byteAt (pre ++ ([32] ++ (w ++ post))) (pre.length + 1 + j) = byteAt w j := by
    intro j hj
    have := byteAt_seg (pre ++ [32]) w post j hj
    simpa [List.append_assoc] using this
  have hafter : byteAt (pre ++ ([32] ++ (w ++ post))) (pre.length + 1 + w.length) =
      byteAt post 0 := by
    have := byteAt_after (pre ++ [32]) w post
    simpa [List.append_assoc] using this
  have e1 : byteAt (pre ++ ([32] ++ (w ++ post))) (pre.length + 1) = byteAt w 0 := by
    simpa using hbytes 0 hlen
  have h := NextToken_identifier _ hnl (lexAt (pre ++ ([32] ++ (w ++ post))) pre.length)
    (pre.length + 1) w.length
    (skip_one_space _ hnl _ h32 (by rw [e1]; exact hb0.1)
      (by rw [e1]; intro hh; exact hb0.2.1 hh.1)) hlen
    (fun j hj => by rw [hbytes j hj]; exact hvalid _ (byteAt_mem hj))
    (by
      rw [hafter]
      rcases hpost with rfl | ⟨t, rfl⟩ <;> rfl)
  have hs : slice (pre ++ ([32] ++ (w ++ post))) (pre.length + 1) (pre.length + 1 + w.length) =
      w := by
    have := slice_seg (pre ++ [32]) w post
    simpa [List.append_assoc] using this
  rw [h, hs, hkw]
  simp [tokenAt]

/-- Lexing a binary operator that stands between two spaces. -/
theorem NextToken_operator_seg (pre post : Bytes) (o : Bytes × TokenType)
    (ho : o ∈ binaryOperators) (hnl : ∀ x ∈ pre ++ ([32] ++ (o.1 ++ (32 :: post))), x ≠ 10) :
    (lexAt (pre ++ ([32] ++ (o.1 ++ (32 :: post)))) pre.length).NextToken =
      (tokenAt o.2 o.1 (pre.length + 1),
        lexAt (pre ++ ([32] ++ (o.1 ++ (32 :: post)))) (pre.length + 1 + o.1.length)) := by
  have h32 : byteAt (pre ++ ([32] ++ (o.1 ++ (32 :: post)))) pre.length = 32 := by
    have := byteAt_seg pre [32] (o.1 ++ (32 :: post)) 0 (by simp)
    simpa using this
  have hbytes : ∀ j, j < o.1.length →
      byteAt (pre ++ ([32] ++ (o.1 ++ (32 :: post)))) (pre.length + 1 + j) = byteAt o.1 j := by
    intro j hj
    have := byteAt_seg (pre ++ [32]) o.1 (32 :: post) j hj
    simpa [List.append_assoc] using this
  have hafter : byteAt (pre ++ ([32] ++ (o.1 ++ (32 :: post)))) (pre.length + 1 + o.1.length) =
      32 := by
    have := byteAt_after (pre ++ [32]) o.1 (32 :: post)
    simpa [List.append_assoc] using this
  rw [NextToken_operator _ hnl pre.length o ho h32 hbytes hafter]
  simp only [tokenAt, Prod.mk.injEq, Token.mk.injEq, true_and, and_true]
  push_cast
  ring

/-! ### C2: nesting of two binary operators -/

set_option maxRecDepth 10000 in
/-- C2. For identifier texts `a`, `b`, `c` and binary operators `op1`, `op2` among
`== != < > <= >= + - * /`, the text `a op1 b op2 c` parses without diagnostics to one
expression statement holding infix(op2, infix(op1, a, b), c) when
precedence(op2) <= precedence(op1), and infix(op1, a, infix(op2, b, c)) when
precedence(op2) > precedence(op1); the precedences are 2 for equality, 3 for the
relational, 4 for the additive and 5 for the multiplicative operators. -/
theorem binary_operators_nest_by_precedence (a b c : Bytes) (o1 o2 : Bytes × TokenType)
    (ha : isIdentifierText a) (hb : isIdentifierText b) (hc : isIdentifierText c)
    (h1 : o1 ∈ binaryOperators) (h2 : o2 ∈ binaryOperators) :
    Parse (a ++ [32] ++ o1.1 ++ [32] ++ b ++ [32] ++ o2.1 ++ [32] ++ c) =
      some (⟨[.expressionStatement (tokenAt .IDENTIFIER a 0)
        (if tokenPrecedence o2.2 ≤ tokenPrecedence o1.2 then
          .infixExpression (tokenAt o2.2 o2.1 (a.length + 1 + o1.1.length + 1 + b.length + 1))
            (.infixExpression (tokenAt o1.2 o1.1 (a.length + 1))
              (.identifier (tokenAt .IDENTIFIER a 0))
              (.identifier (tokenAt .IDENTIFIER b (a.length + 1 + o1.1.length + 1))))
            (.identifier (tokenAt .IDENTIFIER c
              (a.length + 1 + o1.1.length + 1 + b.length + 1 + o2.1.length + 1)))
        else
          .infixExpression (tokenAt o1.2 o1.1 (a.length + 1))
            (.identifier (tokenAt .IDENTIFIER a 0))
            (.infixExpression
              (tokenAt o2.2 o2.1 (a.length + 1 + o1.1.length + 1 + b.length + 1))
              (.identifier (tokenAt .IDENTIFIER b (a.length + 1 + o1.1.length + 1)))
              (.identifier (tokenAt .IDENTIFIER c
                (a.length + 1 + o1.1.length + 1 + b.length + 1 + o2.1.length + 1)))))]⟩, []) ∧
    [TokenType.EQ, .NOTEQ, .LT, .GT, .LTE, .GTE, .ADD, .SUBTRACT, .MULTIPLY, .DIVIDE].map
      tokenPrecedence = [2, 2, 3, 3, 3, 3, 4, 4, 5, 5] := by
  refine ⟨?_, by decide⟩
  generalize hinp : a ++ [32] ++ o1.1 ++ [32] ++ b ++ [32] ++ o2.1 ++ [32] ++ c = inp
  have hop : ∀ o ∈ binaryOperators, (∀ x ∈ o.1, x ≠ 10) ∧ Parser.isInfixOperator o.2 = true := by
    decide
  have hid : ∀ w, isIdentifierText w → ∀ x ∈ w, x ≠ 10 := fun w hw x hx =>
    (identifierByte_facts (hw.2.1 x hx)).2.2.2.2.2.2.2.2.2.2.2.2.2.2.2.2.2.2.2
  have hnl : ∀ x ∈ inp, x ≠ 10 := by
    subst hinp
    intro x hx
    simp only [List.mem_append, List.mem_singleton] at hx
    rcases hx with ((((((((hx | hx) | hx) | hx) | hx) | hx) | hx) | hx) | hx)
    · exact hid a ha x hx
    · subst hx; decide
    · exact (hop o1 h1).1 x hx
    · subst hx; decide
    · exact hid b hb x hx
    · subst hx; decide
    · exact (hop o2 h2).1 x hx
    · subst hx; decide
    · exact hid c hc x hx
  have hlen : inp.length = a.length + 1 + o1.1.length + 1 + b.length + 1 + o2.1.length + 1 +
      c.length := by
    subst hinp; simp; omega
  -- the seven calls of `NextToken`
  have t0 : (lexAt inp 0).NextToken = (tokenAt .IDENTIFIER a 0, lexAt inp a.length) := by
    have e : inp = a ++ (32 :: (o1.1 ++ [32] ++ b ++ [32] ++ o2.1 ++ [32] ++ c)) := by
      subst hinp; simp
    rw [e] at hnl ⊢
    exact NextToken_identifier_first a _ hnl ha (Or.inr ⟨_, rfl⟩)
  have t1 : (lexAt inp a.length).NextToken =
      (tokenAt o1.2 o1.1 (a.length + 1), lexAt inp (a.length + 1 + o1.1.length)) := by
    have e : inp = a ++ ([32] ++ (o1.1 ++ (32 :: (b ++ [32] ++ o2.1 ++ [32] ++ c)))) := by
      subst hinp; simp
    rw [e] at hnl ⊢
    exact NextToken_operator_seg a _ o1 h1 hnl
  have t2 : (lexAt inp (a.length + 1 + o1.1.length)).NextToken =
      (tokenAt .IDENTIFIER b (a.length + 1 + o1.1.length + 1),
        lexAt inp (a.length + 1 + o1.1.length + 1 + b.length)) := by
    have e : inp = (a ++ [32] ++ o1.1) ++ ([32] ++ (b ++ (32 :: (o2.1 ++ [32] ++ c)))) := by
      subst hinp; simp
    have hl : (a ++ [32] ++ o1.1).length = a.length + 1 + o1.1.length := by simp; omega
    rw [e] at hnl ⊢
    rw [← hl]
    exact NextToken_identifier_seg _ b _ hnl hb (Or.inr ⟨_, rfl⟩)
  have t3 : (lexAt inp (a.length + 1 + o1.1.length + 1 + b.length)).NextToken =
      (tokenAt o2.2 o2.1 (a.length + 1 + o1.1.length + 1 + b.length + 1),
        lexAt inp (a.length + 1 + o1.1.length + 1 + b.length + 1 + o2.1.length)) := by
    have e : inp = (a ++ [32] ++ o1.1 ++ [32] ++ b) ++ ([32] ++ (o2.1 ++ (32 :: c))) := by
      subst hinp; simp
    have hl : (a ++ [32] ++ o1.1 ++ [32] ++ b).length =
        a.length + 1 + o1.1.length + 1 + b.length := by simp; omega
    rw [e] at hnl ⊢
    rw [← hl]
    exact NextToken_operator_seg _ _ o2 h2 hnl
  have t4 : (lexAt inp (a.length + 1 + o1.1.length + 1 + b.length + 1 + o2.1.length)).NextToken =
      (tokenAt .IDENTIFIER c (a.length + 1 + o1.1.length + 1 + b.length + 1 + o2.1.length + 1),
        lexAt inp inp.length) := by
    have e : inp = (a ++ [32] ++ o1.1 ++ [32] ++ b ++ [32] ++ o2.1) ++ ([32] ++ (c ++ [])) := by
      subst hinp; simp
    have hl : (a ++ [32] ++ o1.1 ++ [32] ++ b ++ [32] ++ o2.1).length =
        a.length + 1 + o1.1.length + 1 + b.length + 1 + o2.1.length := by simp; omega
    have hl2 : inp.length = (a ++ [32] ++ o1.1 ++ [32] ++ b ++ [32] ++ o2.1).length + 1 +
        c.length := by rw [hl, hlen]
    rw [hl2]
    rw [e] at hnl ⊢
    rw [← hl]
    exact NextToken_identifier_seg _ c [] hnl hc (Or.inl rfl)
  have t5 := NextToken_eof inp hnl inp.length le_rfl
  have t6 := NextToken_eof inp hnl (inp.length + 1) (Nat.le_succ _)
  have hparse := parse_two_operators _ _ _ _ _ _ _ _ _ _ _ _ _ _ _ t0 t1 t2 t3 t4 t5 t6
    rfl rfl rfl (hop o1 h1).2 (hop o2 h2).2 rfl inp.length
  simp only [Parse, NewLexer_eq inp hnl, hparse, Parser.Errors]
  rfl

/-- C2 at `a + b * c` (the tighter second operator nests to the right) and at `a - b + c`
(equal precedence nests to the left). -/
theorem binary_operators_witness :
    isIdentifierText (str "a") ∧ isIdentifierText (str "b") ∧ isIdentifierText (str "c") ∧
    (str "+", TokenType.ADD) ∈ binaryOperators ∧ (str "*", TokenType.MULTIPLY) ∈ binaryOperators ∧
    (str "-", TokenType.SUBTRACT) ∈ binaryOperators ∧
    Parse (str "a + b * c") =
      some (⟨[.expressionStatement ⟨.IDENTIFIER, str "a", 1, 1⟩
        (.infixExpression ⟨.ADD, str "+", 1, 3⟩ (.identifier ⟨.IDENTIFIER, str "a", 1, 1⟩)
          (.infixExpression ⟨.MULTIPLY, str "*", 1, 7⟩ (.identifier ⟨.IDENTIFIER, str "b", 1, 5⟩)
            (.identifier ⟨.IDENTIFIER, str "c", 1, 9⟩)))]⟩, []) ∧
    Parse (str "a - b + c") =
      some (⟨[.expressionStatement ⟨.IDENTIFIER, str "a", 1, 1⟩
        (.infixExpression ⟨.ADD, str "+", 1, 7⟩
          (.infixExpression ⟨.SUBTRACT, str "-", 1, 3⟩ (.identifier ⟨.IDENTIFIER, str "a", 1, 1⟩)
            (.identifier ⟨.IDENTIFIER, str "b", 1, 5⟩))
          (.identifier ⟨.IDENTIFIER, str "c", 1, 9⟩))]⟩, []) :=
  ⟨by decide, by decide, by decide, by decide, by decide, by decide,
    (binary_operators_nest_by_precedence (str "a") (str "b") (str "c") (str "+", .ADD)
      (str "*", .MULTIPLY) (by decide) (by decide) (by decide) (by decide) (by decide)).1,
    (binary_operators_nest_by_precedence (str "a") (str "b") (str "c") (str "-", .SUBTRACT)
      (str "+", .ADD) (by decide) (by decide) (by decide) (by decide) (by decide)).1⟩

/-! ### C3: a return statement ends the program -/

/-- C3. If the statements before the k-th top-level statement evaluate without an error
or a return, and the k-th statement is a `return e` whose `e` evaluates to the non-error
value `v`, or an if-expression statement whose taken blocks reach such a return at any
nesting depth, then with enough fuel `Eval` of the program returns `v` itself, in the state
left by that return: no later statement is evaluated. The two programs of the tests yield
the integers 44 and 10. -/
theorem return_ends_program (env : Nat) (p : Program) (pre post : List Statement)
    (s : Statement) (st st1 st2 : EvalState) (v : Value)
    (hp : p.statements = pre ++ s :: post) (hpre : RunsThrough env pre st st1)
    (hs : ReachesReturn env s st1 v st2) :
    Evals (.program p) env st v st2 ∧
    result (Run 10 (str "var foo = 6 * 7; return foo + 2; 6;")) = some (some (.objInteger 10 44)) ∧
    result (Run 10 (str ("var foo = 6 * 7; if (true) \x7b if (true) \x7b return 10; \x7d \x7d 6;")))
      = some (some (.objInteger 9 10)) := by
  refine ⟨?_, by rfl, by rfl⟩
  obtain ⟨a, hret⟩ := hs.evals
  obtain ⟨N1, h1⟩ := hpre.loops
  obtain ⟨N2, h2⟩ := hret.at_least
  refine ⟨max N1 N2 + 1, ?_⟩
  obtain ⟨r', hl, _⟩ := h1 (max N1 N2) (le_max_left _ _) (s :: post) none
  rw [Eval_succ]
  simp only [evalNode, evalProgram, hp, hl]
  simp [evalProgramLoop, h2 _ (le_max_right _ _)]

/-- C3 at the program `1; return 5; 6;` in a new top-level environment. -/
theorem return_ends_program_witness :
    RunsThrough 0
      [.expressionStatement ⟨.INTEGER, str "1", 1, 1⟩ (.integerLiteral ⟨.INTEGER, str "1", 1, 1⟩ 1)]
      ⟨[⟨[], none⟩], 6, []⟩ ⟨[⟨[], none⟩], 7, []⟩ ∧
    ReachesReturn 0
      (.returnStatement ⟨.RETURN, str "return", 1, 4⟩ (.integerLiteral ⟨.INTEGER, str "5", 1, 11⟩ 5))
      ⟨[⟨[], none⟩], 7, []⟩ (some (.objInteger 7 5)) ⟨[⟨[], none⟩], 9, []⟩ ∧
    Evals (.program ⟨[
        .expressionStatement ⟨.INTEGER, str "1", 1, 1⟩ (.integerLiteral ⟨.INTEGER, str "1", 1, 1⟩ 1),
        .returnStatement ⟨.RETURN, str "return", 1, 4⟩ (.integerLiteral ⟨.INTEGER, str "5", 1, 11⟩ 5),
        .expressionStatement ⟨.INTEGER, str "6", 1, 14⟩
          (.integerLiteral ⟨.INTEGER, str "6", 1, 14⟩ 6)]⟩)
      0 ⟨[⟨[], none⟩], 6, []⟩ (some (.objInteger 7 5)) ⟨[⟨[], none⟩], 9, []⟩ :=
  have hpre : RunsThrough 0
      [.expressionStatement ⟨.INTEGER, str "1", 1, 1⟩ (.integerLiteral ⟨.INTEGER, str "1", 1, 1⟩ 1)]
      ⟨[⟨[], none⟩], 6, []⟩ ⟨[⟨[], none⟩], 7, []⟩ :=
    RunsThrough.cons ⟨2, rfl⟩ rfl rfl (RunsThrough.nil _)
  have hs : ReachesReturn 0
      (.returnStatement ⟨.RETURN, str "return", 1, 4⟩ (.integerLiteral ⟨.INTEGER, str "5", 1, 11⟩ 5))
      ⟨[⟨[], none⟩], 7, []⟩ (some (.objInteger 7 5)) ⟨[⟨[], none⟩], 9, []⟩ :=
    @ReachesReturn.direct 0 _ _ _ ⟨[⟨[], none⟩], 8, []⟩ _ ⟨1, rfl⟩ rfl
  ⟨hpre, hs, (return_ends_program 0 _ _
    [.expressionStatement ⟨.INTEGER, str "6", 1, 14⟩ (.integerLiteral ⟨.INTEGER, str "6", 1, 14⟩ 6)]
    _ _ _ _ _ rfl hpre hs).1⟩

/-! ### C4: errors reach the top level -/

/-- C4. If, during the evaluation of a node (in particular of a program) in any
environment, a call of `Eval` at any depth or a call of a built-in returns an error object,
then with enough fuel the outermost `Eval` returns that same error object, in the state in
which it was returned: every site hands an error up at once, and nothing is evaluated after
it. -/
theorem errors_reach_the_top (node : Node) (env : Nat) (st st' : EvalState) (e : Value)
    (h : Raises node env st e st') : Obj.isError e = true ∧ Evals node env st e st' := by
  induction h with
  | self hev he => exact ⟨he, hev⟩
  | @builtin token function arguments env st st1 st2 st3 a b args e hf hargs hcall he =>
    refine ⟨he, ?_⟩
    obtain ⟨N1, h1⟩ := hf.at_least
    obtain ⟨N2, h2⟩ := hargs.loop
    refine ⟨max N1 N2 + 1, ?_⟩
    have hl := h2 _ (le_max_right N1 N2) [] []
    simp only [List.append_nil, List.nil_append] at hl
    rw [Eval_succ]
    simp only [evalNode, evalExpressions, h1 _ (le_max_left _ _), hl, evalExpressionsLoop,
      Obj.isError, Bool.false_eq_true, if_false, applyFunction, hcall]
  | nested hcalls _ ih => exact ⟨ih.1, hcalls.propagates ih.2 ih.1⟩

/-- C4 at the program `bar` in a new top-level environment: the error of the identifier
is the result of the program. -/
theorem errors_reach_the_top_witness :
    Raises (.program ⟨[.expressionStatement ⟨.IDENTIFIER, str "bar", 1, 1⟩
        (.identifier ⟨.IDENTIFIER, str "bar", 1, 1⟩)]⟩) 0 ⟨[⟨[], none⟩], 6, []⟩
      (some (.objError 6 (str "line 1 col 1: identifier 'bar' not found")))
      ⟨[⟨[], none⟩], 7, []⟩ ∧
    Evals (.program ⟨[.expressionStatement ⟨.IDENTIFIER, str "bar", 1, 1⟩
        (.identifier ⟨.IDENTIFIER, str "bar", 1, 1⟩)]⟩) 0 ⟨[⟨[], none⟩], 6, []⟩
      (some (.objError 6 (str "line 1 col 1: identifier 'bar' not found")))
      ⟨[⟨[], none⟩], 7, []⟩ :=
  have h : Raises (.program ⟨[.expressionStatement ⟨.IDENTIFIER, str "bar", 1, 1⟩
        (.identifier ⟨.IDENTIFIER, str "bar", 1, 1⟩)]⟩) 0 ⟨[⟨[], none⟩], 6, []⟩
      (some (.objError 6 (str "line 1 col 1: identifier 'bar' not found")))
      ⟨[⟨[], none⟩], 7, []⟩ :=
    Raises.nested (@Calls.program_statement _ [] [] _ _ _ _ rfl (RunsThrough.nil _))
      (Raises.nested Calls.expression_statement (Raises.self ⟨1, rfl⟩ rfl))
  ⟨h, (errors_reach_the_top _ _ _ _ _ h).2⟩

/-! ### C5: lexical scoping -/

set_option maxRecDepth 100000 in
/-- C5. Evaluating a function literal in the environment `E` yields a function object that
holds `E`. A call expression evaluated in any environment `C`, whose callee evaluates to
that object and whose arguments match its parameters, evaluates the body in the new
environment at address `st.envs.length`, whose parent is `E`; there a name that is not a
parameter resolves exactly as it does in `E`, so never through `C`. The program with the
functions `f` and `g` yields the outer `x`, the integer 1, and a function returned from
another function still reads that function's local after the call returned. -/
theorem lexical_scoping (n : Nat) (token : Token) (parameters : List Identifier)
    (body : BlockStatement) (E : Nat) (st : EvalState) :
    Eval (n + 1) (.expression (.functionExpression token parameters body)) E st =
      .ok (some (.objFunction st.nextAddr parameters body E)) st.alloc ∧
    (∀ (C : Nat) (tok : Token) (fexpr : Expr) (argexprs : List Expr) (a : Nat)
        (args : List Value) (st0 st1 : EvalState),
      Eval n (.expression fexpr) C st0 = .ok (some (.objFunction a parameters body E)) st1 →
      evalExpressions (Eval n) argexprs C st1 = .ok (args, true) st →
      args.length = parameters.length →
      Eval (n + 1) (.expression (.callExpression tok fexpr argexprs)) C st0 =
        unwrapReturn (Eval n (.block body) st.envs.length (callState st parameters args E))) ∧
    (∀ args : List Value,
      ((callState st parameters args E).envs.get? st.envs.length).map (fun e => e.outer) =
        some (some E)) ∧
    (∀ (args : List Value) (key : Bytes), st.WellFormed → E < st.envs.length →
      (∀ p ∈ parameters, p.token.Literal ≠ key) →
      (callState st parameters args E).get st.envs.length key = st.get E key) ∧
    result (Run 10 (str ("var x = 1; var f = func() \x7b x \x7d; " ++
      "var g = func() \x7b var x = 2; f() \x7d; g()"))) = some (some (.objInteger 6 1)) ∧
    result (Run 10 (str ("var mk = func() \x7b var y = 5; func() \x7b y \x7d \x7d; " ++
      "var h = mk(); h()"))) = some (some (.objInteger 7 5)) := by
  refine ⟨rfl, ?_, ?_, ?_, by rfl, by rfl⟩
  · intro C tok fexpr argexprs a args st0 st1 hf hargs hlen
    simp only [Eval, evalNode, hf, hargs, Obj.isError]
    exact applyFunction_function _ tok a parameters body E args st hlen
  · intro args
    rw [callState_eq]
    simp
  · intro args key hwf hE hfree
    rw [callState_eq]
    obtain ⟨envs, nextAddr, output⟩ := st
    rw [get_fresh envs _ E nextAddr output key hwf hE, bindStore_other parameters key hfree]
    rfl

/-- C5 at a call environment enclosed by a top-level environment that binds `x`. -/
theorem lexical_scoping_witness :
    EvalState.WellFormed ⟨[⟨[(str "x", some (.objInteger 6 1))], none⟩], 8, []⟩ ∧
    (∀ p ∈ [(⟨⟨.IDENTIFIER, str "y", 1, 6⟩⟩ : Identifier)], p.token.Literal ≠ str "x") ∧
    (callState ⟨[⟨[(str "x", some (.objInteger 6 1))], none⟩], 8, []⟩
        [⟨⟨.IDENTIFIER, str "y", 1, 6⟩⟩] [some (.objInteger 7 2)] 0).get 1 (str "x") =
      EvalState.get ⟨[⟨[(str "x", some (.objInteger 6 1))], none⟩], 8, []⟩ 0 (str "x") :=
  have hwf : EvalState.WellFormed ⟨[⟨[(str "x", some (.objInteger 6 1))], none⟩], 8, []⟩ := by
    intro i e h o ho
    cases i with
    | zero =>
      simp only [List.get?_cons_zero, Option.some.injEq] at h
      subst h
      simp at ho
    | succ j => simp at h
  ⟨hwf, by decide,
    (lexical_scoping 0 ⟨.FUNCTION, str "func", 1, 1⟩ [⟨⟨.IDENTIFIER, str "y", 1, 6⟩⟩]
      (.mk ⟨.LBRACE, str "\x7b", 1, 9⟩ []) 0
      ⟨[⟨[(str "x", some (.objInteger 6 1))], none⟩], 8, []⟩).2.2.2.1
      [some (.objInteger 7 2)] (str "x") hwf (by decide) (by decide)⟩

/-! ### C6: arity, binding and result of a call -/

/-- C6 (counterexample). With the parameter list `x, x` and the arguments 1 and 2 the
lengths agree, yet in the call environment the name of the first parameter is bound to the
second argument, not to the first; the call `func(x, x)` with body `x`, applied to 1 and 2,
yields 2. -/
theorem repeated_parameter_keeps_last_argument :
    ([some (.objInteger 7 1), some (.objInteger 8 2)] : List Value).length =
      [(⟨⟨.IDENTIFIER, str "x", 1, 6⟩⟩ : Identifier), ⟨⟨.IDENTIFIER, str "x", 1, 9⟩⟩].length ∧
    [(⟨⟨.IDENTIFIER, str "x", 1, 6⟩⟩ : Identifier), ⟨⟨.IDENTIFIER, str "x", 1, 9⟩⟩].get? 0 =
      some ⟨⟨.IDENTIFIER, str "x", 1, 6⟩⟩ ∧
    ([some (.objInteger 7 1), some (.objInteger 8 2)] : List Value).get? 0 =
      some (some (.objInteger 7 1)) ∧
    (callState ⟨[⟨[], none⟩], 9, []⟩
        [⟨⟨.IDENTIFIER, str "x", 1, 6⟩⟩, ⟨⟨.IDENTIFIER, str "x", 1, 9⟩⟩]
        [some (.objInteger 7 1), some (.objInteger 8 2)] 0).get 1 (str "x") ≠
      some (some (.objInteger 7 1)) ∧
    result (Run 10 (str "func(x, x) \x7b x \x7d(1, 2)")) = some (some (.objInteger 8 2)) := by
  refine ⟨rfl, rfl, rfl, ?_, by rfl⟩
  have h : (callState ⟨[⟨[], none⟩], 9, []⟩
      [⟨⟨.IDENTIFIER, str "x", 1, 6⟩⟩, ⟨⟨.IDENTIFIER, str "x", 1, 9⟩⟩]
      [some (.objInteger 7 1), some (.objInteger 8 2)] 0).get 1 (str "x") =
      some (some (.objInteger 8 2)) := by rfl
  rw [h]
  simp

/-- C6 (as amended). For a function object with n parameters and an argument list of
length m: if m != n, `applyFunction` returns an error containing "wrong number of arguments"
whatever the evaluator does with the body, which is therefore not evaluated; if m = n, in
the call environment the name of the i-th parameter is bound to the i-th argument whenever
no later parameter has the same name (a repeated name keeps the argument of its last
occurrence), and the result of the call is the result of the body evaluated there, with a
return-wrapper replaced by its inner value and any other result returned as it is. -/
theorem apply_function_arity_and_binding (n : Nat) (token : Token) (a : Nat)
    (parameters : List Identifier) (body : BlockStatement) (fenv : Nat) (args : List Value)
    (st : EvalState) :
    (args.length ≠ parameters.length →
      ∀ ev : Ev, ∃ msg,
        applyFunction ev token (some (.objFunction a parameters body fenv)) args st =
          .ok (some (.objError st.nextAddr msg)) st.alloc ∧
        Contains msg (str "wrong number of arguments")) ∧
    (args.length = parameters.length →
      (∀ i p v, parameters.get? i = some p → args.get? i = some v →
        (∀ j q, i < j → parameters.get? j = some q → q.token.Literal ≠ p.token.Literal) →
        (callState st parameters args fenv).get st.envs.length p.token.Literal = some v) ∧
      applyFunction (Eval n) token (some (.objFunction a parameters body fenv)) args st =
        unwrapReturn (Eval n (.block body) st.envs.length (callState st parameters args fenv))) := by
  constructor
  · intro h ev
    exact ⟨position token ++ str "wrong number of arguments",
      by simp [applyFunction, h, newError], contains_suffix _ _⟩
  · intro h
    refine ⟨?_, applyFunction_function _ token a parameters body fenv args st h⟩
    intro i p v hp hv hlast
    rw [callState_eq]
    simp only [EvalState.get, List.length_append, List.length_singleton, EvalState.getLoop,
      List.get?_eq_getElem?, List.getElem?_concat_length]
    rw [bindStore_last_occurrence parameters args [] i p v hp hv hlast]

/-- C6 (as amended) at the parameters `x, y` with the arguments 1 and 2, and at no
parameters with two arguments. -/
theorem apply_function_witness :
    ([some (.objInteger 7 1), some (.objInteger 8 2)] : List Value).length ≠
      ([] : List Identifier).length ∧
    ([some (.objInteger 7 1), some (.objInteger 8 2)] : List Value).length =
      [(⟨⟨.IDENTIFIER, str "x", 1, 6⟩⟩ : Identifier), ⟨⟨.IDENTIFIER, str "y", 1, 9⟩⟩].length ∧
    (∃ msg, applyFunction (Eval 0) ⟨.LPAREN, str "(", 1, 24⟩
        (some (.objFunction 6 [] (.mk ⟨.LBRACE, str "\x7b", 1, 18⟩ []) 0))
        [some (.objInteger 7 1), some (.objInteger 8 2)] ⟨[⟨[], none⟩], 9, []⟩ =
        .ok (some (.objError 9 msg)) ⟨[⟨[], none⟩], 10, []⟩ ∧
      Contains msg (str "wrong number of arguments")) ∧
    (callState ⟨[⟨[], none⟩], 9, []⟩
        [⟨⟨.IDENTIFIER, str "x", 1, 6⟩⟩, ⟨⟨.IDENTIFIER, str "y", 1, 9⟩⟩]
        [some (.objInteger 7 1), some (.objInteger 8 2)] 0).get 1 (str "x") =
      some (some (.objInteger 7 1)) :=
  ⟨by decide, by decide,
    (apply_function_arity_and_binding 0 ⟨.LPAREN, str "(", 1, 24⟩ 6 []
      (.mk ⟨.LBRACE, str "\x7b", 1, 18⟩ []) 0 [some (.objInteger 7 1), some (.objInteger 8 2)]
      ⟨[⟨[], none⟩], 9, []⟩).1 (by decide) (Eval 0),
    ((apply_function_arity_and_binding 0 ⟨.LPAREN, str "(", 1, 12⟩ 6
      [⟨⟨.IDENTIFIER, str "x", 1, 6⟩⟩, ⟨⟨.IDENTIFIER, str "y", 1, 9⟩⟩]
      (.mk ⟨.LBRACE, str "\x7b", 1, 14⟩ []) 0 [some (.objInteger 7 1), some (.objInteger 8 2)]
      ⟨[⟨[], none⟩], 9, []⟩).2 (by decide)).1 0 ⟨⟨.IDENTIFIER, str "x", 1, 6⟩⟩
      (some (.objInteger 7 1)) rfl rfl
      (by
        intro j q hj hq
        cases j with
        | zero => exact absurd hj (by decide)
        | succ j =>
          cases j with
          | zero =>
            simp only [List.get?_cons_succ, List.get?_cons_zero, Option.some.injEq] at hq
            subst hq
            decide
          | succ j => simp at hq)⟩

/-! ### C7: equality of operands that are neither both numeric nor both strings -/

set_option maxRecDepth 100000 in
/-- C7. Every pair of operands of `==` and `!=`, present or absent. For two present operands
that are not both numeric and not both strings, `==` returns the true singleton exactly when
the operands are the same object instance and the false singleton otherwise, `!=` returns
the opposite, and neither returns an error; two array literals evaluated separately compare
unequal, an array compares equal to itself, and `1 == 1` is true by value. With an absent
left operand, whatever the right one, and with an absent right operand next to a number or a
string, `evalInfixExpression` panics on `objectType`; an absent right operand next to any
other present operand compares unequal. The programs `1 == if (true) {}` and
`if (true) {} != [1]` parse without diagnostics and reach these panics, where the claim
promises a boolean. -/
theorem identity_equality (ty : TokenType) (ln cn : Int) (l r : Obj) (st : EvalState) :
    (¬ (l.isNumeric = true ∧ r.isNumeric = true) → ¬ (l.isString = true ∧ r.isString = true) →
      evalInfixExpression ⟨ty, str "==", ln, cn⟩ (some l) (some r) st =
          .ok (some (if l.sameInstance r then objectTrue else objectFalse)) st ∧
      evalInfixExpression ⟨ty, str "!=", ln, cn⟩ (some l) (some r) st =
          .ok (some (if l.sameInstance r then objectFalse else objectTrue)) st) ∧
    (∀ right : Value,
      evalInfixExpression ⟨ty, str "==", ln, cn⟩ none right st = .panic ∧
      evalInfixExpression ⟨ty, str "!=", ln, cn⟩ none right st = .panic) ∧
    (l.isNumeric = true ∨ l.isString = true →
      evalInfixExpression ⟨ty, str "==", ln, cn⟩ (some l) none st = .panic ∧
      evalInfixExpression ⟨ty, str "!=", ln, cn⟩ (some l) none st = .panic) ∧
    (l.isNumeric = false → l.isString = false →
      evalInfixExpression ⟨ty, str "==", ln, cn⟩ (some l) none st = .ok (some objectFalse) st ∧
      evalInfixExpression ⟨ty, str "!=", ln, cn⟩ (some l) none st = .ok (some objectTrue) st) ∧
    result (Run 10 (str "[] == [];")) = some (some objectFalse) ∧
    result (Run 10 (str "var a = []; a == a")) = some (some objectTrue) ∧
    result (Run 10 (str "1 == 1")) = some (some objectTrue) ∧
    (Parse (str "1 == if (true) \x7b\x7d")).map (fun x => x.2) = some [] ∧
    Run 10 (str "1 == if (true) \x7b\x7d") = some .panic ∧
    (Parse (str "if (true) \x7b\x7d != [1]")).map (fun x => x.2) = some [] ∧
    Run 10 (str "if (true) \x7b\x7d != [1]") = some .panic ∧
    Run 10 (str "\"a\" == func()\x7b\x7d()") = some .panic ∧
    result (Run 10 (str "true == if (true) \x7b\x7d")) = some (some objectFalse) := by
  have same_iff : Obj.same (some l) (some r) = decide (l.sameInstance r) := by
    rw [Bool.eq_iff_iff]; simp [Obj.same, Obj.sameInstance]
  refine ⟨?_, fun _ => ⟨rfl, rfl⟩, ?_, ?_, by rfl, by rfl, by rfl, by rfl, by rfl, by rfl, by rfl,
    by rfl, by rfl⟩
  · intro hn hs
    constructor
    · have h : evalInfixExpression ⟨ty, str "==", ln, cn⟩ (some l) (some r) st =
          .ok (some (evalBoolean (Obj.same (some l) (some r)))) st := by
        cases l <;> cases r <;>
          first | rfl | (exfalso; first | exact hn ⟨rfl, rfl⟩ | exact hs ⟨rfl, rfl⟩)
      rw [h, same_iff, evalBoolean_decide]
    · have h : evalInfixExpression ⟨ty, str "!=", ln, cn⟩ (some l) (some r) st =
          .ok (some (evalBoolean (!Obj.same (some l) (some r)))) st := by
        cases l <;> cases r <;>
          first | rfl | (exfalso; first | exact hn ⟨rfl, rfl⟩ | exact hs ⟨rfl, rfl⟩)
      rw [h, same_iff]
      by_cases hh : l.sameInstance r <;> simp [hh, evalBoolean]
  · intro h
    cases l <;> first | exact ⟨rfl, rfl⟩ | (simp [Obj.isNumeric, Obj.isString] at h)
  · intro h1 h2
    cases l <;> first | exact ⟨rfl, rfl⟩ | (simp [Obj.isNumeric] at h1; done) |
      (simp [Obj.isString] at h2)

/-- C7 at two distinct arrays, which are not the same instance, so that `==` is false, and
at the integer 1 next to an absent right operand, where `==` panics. -/
theorem identity_equality_witness :
    ¬ ((Obj.objArray 6 []).isNumeric = true ∧ (Obj.objArray 7 []).isNumeric = true) ∧
    ¬ ((Obj.objArray 6 []).isString = true ∧ (Obj.objArray 7 []).isString = true) ∧
    evalInfixExpression ⟨.EQ, str "==", 1, 4⟩ (some (.objArray 6 [])) (some (.objArray 7 []))
      ⟨[], 8, []⟩ = .ok (some objectFalse) ⟨[], 8, []⟩ ∧
    ((Obj.objInteger 6 1).isNumeric = true ∨ (Obj.objInteger 6 1).isString = true) ∧
    evalInfixExpression ⟨.EQ, str "==", 1, 3⟩ (some (.objInteger 6 1)) none
      ⟨[⟨[], none⟩], 7, []⟩ = .panic :=
  ⟨by decide, by decide,
    ((identity_equality .EQ 1 4 (.objArray 6 []) (.objArray 7 []) ⟨[], 8, []⟩).1
      (by decide) (by decide)).1,
    Or.inl (by decide),
    ((identity_equality .EQ 1 3 (.objInteger 6 1) (.objInteger 6 1)
      ⟨[⟨[], none⟩], 7, []⟩).2.2.1 (Or.inl (by decide))).1⟩

/-! ### C8: integer arithmetic -/

/-- C8. On two integer objects holding 64-bit values, `+`, `-` and `*` yield an integer
object holding the exact result reduced to signed 64-bit two's complement, and `/` with a
non-zero divisor yields an integer object holding the quotient truncated toward zero,
reduced likewise; the reduction is the identity unless the dividend is the minimum and
the divisor is -1, where it gives the minimum again. -/
theorem integer_arithmetic (ty : TokenType) (ln cn : Int) (x y : Nat) (a b : Int)
    (st : EvalState) (ha : isInt64 a) (_hb : isInt64 b) :
    evalInfixExpression ⟨ty, str "+", ln, cn⟩ (some (.objInteger x a)) (some (.objInteger y b)) st
      = .ok (some (.objInteger st.nextAddr (wrap64 (a + b)))) st.alloc ∧
    evalInfixExpression ⟨ty, str "-", ln, cn⟩ (some (.objInteger x a)) (some (.objInteger y b)) st
      = .ok (some (.objInteger st.nextAddr (wrap64 (a - b)))) st.alloc ∧
    evalInfixExpression ⟨ty, str "*", ln, cn⟩ (some (.objInteger x a)) (some (.objInteger y b)) st
      = .ok (some (.objInteger st.nextAddr (wrap64 (a * b)))) st.alloc ∧
    (b ≠ 0 →
      evalInfixExpression ⟨ty, str "/", ln, cn⟩ (some (.objInteger x a)) (some (.objInteger y b)) st
        = .ok (some (.objInteger st.nextAddr (wrap64 (Int.tdiv a b)))) st.alloc ∧
      (¬ (a = minInt64 ∧ b = -1) → wrap64 (Int.tdiv a b) = Int.tdiv a b)) ∧
    (∀ z : Int, isInt64 (wrap64 z) ∧ (2 ^ 64 : Int) ∣ (wrap64 z - z)) ∧
    wrap64 (Int.tdiv (-7) 2) = -3 ∧
    wrap64 (Int.tdiv minInt64 (-1)) = minInt64 := by
  refine ⟨rfl, rfl, rfl, ?_, fun z => ⟨wrap64_range z, wrap64_congruent z⟩, by decide, by decide⟩
  intro hb0
  constructor
  · have h : evalInfixExpression ⟨ty, str "/", ln, cn⟩ (some (.objInteger x a))
        (some (.objInteger y b)) st =
        if b = 0 then newError (position ⟨ty, str "/", ln, cn⟩ ++ str "invalid division by zero") st
        else .ok (some (.objInteger st.nextAddr (wrap64 (Int.tdiv a b)))) st.alloc := rfl
    rw [h, if_neg hb0]
  · intro hm
    exact wrap64_of_range _ (tdiv_in_range a b ha hb0 hm)

/-- C8 at 9223372036854775807 and 2: the sum wraps, the quotient is exact. -/
theorem integer_arithmetic_witness :
    isInt64 9223372036854775807 ∧ isInt64 2 ∧ (2 : Int) ≠ 0 ∧
    evalInfixExpression ⟨.ADD, str "+", 1, 3⟩ (some (.objInteger 6 9223372036854775807))
      (some (.objInteger 7 2)) ⟨[], 8, []⟩ =
      .ok (some (.objInteger 8 (-9223372036854775807))) ⟨[], 9, []⟩ ∧
    evalInfixExpression ⟨.DIVIDE, str "/", 1, 3⟩ (some (.objInteger 6 9223372036854775807))
      (some (.objInteger 7 2)) ⟨[], 8, []⟩ =
      .ok (some (.objInteger 8 4611686018427387903)) ⟨[], 9, []⟩ :=
  ⟨by decide, by decide, by decide,
    (integer_arithmetic .ADD 1 3 6 7 9223372036854775807 2 ⟨[], 8, []⟩ (by decide) (by decide)).1,
    ((integer_arithmetic .DIVIDE 1 3 6 7 9223372036854775807 2 ⟨[], 8, []⟩ (by decide)
      (by decide)).2.2.2.1 (by decide)).1⟩

/-! ### C9: division by zero -/

/-- C9. With a numeric left operand and a right operand that is the integer 0 or a float
equal to zero, `/` returns an error object whose message contains
"invalid division by zero". -/
theorem division_by_zero_is_an_error (ty : TokenType) (ln cn : Int) (left right : Obj)
    (st : EvalState) (hl : left.isNumeric = true)
    (hr : (∃ y, right = .objInteger y 0) ∨
      (∃ y f, right = .objFloat y f ∧ f.eq F64.zero = true)) :
    ∃ msg, evalInfixExpression ⟨ty, str "/", ln, cn⟩ (some left) (some right) st =
        .ok (some (.objError st.nextAddr msg)) st.alloc ∧
      Contains msg (str "invalid division by zero") := by
  refine ⟨position ⟨ty, str "/", ln, cn⟩ ++ str "invalid division by zero", ?_,
    contains_suffix _ _⟩
  cases left <;> simp [Obj.isNumeric] at hl
  · rcases hr with ⟨y, rfl⟩ | ⟨y, f, rfl, hf⟩
    · rfl
    · have h : ∀ x a, evalInfixExpression ⟨ty, str "/", ln, cn⟩ (some (.objInteger x a))
          (some (.objFloat y f)) st =
          if f.eq F64.zero then
            newError (position ⟨ty, str "/", ln, cn⟩ ++ str "invalid division by zero") st
          else .ok (some (.objFloat st.nextAddr ((F64.ofInt a).div f))) st.alloc :=
        fun _ _ => rfl
      rw [h, if_pos hf]; rfl
  · rcases hr with ⟨y, rfl⟩ | ⟨y, f, rfl, hf⟩
    · rfl
    · have h : ∀ x a, evalInfixExpression ⟨ty, str "/", ln, cn⟩ (some (.objFloat x a))
          (some (.objFloat y f)) st =
          if f.eq F64.zero then
            newError (position ⟨ty, str "/", ln, cn⟩ ++ str "invalid division by zero") st
          else .ok (some (.objFloat st.nextAddr (a.div f))) st.alloc :=
        fun _ _ => rfl
      rw [h, if_pos hf]; rfl

/-- C9 at the integer 64 divided by the float negative zero. -/
theorem division_by_zero_witness :
    (Obj.objInteger 6 64).isNumeric = true ∧ (F64.fin true 0 0).eq F64.zero = true ∧
    ∃ msg, evalInfixExpression ⟨.DIVIDE, str "/", 1, 23⟩ (some (.objInteger 6 64))
        (some (.objFloat 7 (.fin true 0 0))) ⟨[], 8, []⟩ =
        .ok (some (.objError 8 msg)) ⟨[], 9, []⟩ ∧
      Contains msg (str "invalid division by zero") :=
  ⟨by decide, by decide,
    division_by_zero_is_an_error .DIVIDE 1 23 (.objInteger 6 64) (.objFloat 7 (.fin true 0 0))
      ⟨[], 8, []⟩ (by decide) (Or.inr ⟨7, .fin true 0 0, rfl, by decide⟩)⟩

/-! ### C10: operators on two strings -/

/-- C10. On two string objects `+` yields the string object holding the concatenation,
`==` and `!=` yield the boolean singletons for equality and inequality of the contents, and
each of `-`, `*`, `/`, `<`, `>`, `<=`, `>=` yields an error containing "unknown operator". -/
theorem string_operators (ty : TokenType) (ln cn : Int) (x y : Nat) (s t : Bytes)
    (st : EvalState) :
    evalInfixExpression ⟨ty, str "+", ln, cn⟩ (some (.objString x s)) (some (.objString y t)) st =
        .ok (some (.objString st.nextAddr (s ++ t))) st.alloc ∧
    evalInfixExpression ⟨ty, str "==", ln, cn⟩ (some (.objString x s)) (some (.objString y t)) st =
        .ok (some (if s = t then objectTrue else objectFalse)) st ∧
    evalInfixExpression ⟨ty, str "!=", ln, cn⟩ (some (.objString x s)) (some (.objString y t)) st =
        .ok (some (if s = t then objectFalse else objectTrue)) st ∧
    ∀ op ∈ [str "-", str "*", str "/", str "<", str ">", str "<=", str ">="],
      ∃ msg, evalInfixExpression ⟨ty, op, ln, cn⟩ (some (.objString x s)) (some (.objString y t))
          st = .ok (some (.objError st.nextAddr msg)) st.alloc ∧
        Contains msg (str "unknown operator") := by
  refine ⟨rfl, ?_, ?_, ?_⟩
  · show Res.ok (some (evalBoolean (decide (s = t)))) st = _
    rw [evalBoolean_decide]
  · show Res.ok (some (evalBoolean (decide (s ≠ t)))) st = _
    by_cases hst : s = t <;> simp [hst, evalBoolean]
  · intro op h
    refine ⟨_, ?_, contains_unknown_operator ⟨ty, op, ln, cn⟩ (.objString x s) (.objString y t)⟩
    simp only [List.mem_cons, List.mem_singleton, List.not_mem_nil, or_false] at h
    rcases h with h | h | h | h | h | h | h <;> subst h <;> rfl

/-- C10 at the operator `<` on the strings "foo" and "bar". -/
theorem string_operators_witness :
    str "<" ∈ [str "-", str "*", str "/", str "<", str ">", str "<=", str ">="] ∧
    ∃ msg, evalInfixExpression ⟨.LT, str "<", 1, 7⟩ (some (.objString 6 (str "foo")))
        (some (.objString 7 (str "bar"))) ⟨[], 8, []⟩ =
        .ok (some (.objError 8 msg)) ⟨[], 9, []⟩ ∧
      Contains msg (str "unknown operator") :=
  ⟨by decide,
    (string_operators .LT 1 7 6 7 (str "foo") (str "bar") ⟨[], 8, []⟩).2.2.2 (str "<")
      (by decide)⟩

/-! ### Truthiness -/

theorem evalPrefixExpression_not (ty : TokenType) (ln cn : Int) (x : Value) (st : EvalState) :
    evalPrefixExpression ⟨ty, str "!", ln, cn⟩ x st =
      .ok (some (if Obj.truthy x then objectFalse else objectTrue)) st := by
  have h : evalPrefixExpression ⟨ty, str "!", ln, cn⟩ x st =
      if Obj.same x (some objectFalse) || Obj.same x (some objectNull) then
        .ok (some objectTrue) st
      else .ok (some objectFalse) st := rfl
  rw [h]
  unfold Obj.truthy
  cases Obj.same x (some objectFalse) <;> cases Obj.same x (some objectNull) <;> rfl

theorem truthy_iff (x : Obj) :
    Obj.truthy (some x) = true ↔ ¬ x.sameInstance objectFalse ∧ ¬ x.sameInstance objectNull := by
  simp [Obj.truthy, Obj.same, Obj.sameInstance]
  tauto

/-! ### C11: comparison operators -/

set_option maxRecDepth 100000 in
/-- C11 (counterexample). The operands "a" and "b" are both strings and `<` is one of the
six comparison operators, yet `evalInfixExpression` returns an error object, not a boolean
singleton; so does the program `"a" < "b"`. -/
theorem string_order_is_an_error :
    (Obj.objString 6 (str "a")).isString = true ∧ (Obj.objString 7 (str "b")).isString = true ∧
    str "<" ∈ comparisonOperators ∧
    evalInfixExpression ⟨.LT, str "<", 1, 5⟩ (some (.objString 6 (str "a")))
        (some (.objString 7 (str "b"))) ⟨[⟨[], none⟩], 8, []⟩ =
      .ok (some (.objError 8 (str "line 1 col 5: unknown operator: STRING < STRING")))
        ⟨[⟨[], none⟩], 9, []⟩ ∧
    Run 10 (str "\"a\" < \"b\"") =
      some (.ok (some (.objError 8 (str "line 1 col 5: unknown operator: STRING < STRING")))
        ⟨[⟨[], none⟩], 9, []⟩) := by
  refine ⟨rfl, rfl, by decide, by rfl, by rfl⟩

/-- C11 (as amended). On two numeric operands, integer or float in any mix, each of the six
comparison operators returns one of the two boolean singletons and leaves the state as it
is; on two strings `==` and `!=` do, while `<`, `>`, `<=` and `>=` return an error object. -/
theorem comparison_operators (ty : TokenType) (ln cn : Int) (l r : Obj) (st : EvalState) :
    (l.isNumeric = true → r.isNumeric = true → ∀ op ∈ comparisonOperators,
      ∃ b : Bool, evalInfixExpression ⟨ty, op, ln, cn⟩ (some l) (some r) st =
        .ok (some (if b then objectTrue else objectFalse)) st) ∧
    (l.isString = true → r.isString = true →
      (∀ op ∈ [str "==", str "!="],
        ∃ b : Bool, evalInfixExpression ⟨ty, op, ln, cn⟩ (some l) (some r) st =
          .ok (some (if b then objectTrue else objectFalse)) st) ∧
      (∀ op ∈ [str "<", str ">", str "<=", str ">="],
        ∃ msg, evalInfixExpression ⟨ty, op, ln, cn⟩ (some l) (some r) st =
          .ok (some (.objError st.nextAddr msg)) st.alloc)) := by
  constructor
  · intro hl hr op hop
    simp only [comparisonOperators, List.mem_cons, List.mem_singleton, List.not_mem_nil,
      or_false] at hop
    cases l <;> simp [Obj.isNumeric] at hl <;> cases r <;> simp [Obj.isNumeric] at hr <;>
      rcases hop with h | h | h | h | h | h <;> subst h <;> exact ⟨_, rfl⟩
  · intro hl hr
    cases l <;> simp [Obj.isString] at hl
    cases r <;> simp [Obj.isString] at hr
    constructor
    · intro op hop
      simp only [List.mem_cons, List.mem_singleton, List.not_mem_nil, or_false] at hop
      rcases hop with h | h <;> subst h <;> exact ⟨_, rfl⟩
    · intro op hop
      simp only [List.mem_cons, List.mem_singleton, List.not_mem_nil, or_false] at hop
      rcases hop with h | h | h | h <;> subst h <;> exact ⟨_, rfl⟩

/-- C11 (as amended) at `<=` on the integer 1 and the float 2. -/
theorem comparison_operators_witness :
    (Obj.objInteger 6 1).isNumeric = true ∧ (Obj.objFloat 7 (F64.ofInt 2)).isNumeric = true ∧
    str "<=" ∈ comparisonOperators ∧
    ∃ b : Bool, evalInfixExpression ⟨.LTE, str "<=", 1, 3⟩ (some (.objInteger 6 1))
        (some (.objFloat 7 (F64.ofInt 2))) ⟨[], 8, []⟩ =
      .ok (some (if b then objectTrue else objectFalse)) ⟨[], 8, []⟩ :=
  ⟨rfl, rfl, by decide,
    (comparison_operators .LTE 1 3 (.objInteger 6 1) (.objFloat 7 (F64.ofInt 2)) ⟨[], 8, []⟩).1
      rfl rfl (str "<=") (by decide)⟩

/-! ### C12: prefix `!` on each kind of operand -/

set_option maxRecDepth 100000 in
/-- C12. Prefix `!` returns the true singleton on the false singleton and on the null
singleton, and the false singleton on every operand that is neither of the two pointers:
on every integer (0 included), float, string (the empty one included), array, function and
built-in, on the true singleton and on the nil value. The state is left as it is and the
result is never an error. Evaluating the prefix expression returns what `!` returns on the
value of its operand, and `var foo = 6 * 7; !foo;` yields false. -/
theorem not_operator (ty : TokenType) (ln cn : Int) (st : EvalState) :
    evalPrefixExpression ⟨ty, str "!", ln, cn⟩ (some objectFalse) st = .ok (some objectTrue) st ∧
    evalPrefixExpression ⟨ty, str "!", ln, cn⟩ (some objectNull) st = .ok (some objectTrue) st ∧
    (∀ x : Obj, ¬ x.sameInstance objectFalse → ¬ x.sameInstance objectNull →
      evalPrefixExpression ⟨ty, str "!", ln, cn⟩ (some x) st = .ok (some objectFalse) st) ∧
    (∀ (a : Nat) (i : Int) (f : F64) (s : Bytes) (elements : List Value)
        (parameters : List Identifier) (body : BlockStatement) (env : Nat) (b : Builtin),
      evalPrefixExpression ⟨ty, str "!", ln, cn⟩ (some (.objInteger a i)) st =
        .ok (some objectFalse) st ∧
      evalPrefixExpression ⟨ty, str "!", ln, cn⟩ (some (.objFloat a f)) st =
        .ok (some objectFalse) st ∧
      evalPrefixExpression ⟨ty, str "!", ln, cn⟩ (some (.objString a s)) st =
        .ok (some objectFalse) st ∧
      evalPrefixExpression ⟨ty, str "!", ln, cn⟩ (some (.objArray a elements)) st =
        .ok (some objectFalse) st ∧
      evalPrefixExpression ⟨ty, str "!", ln, cn⟩ (some (.objFunction a parameters body env)) st =
        .ok (some objectFalse) st ∧
      evalPrefixExpression ⟨ty, str "!", ln, cn⟩ (some (.objBuiltin a b)) st =
        .ok (some objectFalse) st) ∧
    evalPrefixExpression ⟨ty, str "!", ln, cn⟩ (some objectTrue) st = .ok (some objectFalse) st ∧
    evalPrefixExpression ⟨ty, str "!", ln, cn⟩ none st = .ok (some objectFalse) st ∧
    (∀ (n : Nat) (right : Expr) (env : Nat) (st0 : EvalState) (x : Value),
      Eval n (.expression right) env st0 = .ok x st → Obj.isError x = false →
      Eval (n + 1) (.expression (.prefixExpression ⟨ty, str "!", ln, cn⟩ right)) env st0 =
        evalPrefixExpression ⟨ty, str "!", ln, cn⟩ x st) ∧
    result (Run 10 (str "var foo = 6 * 7; !foo;")) = some (some objectFalse) ∧
    result (Run 10 (str "!0")) = some (some objectFalse) ∧
    result (Run 10 (str "!\"\"")) = some (some objectFalse) ∧
    result (Run 10 (str "![]")) = some (some objectFalse) ∧
    result (Run 10 (str "!func() \x7b\x7d")) = some (some objectFalse) ∧
    result (Run 10 (str "!false")) = some (some objectTrue) := by
  refine ⟨rfl, rfl, ?_, fun _ _ _ _ _ _ _ _ _ => ⟨rfl, rfl, rfl, rfl, rfl, rfl⟩, rfl, rfl, ?_,
    by rfl, by rfl, by rfl, by rfl, by rfl, by rfl⟩
  · intro x h1 h2
    rw [evalPrefixExpression_not, if_pos ((truthy_iff x).2 ⟨h1, h2⟩)]
  · intro n right env st0 x h hx
    rw [Eval_succ]
    simp only [evalNode, h, hx]
    rfl

/-- C12 at the integer 0, which is neither singleton, as the value of the literal `0`. -/
theorem not_operator_witness :
    ¬ (Obj.objInteger 6 0).sameInstance objectFalse ∧
    ¬ (Obj.objInteger 6 0).sameInstance objectNull ∧
    evalPrefixExpression ⟨.NEGATE, str "!", 1, 1⟩ (some (.objInteger 6 0)) ⟨[⟨[], none⟩], 7, []⟩ =
      .ok (some objectFalse) ⟨[⟨[], none⟩], 7, []⟩ :=
  ⟨by decide, by decide,
    (not_operator .NEGATE 1 1 ⟨[⟨[], none⟩], 7, []⟩).2.2.1 (.objInteger 6 0) (by decide)
      (by decide)⟩

/-! ### C13: prefix `!` and truthiness -/

set_option maxRecDepth 100000 in
/-- C13 (counterexample). The integer 5 is neither the false singleton nor the null
singleton, yet `!` returns the false singleton on it, and the program `!5` yields false;
on the false singleton, which is the other case of the claim, `!false` yields true. -/
theorem not_of_an_integer_is_false :
    ¬ (Obj.objInteger 6 5).sameInstance objectFalse ∧
    ¬ (Obj.objInteger 6 5).sameInstance objectNull ∧
    evalPrefixExpression ⟨.NEGATE, str "!", 1, 1⟩ (some (.objInteger 6 5)) ⟨[⟨[], none⟩], 7, []⟩ =
      .ok (some objectFalse) ⟨[⟨[], none⟩], 7, []⟩ ∧
    Run 10 (str "!5") = some (.ok (some objectFalse) ⟨[⟨[], none⟩], 7, []⟩) ∧
    Run 10 (str "!false") = some (.ok (some objectTrue) ⟨[⟨[], none⟩], 6, []⟩) ∧
    objectFalse.sameInstance objectFalse ∧
    (objectTrue.objectType = objectFalse.objectType ∧ objectTrue.addr ≠ objectFalse.addr) := by
  refine ⟨by decide, by decide, rfl, by rfl, by rfl, by decide, by decide⟩

/-- C13 (as amended). When the operand of a prefix `!` evaluates to an object that is not
an error, the expression evaluates to the false singleton if that object is neither the
false singleton nor the null singleton, and to the true singleton otherwise. -/
theorem not_negates_truthiness (n : Nat) (ty : TokenType) (ln cn : Int) (right : Expr)
    (env : Nat) (st st1 : EvalState) (x : Obj)
    (h : Eval n (.expression right) env st = .ok (some x) st1)
    (hx : Obj.isError (some x) = false) :
    (¬ x.sameInstance objectFalse → ¬ x.sameInstance objectNull →
      Eval (n + 1) (.expression (.prefixExpression ⟨ty, str "!", ln, cn⟩ right)) env st =
        .ok (some objectFalse) st1) ∧
    (x.sameInstance objectFalse ∨ x.sameInstance objectNull →
      Eval (n + 1) (.expression (.prefixExpression ⟨ty, str "!", ln, cn⟩ right)) env st =
        .ok (some objectTrue) st1) := by
  have hev : Eval (n + 1) (.expression (.prefixExpression ⟨ty, str "!", ln, cn⟩ right)) env st =
      .ok (some (if Obj.truthy (some x) then objectFalse else objectTrue)) st1 := by
    rw [Eval_succ, ← evalPrefixExpression_not ty ln cn (some x) st1]
    simp only [evalNode, h, hx]
    rfl
  constructor
  · intro h1 h2
    rw [hev, if_pos ((truthy_iff x).2 ⟨h1, h2⟩)]
  · intro h1
    have : ¬ Obj.truthy (some x) = true := fun ht => by
      have := (truthy_iff x).1 ht
      tauto
    rw [hev, if_neg this]

/-- C13 (as amended) at the operand `false`, whose value is the false singleton. -/
theorem not_negates_truthiness_witness :
    Eval 1 (.expression (.booleanLiteral ⟨.FALSE, str "false", 1, 2⟩ false)) 0
        ⟨[⟨[], none⟩], 6, []⟩ = .ok (some objectFalse) ⟨[⟨[], none⟩], 6, []⟩ ∧
    Obj.isError (some objectFalse) = false ∧
    (objectFalse.sameInstance objectFalse ∨ objectFalse.sameInstance objectNull) ∧
    Eval 2 (.expression (.prefixExpression ⟨.NEGATE, str "!", 1, 1⟩
        (.booleanLiteral ⟨.FALSE, str "false", 1, 2⟩ false))) 0 ⟨[⟨[], none⟩], 6, []⟩ =
      .ok (some objectTrue) ⟨[⟨[], none⟩], 6, []⟩ :=
  ⟨rfl, rfl, Or.inl (by decide),
    (not_negates_truthiness 1 .NEGATE 1 1 (.booleanLiteral ⟨.FALSE, str "false", 1, 2⟩ false) 0
      ⟨[⟨[], none⟩], 6, []⟩ ⟨[⟨[], none⟩], 6, []⟩ objectFalse rfl rfl).2 (Or.inl (by decide))⟩

/-! ### C14: if-expressions -/

set_option maxRecDepth 100000 in
/-- C14. When the condition of an if-expression evaluates to a value `c` that is not an
error: if `c` is neither the null nor the false singleton, the result is what the evaluator
returns on the consequence block from the state left by the condition, whatever the
alternative is and whatever the evaluator would do on it; otherwise the result is what the
evaluator returns on the alternative block when there is one, whatever it would do on the
consequence, and the null singleton in the state left by the condition when there is none.
In the programs below the block that is not taken would print, and nothing is printed. -/
theorem if_expression (ev : Ev) (condition : Expr) (consequence : BlockStatement) (env : Nat)
    (st st1 : EvalState) (c : Value)
    (hc : ev (.expression condition) env st = .ok c st1) (he : Obj.isError c = false) :
    (Obj.truthy c = true → ∀ alternative : Option BlockStatement,
      evalIfExpression ev condition consequence alternative env st =
        ev (.block consequence) env st1) ∧
    (Obj.truthy c = false → ∀ alt : BlockStatement,
      evalIfExpression ev condition consequence (some alt) env st = ev (.block alt) env st1) ∧
    (Obj.truthy c = false →
      evalIfExpression ev condition consequence none env st = .ok (some objectNull) st1) ∧
    (∀ x : Obj, c = some x →
      (Obj.truthy c = true ↔ ¬ x.sameInstance objectFalse ∧ ¬ x.sameInstance objectNull)) ∧
    (∀ (n : Nat) (token : Token) (alternative : Option BlockStatement),
      Eval (n + 1) (.expression (.ifExpression token condition consequence alternative)) env st =
        evalIfExpression (Eval n) condition consequence alternative env st) ∧
    Run 10 (str "if (1 < 2) \x7b 10 \x7d else \x7b print(20) \x7d") =
      some (.ok (some (.objInteger 8 10)) ⟨[⟨[], none⟩], 9, []⟩) ∧
    Run 10 (str "if (1 > 2) \x7b print(10) \x7d else \x7b 20 \x7d") =
      some (.ok (some (.objInteger 8 20)) ⟨[⟨[], none⟩], 9, []⟩) ∧
    Run 10 (str "if (1 < 2) \x7b print(20) \x7d else \x7b 10 \x7d") =
      some (.ok (some objectNull) ⟨[⟨[], none⟩], 9, [.objInteger 8 20]⟩) ∧
    Run 10 (str "if (1 > 2) \x7b print(10) \x7d") =
      some (.ok (some objectNull) ⟨[⟨[], none⟩], 8, []⟩) ∧
    result (Run 10 (str "if (0) \x7b 10 \x7d")) = some (some (.objInteger 7 10)) := by
  refine ⟨?_, ?_, ?_, ?_, fun _ _ _ => rfl, by rfl, by rfl, by rfl, by rfl, by rfl⟩
  · intro ht alternative
    unfold Obj.truthy at ht
    simp only [evalIfExpression, hc, he, ht]
    rfl
  · intro ht alt
    unfold Obj.truthy at ht
    simp only [evalIfExpression, hc, he, ht]
    rfl
  · intro ht
    unfold Obj.truthy at ht
    simp only [evalIfExpression, hc, he, ht]
    rfl
  · intro x hx
    subst hx
    exact truthy_iff x

/-- C14 at the condition `false` with an empty consequence and no alternative. -/
theorem if_expression_witness :
    Eval 1 (.expression (.booleanLiteral ⟨.FALSE, str "false", 1, 5⟩ false)) 0
        ⟨[⟨[], none⟩], 6, []⟩ = .ok (some objectFalse) ⟨[⟨[], none⟩], 6, []⟩ ∧
    Obj.isError (some objectFalse) = false ∧ Obj.truthy (some objectFalse) = false ∧
    evalIfExpression (Eval 1) (.booleanLiteral ⟨.FALSE, str "false", 1, 5⟩ false)
        (.mk ⟨.LBRACE, str "\x7b", 1, 12⟩ []) none 0 ⟨[⟨[], none⟩], 6, []⟩ =
      .ok (some objectNull) ⟨[⟨[], none⟩], 6, []⟩ :=
  ⟨rfl, rfl, rfl,
    (if_expression (Eval 1) (.booleanLiteral ⟨.FALSE, str "false", 1, 5⟩ false)
      (.mk ⟨.LBRACE, str "\x7b", 1, 12⟩ []) 0 ⟨[⟨[], none⟩], 6, []⟩ ⟨[⟨[], none⟩], 6, []⟩
      (some objectFalse) rfl rfl).2.2.1 rfl⟩

/-! ### C15: identifiers -/

theorem getLoop_bound {envs : List Environment} {key : Bytes}
    (hwf : ∀ i e, envs.get? i = some e → ∀ o, e.outer = some o → o < i) {env : Nat} {v : Value}
    (h : BoundOnChain envs key env v) :
    ∀ fuel, env < fuel → EvalState.getLoop envs key fuel env = some v := by
  induction h with
  | @here env e v he hv =>
    intro fuel hf
    cases fuel with
    | zero => omega
    | succ fuel => simp only [EvalState.getLoop, he, hv]
  | @outer env o e v he hv ho _ ih =>
    intro fuel hf
    cases fuel with
    | zero => omega
    | succ fuel =>
      have := hwf env e he o ho
      simp only [EvalState.getLoop, he, hv, ho]
      exact ih fuel (by omega)

theorem getLoop_unbound {envs : List Environment} {key : Bytes} {env : Nat}
    (h : UnboundOnChain envs key env) :
    ∀ fuel, EvalState.getLoop envs key fuel env = none := by
  induction h with
  | @last env e he hv ho =>
    intro fuel
    cases fuel with
    | zero => rfl
    | succ fuel => simp only [EvalState.getLoop, he, hv, ho]
  | @outer env o e he hv ho _ ih =>
    intro fuel
    cases fuel with
    | zero => rfl
    | succ fuel =>
      simp only [EvalState.getLoop, he, hv, ho]
      exact ih fuel

theorem get_bound {st : EvalState} (hwf : st.WellFormed) {key : Bytes} {env : Nat} {v : Value}
    (h : BoundOnChain st.envs key env v) : st.get env key = some v := by
  have henv : env < st.envs.length := by
    cases h with
    | here he _ => exact (List.get?_eq_some.1 he).1
    | outer he _ _ _ => exact (List.get?_eq_some.1 he).1
  exact getLoop_bound hwf h _ henv

theorem get_unbound {st : EvalState} {key : Bytes} {env : Nat}
    (h : UnboundOnChain st.envs key env) : st.get env key = none :=
  getLoop_unbound h _

set_option maxRecDepth 100000 in
/-- C15. When the lookup of the name along the chain of `env` finds the value `v`,
`evalIdentifier` returns `v`, whatever the name is: a binding of `len`, `push` or `print`
shadows the built-in. When the lookup finds nothing, the names `len`, `push` and `print`
yield their built-in objects and every other name yields an error whose message contains
"identifier 'NAME' not found". The lookup `get` finds the value of the first environment on
the chain, going outward, that binds the name, and nothing when none of them does. -/
theorem identifier_lookup (token : Token) (env : Nat) (st : EvalState) :
    (∀ v, st.get env token.Literal = some v → evalIdentifier token env st = .ok v st) ∧
    (st.get env token.Literal = none →
      (token.Literal = str "len" → evalIdentifier token env st = .ok (some (.objBuiltin 3 .len)) st) ∧
      (token.Literal = str "push" →
        evalIdentifier token env st = .ok (some (.objBuiltin 4 .push)) st) ∧
      (token.Literal = str "print" →
        evalIdentifier token env st = .ok (some (.objBuiltin 5 .print)) st) ∧
      (token.Literal ∉ builtinNames → ∃ msg,
        evalIdentifier token env st = .ok (some (.objError st.nextAddr msg)) st.alloc ∧
        Contains msg (str "identifier '" ++ token.Literal ++ str "' not found"))) ∧
    (st.WellFormed →
      ∀ v, BoundOnChain st.envs token.Literal env v → st.get env token.Literal = some v) ∧
    (UnboundOnChain st.envs token.Literal env → st.get env token.Literal = none) ∧
    (∀ n, Eval (n + 1) (.expression (.identifier token)) env st = evalIdentifier token env st) ∧
    result (Run 10 (str "var len = 5; len")) = some (some (.objInteger 6 5)) ∧
    result (Run 10 (str "len")) = some (some (.objBuiltin 3 .len)) ∧
    result (Run 10 (str "var x = 1; func() \x7b func() \x7b x \x7d() \x7d()")) =
      some (some (.objInteger 6 1)) ∧
    result (Run 10 (str "var foo = 6; return bar; 7;")) =
      some (some (.objError 7 (str "line 1 col 21: identifier 'bar' not found"))) := by
  refine ⟨?_, ?_, fun hwf v h => get_bound hwf h, fun h => get_unbound h,
    fun _ => rfl, by rfl, by rfl, by rfl, by rfl⟩
  · intro v h
    simp only [evalIdentifier, h]
  · intro h
    refine ⟨?_, ?_, ?_, ?_⟩
    · intro hl
      rw [hl] at h
      simp only [evalIdentifier, hl, h]
      rfl
    · intro hl
      rw [hl] at h
      simp only [evalIdentifier, hl, h]
      rfl
    · intro hl
      rw [hl] at h
      simp only [evalIdentifier, hl, h]
      rfl
    · intro hl
      simp only [builtinNames, List.mem_cons, List.mem_singleton, List.not_mem_nil, or_false,
        not_or] at hl
      refine ⟨position token ++ str "identifier '" ++ token.Literal ++ str "' not found", ?_, ?_⟩
      · simp only [evalIdentifier, h, builtins, hl.1, hl.2.1, hl.2.2, if_false]
        rfl
      · refine ⟨position token, [], ?_⟩
        simp [List.append_assoc]
/-- C15 at the name `len` bound to 5 in the top-level environment. -/
theorem identifier_lookup_witness :
    EvalState.get ⟨[⟨[(str "len", some (.objInteger 6 5))], none⟩], 7, []⟩ 0 (str "len") =
      some (some (.objInteger 6 5)) ∧
    evalIdentifier ⟨.IDENTIFIER, str "len", 1, 14⟩ 0
        ⟨[⟨[(str "len", some (.objInteger 6 5))], none⟩], 7, []⟩ =
      .ok (some (.objInteger 6 5)) ⟨[⟨[(str "len", some (.objInteger 6 5))], none⟩], 7, []⟩ :=
  ⟨rfl,
    (identifier_lookup ⟨.IDENTIFIER, str "len", 1, 14⟩ 0
      ⟨[⟨[(str "len", some (.objInteger 6 5))], none⟩], 7, []⟩).1 _ rfl⟩

/-! ### C16: var statements -/

theorem set_envs_length (st : EvalState) (env : Nat) (key : Bytes) (v : Value) :
    (st.set env key v).envs.length = st.envs.length := by
  unfold EvalState.set
  cases h : st.envs.get? env with
  | none => rfl
  | some e => simp

theorem set_get?_same (st : EvalState) (env : Nat) (key : Bytes) (v : Value) (e : Environment)
    (he : st.envs.get? env = some e) :
    (st.set env key v).envs.get? env = some ⟨mapSet e.store key v, e.outer⟩ := by
  have hlt : env < st.envs.length := (List.get?_eq_some.1 he).1
  simp only [EvalState.set, he]
  simp [List.getElem?_set_self, hlt]

theorem set_get?_other (st : EvalState) (env other : Nat) (key : Bytes) (v : Value)
    (h : other ≠ env) : (st.set env key v).envs.get? other = st.envs.get? other := by
  unfold EvalState.set
  cases he : st.envs.get? env with
  | none => rfl
  | some e => simp [List.getElem?_set_ne (Ne.symm h)]

theorem get_set_same (st : EvalState) (env : Nat) (key : Bytes) (v : Value)
    (henv : env < st.envs.length) : (st.set env key v).get env key = some v := by
  obtain ⟨e, he⟩ : ∃ e, st.envs.get? env = some e :=
    ⟨st.envs.get ⟨env, henv⟩, List.get?_eq_get henv⟩
  have hlen := set_envs_length st env key v
  have hpos : st.envs.length = (st.envs.length - 1) + 1 := by omega
  unfold EvalState.get
  rw [hlen, hpos]
  simp only [EvalState.getLoop, set_get?_same st env key v e he, mapGet_mapSet_same]

set_option maxRecDepth 100000 in
/-- C16. When the initializer of `var NAME = e` evaluates to an error, the statement returns
that error and binds nothing. Otherwise the statement returns nil, no object, and leaves
the state in which `NAME` is set in the store of `env` itself: there the lookup of `NAME`
from `env` returns the value of `e`, the store of `env` holds it, and every other
environment is as before. A program that runs through its first statements and ends in such
a var statement returns nil; `var foo = 1;` yields no object. -/
theorem var_statement (n : Nat) (token : Token) (name : Identifier) (value : Expr) (env : Nat)
    (st st1 : EvalState) (v : Value)
    (h : Eval n (.expression value) env st = .ok v st1) :
    (Obj.isError v = true →
      Eval (n + 1) (.statement (.varStatement token name value)) env st = .ok v st1) ∧
    (Obj.isError v = false →
      Eval (n + 1) (.statement (.varStatement token name value)) env st =
        .ok none (st1.set env name.token.Literal v) ∧
      (∀ e, st1.envs.get? env = some e →
        (st1.set env name.token.Literal v).get env name.token.Literal = some v ∧
        (st1.set env name.token.Literal v).envs.get? env =
          some ⟨mapSet e.store name.token.Literal v, e.outer⟩ ∧
        mapGet (mapSet e.store name.token.Literal v) name.token.Literal = some v) ∧
      (∀ other, other ≠ env →
        (st1.set env name.token.Literal v).envs.get? other = st1.envs.get? other) ∧
      (∀ (p : Program) (pre : List Statement) (st0 : EvalState),
        p.statements = pre ++ [.varStatement token name value] → RunsThrough env pre st0 st →
        Evals (.program p) env st0 none (st1.set env name.token.Literal v))) ∧
    Run 10 (str "var foo = 1;") =
      some (.ok none ⟨[⟨[(str "foo", some (.objInteger 6 1))], none⟩], 7, []⟩) ∧
    Run 10 (str "var foo = bar;") =
      some (.ok (some (.objError 6 (str "line 1 col 11: identifier 'bar' not found")))
        ⟨[⟨[], none⟩], 7, []⟩) := by
  refine ⟨?_, ?_, by rfl, by rfl⟩
  · intro he
    rw [Eval_succ]
    simp only [evalNode, h, he, if_true]
  · intro he
    have hvar : Eval (n + 1) (.statement (.varStatement token name value)) env st =
        .ok none (st1.set env name.token.Literal v) := by
      rw [Eval_succ]
      simp only [evalNode, h, he]
      rfl
    refine ⟨hvar, ?_, fun other ho => set_get?_other st1 env other _ v ho, ?_⟩
    · intro e hget
      exact ⟨get_set_same st1 env _ v (List.get?_eq_some.1 hget).1,
        set_get?_same st1 env _ v e hget, mapGet_mapSet_same _ _ _⟩
    · intro p pre st0 hp hpre
      obtain ⟨N, hN⟩ := hpre.loops
      obtain ⟨result', hloop, _⟩ :=
        hN (max N (n + 1)) (le_max_left _ _) [.varStatement token name value] none
      have hm : Eval (max N (n + 1)) (.statement (.varStatement token name value)) env st =
          .ok none (st1.set env name.token.Literal v) :=
        Eval_mono (le_max_right _ _) hvar (by simp)
      refine ⟨max N (n + 1) + 1, ?_⟩
      rw [Eval_succ]
      simp only [evalNode, evalProgram, hp]
      rw [hloop, evalProgramLoop_continue hm rfl rfl]
      rfl

/-- C16 at the statement `var foo = 1` in the top-level environment. -/
theorem var_statement_witness :
    Eval 1 (.expression (.integerLiteral ⟨.INTEGER, str "1", 1, 11⟩ 1)) 0 ⟨[⟨[], none⟩], 6, []⟩ =
      .ok (some (.objInteger 6 1)) ⟨[⟨[], none⟩], 7, []⟩ ∧
    Obj.isError (some (.objInteger 6 1)) = false ∧
    Eval 2 (.statement (.varStatement ⟨.VARIABLE, str "var", 1, 1⟩ ⟨⟨.IDENTIFIER, str "foo", 1, 5⟩⟩
        (.integerLiteral ⟨.INTEGER, str "1", 1, 11⟩ 1))) 0 ⟨[⟨[], none⟩], 6, []⟩ =
      .ok none (EvalState.set ⟨[⟨[], none⟩], 7, []⟩ 0 (str "foo") (some (.objInteger 6 1))) :=
  ⟨rfl, rfl,
    ((var_statement 1 ⟨.VARIABLE, str "var", 1, 1⟩ ⟨⟨.IDENTIFIER, str "foo", 1, 5⟩⟩
      (.integerLiteral ⟨.INTEGER, str "1", 1, 11⟩ 1) 0 ⟨[⟨[], none⟩], 6, []⟩ ⟨[⟨[], none⟩], 7, []⟩
      (some (.objInteger 6 1)) rfl).2.1 rfl).1⟩

/-! ### C17: return-wrappers at the program result and at the call boundary -/

set_option maxRecDepth 100000 in
/-- C17 (evaluation at the failing inputs). The program `return if (true) { return 1 }`
parses without diagnostics and `Eval` returns a return-wrapper for it: the return statement
wraps the wrapper that its if-expression yields, and `evalProgram` removes one layer only.
Likewise `applyFunction`, on the function object of `func() { return if (true) { return 1 } }`
and no arguments, returns a return-wrapper, which `len` then reports as an argument of
type RETURN. -/
theorem return_wrapper_escapes :
    Run 10 (str "return if (true) \x7b return 1 \x7d") =
      some (.ok (some (.objReturn 7 (some (.objInteger 6 1)))) ⟨[⟨[], none⟩], 9, []⟩) ∧
    (∃ (f : Obj) (st : EvalState),
      Run 10 (str "func() \x7b return if (true) \x7b return 1 \x7d \x7d") = some (.ok (some f) st) ∧
      f.objectType = str "FUNCTION" ∧
      applyFunction (Eval 10) ⟨.LPAREN, str "(", 1, 41⟩ (some f) [] st =
        .ok (some (.objReturn 8 (some (.objInteger 7 1))))
          ⟨[⟨[], none⟩, ⟨[], some 0⟩], 10, []⟩) ∧
    Run 10 (str "len(func() \x7b return if (true) \x7b return 1 \x7d \x7d())") =
      some (.ok (some (.objError 10 (str "line 1 col 4: invalid argument type: RETURN")))
        ⟨[⟨[], none⟩, ⟨[], some 0⟩], 11, []⟩) := by
  refine ⟨by rfl, ⟨_, _, by rfl, by rfl, by rfl⟩, by rfl⟩

/-! ### C18: return-wrappers as values of expressions -/

set_option maxRecDepth 100000 in
/-- C18 (evaluation at the failing inputs). In `var foo = if (true) { return 10; };` the
initializer evaluates to a return-wrapper and the var statement binds `foo` to it; an
if-expression whose block returns likewise leaves a return-wrapper as an array element, as
the right operand of `+`, reported as type RETURN, and as the argument bound to a
parameter. Each program parses without diagnostics. -/
theorem return_wrapper_as_a_value :
    Run 10 (str "var foo = if (true) \x7b return 10; \x7d;") =
      some (.ok none
        ⟨[⟨[(str "foo", some (.objReturn 7 (some (.objInteger 6 10))))], none⟩], 8, []⟩) ∧
    Run 10 (str "[if (true) \x7b return 1 \x7d]") =
      some (.ok (some (.objArray 8 [some (.objReturn 7 (some (.objInteger 6 1)))]))
        ⟨[⟨[], none⟩], 9, []⟩) ∧
    Run 10 (str "1 + if (true) \x7b return 1 \x7d") =
      some (.ok (some (.objError 9 (str "line 1 col 3: unknown operator: INTEGER + RETURN")))
        ⟨[⟨[], none⟩], 10, []⟩) ∧
    Run 10 (str "func(x) \x7b x \x7d(if (true) \x7b return 1 \x7d)") =
      some (.ok (some (.objInteger 7 1))
        ⟨[⟨[], none⟩, ⟨[(str "x", some (.objReturn 8 (some (.objInteger 7 1))))], some 0⟩], 9,
          []⟩) := by
  refine ⟨by rfl, by rfl, by rfl, by rfl⟩

/-! ### Index expressions -/

theorem evalIndexExpression_array (token : Token) (a y : Nat) (elements : List Value) (i : Int)
    (st : EvalState) :
    evalIndexExpression token (some (.objArray a elements)) (some (.objInteger y i)) st =
      evalArrayIndexExpression token (.objArray a elements) (.objInteger y i) st := rfl

theorem evalArrayIndexExpression_in_range (token : Token) (a y : Nat) (elements : List Value)
    (i : Int) (st : EvalState) (hi : isInt64 i) (hlen : (elements.length : Int) ≤ maxInt64)
    (hlo : -(elements.length : Int) ≤ i) (hhi : i < elements.length) :
    ∃ v, elements.get? (if i < 0 then (elements.length : Int) + i else i).toNat = some v ∧
      evalArrayIndexExpression token (.objArray a elements) (.objInteger y i) st = .ok v st := by
  have hw : i < 0 → wrap64 ((elements.length : Int) + i) = (elements.length : Int) + i := by
    intro hneg
    apply wrap64_of_range
    unfold isInt64 at *
    unfold minInt64 maxInt64 at *
    omega
  by_cases hneg : i < 0
  · have hidx : ((elements.length : Int) + i).toNat < elements.length := by omega
    refine ⟨elements.get ⟨_, hidx⟩, ?_, ?_⟩
    · rw [if_pos hneg]; exact List.get?_eq_get hidx
    · have h1 : ¬ ((elements.length : Int) + i < 0 ∨ (elements.length : Int) + i ≥ elements.length) := by
        omega
      simp only [evalArrayIndexExpression, if_pos hneg, hw hneg, if_neg h1,
        List.get?_eq_get hidx]
  · have hidx : i.toNat < elements.length := by omega
    refine ⟨elements.get ⟨_, hidx⟩, ?_, ?_⟩
    · rw [if_neg hneg]; exact List.get?_eq_get hidx
    · have h1 : ¬ (i < 0 ∨ i ≥ elements.length) := by omega
      simp only [evalArrayIndexExpression, if_neg hneg, if_neg h1, List.get?_eq_get hidx]


theorem evalArrayIndexExpression_out_of_range (token : Token) (a y : Nat)
    (elements : List Value) (i : Int) (st : EvalState) (hi : isInt64 i)
    (hlen : (elements.length : Int) ≤ maxInt64)
    (hout : i < -(elements.length : Int) ∨ (elements.length : Int) ≤ i) :
    ∃ msg, evalArrayIndexExpression token (.objArray a elements) (.objInteger y i) st =
        .ok (some (.objError st.nextAddr msg)) st.alloc ∧
      Contains msg (str "out of bounds") := by
  have hw : i < 0 → wrap64 ((elements.length : Int) + i) = (elements.length : Int) + i := by
    intro hneg
    apply wrap64_of_range
    unfold isInt64 at *
    unfold minInt64 maxInt64 at *
    omega
  have hsplit : str "' is out of bounds" = str "' is " ++ str "out of bounds" := by decide
  by_cases hneg : i < 0
  · have h1 : (elements.length : Int) + i < 0 ∨ (elements.length : Int) + i ≥ elements.length := by
      omega
    refine ⟨position token ++ str "index '" ++ decimal ((elements.length : Int) + i) ++
      str "' is out of bounds", ?_, ?_⟩
    · simp only [evalArrayIndexExpression, if_pos hneg, hw hneg, if_pos h1]
      rfl
    · rw [hsplit, ← List.append_assoc]
      exact contains_suffix _ _
  · have h1 : i < 0 ∨ i ≥ elements.length := by omega
    refine ⟨position token ++ str "index '" ++ decimal i ++ str "' is out of bounds", ?_, ?_⟩
    · simp only [evalArrayIndexExpression, if_neg hneg, if_pos h1]
      rfl
    · rw [hsplit, ← List.append_assoc]
      exact contains_suffix _ _

theorem evalIndexExpression_unsupported (token : Token) (l r : Obj) (st : EvalState)
    (h : l.objectType ≠ str "ARRAY" ∨ r.objectType ≠ str "INTEGER") :
    ∃ msg, evalIndexExpression token (some l) (some r) st =
        .ok (some (.objError st.nextAddr msg)) st.alloc ∧
      Contains msg (str "unsupported index operation:") := by
  have hsplit : str "unsupported index operation: " = str "unsupported index operation:" ++ str " " := by
    decide
  refine ⟨position token ++ str "unsupported index operation: " ++ l.objectType, ?_, ?_⟩
  · by_cases hl : l.objectType = str "ARRAY"
    · have hr : r.objectType ≠ str "INTEGER" := by
        rcases h with h | h
        · exact absurd hl h
        · exact h
      simp only [evalIndexExpression, if_pos hl, if_neg hr]
      rfl
    · simp only [evalIndexExpression, if_neg hl]
      rfl
  · rw [hsplit]
    exact ⟨position token, str " " ++ l.objectType, by simp [List.append_assoc]⟩

/-! ### C19: negative indices -/

set_option maxRecDepth 100000 in
set_option exponentiation.threshold 2000 in
/-- C19. On an array object of length n and an integer k with 1 <= k <= n, the index
expression with index -k and the one with index n - k return the same value, the element
at position n - k, and leave the state as it is; the index -1 returns the last element.
The length is that of a Go slice, at most the largest `int64`. Indexing a stored array with
-1 and with 2 yields the same object, as the identity comparison `==` of arrays shows. -/
theorem negative_index (token : Token) (a y z : Nat) (elements : List Value) (k : Nat)
    (st : EvalState) (hk : 1 ≤ k) (hkn : k ≤ elements.length)
    (hlen : (elements.length : Int) ≤ maxInt64) :
    (∃ v, elements.get? (elements.length - k) = some v ∧
      evalIndexExpression token (some (.objArray a elements)) (some (.objInteger y (-(k : Int))))
        st = .ok v st ∧
      evalIndexExpression token (some (.objArray a elements))
        (some (.objInteger z ((elements.length : Int) - k))) st = .ok v st) ∧
    (∀ v, elements.getLast? = some v →
      evalIndexExpression token (some (.objArray a elements)) (some (.objInteger y (-1))) st =
        .ok v st) ∧
    result (Run 10 (str "func () \x7b[1, 2.3, true, [false]]\x7d()[3][-1]")) =
      some (some objectFalse) ∧
    result (Run 10 (str "var a = [[1], 2, [3]]; a[-1] == a[2]")) = some (some objectTrue) ∧
    result (Run 10 (str "var a = [[1], 2, [3]]; a[-1] == a[0]")) = some (some objectFalse) := by
  have hi1 : isInt64 (-(k : Int)) := by
    unfold isInt64 minInt64 maxInt64 at *
    omega
  have hi2 : isInt64 ((elements.length : Int) - k) := by
    unfold isInt64 minInt64 maxInt64 at *
    omega
  obtain ⟨v1, hv1, he1⟩ := evalArrayIndexExpression_in_range token a y elements (-(k : Int)) st
    hi1 hlen (by omega) (by omega)
  obtain ⟨v2, hv2, he2⟩ := evalArrayIndexExpression_in_range token a z elements
    ((elements.length : Int) - k) st hi2 hlen (by omega) (by omega)
  have hneg : (-(k : Int)) < 0 := by omega
  have hpos : ¬ ((elements.length : Int) - k < 0) := by omega
  rw [if_pos hneg] at hv1
  rw [if_neg hpos] at hv2
  have hn1 : ((elements.length : Int) + -(k : Int)).toNat = elements.length - k := by omega
  have hn2 : ((elements.length : Int) - (k : Int)).toNat = elements.length - k := by omega
  rw [hn1] at hv1
  rw [hn2] at hv2
  have hv : v2 = v1 := by
    rw [hv1] at hv2
    exact (Option.some.inj hv2).symm
  subst hv
  refine ⟨⟨v2, hv1, ?_, ?_⟩, ?_, by rfl, by rfl, by rfl⟩
  · rw [evalIndexExpression_array]; exact he1
  · rw [evalIndexExpression_array]; exact he2
  · intro v hlast
    have hne : elements ≠ [] := by
      intro h0
      rw [h0] at hlast
      exact absurd hlast (by simp)
    have hpos1 : 0 < elements.length := List.length_pos.2 hne
    obtain ⟨w, hw, hew⟩ := evalArrayIndexExpression_in_range token a y elements (-1) st
      (by unfold isInt64 minInt64 maxInt64; omega) hlen (by omega) (by omega)
    rw [if_pos (by omega)] at hw
    have hn : ((elements.length : Int) + -1).toNat = elements.length - 1 := by omega
    rw [hn, List.get?_eq_getElem?, ← List.getLast?_eq_getElem?, hlast] at hw
    rw [evalIndexExpression_array, hew, Option.some.inj hw]

/-- C19 at the array of the integers 1, 2 and 3 with k = 1. -/
theorem negative_index_witness :
    1 ≤ 1 ∧ 1 ≤ [some (Obj.objInteger 6 1), some (.objInteger 7 2), some (.objInteger 8 3)].length ∧
    (([some (Obj.objInteger 6 1), some (.objInteger 7 2), some (.objInteger 8 3)].length : Nat) :
      Int) ≤ maxInt64 ∧
    ∃ v, [some (Obj.objInteger 6 1), some (.objInteger 7 2), some (.objInteger 8 3)].get?
        ([some (Obj.objInteger 6 1), some (.objInteger 7 2), some (.objInteger 8 3)].length - 1) =
        some v ∧
      evalIndexExpression ⟨.LBRACKET, str "[", 1, 2⟩
        (some (.objArray 9 [some (.objInteger 6 1), some (.objInteger 7 2), some (.objInteger 8 3)]))
        (some (.objInteger 10 (-((1 : Nat) : Int)))) ⟨[⟨[], none⟩], 11, []⟩ =
        .ok v ⟨[⟨[], none⟩], 11, []⟩ ∧
      evalIndexExpression ⟨.LBRACKET, str "[", 1, 2⟩
        (some (.objArray 9 [some (.objInteger 6 1), some (.objInteger 7 2), some (.objInteger 8 3)]))
        (some (.objInteger 12
          ((([some (Obj.objInteger 6 1), some (.objInteger 7 2), some (.objInteger 8 3)].length :
            Nat) : Int) - ((1 : Nat) : Int)))) ⟨[⟨[], none⟩], 11, []⟩ =
        .ok v ⟨[⟨[], none⟩], 11, []⟩ :=
  ⟨by decide, by decide, by decide,
    (negative_index ⟨.LBRACKET, str "[", 1, 2⟩ 9 10 12
      [some (.objInteger 6 1), some (.objInteger 7 2), some (.objInteger 8 3)] 1
      ⟨[⟨[], none⟩], 11, []⟩ (by decide) (by decide) (by decide)).1⟩

/-! ### C20: index expressions -/

set_option maxRecDepth 100000 in
/-- C20. Every pair of operands of `evalIndexExpression`, present or absent. When the left
one is an array of length n and the right one an integer i: if -n <= i < n it returns the
element at position i, or n + i for a negative i, and leaves the state as it is; if
i < -n or i >= n it returns an error containing "out of bounds", so every index into an
empty array fails. For every other pair of present operand types it returns an error
containing "unsupported index operation:". Conversely a result that is not an error comes
from an array and an integer in that range. The index is an `int64` and the length that of
a Go slice. With an absent left operand, whatever the right one, and with an absent right
operand next to an array, it panics on `objectType`; with an absent right operand next to
any other present operand it returns the "unsupported index operation:" error. The programs
`if (true) {}[0]` and `[1][if (true) {}]` parse without diagnostics and reach these panics,
where the claim promises an error. -/
theorem index_expression (token : Token) (l r : Obj) (st : EvalState) :
    (∀ (a y : Nat) (elements : List Value) (i : Int),
      l = .objArray a elements → r = .objInteger y i → isInt64 i →
      (elements.length : Int) ≤ maxInt64 →
      (-(elements.length : Int) ≤ i ∧ i < elements.length →
        ∃ v, v ∈ elements ∧
          elements.get? (if i < 0 then (elements.length : Int) + i else i).toNat = some v ∧
          evalIndexExpression token (some l) (some r) st = .ok v st) ∧
      (i < -(elements.length : Int) ∨ (elements.length : Int) ≤ i →
        ∃ msg, evalIndexExpression token (some l) (some r) st =
            .ok (some (.objError st.nextAddr msg)) st.alloc ∧
          Contains msg (str "out of bounds"))) ∧
    (l.objectType ≠ str "ARRAY" ∨ r.objectType ≠ str "INTEGER" →
      ∃ msg, evalIndexExpression token (some l) (some r) st =
          .ok (some (.objError st.nextAddr msg)) st.alloc ∧
        Contains msg (str "unsupported index operation:")) ∧
    ((∃ a elements, l = .objArray a elements) ↔ l.objectType = str "ARRAY") ∧
    ((∃ y i, r = .objInteger y i) ↔ r.objectType = str "INTEGER") ∧
    (∀ (v : Value) (st1 : EvalState),
      evalIndexExpression token (some l) (some r) st = .ok v st1 → Obj.isError v = false →
      ∃ a elements y i, l = .objArray a elements ∧ r = .objInteger y i ∧
        (isInt64 i → (elements.length : Int) ≤ maxInt64 →
          -(elements.length : Int) ≤ i ∧ i < elements.length)) ∧
    (∀ (n : Nat) (left index : Expr) (env : Nat) (st0 st1 : EvalState),
      Eval n (.expression left) env st0 = .ok (some l) st1 → Obj.isError (some l) = false →
      Eval n (.expression index) env st1 = .ok (some r) st → Obj.isError (some r) = false →
      Eval (n + 1) (.expression (.indexExpression token left index)) env st0 =
        evalIndexExpression token (some l) (some r) st) ∧
    (∀ (a y : Nat) (i : Int), l = .objArray a [] → r = .objInteger y i → isInt64 i →
      ∃ msg, evalIndexExpression token (some l) (some r) st =
          .ok (some (.objError st.nextAddr msg)) st.alloc ∧
        Contains msg (str "out of bounds")) ∧
    result (Run 10 (str "[][0]")) =
      some (some (.objError 8 (str "line 1 col 3: index '0' is out of bounds"))) ∧
    result (Run 10 (str "[1, 2][-3]")) =
      some (some (.objError 11 (str "line 1 col 7: index '-1' is out of bounds"))) ∧
    result (Run 10 (str "true[false]")) =
      some (some (.objError 6 (str "line 1 col 5: unsupported index operation: BOOLEAN"))) ∧
    result (Run 10 (str "[1][true]")) =
      some (some (.objError 8 (str "line 1 col 4: unsupported index operation: ARRAY"))) ∧
    (∀ right : Value, evalIndexExpression token none right st = .panic) ∧
    (l.objectType = str "ARRAY" → evalIndexExpression token (some l) none st = .panic) ∧
    (l.objectType ≠ str "ARRAY" →
      ∃ msg, evalIndexExpression token (some l) none st =
          .ok (some (.objError st.nextAddr msg)) st.alloc ∧
        Contains msg (str "unsupported index operation:")) ∧
    (∀ (left right : Value) (v : Value) (st1 : EvalState), left = none ∨ right = none →
      evalIndexExpression token left right st = .ok v st1 → Obj.isError v = true) ∧
    (Parse (str "if (true) \x7b\x7d[0]")).map (fun x => x.2) = some [] ∧
    Run 10 (str "if (true) \x7b\x7d[0]") = some .panic ∧
    (Parse (str "[1][if (true) \x7b\x7d]")).map (fun x => x.2) = some [] ∧
    Run 10 (str "[1][if (true) \x7b\x7d]") = some .panic ∧
    result (Run 10 (str "true[if (true) \x7b\x7d]")) =
      some (some (.objError 6 (str "line 1 col 5: unsupported index operation: BOOLEAN"))) := by
  have hsplit : str "unsupported index operation: " =
      str "unsupported index operation:" ++ str " " := by
    decide
  have hun : ∀ l : Obj, l.objectType ≠ str "ARRAY" →
      ∃ msg, evalIndexExpression token (some l) none st =
          .ok (some (.objError st.nextAddr msg)) st.alloc ∧
        Contains msg (str "unsupported index operation:") := by
    intro l hl
    refine ⟨position token ++ str "unsupported index operation: " ++ l.objectType, ?_, ?_⟩
    · simp only [evalIndexExpression, if_neg hl]
      rfl
    · rw [hsplit]
      exact ⟨position token, str " " ++ l.objectType, by simp [List.append_assoc]⟩
  have harr : (∃ a elements, l = .objArray a elements) ↔ l.objectType = str "ARRAY" := by
    constructor
    · rintro ⟨a, elements, rfl⟩; rfl
    · intro h
      cases l <;> first | exact ⟨_, _, rfl⟩ |
        (simp only [Obj.objectType] at h; exact absurd h (by decide))
  have hint : (∃ y i, r = .objInteger y i) ↔ r.objectType = str "INTEGER" := by
    constructor
    · rintro ⟨y, i, rfl⟩; rfl
    · intro h
      cases r <;> first | exact ⟨_, _, rfl⟩ |
        (simp only [Obj.objectType] at h; exact absurd h (by decide))
  refine ⟨?_, evalIndexExpression_unsupported token l r st, harr, hint, ?_, ?_, ?_,
    by rfl, by rfl, by rfl, by rfl, fun _ => rfl, ?_, hun l, ?_, by rfl, by rfl, by rfl, by rfl,
    by rfl⟩
  · intro a y elements i hl hr hi hlen
    subst hl hr
    constructor
    · intro hin
      obtain ⟨v, hv, he⟩ := evalArrayIndexExpression_in_range token a y elements i st hi hlen
        hin.1 hin.2
      exact ⟨v, List.get?_mem hv, hv, by rw [evalIndexExpression_array]; exact he⟩
    · intro hout
      rw [evalIndexExpression_array]
      exact evalArrayIndexExpression_out_of_range token a y elements i st hi hlen hout
  · intro v st1 hev hv
    by_cases hl : l.objectType = str "ARRAY"
    · by_cases hr : r.objectType = str "INTEGER"
      · obtain ⟨a, elements, rfl⟩ := harr.2 hl
        obtain ⟨y, i, rfl⟩ := hint.2 hr
        refine ⟨a, elements, y, i, rfl, rfl, ?_⟩
        intro hi hlen
        by_contra hout
        obtain ⟨msg, hmsg, _⟩ := evalArrayIndexExpression_out_of_range token a y elements i st
          hi hlen (by omega)
        rw [evalIndexExpression_array, hmsg] at hev
        injection hev with h1 _
        subst h1
        exact absurd hv (by simp [Obj.isError])
      · obtain ⟨msg, hmsg, _⟩ := evalIndexExpression_unsupported token l r st (Or.inr hr)
        rw [hmsg] at hev
        injection hev with h1 _
        subst h1
        exact absurd hv (by simp [Obj.isError])
    · obtain ⟨msg, hmsg, _⟩ := evalIndexExpression_unsupported token l r st (Or.inl hl)
      rw [hmsg] at hev
      injection hev with h1 _
      subst h1
      exact absurd hv (by simp [Obj.isError])
  · intro n left index env st0 st1 h1 he1 h2 he2
    rw [Eval_succ]
    simp only [evalNode, h1, he1, h2, he2]
    rfl
  · intro a y i hl hr hi
    subst hl hr
    rw [evalIndexExpression_array]
    refine evalArrayIndexExpression_out_of_range token a y [] i st hi (by decide) ?_
    simp only [List.length_nil, Nat.cast_zero, neg_zero]
    omega
  · intro hl
    simp only [evalIndexExpression, if_pos hl]
  · intro left right v st1 hor hev
    have hnone : ∀ left : Value, evalIndexExpression token left none st = .ok v st1 →
        Obj.isError v = true := by
      intro left hev
      cases left with
      | none => exact absurd hev (by simp [evalIndexExpression])
      | some l =>
        by_cases hl : l.objectType = str "ARRAY"
        · simp only [evalIndexExpression, if_pos hl] at hev
          exact absurd hev (by simp)
        · obtain ⟨msg, hmsg, _⟩ := hun l hl
          rw [hmsg] at hev
          injection hev with h1 _
          subst h1
          rfl
    rcases hor with h | h
    · subst h
      exact absurd hev (by simp [evalIndexExpression])
    · subst h
      exact hnone left hev

/-- C20 at the array of the integers 1 and 2 with the index 2, which is out of range. -/
theorem index_expression_witness :
    isInt64 2 ∧ (([some (Obj.objInteger 6 1), some (.objInteger 7 2)].length : Nat) : Int) ≤
      maxInt64 ∧
    ((2 : Int) < -(([some (Obj.objInteger 6 1), some (.objInteger 7 2)].length : Nat) : Int) ∨
      (([some (Obj.objInteger 6 1), some (.objInteger 7 2)].length : Nat) : Int) ≤ 2) ∧
    ∃ msg, evalIndexExpression ⟨.LBRACKET, str "[", 1, 7⟩
          (some (.objArray 8 [some (.objInteger 6 1), some (.objInteger 7 2)]))
          (some (.objInteger 9 2)) ⟨[⟨[], none⟩], 10, []⟩ =
        .ok (some (.objError 10 msg)) ⟨[⟨[], none⟩], 11, []⟩ ∧
      Contains msg (str "out of bounds") :=
  ⟨by decide, by decide, Or.inr (by decide),
    ((index_expression ⟨.LBRACKET, str "[", 1, 7⟩
      (.objArray 8 [some (.objInteger 6 1), some (.objInteger 7 2)]) (.objInteger 9 2)
      ⟨[⟨[], none⟩], 10, []⟩).1 8 9 [some (.objInteger 6 1), some (.objInteger 7 2)] 2 rfl rfl
      (by decide) (by decide)).2 (Or.inr (by decide))⟩

/-! ### C21: the built-in `push` -/

set_option maxRecDepth 100000 in
set_option exponentiation.threshold 2000 in
/-- C21. On an array object with the elements `es` followed by a non-empty list of
values, the built-in `push` returns an array object at the next free address, distinct from
every object allocated before, whose elements are `es` followed by those values in order,
so of length `len(es)` plus their number. The call changes no environment and prints
nothing, so every binding of the first argument still holds the array with the elements
`es`; `len(push([], 1, 2.0, false, [true]))` is 4. -/
theorem push_appends (token : Token) (a : Nat) (es : List Value) (v : Value) (vs : List Value)
    (st : EvalState) :
    builtinPush token (some (.objArray a es) :: v :: vs) st =
      .ok (some (.objArray st.nextAddr (es ++ v :: vs))) st.alloc ∧
    (es ++ v :: vs).length = es.length + (v :: vs).length ∧
    st.alloc.envs = st.envs ∧ st.alloc.output = st.output ∧
    (∀ (ev : Ev) (b : Nat),
      applyFunction ev token (some (.objBuiltin b .push)) (some (.objArray a es) :: v :: vs) st =
        builtinPush token (some (.objArray a es) :: v :: vs) st) ∧
    (a < st.nextAddr →
      ¬ (Obj.objArray st.nextAddr (es ++ v :: vs)).sameInstance (.objArray a es)) ∧
    result (Run 10 (str "len(push([], 1, 2.0, false, [true]))")) =
      some (some (.objInteger 11 4)) ∧
    result (Run 10 (str "var a = []; var b = push(a, 1); len(a)")) =
      some (some (.objInteger 9 0)) ∧
    result (Run 10 (str "var a = []; var b = push(a, 1); len(b)")) =
      some (some (.objInteger 9 1)) ∧
    Run 10 (str "var a = [1]; var b = push(a, 2, 3);") =
      some (.ok none ⟨[⟨[(str "a", some (.objArray 7 [some (.objInteger 6 1)])),
        (str "b", some (.objArray 10 [some (.objInteger 6 1), some (.objInteger 8 2),
          some (.objInteger 9 3)]))], none⟩], 11, []⟩) := by
  refine ⟨rfl, by simp, rfl, rfl, fun _ _ => rfl, fun h hs => by
      have := hs.2
      simp only [Obj.addr] at this
      omega, by rfl, by rfl, by rfl,
    by rfl⟩

/-- C21 at the array holding 1, allocated at address 7, with the values 2 and 3. -/
theorem push_appends_witness :
    7 < (⟨[⟨[], none⟩], 10, []⟩ : EvalState).nextAddr ∧
    builtinPush ⟨.LPAREN, str "(", 1, 26⟩
        [some (.objArray 7 [some (.objInteger 6 1)]), some (.objInteger 8 2),
          some (.objInteger 9 3)] ⟨[⟨[], none⟩], 10, []⟩ =
      .ok (some (.objArray 10 [some (.objInteger 6 1), some (.objInteger 8 2),
        some (.objInteger 9 3)])) ⟨[⟨[], none⟩], 11, []⟩ ∧
    ¬ (Obj.objArray 10 [some (.objInteger 6 1), some (.objInteger 8 2),
        some (.objInteger 9 3)]).sameInstance (.objArray 7 [some (.objInteger 6 1)]) :=
  ⟨by decide,
    (push_appends ⟨.LPAREN, str "(", 1, 26⟩ 7 [some (.objInteger 6 1)] (some (.objInteger 8 2))
      [some (.objInteger 9 3)] ⟨[⟨[], none⟩], 10, []⟩).1,
    (push_appends ⟨.LPAREN, str "(", 1, 26⟩ 7 [some (.objInteger 6 1)] (some (.objInteger 8 2))
      [some (.objInteger 9 3)] ⟨[⟨[], none⟩], 10, []⟩).2.2.2.2.2.1 (by decide)⟩

/-! ### Lookup and write along the chain of environments -/

theorem getLoop_fuel {envs : List Environment} (key : Bytes)
    (hwf : ∀ i e, envs.get? i = some e → ∀ o, e.outer = some o → o < i) :
    ∀ (f1 f2 env : Nat), env < f1 → env < f2 →
      EvalState.getLoop envs key f1 env = EvalState.getLoop envs key f2 env := by
  intro f1
  induction f1 with
  | zero => intro f2 env h; omega
  | succ f1 ih =>
    intro f2 env h1 h2
    cases f2 with
    | zero => omega
    | succ f2 =>
      simp only [EvalState.getLoop]
      cases he : envs.get? env with
      | none => rfl
      | some e =>
        simp only
        cases mapGet e.store key with
        | some v => rfl
        | none =>
          simp only
          cases ho : e.outer with
          | none => rfl
          | some o =>
            have := hwf env e he o ho
            exact ih f2 o (by omega) (by omega)

theorem get_unfold {st : EvalState} (hwf : st.WellFormed) {env : Nat} {e : Environment}
    (he : st.envs.get? env = some e) (key : Bytes) :
    st.get env key =
      match mapGet e.store key with
      | some v => some v
      | none =>
        match e.outer with
        | none => none
        | some o => st.get o key := by
  have hlt : env < st.envs.length := (List.get?_eq_some.1 he).1
  obtain ⟨n, hn⟩ : ∃ n, st.envs.length = n + 1 := ⟨st.envs.length - 1, by omega⟩
  unfold EvalState.get
  rw [hn]
  simp only [EvalState.getLoop, he]
  cases mapGet e.store key with
  | some v => rfl
  | none =>
    simp only
    cases ho : e.outer with
    | none => rfl
    | some o =>
      have := hwf env e he o ho
      exact getLoop_fuel key hwf n (n + 1) o (by omega) (by omega)

theorem getLoop_set_below (st : EvalState) (env : Nat) (k : Bytes) (v : Value)
    (hwf : st.WellFormed) (key : Bytes) :
    ∀ (fuel o : Nat), o < env →
      EvalState.getLoop (st.set env k v).envs key fuel o = EvalState.getLoop st.envs key fuel o := by
  intro fuel
  induction fuel with
  | zero => intro o _; rfl
  | succ fuel ih =>
    intro o ho
    simp only [EvalState.getLoop, set_get?_other st env o k v (by omega)]
    cases he : st.envs.get? o with
    | none => rfl
    | some e =>
      simp only
      cases mapGet e.store key with
      | some x => rfl
      | none =>
        simp only
        cases hout : e.outer with
        | none => rfl
        | some o2 =>
          have := hwf o e he o2 hout
          exact ih o2 (by omega)

theorem get_set_below (st : EvalState) (env : Nat) (k : Bytes) (v : Value)
    (hwf : st.WellFormed) (key : Bytes) (o : Nat) (ho : o < env) :
    (st.set env k v).get o key = st.get o key := by
  unfold EvalState.get
  rw [set_envs_length]
  exact getLoop_set_below st env k v hwf key _ o ho

theorem set_wellFormed (st : EvalState) (env : Nat) (k : Bytes) (v : Value)
    (hwf : st.WellFormed) : (st.set env k v).WellFormed := by
  intro i e hi o ho
  by_cases hie : i = env
  · subst hie
    cases he : st.envs.get? i with
    | none =>
      have : st.set i k v = st := by simp only [EvalState.set, he]
      rw [this] at hi
      exact hwf i e hi o ho
    | some e0 =>
      rw [set_get?_same st i k v e0 he] at hi
      have := Option.some.inj hi
      subst this
      exact hwf i e0 he o ho
  · rw [set_get?_other st env i k v hie] at hi
    exact hwf i e hi o ho

theorem newEnclosedEnvironment_wellFormed (st : EvalState) (outer : Nat)
    (houter : outer < st.envs.length) (hwf : st.WellFormed) :
    (st.newEnclosedEnvironment outer).2.WellFormed ∧
    (st.newEnclosedEnvironment outer).2.envs.get? (st.newEnclosedEnvironment outer).1 =
      some ⟨[], some outer⟩ := by
  constructor
  · intro i e hi o ho
    simp only [EvalState.newEnclosedEnvironment] at hi
    by_cases hlt : i < st.envs.length
    · rw [List.get?_eq_getElem?, List.getElem?_append_left hlt, ← List.get?_eq_getElem?] at hi
      exact hwf i e hi o ho
    · have hlen := (List.get?_eq_some.1 hi).1
      simp only [List.length_append, List.length_singleton] at hlen
      have hi2 : i = st.envs.length := by omega
      subst hi2
      rw [List.get?_eq_getElem?, List.getElem?_concat_length] at hi
      have := Option.some.inj hi
      subst this
      simp only [Option.some.injEq] at ho
      omega
  · simp [EvalState.newEnclosedEnvironment]

/-! ### C22: `get` and `set` -/

set_option maxRecDepth 100000 in
/-- C22. In a state whose `outer` pointers refer to environments allocated earlier, for an
environment `env` with the store `store` and the enclosing environment `o`: `get` on `env`
returns the binding of the name in `store` when there is one and otherwise the result of
`get` on `o`, and it finds nothing when no environment on the chain binds the name. After
`set` on `env`, `get` on `env` returns the new value, the write being in the store of `env`
itself, while `get` on `o` is unchanged for every name, the written one included. Creating
environments and `set` keep the `outer` pointers in that form. -/
theorem environment_get_set (st : EvalState) (hwf : st.WellFormed) (env o : Nat)
    (store : List (Bytes × Value)) (he : st.envs.get? env = some ⟨store, some o⟩)
    (k : Bytes) (v : Value) :
    (∀ x, mapGet store k = some x → st.get env k = some x) ∧
    (mapGet store k = none → st.get env k = st.get o k) ∧
    (UnboundOnChain st.envs k env → st.get env k = none) ∧
    (st.set env k v).get env k = some v ∧
    (st.set env k v).envs.get? env = some ⟨mapSet store k v, some o⟩ ∧
    (∀ key, (st.set env k v).get o key = st.get o key) ∧
    (st.set env k v).envs.get? o = st.envs.get? o ∧
    (st.set env k v).WellFormed ∧
    o < env ∧
    (∀ (st0 : EvalState) (outer : Nat), outer < st0.envs.length → st0.WellFormed →
      (st0.newEnclosedEnvironment outer).2.WellFormed ∧
      (st0.newEnclosedEnvironment outer).2.envs.get? (st0.newEnclosedEnvironment outer).1 =
        some ⟨[], some outer⟩) ∧
    (NewEnvironment EvalState.initial).2.WellFormed ∧
    result (Run 10 (str "var x = 1; var f = func() \x7b var x = 2; x \x7d; [f(), x]")) =
      some (some (.objArray 9 [some (.objInteger 8 2), some (.objInteger 6 1)])) := by
  have hlt : o < env := hwf env _ he o rfl
  refine ⟨?_, ?_, fun h => get_unbound h, ?_, set_get?_same st env k v _ he, ?_, ?_,
    set_wellFormed st env k v hwf, hlt, newEnclosedEnvironment_wellFormed, ?_, by rfl⟩
  · intro x hx
    rw [get_unfold hwf he k]
    simp only [hx]
  · intro hx
    rw [get_unfold hwf he k]
    simp only [hx]
  · exact get_set_same st env k v (List.get?_eq_some.1 he).1
  · intro key
    exact get_set_below st env k v hwf key o hlt
  · exact set_get?_other st env o k v (by omega)
  · intro i e hi o2 ho2
    cases i with
    | zero =>
      simp only [NewEnvironment, EvalState.initial, List.nil_append, List.get?_cons_zero,
        Option.some.injEq] at hi
      subst hi
      simp at ho2
    | succ j => simp [NewEnvironment, EvalState.initial] at hi

/-- C22 at a call environment enclosed by the top-level one, both binding `x`. -/
theorem environment_get_set_witness :
    EvalState.WellFormed ⟨[⟨[(str "x", some (.objInteger 6 1))], none⟩, ⟨[], some 0⟩], 9, []⟩ ∧
    (EvalState.set ⟨[⟨[(str "x", some (.objInteger 6 1))], none⟩, ⟨[], some 0⟩], 9, []⟩ 1
        (str "x") (some (.objInteger 8 2))).get 1 (str "x") = some (some (.objInteger 8 2)) ∧
    (EvalState.set ⟨[⟨[(str "x", some (.objInteger 6 1))], none⟩, ⟨[], some 0⟩], 9, []⟩ 1
        (str "x") (some (.objInteger 8 2))).get 0 (str "x") =
      EvalState.get ⟨[⟨[(str "x", some (.objInteger 6 1))], none⟩, ⟨[], some 0⟩], 9, []⟩ 0
        (str "x") :=
  have hwf : EvalState.WellFormed
      ⟨[⟨[(str "x", some (.objInteger 6 1))], none⟩, ⟨[], some 0⟩], 9, []⟩ := by
    intro i e h o ho
    cases i with
    | zero =>
      simp only [List.get?_cons_zero, Option.some.injEq] at h
      subst h
      simp at ho
    | succ j =>
      cases j with
      | zero =>
        simp only [List.get?_cons_succ, List.get?_cons_zero, Option.some.injEq] at h
        subst h
        simp only [Option.some.injEq] at ho
        omega
      | succ j => simp at h
  ⟨hwf,
    (environment_get_set _ hwf 1 0 [] rfl (str "x") (some (.objInteger 8 2))).2.2.2.1,
    (environment_get_set _ hwf 1 0 [] rfl (str "x") (some (.objInteger 8 2))).2.2.2.2.2.1
      (str "x")⟩

/-! ### Progress of the lexer, and C28: end of input -/

theorem readByte_input (l : Lexer) : l.readByte.input = l.input := rfl

theorem readByte_nextIndex (l : Lexer) : l.readByte.nextIndex = l.nextIndex + 1 := rfl

theorem readByte_currentIndex (l : Lexer) : l.readByte.currentIndex = l.nextIndex := rfl

theorem readByte_currentByte (l : Lexer) : l.readByte.currentByte = byteAt l.input l.nextIndex := by
  simp only [Lexer.readByte, getD_eq_byteAt2, byteAt_guard]

theorem peekNextByte_eq (l : Lexer) : l.peekNextByte = byteAt l.input l.nextIndex := by
  simp only [Lexer.peekNextByte, getD_eq_byteAt2, byteAt_guard]

theorem exhausted_readByte {l : Lexer} (h : l.input.length ≤ l.nextIndex) :
    l.readByte.exhausted := by
  unfold Lexer.exhausted
  rw [readByte_currentByte, readByte_input, readByte_nextIndex]
  exact ⟨by omega, byteAt_of_le h⟩

theorem remaining_eq_zero {l : Lexer} : l.remaining = 0 ↔ l.exhausted := by
  unfold Lexer.remaining
  split <;> simp [*]

theorem remaining_le (l : Lexer) : l.remaining ≤ l.input.length - l.nextIndex + 1 := by
  unfold Lexer.remaining
  split <;> omega

theorem remaining_readByte (l : Lexer) : l.readByte.remaining ≤ l.remaining - 1 := by
  by_cases h : l.input.length ≤ l.nextIndex
  · have := remaining_eq_zero.2 (exhausted_readByte h)
    omega
  · have hl : l.remaining = l.input.length - l.nextIndex + 1 := by
      unfold Lexer.remaining
      rw [if_neg (fun hx => h hx.1)]
    have hr := remaining_le l.readByte
    rw [readByte_input, readByte_nextIndex] at hr
    omega

theorem Lexer.ReadsTo.append {a b c : Lexer} (h1 : Lexer.ReadsTo a b) (h2 : Lexer.ReadsTo b c) :
    Lexer.ReadsTo a c := by
  induction h1 with
  | refl => exact h2
  | step _ ih => exact .step (ih h2)

theorem Lexer.ReadsTo.one (l : Lexer) : Lexer.ReadsTo l l.readByte := .step (.refl _)

theorem Lexer.ReadsTo.remaining_mono {l l' : Lexer} (h : Lexer.ReadsTo l l') :
    l'.remaining ≤ l.remaining := by
  induction h with
  | refl => exact Nat.le_refl _
  | step _ ih => exact Nat.le_trans ih (Nat.le_trans (remaining_readByte _) (Nat.sub_le _ _))

theorem Lexer.ReadsTo.input_eq {l l' : Lexer} (h : Lexer.ReadsTo l l') : l'.input = l.input := by
  induction h with
  | refl => rfl
  | step _ ih => rw [ih, readByte_input]

theorem Lexer.ReadsTo.remaining_lt {l l' : Lexer} (h : Lexer.ReadsTo l.readByte l') :
    l'.remaining ≤ l.remaining - 1 :=
  Nat.le_trans h.remaining_mono (remaining_readByte l)

theorem skipWhitespace_reads : ∀ (fuel : Nat) (l : Lexer) (m : Bool),
    Lexer.ReadsTo l (Lexer.skipWhitespace fuel l m).1 := by
  intro fuel
  induction fuel with
  | zero => intro l m; exact .refl _
  | succ fuel ih =>
    intro l m
    unfold Lexer.skipWhitespace
    split
    · exact .step (ih _ _)
    · exact .refl _

theorem skipComment_reads : ∀ (fuel : Nat) (l : Lexer), Lexer.ReadsTo l (Lexer.skipComment fuel l) := by
  intro fuel
  induction fuel with
  | zero => intro l; exact .refl _
  | succ fuel ih =>
    intro l
    unfold Lexer.skipComment
    simp only
    split
    · exact .one _
    · exact .step (ih _)

theorem skipWhitespaceAndCommentsLoop_reads : ∀ (fuel : Nat) (l : Lexer),
    Lexer.ReadsTo l (Lexer.skipWhitespaceAndCommentsLoop fuel l) := by
  intro fuel
  induction fuel with
  | zero => intro l; exact .refl _
  | succ fuel ih =>
    intro l
    unfold Lexer.skipWhitespaceAndCommentsLoop
    simp only
    split
    · exact (skipWhitespace_reads _ _ _).append ((skipComment_reads _ _).append (ih _))
    · split
      · exact (skipWhitespace_reads _ _ _).append (ih _)
      · exact skipWhitespace_reads _ _ _

theorem skipWhitespaceAndComments_reads (l : Lexer) :
    Lexer.ReadsTo l l.skipWhitespaceAndComments :=
  skipWhitespaceAndCommentsLoop_reads _ _

theorem readStringLoop_reads : ∀ (fuel : Nat) (l : Lexer),
    Lexer.ReadsTo l (Lexer.readStringLoop fuel l) := by
  intro fuel
  induction fuel with
  | zero => intro l; exact .refl _
  | succ fuel ih =>
    intro l
    unfold Lexer.readStringLoop
    simp only
    split
    · exact .one _
    · exact .step (ih _)

theorem readIdentifierLoop_reads : ∀ (fuel : Nat) (l : Lexer),
    Lexer.ReadsTo l (Lexer.readIdentifierLoop fuel l) := by
  intro fuel
  induction fuel with
  | zero => intro l; exact .refl _
  | succ fuel ih =>
    intro l
    unfold Lexer.readIdentifierLoop
    split
    · exact .step (ih _)
    · exact .refl _

theorem readNumberLoop_reads : ∀ (fuel : Nat) (l : Lexer) (pp : Bool),
    Lexer.ReadsTo l (Lexer.readNumberLoop fuel l pp).1 := by
  intro fuel
  induction fuel with
  | zero => intro l pp; exact .refl _
  | succ fuel ih =>
    intro l pp
    unfold Lexer.readNumberLoop
    split
    · simp only
      split
      · exact .step (.step (ih _ _))
      · exact .step (ih _ _)
    · exact .refl _

theorem readOperator_reads (l : Lexer) (previous : Nat) (single combined : TokenType) :
    Lexer.ReadsTo l (l.readOperator previous single combined).2 := by
  unfold Lexer.readOperator
  split
  · exact .one _
  · exact .refl _

theorem readOperator_reads_one (l : Lexer) (previous : Nat) (single combined : TokenType) :
    Lexer.ReadsTo l.readByte (l.readOperator previous single combined).2.readByte := by
  unfold Lexer.readOperator
  split
  · exact .one _
  · exact .refl _

theorem readString_reads_one (l : Lexer) : Lexer.ReadsTo l.readByte l.readString.2.readByte := by
  have h : Lexer.ReadsTo l.readByte (Lexer.readStringLoop (l.budget + 1) l) := by
    unfold Lexer.readStringLoop
    simp only
    split
    · exact .refl _
    · exact readStringLoop_reads _ _
  exact h.append (.one _)

theorem readIdentifier_reads_one (l : Lexer) (h : Lexer.validIdentifierByte l.currentByte = true) :
    Lexer.ReadsTo l.readByte l.readIdentifier.2 := by
  show Lexer.ReadsTo l.readByte (Lexer.readIdentifierLoop (l.budget + 1) l)
  unfold Lexer.readIdentifierLoop
  rw [if_pos h]
  exact readIdentifierLoop_reads _ _

theorem readNumber_reads_one (l : Lexer) (h : Lexer.validNumberDigit l.currentByte = true) :
    Lexer.ReadsTo l.readByte l.readNumber.2 := by
  show Lexer.ReadsTo l.readByte (Lexer.readNumberLoop (l.budget + 1) l false).1
  unfold Lexer.readNumberLoop
  rw [if_pos h]
  simp only
  split
  · exact .step (readNumberLoop_reads _ _ _)
  · exact readNumberLoop_reads _ _ _

/-- Case analysis on the `switch` of `NextToken`, at the lexer after the skip. -/
theorem NextToken_cases (P : Token × Lexer → Prop) (l0 : Lexer)
    (hop : ∀ single combined, single ≠ .EOF → combined ≠ .EOF →
      l0.skipWhitespaceAndComments.currentByte ∈ [61, 33, 60, 62] →
      P ((l0.skipWhitespaceAndComments.readOperator l0.skipWhitespaceAndComments.currentByte
          single combined).1,
        (l0.skipWhitespaceAndComments.readOperator l0.skipWhitespaceAndComments.currentByte
          single combined).2.readByte))
    (hsingle : ∀ tt literal,
      (tt = .EOF → l0.skipWhitespaceAndComments.currentByte = 0 ∧ literal = []) →
      (tt ≠ .EOF → l0.skipWhitespaceAndComments.currentByte ≠ 0) →
      P (l0.skipWhitespaceAndComments.newToken tt literal, l0.skipWhitespaceAndComments.readByte))
    (hstring : l0.skipWhitespaceAndComments.currentByte = 34 →
      P (l0.skipWhitespaceAndComments.readString.1,
        l0.skipWhitespaceAndComments.readString.2.readByte))
    (hidentifier : Lexer.validIdentifierByte l0.skipWhitespaceAndComments.currentByte = true →
      P l0.skipWhitespaceAndComments.readIdentifier)
    (hnumber : Lexer.validNumberDigit l0.skipWhitespaceAndComments.currentByte = true →
      P l0.skipWhitespaceAndComments.readNumber) :
    P l0.NextToken := by
  unfold Lexer.NextToken
  dsimp only
  by_cases h61 : l0.skipWhitespaceAndComments.currentByte = 61
  · rw [if_pos h61]
    exact hop _ _ (by decide) (by decide) (by simp [h61])
  rw [if_neg h61]
  by_cases h43 : l0.skipWhitespaceAndComments.currentByte = 43
  · rw [if_pos h43]
    exact hsingle _ _ (by intro h; exact absurd h (by decide)) (by intro _; omega)
  rw [if_neg h43]
  by_cases h45 : l0.skipWhitespaceAndComments.currentByte = 45
  · rw [if_pos h45]
    exact hsingle _ _ (by intro h; exact absurd h (by decide)) (by intro _; omega)
  rw [if_neg h45]
  by_cases h42 : l0.skipWhitespaceAndComments.currentByte = 42
  · rw [if_pos h42]
    exact hsingle _ _ (by intro h; exact absurd h (by decide)) (by intro _; omega)
  rw [if_neg h42]
  by_cases h47 : l0.skipWhitespaceAndComments.currentByte = 47
  · rw [if_pos h47]
    exact hsingle _ _ (by intro h; exact absurd h (by decide)) (by intro _; omega)
  rw [if_neg h47]
  by_cases h33 : l0.skipWhitespaceAndComments.currentByte = 33
  · rw [if_pos h33]
    exact hop _ _ (by decide) (by decide) (by simp [h33])
  rw [if_neg h33]
  by_cases h60 : l0.skipWhitespaceAndComments.currentByte = 60
  · rw [if_pos h60]
    exact hop _ _ (by decide) (by decide) (by simp [h60])
  rw [if_neg h60]
  by_cases h62 : l0.skipWhitespaceAndComments.currentByte = 62
  · rw [if_pos h62]
    exact hop _ _ (by decide) (by decide) (by simp [h62])
  rw [if_neg h62]
  by_cases h44 : l0.skipWhitespaceAndComments.currentByte = 44
  · rw [if_pos h44]
    exact hsingle _ _ (by intro h; exact absurd h (by decide)) (by intro _; omega)
  rw [if_neg h44]
  by_cases h59 : l0.skipWhitespaceAndComments.currentByte = 59
  · rw [if_pos h59]
    exact hsingle _ _ (by intro h; exact absurd h (by decide)) (by intro _; omega)
  rw [if_neg h59]
  by_cases h40 : l0.skipWhitespaceAndComments.currentByte = 40
  · rw [if_pos h40]
    exact hsingle _ _ (by intro h; exact absurd h (by decide)) (by intro _; omega)
  rw [if_neg h40]
  by_cases h41 : l0.skipWhitespaceAndComments.currentByte = 41
  · rw [if_pos h41]
    exact hsingle _ _ (by intro h; exact absurd h (by decide)) (by intro _; omega)
  rw [if_neg h41]
  by_cases h123 : l0.skipWhitespaceAndComments.currentByte = 123
  · rw [if_pos h123]
    exact hsingle _ _ (by intro h; exact absurd h (by decide)) (by intro _; omega)
  rw [if_neg h123]
  by_cases h125 : l0.skipWhitespaceAndComments.currentByte = 125
  · rw [if_pos h125]
    exact hsingle _ _ (by intro h; exact absurd h (by decide)) (by intro _; omega)
  rw [if_neg h125]
  by_cases h91 : l0.skipWhitespaceAndComments.currentByte = 91
  · rw [if_pos h91]
    exact hsingle _ _ (by intro h; exact absurd h (by decide)) (by intro _; omega)
  rw [if_neg h91]
  by_cases h93 : l0.skipWhitespaceAndComments.currentByte = 93
  · rw [if_pos h93]
    exact hsingle _ _ (by intro h; exact absurd h (by decide)) (by intro _; omega)
  rw [if_neg h93]
  by_cases h34 : l0.skipWhitespaceAndComments.currentByte = 34
  · rw [if_pos h34]
    exact hstring h34
  rw [if_neg h34]
  by_cases h0 : l0.skipWhitespaceAndComments.currentByte = 0
  · rw [if_pos h0]
    exact hsingle _ _ (fun _ => ⟨h0, rfl⟩) (fun h => absurd rfl h)
  rw [if_neg h0]
  by_cases hid : Lexer.validIdentifierByte l0.skipWhitespaceAndComments.currentByte = true
  · rw [if_pos hid]
    exact hidentifier hid
  rw [if_neg hid]
  by_cases hnum : Lexer.validNumberDigit l0.skipWhitespaceAndComments.currentByte = true
  · rw [if_pos hnum]
    exact hnumber hnum
  rw [if_neg hnum]
  exact hsingle _ _ (by intro h; exact absurd h (by decide)) (fun _ => h0)

theorem NextToken_reads_one (l0 : Lexer) :
    Lexer.ReadsTo l0.skipWhitespaceAndComments.readByte l0.NextToken.2 := by
  apply NextToken_cases (fun r => Lexer.ReadsTo l0.skipWhitespaceAndComments.readByte r.2)
  · intro _ _ _ _ _; exact readOperator_reads_one _ _ _ _
  · intro _ _ _ _; exact .refl _
  · intro _; exact readString_reads_one _
  · exact readIdentifier_reads_one _
  · exact readNumber_reads_one _

theorem NextToken_remaining (l : Lexer) : l.NextToken.2.remaining ≤ l.remaining - 1 := by
  have h1 := (NextToken_reads_one l).remaining_lt
  have h2 := (skipWhitespaceAndComments_reads l).remaining_mono
  omega

theorem NextToken_input (l : Lexer) : l.NextToken.2.input = l.input := by
  rw [(NextToken_reads_one l).input_eq, readByte_input, (skipWhitespaceAndComments_reads l).input_eq]

theorem skipWhitespaceAndComments_exhausted {l : Lexer} (h : l.currentByte = 0) :
    l.skipWhitespaceAndComments = l := by
  unfold Lexer.skipWhitespaceAndComments Lexer.skipWhitespaceAndCommentsLoop
  simp [Lexer.skipWhitespace, Lexer.isWhitespace, h]

theorem NextToken_exhausted {l : Lexer} (h : l.exhausted) :
    l.NextToken = (⟨.EOF, [], l.currentLineNumber + 1, l.currentColNumber⟩, l.readByte) ∧
    l.readByte.exhausted := by
  refine ⟨?_, exhausted_readByte h.1⟩
  unfold Lexer.NextToken
  rw [skipWhitespaceAndComments_exhausted h.2]
  simp [h.2, Lexer.newToken]

theorem tokens_exhausted : ∀ (n : Nat) (l : Lexer), l.exhausted →
    ∀ t ∈ tokens n l, t.Typ = .EOF ∧ t.Literal = [] := by
  intro n
  induction n with
  | zero => intro l _ t ht; simp [tokens] at ht
  | succ n ih =>
    intro l h t ht
    obtain ⟨h1, h2⟩ := NextToken_exhausted h
    simp only [tokens, h1, List.mem_cons] at ht
    rcases ht with ht | ht
    · subst ht; exact ⟨rfl, rfl⟩
    · exact ih _ h2 t ht

theorem NextToken_eof_lexer {l : Lexer} (h : l.NextToken.1.Typ = .EOF) :
    l.NextToken.2 = l.skipWhitespaceAndComments.readByte ∧
    l.skipWhitespaceAndComments.currentByte = 0 ∧ l.NextToken.1.Literal = [] := by
  revert h
  apply NextToken_cases (fun r => r.1.Typ = .EOF →
    r.2 = l.skipWhitespaceAndComments.readByte ∧
      l.skipWhitespaceAndComments.currentByte = 0 ∧ r.1.Literal = [])
  · intro single combined hs hc _ h
    exfalso
    revert h
    unfold Lexer.readOperator
    split
    · exact hc
    · exact hs
  · intro tt literal h1 _ h
    exact ⟨rfl, (h1 h).1, (h1 h).2⟩
  · intro _ h
    exact absurd h (by simp [Lexer.readString])
  · intro _ h
    exfalso
    revert h
    simp only [Lexer.readIdentifier, Lexer.keyword]
    split_ifs <;> decide
  · intro _ h
    exfalso
    revert h
    simp only [Lexer.readNumber]
    split_ifs <;> decide

theorem tokens_add : ∀ (a b : Nat) (l : Lexer),
    tokens (a + b) l = tokens a l ++ tokens b (lexerAfter a l) := by
  intro a
  induction a with
  | zero => intro b l; simp [tokens, lexerAfter]
  | succ a ih =>
    intro b l
    have h : a + 1 + b = (a + b) + 1 := by omega
    rw [h]
    simp only [tokens, lexerAfter, ih, List.cons_append]

theorem lexerAfter_remaining : ∀ (n : Nat) (l : Lexer), (lexerAfter n l).remaining ≤ l.remaining - n := by
  intro n
  induction n with
  | zero => intro l; exact Nat.le_refl _
  | succ n ih =>
    intro l
    have h1 := ih l.NextToken.2
    have h2 := NextToken_remaining l
    simp only [lexerAfter]
    omega

theorem NewLexer_remaining (input : Bytes) : (NewLexer input).remaining ≤ input.length + 1 := by
  have := remaining_le (NewLexer input)
  have h : (NewLexer input).input = input := rfl
  rw [h] at this
  omega

/-- C28. Once `NextToken` has returned an EOF token and the lexer has read past the last
byte of the input, that token has an empty literal and every later call returns an EOF
token with an empty literal, for any number of calls; the same holds from every exhausted
lexer. On every input this state is reached after at most `len(input) + 1` calls. -/
theorem eof_forever (l : Lexer) (input : Bytes) :
    (l.NextToken.1.Typ = .EOF → l.input.length < l.NextToken.2.nextIndex →
      l.NextToken.1.Literal = [] ∧
      ∀ k, ∀ t ∈ tokens k l.NextToken.2, t.Typ = .EOF ∧ t.Literal = []) ∧
    (l.exhausted → ∀ k, ∀ t ∈ tokens k l, t.Typ = .EOF ∧ t.Literal = []) ∧
    (∀ k, ∀ t ∈ tokens k (lexerAfter (input.length + 1) (NewLexer input)),
      t.Typ = .EOF ∧ t.Literal = []) ∧
    (∀ n, tokens (input.length + 1 + n) (NewLexer input) =
      tokens (input.length + 1) (NewLexer input) ++
        tokens n (lexerAfter (input.length + 1) (NewLexer input))) ∧
    (tokens 4 (NewLexer (str "a"))).map (fun t => (t.Typ, t.Literal)) =
      [(.IDENTIFIER, str "a"), (.EOF, []), (.EOF, []), (.EOF, [])] := by
  refine ⟨?_, fun h k => tokens_exhausted k l h, ?_, fun n => tokens_add _ _ _, by decide⟩
  · intro h hlen
    obtain ⟨h1, _, h3⟩ := NextToken_eof_lexer h
    refine ⟨h3, fun k => tokens_exhausted k _ ?_⟩
    rw [h1] at hlen ⊢
    rw [readByte_nextIndex] at hlen
    have hin := (skipWhitespaceAndComments_reads l).input_eq
    exact exhausted_readByte (by rw [hin]; omega)
  · intro k
    apply tokens_exhausted
    apply remaining_eq_zero.1
    have h1 := lexerAfter_remaining (input.length + 1) (NewLexer input)
    have h2 := NewLexer_remaining input
    omega

/-- C28 at the input `a`, after the identifier. -/
theorem eof_forever_witness :
    (lexerAfter 1 (NewLexer (str "a"))).NextToken.1.Typ = .EOF ∧
    (lexerAfter 1 (NewLexer (str "a"))).input.length <
      (lexerAfter 1 (NewLexer (str "a"))).NextToken.2.nextIndex ∧
    ∀ k, ∀ t ∈ tokens k (lexerAfter 1 (NewLexer (str "a"))).NextToken.2,
      t.Typ = .EOF ∧ t.Literal = [] :=
  ⟨by decide, by decide,
    ((eof_forever (lexerAfter 1 (NewLexer (str "a"))) []).1 (by decide) (by decide)).2⟩

/-! ### Positions of the lexer, and C30: line and column of a token -/

theorem take_succ_byteAt (input : Bytes) (i : Nat) (h : i < input.length) :
    input.take (i + 1) = input.take i ++ [byteAt input i] := by
  rw [List.take_succ]
  congr 1
  unfold byteAt
  rw [List.getD_eq_getElem?_getD, List.getElem?_eq_getElem h]
  rfl

theorem lineOf_succ (input : Bytes) (i : Nat) (h : i < input.length) :
    lineOf input (i + 1) = lineOf input i + if byteAt input i = 10 then 1 else 0 := by
  unfold lineOf
  rw [take_succ_byteAt input i h, List.count_append]
  by_cases hb : byteAt input i = 10
  · simp [hb]
    ring
  · have hb2 : ¬ (10 = byteAt input i) := fun h2 => hb h2.symm
    simp [hb, hb2, List.count_singleton]

theorem colOf_succ (input : Bytes) (i : Nat) (h : i < input.length) :
    colOf input (i + 1) = if byteAt input i = 10 then 1 else colOf input i + 1 := by
  unfold colOf
  rw [take_succ_byteAt input i h, List.reverse_append, List.reverse_singleton, List.singleton_append]
  by_cases hb : byteAt input i = 10
  · simp [hb, List.takeWhile]
  · have hb2 : (byteAt input i != 10) = true := by simp [hb]
    rw [List.takeWhile_cons, if_neg hb]
    simp only [hb2, if_true, List.length_cons]
    push_cast
    ring

theorem Positioned_NewLexer (input : Bytes) : (NewLexer input).Positioned := by
  refine ⟨rfl, ?_, ?_⟩
  · exact readByte_currentByte _
  · intro h
    have hb : (NewLexer input).currentByte = byteAt input 0 := readByte_currentByte _
    have h0 : 0 < input.length := h
    constructor
    · show (if (NewLexer input).currentByte = 10 then (0 : Int) + 1 else 0) + 1 = lineOf input 1
      rw [hb, lineOf_succ input 0 h0]
      simp [lineOf]
      split <;> rfl
    · show (if (NewLexer input).currentByte = 10 then (-1 : Int) else 0) + 1 = _
      rw [hb]
      split
      · rfl
      · show (0 : Int) + 1 = colOf input 0
        simp [colOf]

theorem Positioned_readByte {l : Lexer} (h : l.Positioned) : l.readByte.Positioned := by
  obtain ⟨h1, h2, h3⟩ := h
  have hb : l.readByte.currentByte = byteAt l.input l.nextIndex := readByte_currentByte l
  refine ⟨rfl, hb, ?_⟩
  intro hlt
  have hlt2 : l.currentIndex + 1 < l.input.length := by
    have : l.readByte.currentIndex = l.nextIndex := rfl
    rw [this, h1] at hlt
    exact hlt
  obtain ⟨h4, h5⟩ := h3 (by omega)
  have hidx : l.readByte.currentIndex = l.currentIndex + 1 := h1
  have hin : l.readByte.input = l.input := rfl
  rw [h1] at hb
  constructor
  · show (if l.readByte.currentByte = 10 then l.currentLineNumber + 1 else l.currentLineNumber) + 1 = _
    rw [hidx, hin, lineOf_succ l.input (l.currentIndex + 1) hlt2, ← h4, hb]
    split <;> ring
  · show (if l.readByte.currentByte = 10 then (-1 : Int) else l.currentColNumber) + 1 = _
    rw [hidx, hin, hb]
    by_cases hnl : byteAt l.input (l.currentIndex + 1) = 10
    · simp [hnl]
    · rw [if_neg hnl, if_neg hnl, colOf_succ l.input l.currentIndex (by omega), h5, ← h2]
      split <;> ring

theorem Lexer.ReadsTo.positioned {l l' : Lexer} (h : Lexer.ReadsTo l l') (hl : l.Positioned) :
    l'.Positioned := by
  induction h with
  | refl => exact hl
  | step _ ih => exact ih (Positioned_readByte hl)

theorem Lexer.ReadsTo.nextIndex_le {l l' : Lexer} (h : Lexer.ReadsTo l l') :
    l.nextIndex ≤ l'.nextIndex := by
  induction h with
  | refl => exact Nat.le_refl _
  | step _ ih =>
    rw [readByte_nextIndex] at ih
    omega

theorem Positioned.lt_length {l : Lexer} (h : l.Positioned) (hb : l.currentByte ≠ 0) :
    l.currentIndex < l.input.length := by
  rw [h.2.1] at hb
  exact lt_length_of_byteAt_ne_zero hb

theorem isWhitespace_ne_zero {b : Nat} (h : Lexer.isWhitespace b = true) : b ≠ 0 := by
  intro h0
  subst h0
  exact absurd h (by decide)

theorem skipWhitespace_stops : ∀ (fuel : Nat) (l : Lexer) (m : Bool), l.Positioned →
    l.input.length - l.currentIndex < fuel →
    Lexer.isWhitespace (Lexer.skipWhitespace fuel l m).1.currentByte = false := by
  intro fuel
  induction fuel with
  | zero => intro l m _ h; omega
  | succ fuel ih =>
    intro l m hl hf
    unfold Lexer.skipWhitespace
    by_cases hw : Lexer.isWhitespace l.currentByte = true
    · rw [if_pos hw]
      have hlt := Positioned.lt_length hl (isWhitespace_ne_zero hw)
      apply ih _ _ (Positioned_readByte hl)
      rw [readByte_input, readByte_currentIndex, hl.1]
      omega
    · rw [if_neg hw]
      simpa using hw

theorem skipWhitespace_moved : ∀ (fuel : Nat) (l : Lexer),
    (Lexer.skipWhitespace fuel l false).2 = true →
    Lexer.isWhitespace l.currentByte = true ∧
      Lexer.ReadsTo l.readByte (Lexer.skipWhitespace fuel l false).1 := by
  intro fuel l h
  cases fuel with
  | zero => exact absurd h (by simp [Lexer.skipWhitespace])
  | succ fuel =>
    unfold Lexer.skipWhitespace at h ⊢
    by_cases hw : Lexer.isWhitespace l.currentByte = true
    · rw [if_pos hw]
      exact ⟨hw, skipWhitespace_reads _ _ _⟩
    · rw [if_neg hw] at h
      exact absurd h (by simp)

theorem budget_of_positioned {l : Lexer} (h : l.Positioned) :
    l.budget = l.input.length - l.currentIndex := by
  unfold Lexer.budget
  rw [h.1]
  omega

theorem skipComment_reads_one (fuel : Nat) (l : Lexer) :
    Lexer.ReadsTo l.readByte (Lexer.skipComment (fuel + 1) l) := by
  unfold Lexer.skipComment
  simp only
  split
  · exact .refl _
  · exact skipComment_reads _ _

theorem skipWhitespaceAndCommentsLoop_stops : ∀ (fuel : Nat) (l : Lexer), l.Positioned →
    l.input.length - l.currentIndex < fuel →
    Lexer.isWhitespace (Lexer.skipWhitespaceAndCommentsLoop fuel l).currentByte = false ∧
    ¬ ((Lexer.skipWhitespaceAndCommentsLoop fuel l).currentByte = 47 ∧
      (Lexer.skipWhitespaceAndCommentsLoop fuel l).peekNextByte = 47) := by
  intro fuel
  induction fuel with
  | zero => intro l _ h; omega
  | succ fuel ih =>
    intro l hl hf
    have hreads := skipWhitespace_reads (l.budget + 1) l false
    have hpos := hreads.positioned hl
    have hstop := skipWhitespace_stops (l.budget + 1) l false hl
      (by rw [budget_of_positioned hl]; omega)
    have hidx := hreads.nextIndex_le
    rw [hl.1, hpos.1] at hidx
    have hin := hreads.input_eq
    unfold Lexer.skipWhitespaceAndCommentsLoop
    simp only
    by_cases hc : (Lexer.skipWhitespace (l.budget + 1) l false).1.currentByte = 47 ∧
        (Lexer.skipWhitespace (l.budget + 1) l false).1.peekNextByte = 47
    · rw [if_pos hc]
      have hlt := Positioned.lt_length hpos (by rw [hc.1]; decide)
      have hcr := skipComment_reads_one (Lexer.skipWhitespace (l.budget + 1) l false).1.budget
        (Lexer.skipWhitespace (l.budget + 1) l false).1
      have hcpos := hcr.positioned (Positioned_readByte hpos)
      have hcidx := hcr.nextIndex_le
      rw [readByte_nextIndex, hpos.1, hcpos.1] at hcidx
      apply ih _ hcpos
      rw [hcr.input_eq, readByte_input, hin]
      rw [hin] at hlt
      omega
    · rw [if_neg hc]
      by_cases hm : (Lexer.skipWhitespace (l.budget + 1) l false).2 = true
      · rw [if_pos hm]
        obtain ⟨hw, hr1⟩ := skipWhitespace_moved _ _ hm
        have hlt := Positioned.lt_length hl (isWhitespace_ne_zero hw)
        have hidx2 := hr1.nextIndex_le
        rw [readByte_nextIndex, hl.1, hpos.1] at hidx2
        apply ih _ hpos
        rw [hin]
        omega
      · rw [if_neg hm]
        exact ⟨hstop, hc⟩

theorem skipWhitespaceAndComments_stops {l : Lexer} (hl : l.Positioned) :
    Lexer.isWhitespace l.skipWhitespaceAndComments.currentByte = false ∧
    ¬ (l.skipWhitespaceAndComments.currentByte = 47 ∧
      l.skipWhitespaceAndComments.peekNextByte = 47) :=
  skipWhitespaceAndCommentsLoop_stops _ l hl (by rw [budget_of_positioned hl]; omega)

theorem Positioned.start {l : Lexer} (h : l.Positioned) (h0 : l.currentByte ≠ 0)
    (h10 : l.currentByte ≠ 10) :
    l.currentLineNumber + 1 = lineOf l.input l.currentIndex ∧
    l.currentColNumber = colOf l.input l.currentIndex := by
  have hlt := Positioned.lt_length h h0
  obtain ⟨h4, h5⟩ := h.2.2 hlt
  rw [if_neg h10] at h5
  rw [lineOf_succ l.input l.currentIndex hlt, ← h.2.1, if_neg h10] at h4
  exact ⟨by rw [h4]; ring, h5⟩

theorem identifierByte_ne {b : Nat} (h : Lexer.validIdentifierByte b = true) : b ≠ 0 ∧ b ≠ 10 := by
  simp only [Lexer.validIdentifierByte, Bool.or_eq_true, Bool.and_eq_true, decide_eq_true_eq] at h
  omega

theorem numberDigit_ne {b : Nat} (h : Lexer.validNumberDigit b = true) : b ≠ 0 ∧ b ≠ 10 := by
  simp only [Lexer.validNumberDigit, Bool.and_eq_true, decide_eq_true_eq] at h
  omega

theorem NextToken_position {l : Lexer} (hl : l.Positioned) (h : l.NextToken.1.Typ ≠ .EOF) :
    l.NextToken.1.LineNumber = lineOf l.input l.skipWhitespaceAndComments.currentIndex ∧
    l.NextToken.1.ColNumber = colOf l.input l.skipWhitespaceAndComments.currentIndex ∧
    l.skipWhitespaceAndComments.currentIndex < l.input.length := by
  have hreads := skipWhitespaceAndComments_reads l
  have hpos := hreads.positioned hl
  have hin := hreads.input_eq
  have hws := (skipWhitespaceAndComments_stops hl).1
  have h10 : l.skipWhitespaceAndComments.currentByte ≠ 10 := by
    intro h10
    rw [h10] at hws
    exact absurd hws (by decide)
  have key : ∀ (t : Token), l.skipWhitespaceAndComments.currentByte ≠ 0 →
      t.LineNumber = l.skipWhitespaceAndComments.currentLineNumber + 1 →
      t.ColNumber = l.skipWhitespaceAndComments.currentColNumber →
      t.LineNumber = lineOf l.input l.skipWhitespaceAndComments.currentIndex ∧
      t.ColNumber = colOf l.input l.skipWhitespaceAndComments.currentIndex ∧
      l.skipWhitespaceAndComments.currentIndex < l.input.length := by
    intro t h0 hline hcol
    obtain ⟨h1, h2⟩ := Positioned.start hpos h0 h10
    rw [hin] at h1 h2
    have hlt := Positioned.lt_length hpos h0
    rw [hin] at hlt
    exact ⟨by rw [hline, h1], by rw [hcol, h2], hlt⟩
  revert h
  apply NextToken_cases (fun r => r.1.Typ ≠ .EOF →
    r.1.LineNumber = lineOf l.input l.skipWhitespaceAndComments.currentIndex ∧
    r.1.ColNumber = colOf l.input l.skipWhitespaceAndComments.currentIndex ∧
    l.skipWhitespaceAndComments.currentIndex < l.input.length)
  · intro single combined _ _ hmem _
    have h0 : l.skipWhitespaceAndComments.currentByte ≠ 0 := by
      intro h0
      rw [h0] at hmem
      exact absurd hmem (by decide)
    apply key _ h0
    · unfold Lexer.readOperator
      by_cases hp : l.skipWhitespaceAndComments.peekNextByte = 61
      · rw [if_pos hp]
        rw [peekNextByte_eq] at hp
        have hb := readByte_currentByte l.skipWhitespaceAndComments
        rw [hp] at hb
        show (if l.skipWhitespaceAndComments.readByte.currentByte = 10 then _ else _) + 1 = _
        rw [hb]
        rfl
      · rw [if_neg hp]
        rfl
    · unfold Lexer.readOperator
      by_cases hp : l.skipWhitespaceAndComments.peekNextByte = 61
      · rw [if_pos hp]
        rw [peekNextByte_eq] at hp
        have hb := readByte_currentByte l.skipWhitespaceAndComments
        rw [hp] at hb
        show (if l.skipWhitespaceAndComments.readByte.currentByte = 10 then (-1 : Int) else _) + 1 - 1
          = _
        rw [hb]
        simp
      · rw [if_neg hp]
        rfl
  · intro tt literal _ h0 hne
    exact key _ (h0 hne) rfl rfl
  · intro h34 _
    exact key _ (by rw [h34]; decide) rfl rfl
  · intro hid _
    exact key _ (identifierByte_ne hid).1 rfl rfl
  · intro hnum _
    exact key _ (numberDigit_ne hnum).1 rfl rfl

theorem Positioned_NextToken {l : Lexer} (hl : l.Positioned) : l.NextToken.2.Positioned :=
  ((skipWhitespaceAndComments_reads l).append ((Lexer.ReadsTo.one _).append
    (NextToken_reads_one l))).positioned hl

theorem Positioned_lexerAfter : ∀ (n : Nat) (l : Lexer), l.Positioned → (lexerAfter n l).Positioned := by
  intro n
  induction n with
  | zero => intro l h; exact h
  | succ n ih => intro l h; exact ih _ (Positioned_NextToken h)

/-- C30. The lexer made by `NewLexer` keeps its counters in step with its position, also
after any number of tokens. From such a lexer, a token that `NextToken` returns and that is
not EOF starts at the offset `p` where the lexer stands after the skip, a byte of the input
that is not whitespace; its `LineNumber` is one plus the number of newline bytes before `p`
and its `ColNumber` is one plus the number of bytes between the last newline before `p`, or
the start of the input, and `p`. This covers one-byte tokens, two-byte operators,
identifiers, numbers and strings; the first token of `var five = 5;` is at line 1,
column 1. -/
theorem token_positions (input : Bytes) (n : Nat) :
    (NewLexer input).Positioned ∧ (lexerAfter n (NewLexer input)).Positioned ∧
    (∀ l : Lexer, l.Positioned → l.NextToken.1.Typ ≠ .EOF →
      l.NextToken.1.LineNumber = lineOf l.input l.skipWhitespaceAndComments.currentIndex ∧
      l.NextToken.1.ColNumber = colOf l.input l.skipWhitespaceAndComments.currentIndex ∧
      l.skipWhitespaceAndComments.currentIndex < l.input.length ∧
      l.skipWhitespaceAndComments.currentByte =
        byteAt l.input l.skipWhitespaceAndComments.currentIndex ∧
      Lexer.isWhitespace l.skipWhitespaceAndComments.currentByte = false ∧
      l.NextToken.2.Positioned) ∧
    (tokens 5 (NewLexer (str "var five = 5;"))).map (fun t => (t.Typ, t.LineNumber, t.ColNumber)) =
      [(.VARIABLE, 1, 1), (.IDENTIFIER, 1, 5), (.ASSIGN, 1, 10), (.INTEGER, 1, 12),
        (.SEMICOLON, 1, 13)] ∧
    (tokens 4 (NewLexer (str "a\n  \"s\" <= b"))).map
        (fun t => (t.Typ, t.LineNumber, t.ColNumber)) =
      [(.IDENTIFIER, 1, 1), (.STRING, 2, 3), (.LTE, 2, 7), (.IDENTIFIER, 2, 10)] := by
  refine ⟨Positioned_NewLexer input, Positioned_lexerAfter n _ (Positioned_NewLexer input), ?_,
    by decide, by decide⟩
  intro l hl h
  obtain ⟨h1, h2, h3⟩ := NextToken_position hl h
  have hpos := (skipWhitespaceAndComments_reads l).positioned hl
  have hin := (skipWhitespaceAndComments_reads l).input_eq
  refine ⟨h1, h2, h3, ?_, (skipWhitespaceAndComments_stops hl).1, Positioned_NextToken hl⟩
  rw [← hin]
  exact hpos.2.1

/-- C30 at the second token of `var five = 5;`. -/
theorem token_positions_witness :
    (lexerAfter 1 (NewLexer (str "var five = 5;"))).Positioned ∧
    (lexerAfter 1 (NewLexer (str "var five = 5;"))).NextToken.1.Typ ≠ .EOF ∧
    (lexerAfter 1 (NewLexer (str "var five = 5;"))).NextToken.1.ColNumber =
      colOf (lexerAfter 1 (NewLexer (str "var five = 5;"))).input
        (lexerAfter 1 (NewLexer (str "var five = 5;"))).skipWhitespaceAndComments.currentIndex :=
  ⟨(token_positions (str "var five = 5;") 1).2.1, by decide,
    ((token_positions (str "var five = 5;") 1).2.2.1 _ (token_positions (str "var five = 5;") 1).2.1
      (by decide)).2.1⟩

/-! ### Termination of the parser -/

theorem weight_nextToken (p : Parser) : p.nextToken.weight ≤ p.weight - 1 := by
  by_cases hex : p.l.exhausted
  · obtain ⟨h1, h2⟩ := NextToken_exhausted hex
    have hl : p.nextToken.l = p.l.readByte := by simp [Parser.nextToken, h1]
    have hn : p.nextToken.next.Typ = .EOF := by simp [Parser.nextToken, h1]
    have hc : p.nextToken.current = p.next := rfl
    unfold Parser.weight
    rw [if_pos hex, hl, if_pos h2, if_pos hn, hc]
    split_ifs <;> omega
  · have hrem := NextToken_remaining p.l
    have hpos : 1 ≤ p.l.remaining := by
      have := (remaining_eq_zero (l := p.l)).not.2 hex
      omega
    have hl : p.nextToken.l = p.l.NextToken.2 := rfl
    unfold Parser.weight
    rw [if_neg hex, hl]
    split_ifs <;> omega

theorem weight_pos_of_current {p : Parser} (h : p.current.Typ ≠ .EOF) : 1 ≤ p.weight := by
  unfold Parser.weight
  split_ifs <;> omega

theorem weight_two_of_next {p : Parser} (h : p.next.Typ ≠ .EOF) : 2 ≤ p.weight := by
  unfold Parser.weight
  split_ifs <;> omega

theorem Parser.Advances.refl (p : Parser) : p.Advances p := ⟨Nat.le_refl _, [], by simp⟩

theorem Parser.Advances.trans {a b c : Parser} (h1 : a.Advances b) (h2 : b.Advances c) :
    a.Advances c := by
  obtain ⟨w1, e1, i1⟩ := h1
  obtain ⟨w2, e2, i2⟩ := h2
  exact ⟨Nat.le_trans w2 w1, e1 ++ e2, by rw [i2, i1, List.append_assoc]⟩

theorem Parser.Advances.nextToken (p : Parser) : p.Advances p.nextToken :=
  ⟨Nat.le_trans (weight_nextToken p) (Nat.sub_le _ _), [], by simp [Parser.nextToken]⟩

theorem Parser.Advances.issue (p : Parser) (msg : Bytes) :
    p.Advances { p with issues := p.issues ++ [msg] } :=
  ⟨Nat.le_refl _, [msg], rfl⟩

theorem expectToken_advances (p : Parser) (t : TokenType) : p.Advances (p.expectToken t).2 := by
  unfold Parser.expectToken
  split
  · exact .nextToken p
  · exact .issue p _

theorem expectToken_true {p : Parser} {t : TokenType} {p' : Parser}
    (h : p.expectToken t = (true, p')) : p' = p.nextToken ∧ p.next.Typ = t := by
  unfold Parser.expectToken at h
  split at h
  · simp only [Prod.mk.injEq, true_and] at h
    exact ⟨h.symm, by assumption⟩
  · simp at h

theorem skipSemicolon_advances (p : Parser) : p.Advances (Parser.skipSemicolon p) := by
  unfold Parser.skipSemicolon
  split
  · exact .nextToken p
  · exact .refl p

theorem expectToken_snd_advances {p p1 : Parser} {t : TokenType} {b : Bool}
    (h : p.expectToken t = (b, p1)) : p.Advances p1 := by
  have := expectToken_advances p t
  rw [h] at this
  exact this

theorem weight_expectToken_true {p p1 : Parser} {t : TokenType}
    (h : p.expectToken t = (true, p1)) : p1.weight ≤ p.weight - 1 ∧ p1.current.Typ = t := by
  obtain ⟨h1, h2⟩ := expectToken_true h
  subst h1
  exact ⟨weight_nextToken p, h2⟩

section totality

variable {pe : Parser.PE} {n : Nat}

theorem parseStatement_total (hpe : pe.Total n) (p : Parser) (hw : p.weight + 2 ≤ n) :
    ∃ s p', Parser.parseStatement pe p = some (s, p') ∧ p.Advances p' := by
  have hexpr : ∃ s p', Parser.parseExpressionStatement pe p = some (s, p') ∧ p.Advances p' := by
    obtain ⟨e, p1, h1, a1⟩ := hpe Marble.lowest p hw
    exact ⟨_, _, by simp only [Parser.parseExpressionStatement, h1]; rfl,
      a1.trans (skipSemicolon_advances _)⟩
  have hret : ∃ s p', Parser.parseReturnStatement pe p = some (s, p') ∧ p.Advances p' := by
    have a0 := Parser.Advances.nextToken p
    obtain ⟨e, p1, h1, a1⟩ := hpe Marble.lowest p.nextToken (by have := a0.1; omega)
    exact ⟨_, _, by simp only [Parser.parseReturnStatement, h1]; rfl,
      a0.trans (a1.trans (skipSemicolon_advances _))⟩
  have hvar : ∃ s p', Parser.parseVarStatement pe p = some (s, p') ∧ p.Advances p' := by
    unfold Parser.parseVarStatement
    rcases hx : p.expectToken .IDENTIFIER with ⟨b, p1⟩
    have a1 := expectToken_snd_advances hx
    cases b with
    | false => exact ⟨_, _, rfl, a1⟩
    | true =>
      simp only
      rcases hy : p1.expectToken .ASSIGN with ⟨b2, p2⟩
      have a2 := expectToken_snd_advances hy
      cases b2 with
      | false => exact ⟨_, _, rfl, a1.trans a2⟩
      | true =>
        simp only
        have a3 := Parser.Advances.nextToken p2
        have a123 := a1.trans (a2.trans a3)
        obtain ⟨e, p3, h3, a4⟩ := hpe Marble.lowest p2.nextToken (by have := a123.1; omega)
        exact ⟨_, _, by simp only [h3]; rfl, a123.trans (a4.trans (skipSemicolon_advances _))⟩
  unfold Parser.parseStatement
  split
  · exact hvar
  · exact hret
  · exact hexpr

theorem parseExpressionListLoop_total (hpe : pe.Total n) :
    ∀ (k : Nat) (expressions : List Expr) (p : Parser), p.weight + 2 ≤ n → p.weight < k →
      ∃ es p', Parser.parseExpressionListLoop pe k expressions p = some (es, p') ∧
        p.Advances p' := by
  intro k
  induction k with
  | zero => intro _ p _ h; omega
  | succ k ih =>
    intro expressions p hw hk
    unfold Parser.parseExpressionListLoop
    by_cases hc : p.next.Typ = .COMMA
    · rw [if_pos hc]
      have h2 : 2 ≤ p.weight := weight_two_of_next (by rw [hc]; decide)
      have w1 := weight_nextToken p
      have w2 := weight_nextToken p.nextToken
      have a12 := (Parser.Advances.nextToken p).trans (Parser.Advances.nextToken p.nextToken)
      obtain ⟨e, p1, h1, a1⟩ := hpe Marble.lowest p.nextToken.nextToken (by omega)
      simp only [h1]
      obtain ⟨es, p', h3, a3⟩ := ih (expressions ++ [e]) p1 (by have := a1.1; omega)
        (by have := a1.1; omega)
      exact ⟨es, p', h3, a12.trans (a1.trans a3)⟩
    · rw [if_neg hc]
      exact ⟨_, _, rfl, .refl p⟩

theorem parseExpressionList_total (hpe : pe.Total n) (stop : TokenType) (p : Parser)
    (hw : p.weight + 1 ≤ n) (hpos : 1 ≤ p.weight) :
    ∃ es p', Parser.parseExpressionList pe n stop p = some (es, p') ∧ p.Advances p' := by
  unfold Parser.parseExpressionList
  by_cases hc : p.next.Typ = stop
  · rw [if_pos hc]
    exact ⟨_, _, rfl, .nextToken p⟩
  · rw [if_neg hc]
    have w1 := weight_nextToken p
    have a0 := Parser.Advances.nextToken p
    obtain ⟨e, p1, h1, a1⟩ := hpe Marble.lowest p.nextToken (by omega)
    simp only [h1]
    obtain ⟨es, p2, h2, a2⟩ := parseExpressionListLoop_total hpe n [e] p1
      (by have := a1.1; omega) (by have := a1.1; omega)
    simp only [h2]
    rcases hx : p2.expectToken stop with ⟨b, p3⟩
    have a3 := expectToken_snd_advances hx
    cases b with
    | false => exact ⟨_, _, rfl, a0.trans (a1.trans (a2.trans a3))⟩
    | true => exact ⟨_, _, rfl, a0.trans (a1.trans (a2.trans a3))⟩

theorem parseBlockStatementLoop_total (hpe : pe.Total n) :
    ∀ (k : Nat) (statements : List Statement) (p : Parser), p.weight + 2 ≤ n → p.weight < k →
      ∃ ss p', Parser.parseBlockStatementLoop pe k statements p = some (ss, p') ∧
        p.Advances p' := by
  intro k
  induction k with
  | zero => intro _ p _ h; omega
  | succ k ih =>
    intro statements p hw hk
    unfold Parser.parseBlockStatementLoop
    by_cases hc : p.current.Typ ≠ .RBRACE ∧ p.current.Typ ≠ .EOF
    · rw [if_pos hc]
      have hpos := weight_pos_of_current hc.2
      obtain ⟨s, p1, h1, a1⟩ := parseStatement_total hpe p hw
      have w1 := weight_nextToken p1
      have a2 := a1.trans (Parser.Advances.nextToken p1)
      have hlt : p1.nextToken.weight < p.weight := by have := a1.1; omega
      obtain ⟨ss, p', h3, a3⟩ := ih (match s with | none => statements | some stmt => statements ++ [stmt])
        p1.nextToken (by omega) (by omega)
      refine ⟨ss, p', ?_, a2.trans a3⟩
      simp only [h1]
      cases s with
      | none => exact h3
      | some stmt => exact h3
    · rw [if_neg hc]
      exact ⟨_, _, rfl, .refl p⟩

theorem parseBlockStatement_total (hpe : pe.Total n) (p : Parser)
    (hw : p.weight + 1 ≤ n) (hpos : 1 ≤ p.weight) :
    ∃ b p', Parser.parseBlockStatement pe n p = some (b, p') ∧ p.Advances p' := by
  have w1 := weight_nextToken p
  obtain ⟨ss, p1, h1, a1⟩ := parseBlockStatementLoop_total hpe n [] p.nextToken (by omega)
    (by omega)
  exact ⟨_, _, by simp only [Parser.parseBlockStatement, h1]; rfl,
    (Parser.Advances.nextToken p).trans a1⟩

theorem parseFunctionParametersLoop_total :
    ∀ (k : Nat) (identifiers : List Identifier) (p : Parser), p.weight < k →
      ∃ ids p', Parser.parseFunctionParametersLoop k identifiers p = some (ids, p') ∧
        p.Advances p' := by
  intro k
  induction k with
  | zero => intro _ p h; omega
  | succ k ih =>
    intro identifiers p hk
    unfold Parser.parseFunctionParametersLoop
    by_cases hc : p.next.Typ = .COMMA
    · rw [if_pos hc]
      have h2 : 2 ≤ p.weight := weight_two_of_next (by rw [hc]; decide)
      have w1 := weight_nextToken p
      have w2 := weight_nextToken p.nextToken
      have a12 := (Parser.Advances.nextToken p).trans (Parser.Advances.nextToken p.nextToken)
      simp only
      obtain ⟨ids, p', h3, a3⟩ := ih (identifiers ++ [⟨p.nextToken.nextToken.current⟩])
        p.nextToken.nextToken (by omega)
      exact ⟨ids, p', h3, a12.trans a3⟩
    · rw [if_neg hc]
      exact ⟨_, _, rfl, .refl p⟩

theorem parseFunctionParameters_total (fuel : Nat) (p : Parser) (hf : p.weight ≤ fuel)
    (hpos : 1 ≤ p.weight) :
    ∃ ids p', Parser.parseFunctionParameters fuel p = some (ids, p') ∧ p.Advances p' := by
  unfold Parser.parseFunctionParameters
  by_cases hc : p.next.Typ = .RPAREN
  · rw [if_pos hc]
    exact ⟨_, _, rfl, .nextToken p⟩
  · rw [if_neg hc]
    have w1 := weight_nextToken p
    have a0 := Parser.Advances.nextToken p
    simp only
    obtain ⟨ids, p2, h2, a2⟩ := parseFunctionParametersLoop_total fuel [⟨p.nextToken.current⟩]
      p.nextToken (by omega)
    simp only [h2]
    rcases hx : p2.expectToken .RPAREN with ⟨b, p3⟩
    have a3 := expectToken_snd_advances hx
    cases b with
    | false => exact ⟨_, _, rfl, a0.trans (a2.trans a3)⟩
    | true => exact ⟨_, _, rfl, a0.trans (a2.trans a3)⟩

theorem parseArrayLiteral_total (hpe : pe.Total n) (p : Parser)
    (hw : p.weight + 1 ≤ n) (hpos : 1 ≤ p.weight) :
    ∃ e p', Parser.parseArrayLiteral pe n p = some (e, p') ∧ p.Advances p' := by
  obtain ⟨es, p1, h1, a1⟩ := parseExpressionList_total hpe .RBRACKET p hw hpos
  exact ⟨_, _, by simp only [Parser.parseArrayLiteral, h1]; rfl, a1⟩

theorem parseCallExpression_total (hpe : pe.Total n) (function : Expr) (p : Parser)
    (hw : p.weight + 1 ≤ n) (hpos : 1 ≤ p.weight) :
    ∃ e p', Parser.parseCallExpression pe n function p = some (e, p') ∧ p.Advances p' := by
  obtain ⟨es, p1, h1, a1⟩ := parseExpressionList_total hpe .RPAREN p hw hpos
  exact ⟨_, _, by simp only [Parser.parseCallExpression, h1]; rfl, a1⟩

theorem parsePrefixExpression_total (hpe : pe.Total n) (p : Parser)
    (hw : p.weight + 1 ≤ n) (hpos : 1 ≤ p.weight) :
    ∃ e p', Parser.parsePrefixExpression pe p = some (e, p') ∧ p.Advances p' := by
  have w1 := weight_nextToken p
  obtain ⟨e, p1, h1, a1⟩ := hpe prefixPrecedence p.nextToken (by omega)
  exact ⟨_, _, by simp only [Parser.parsePrefixExpression, h1]; rfl,
    (Parser.Advances.nextToken p).trans a1⟩

theorem parseInfixExpression_total (hpe : pe.Total n) (left : Expr) (p : Parser)
    (hw : p.weight + 1 ≤ n) (hpos : 1 ≤ p.weight) :
    ∃ e p', Parser.parseInfixExpression pe left p = some (e, p') ∧ p.Advances p' := by
  have w1 := weight_nextToken p
  obtain ⟨e, p1, h1, a1⟩ := hpe (tokenPrecedence p.current.Typ) p.nextToken (by omega)
  exact ⟨_, _, by simp only [Parser.parseInfixExpression, h1]; rfl,
    (Parser.Advances.nextToken p).trans a1⟩

theorem parseGroupedExpression_total (hpe : pe.Total n) (p : Parser)
    (hw : p.weight + 1 ≤ n) (hpos : 1 ≤ p.weight) :
    ∃ e p', Parser.parseGroupedExpression pe p = some (e, p') ∧ p.Advances p' := by
  have w1 := weight_nextToken p
  obtain ⟨e, p1, h1, a1⟩ := hpe Marble.lowest p.nextToken (by omega)
  unfold Parser.parseGroupedExpression
  simp only [h1]
  rcases hx : p1.expectToken .RPAREN with ⟨b, p2⟩
  have a2 := expectToken_snd_advances hx
  cases b with
  | false => exact ⟨_, _, rfl, (Parser.Advances.nextToken p).trans (a1.trans a2)⟩
  | true => exact ⟨_, _, rfl, (Parser.Advances.nextToken p).trans (a1.trans a2)⟩

theorem parseIndexExpression_total (hpe : pe.Total n) (left : Expr) (p : Parser)
    (hw : p.weight + 1 ≤ n) (hpos : 1 ≤ p.weight) :
    ∃ e p', Parser.parseIndexExpression pe left p = some (e, p') ∧ p.Advances p' := by
  have w1 := weight_nextToken p
  obtain ⟨e, p1, h1, a1⟩ := hpe Marble.lowest p.nextToken (by omega)
  unfold Parser.parseIndexExpression
  simp only [h1]
  rcases hx : p1.expectToken .RBRACKET with ⟨b, p2⟩
  have a2 := expectToken_snd_advances hx
  cases b with
  | false => exact ⟨_, _, rfl, (Parser.Advances.nextToken p).trans (a1.trans a2)⟩
  | true => exact ⟨_, _, rfl, (Parser.Advances.nextToken p).trans (a1.trans a2)⟩

theorem parseIfExpression_total (hpe : pe.Total n) (p : Parser)
    (hw : p.weight + 1 ≤ n) (hpos : 1 ≤ p.weight) :
    ∃ e p', Parser.parseIfExpression pe n p = some (e, p') ∧ p.Advances p' := by
  unfold Parser.parseIfExpression
  rcases hx1 : p.expectToken .LPAREN with ⟨b1, p1⟩
  have a1 := expectToken_snd_advances hx1
  cases b1 with
  | false => exact ⟨_, _, rfl, a1⟩
  | true =>
    simp only
    obtain ⟨w1, _⟩ := weight_expectToken_true hx1
    have a2 := a1.trans (Parser.Advances.nextToken p1)
    obtain ⟨c, p2, h2, a3⟩ := hpe Marble.lowest p1.nextToken (by have := a2.1; have := weight_nextToken p1; omega)
    simp only [h2]
    have a23 := a2.trans a3
    have w2 : p2.weight ≤ p.weight - 1 := by
      have := a3.1
      have := weight_nextToken p1
      omega
    rcases hx3 : p2.expectToken .RPAREN with ⟨b3, p3⟩
    have a4 := expectToken_snd_advances hx3
    cases b3 with
    | false => exact ⟨_, _, rfl, a23.trans a4⟩
    | true =>
      simp only
      rcases hx4 : p3.expectToken .LBRACE with ⟨b4, p4⟩
      have a5 := expectToken_snd_advances hx4
      cases b4 with
      | false => exact ⟨_, _, rfl, a23.trans (a4.trans a5)⟩
      | true =>
        simp only
        obtain ⟨_, hcur4⟩ := weight_expectToken_true hx4
        have w4 : p4.weight ≤ p.weight - 1 := by
          have := a4.1
          have := a5.1
          omega
        obtain ⟨cons, p5, h5, a6⟩ := parseBlockStatement_total hpe p4 (by omega)
          (weight_pos_of_current (by rw [hcur4]; decide))
        simp only [h5]
        have a16 := a23.trans (a4.trans (a5.trans a6))
        by_cases helse : p5.next.Typ = .ELSE
        · rw [if_pos helse]
          rcases hx6 : p5.nextToken.expectToken .LBRACE with ⟨b6, p6⟩
          have a7 := (Parser.Advances.nextToken p5).trans (expectToken_snd_advances hx6)
          cases b6 with
          | false => exact ⟨_, _, rfl, a16.trans a7⟩
          | true =>
            simp only
            obtain ⟨_, hcur6⟩ := weight_expectToken_true hx6
            obtain ⟨alt, p7, h7, a8⟩ := parseBlockStatement_total hpe p6
              (by have := a6.1; have := a7.1; omega)
              (weight_pos_of_current (by rw [hcur6]; decide))
            simp only [h7]
            exact ⟨_, _, rfl, a16.trans (a7.trans a8)⟩
        · rw [if_neg helse]
          exact ⟨_, _, rfl, a16⟩

theorem parseFunctionExpression_total (hpe : pe.Total n) (p : Parser)
    (hw : p.weight + 1 ≤ n) (hpos : 1 ≤ p.weight) :
    ∃ e p', Parser.parseFunctionExpression pe n p = some (e, p') ∧ p.Advances p' := by
  unfold Parser.parseFunctionExpression
  rcases hx1 : p.expectToken .LPAREN with ⟨b1, p1⟩
  have a1 := expectToken_snd_advances hx1
  cases b1 with
  | false => exact ⟨_, _, rfl, a1⟩
  | true =>
    simp only
    obtain ⟨w1, hcur1⟩ := weight_expectToken_true hx1
    obtain ⟨ids, p2, h2, a2⟩ := parseFunctionParameters_total n p1 (by omega)
      (weight_pos_of_current (by rw [hcur1]; decide))
    simp only [h2]
    rcases hx3 : p2.expectToken .LBRACE with ⟨b3, p3⟩
    have a3 := expectToken_snd_advances hx3
    cases b3 with
    | false => exact ⟨_, _, rfl, a1.trans (a2.trans a3)⟩
    | true =>
      simp only
      obtain ⟨_, hcur3⟩ := weight_expectToken_true hx3
      obtain ⟨body, p4, h4, a4⟩ := parseBlockStatement_total hpe p3
        (by have := a2.1; have := a3.1; omega)
        (weight_pos_of_current (by rw [hcur3]; decide))
      simp only [h4]
      exact ⟨_, _, rfl, a1.trans (a2.trans (a3.trans a4))⟩

theorem parsePrefixTerm_total (hpe : pe.Total n) (p : Parser) (hw : p.weight + 1 ≤ n) :
    ∃ r p', Parser.parsePrefixTerm pe n p = some (r, p') ∧ p.Advances p' := by
  have lift : ∀ f : Option (Expr × Parser), (∃ e p', f = some (e, p') ∧ p.Advances p') →
      ∃ r p', f.map (fun x => (some x.1, x.2)) = some (r, p') ∧ p.Advances p' := by
    rintro f ⟨e, p', h, a⟩
    exact ⟨some e, p', by rw [h]; rfl, a⟩
  have hcur : ∀ t : TokenType, t ≠ .EOF → p.current.Typ = t → 1 ≤ p.weight :=
    fun t ht h => weight_pos_of_current (by rw [h]; exact ht)
  unfold Parser.parsePrefixTerm
  simp only
  split
  · exact ⟨_, _, rfl, .refl p⟩
  · apply lift
    unfold Parser.parseIntegerLiteral
    split
    · exact ⟨_, _, rfl, .issue p _⟩
    · exact ⟨_, _, rfl, .refl p⟩
  · apply lift
    unfold Parser.parseFloatLiteral
    split
    · exact ⟨_, _, rfl, .issue p _⟩
    · exact ⟨_, _, rfl, .refl p⟩
  · exact ⟨_, _, rfl, .refl p⟩
  · exact ⟨_, _, rfl, .refl p⟩
  · exact ⟨_, _, rfl, .refl p⟩
  · rename_i h
    exact lift _ (parseArrayLiteral_total hpe p hw (hcur _ (by decide) h))
  · rename_i h
    exact lift _ (parsePrefixExpression_total hpe p hw (hcur _ (by decide) h))
  · rename_i h
    exact lift _ (parsePrefixExpression_total hpe p hw (hcur _ (by decide) h))
  · rename_i h
    exact lift _ (parseGroupedExpression_total hpe p hw (hcur _ (by decide) h))
  · rename_i h
    exact lift _ (parseIfExpression_total hpe p hw (hcur _ (by decide) h))
  · rename_i h
    exact lift _ (parseFunctionExpression_total hpe p hw (hcur _ (by decide) h))
  · exact ⟨_, _, rfl, .issue p _⟩

theorem parseExpressionLoop_total (hpe : pe.Total n) (precedence : Nat) :
    ∀ (k : Nat) (left : Expr) (p : Parser), p.weight + 1 ≤ n → p.weight < k →
      ∃ e p', Parser.parseExpressionLoop pe n precedence k left p = some (e, p') ∧
        p.Advances p' := by
  intro k
  induction k with
  | zero => intro _ p _ h; omega
  | succ k ih =>
    intro left p hw hk
    unfold Parser.parseExpressionLoop
    by_cases hc : p.next.Typ ≠ .SEMICOLON ∧ precedence < tokenPrecedence p.next.Typ
    · rw [if_pos hc]
      have w1 := weight_nextToken p
      have a0 := Parser.Advances.nextToken p
      have hnext : p.nextToken.current = p.next := rfl
      by_cases hop : Parser.isInfixOperator p.next.Typ = true
      · rw [if_pos hop]
        have hne : p.next.Typ ≠ .EOF := by
          intro h
          rw [h] at hop
          exact absurd hop (by decide)
        have h2 := weight_two_of_next hne
        obtain ⟨e, p1, h1, a1⟩ := parseInfixExpression_total hpe left p.nextToken (by omega)
          (weight_pos_of_current (by rw [hnext]; exact hne))
        simp only [h1]
        obtain ⟨e2, p2, h3, a3⟩ := ih e p1 (by have := a1.1; omega) (by have := a1.1; omega)
        exact ⟨e2, p2, h3, a0.trans (a1.trans a3)⟩
      · rw [if_neg hop]
        by_cases hlp : p.next.Typ = .LPAREN
        · rw [if_pos hlp]
          have h2 := weight_two_of_next (p := p) (by rw [hlp]; decide)
          obtain ⟨e, p1, h1, a1⟩ := parseCallExpression_total hpe left p.nextToken (by omega)
            (weight_pos_of_current (by rw [hnext, hlp]; decide))
          simp only [h1]
          obtain ⟨e2, p2, h3, a3⟩ := ih e p1 (by have := a1.1; omega) (by have := a1.1; omega)
          exact ⟨e2, p2, h3, a0.trans (a1.trans a3)⟩
        · rw [if_neg hlp]
          by_cases hlb : p.next.Typ = .LBRACKET
          · rw [if_pos hlb]
            have h2 := weight_two_of_next (p := p) (by rw [hlb]; decide)
            obtain ⟨e, p1, h1, a1⟩ := parseIndexExpression_total hpe left p.nextToken (by omega)
              (weight_pos_of_current (by rw [hnext, hlb]; decide))
            simp only [h1]
            obtain ⟨e2, p2, h3, a3⟩ := ih e p1 (by have := a1.1; omega) (by have := a1.1; omega)
            exact ⟨e2, p2, h3, a0.trans (a1.trans a3)⟩
          · rw [if_neg hlb]
            exact ⟨_, _, rfl, .refl p⟩
    · rw [if_neg hc]
      exact ⟨_, _, rfl, .refl p⟩

theorem parseExpressionBody_total (hpe : pe.Total n) (precedence : Nat) (p : Parser)
    (hw : p.weight + 1 ≤ n) :
    ∃ e p', Parser.parseExpressionBody pe n precedence p = some (e, p') ∧ p.Advances p' := by
  obtain ⟨r, p1, h1, a1⟩ := parsePrefixTerm_total hpe p hw
  unfold Parser.parseExpressionBody
  simp only [h1]
  cases r with
  | none => exact ⟨_, _, rfl, a1⟩
  | some left =>
    obtain ⟨e, p2, h2, a2⟩ := parseExpressionLoop_total hpe precedence n left p1
      (by have := a1.1; omega) (by have := a1.1; omega)
    exact ⟨e, p2, h2, a1.trans a2⟩

end totality

theorem parseExpression_total : ∀ n : Nat, Parser.PE.Total (Parser.parseExpression n) n := by
  intro n
  induction n with
  | zero => intro _ p h; omega
  | succ n ih =>
    intro precedence p hw
    exact parseExpressionBody_total ih precedence p (by omega)

theorem ParseProgramLoop_total (fuel : Nat) :
    ∀ (k : Nat) (statements : List Statement) (p : Parser), p.weight + 2 ≤ fuel → p.weight < k →
      ∃ ss p', Parser.ParseProgramLoop fuel k statements p = some (ss, p') ∧ p.Advances p' ∧
        p'.current.Typ = .EOF := by
  intro k
  induction k with
  | zero => intro _ p _ h; omega
  | succ k ih =>
    intro statements p hw hk
    unfold Parser.ParseProgramLoop
    by_cases hc : p.current.Typ ≠ .EOF
    · rw [if_pos hc]
      have hpos := weight_pos_of_current hc
      obtain ⟨s, p1, h1, a1⟩ := parseStatement_total (parseExpression_total fuel) p hw
      have w1 := weight_nextToken p1
      have a2 := a1.trans (Parser.Advances.nextToken p1)
      obtain ⟨ss, p', h3, a3, hend⟩ :=
        ih (match s with | none => statements | some stmt => statements ++ [stmt])
          p1.nextToken (by have := a1.1; omega) (by have := a1.1; omega)
      refine ⟨ss, p', ?_, a2.trans a3, hend⟩
      simp only [h1]
      cases s with
      | none => exact h3
      | some stmt => exact h3
    · rw [if_neg hc]
      exact ⟨_, _, rfl, .refl p, by simpa using hc⟩

theorem NewLexer_remaining_le (input : Bytes) : (NewLexer input).remaining ≤ input.length := by
  by_cases h : input.length = 0
  · have hex : (NewLexer input).exhausted := by
      have := exhausted_readByte (l := ⟨input, 0, 0, 0, 0, 0⟩) (by simp [h])
      exact this
    rw [remaining_eq_zero.2 hex]
    omega
  · have := remaining_le (NewLexer input)
    have h1 : (NewLexer input).input = input := rfl
    have h2 : (NewLexer input).nextIndex = 1 := rfl
    rw [h1, h2] at this
    omega

theorem NewParser_weight (input : Bytes) : (NewParser (NewLexer input)).weight ≤ input.length := by
  have h0 : Parser.weight ⟨NewLexer input, [], Token.zero, Token.zero⟩ ≤ input.length + 2 := by
    have := NewLexer_remaining_le input
    unfold Parser.weight
    dsimp only
    split_ifs <;> omega
  have h2 : 2 ≤ Parser.weight ⟨NewLexer input, [], Token.zero, Token.zero⟩ :=
    weight_two_of_next (by show Token.zero.Typ ≠ .EOF; decide)
  have w1 := weight_nextToken ⟨NewLexer input, [], Token.zero, Token.zero⟩
  have w2 := weight_nextToken (Parser.nextToken ⟨NewLexer input, [], Token.zero, Token.zero⟩)
  unfold NewParser
  omega

theorem weight_zero_or_pos (p : Parser) : p.current.Typ = .EOF ∨ 1 ≤ p.weight := by
  by_cases h : p.current.Typ = .EOF
  · exact Or.inl h
  · exact Or.inr (weight_pos_of_current h)

theorem ParseProgram_total (input : Bytes) :
    ∃ program p, (NewParser (NewLexer input)).ParseProgram (input.length + 4) = some (program, p) ∧
      (NewParser (NewLexer input)).Advances p ∧ p.current.Typ = .EOF := by
  have hw := NewParser_weight input
  obtain ⟨ss, p, h, a, hend⟩ := ParseProgramLoop_total (input.length + 4) (input.length + 4) []
    (NewParser (NewLexer input)) (by omega) (by omega)
  exact ⟨⟨ss⟩, p, by simp only [Parser.ParseProgram, h], a, hend⟩

/-! ### C23: integer literals out of range -/

theorem parseIntegerLiteral_issue (p : Parser) (h : parseInt p.current.Literal = none) :
    Parser.parseIntegerLiteral p =
      (.nilIntegerLiteral, { p with issues := p.issues ++
        [integerIssue p.current.Literal p.current.LineNumber p.current.ColNumber] }) := by
  unfold Parser.parseIntegerLiteral
  rw [h]
  rfl

theorem parseExpression_integer_issue (p : Parser) (hty : p.current.Typ = .INTEGER)
    (h : parseInt p.current.Literal = none) (fuel precedence : Nat) (hw : p.weight + 2 ≤ fuel) :
    ∃ e p', Parser.parseExpression fuel precedence p = some (e, p') ∧
      p'.weight ≤ p.weight ∧
      ∃ extra, p'.issues = p.issues ++
        integerIssue p.current.Literal p.current.LineNumber p.current.ColNumber :: extra := by
  cases fuel with
  | zero => omega
  | succ n =>
    have hterm : Parser.parsePrefixTerm (Parser.parseExpression n) n p =
        some (some .nilIntegerLiteral, { p with issues := p.issues ++
          [integerIssue p.current.Literal p.current.LineNumber p.current.ColNumber] }) := by
      unfold Parser.parsePrefixTerm
      simp only [hty, parseIntegerLiteral_issue p h]
      rfl
    obtain ⟨e, p', h1, a1⟩ := parseExpressionLoop_total (parseExpression_total n) precedence n
      .nilIntegerLiteral { p with issues := p.issues ++
        [integerIssue p.current.Literal p.current.LineNumber p.current.ColNumber] }
      (by show p.weight + 1 ≤ n; omega) (by show p.weight < n; omega)
    refine ⟨e, p', ?_, a1.1, ?_⟩
    · show Parser.parseExpressionBody (Parser.parseExpression n) n precedence p = _
      unfold Parser.parseExpressionBody
      simp only [hterm]
      exact h1
    · obtain ⟨extra, hx⟩ := a1.2
      exact ⟨extra, by rw [hx]; simp⟩

set_option maxRecDepth 100000 in
/-- C23 (counterexample). The literal `010000000000000000000` is a run of decimal digits
whose value, 10^19, exceeds the signed 64-bit range, yet `ParseProgram` records no
diagnostic for it: `strconv.ParseInt` with base 0 reads the leading `0` as the octal
prefix, and the node holds 8^19. -/
theorem leading_zero_is_octal :
    digitsValue 10 (str "010000000000000000000") 0 = some (10 ^ 19) ∧
    (2 : Nat) ^ 63 - 1 < 10 ^ 19 ∧
    Parse (str "010000000000000000000") =
      some (⟨[.expressionStatement ⟨.INTEGER, str "010000000000000000000", 1, 1⟩
        (.integerLiteral ⟨.INTEGER, str "010000000000000000000", 1, 1⟩ (8 ^ 19))]⟩, []) := by
  refine ⟨by decide, by decide, by rfl⟩

set_option maxRecDepth 100000 in
/-- C23 (as amended). For a literal of decimal digits that does not start with `0` and
whose value exceeds the signed 64-bit range, `strconv.ParseInt` fails; when the parser
reaches its token as an expression, `parseIntegerLiteral` yields no node and appends the
diagnostic "line L column C: could not parse LITERAL as integer", which contains
"could not parse" and names the literal as integer; `parseExpression` returns with that
diagnostic as the first one added, and so does the loop of `ParseProgram` when it stands
at the literal, so the final list is not empty. -/
theorem integer_out_of_range (p : Parser) (b : Nat) (rest : Bytes) (v : Nat)
    (hty : p.current.Typ = .INTEGER) (hs : p.current.Literal = b :: rest) (hb : b ≠ 48)
    (hv : digitsValue 10 (b :: rest) 0 = some v) (hrange : 2 ^ 63 - 1 < v) :
    parseInt p.current.Literal = none ∧
    Parser.parseIntegerLiteral p =
      (.nilIntegerLiteral, { p with issues := p.issues ++
        [integerIssue p.current.Literal p.current.LineNumber p.current.ColNumber] }) ∧
    Contains (integerIssue p.current.Literal p.current.LineNumber p.current.ColNumber)
      (str "could not parse") ∧
    Contains (integerIssue p.current.Literal p.current.LineNumber p.current.ColNumber)
      (p.current.Literal ++ str " as integer") ∧
    (∀ fuel precedence, p.weight + 2 ≤ fuel →
      ∃ e p', Parser.parseExpression fuel precedence p = some (e, p') ∧
        ∃ extra, p'.issues = p.issues ++
          integerIssue p.current.Literal p.current.LineNumber p.current.ColNumber :: extra) ∧
    (∀ fuel k statements, p.weight + 2 ≤ fuel → p.weight < k →
      ∃ ss p', Parser.ParseProgramLoop fuel k statements p = some (ss, p') ∧
        ∃ extra, p'.issues = p.issues ++
          integerIssue p.current.Literal p.current.LineNumber p.current.ColNumber :: extra) ∧
    (Parse (str "92233720368547758079223372036854775807;")).map (fun r => r.2) =
      some [str "line 1 column 1: could not parse 92233720368547758079223372036854775807 as integer"]
    := by
  have hnone : parseInt p.current.Literal = none := by
    rw [hs]
    unfold parseInt
    simp only [if_neg hb, hv]
    rw [if_neg (by omega)]
  refine ⟨hnone, parseIntegerLiteral_issue p hnone, ?_, ?_, ?_, ?_, by rfl⟩
  · refine ⟨str "line " ++ decimal p.current.LineNumber ++ str " column " ++
      decimal p.current.ColNumber ++ str ": ", str " " ++ p.current.Literal ++ str " as integer", ?_⟩
    have : str ": could not parse " = str ": " ++ str "could not parse" ++ str " " := by decide
    unfold integerIssue
    rw [this]
    simp only [List.append_assoc]
  · refine ⟨str "line " ++ decimal p.current.LineNumber ++ str " column " ++
      decimal p.current.ColNumber ++ str ": could not parse ", [], ?_⟩
    unfold integerIssue
    simp only [List.append_assoc, List.append_nil]
  · intro fuel precedence hw
    obtain ⟨e, p', h1, _, h2⟩ := parseExpression_integer_issue p hty hnone fuel precedence hw
    exact ⟨e, p', h1, h2⟩
  · intro fuel k statements hw hk
    cases k with
    | zero => omega
    | succ k =>
      obtain ⟨e, p1, h1, hw1, extra1, hx1⟩ :=
        parseExpression_integer_issue p hty hnone fuel Marble.lowest hw
      have hstmt : Parser.parseStatement (Parser.parseExpression fuel) p =
          some (some (.expressionStatement p.current e), Parser.skipSemicolon p1) := by
        unfold Parser.parseStatement
        simp only [hty, Parser.parseExpressionStatement, h1]
      have a2 := skipSemicolon_advances p1
      have a3 := Parser.Advances.nextToken (Parser.skipSemicolon p1)
      have hpos := weight_pos_of_current (p := p) (by rw [hty]; decide)
      have w3 := weight_nextToken (Parser.skipSemicolon p1)
      obtain ⟨ss, p', h4, a4, _⟩ := ParseProgramLoop_total fuel k
        (statements ++ [.expressionStatement p.current e]) (Parser.skipSemicolon p1).nextToken
        (by have := a2.1; omega) (by have := a2.1; omega)
      refine ⟨ss, p', ?_, ?_⟩
      · unfold Parser.ParseProgramLoop
        rw [if_pos (by rw [hty]; decide)]
        simp only [hstmt]
        exact h4
      · obtain ⟨x2, hx2⟩ := a2.2
        obtain ⟨x3, hx3⟩ := a3.2
        obtain ⟨x4, hx4⟩ := a4.2
        exact ⟨extra1 ++ x2 ++ x3 ++ x4, by rw [hx4, hx3, hx2, hx1]; simp⟩

/-- C23 (as amended) at a parser whose current token is the integer 9223372036854775808. -/
theorem integer_out_of_range_witness :
    (⟨NewLexer [], [], Token.zero, ⟨.INTEGER, str "9223372036854775808", 1, 1⟩⟩ : Parser).current.Typ =
      .INTEGER ∧
    (57 : Nat) ≠ 48 ∧
    digitsValue 10 (str "9223372036854775808") 0 = some 9223372036854775808 ∧
    2 ^ 63 - 1 < 9223372036854775808 ∧
    parseInt (str "9223372036854775808") = none ∧
    parseInt (str "9223372036854775807") = some 9223372036854775807 :=
  ⟨rfl, by decide, by decide, by decide,
    (integer_out_of_range ⟨NewLexer [], [], Token.zero, ⟨.INTEGER, str "9223372036854775808", 1, 1⟩⟩
      57 (str "223372036854775808") 9223372036854775808 rfl rfl (by decide) (by decide)
      (by decide)).1, by decide⟩

/-! ### C25: kinds of the parameter tokens -/

set_option maxRecDepth 100000 in
/-- C25 (evaluation at the failing input). The input `func(1){}` parses with an empty
diagnostics list, and the parameter of the function literal in the program carries an
INTEGER token; a string, a keyword and a bracket in parameter position are accepted in the
same way and rendered as parameter names. The name of a var statement, in contrast, is
checked: `var 1 = 2` is diagnosed. -/
theorem parameter_kinds_are_not_checked :
    Parse (str "func(1)\x7b\x7d") =
      some (⟨[.expressionStatement ⟨.FUNCTION, str "func", 1, 1⟩
        (.functionExpression ⟨.FUNCTION, str "func", 1, 1⟩ [⟨⟨.INTEGER, str "1", 1, 6⟩⟩]
          (.mk ⟨.LBRACE, str "\x7b", 1, 8⟩ []))]⟩, []) ∧
    (Parse (str "func(\"a\", if, ])\x7b\x7d")).map (fun r => r.2) = some [] ∧
    renderParsed (str "func(\"a\", if, ])\x7b\x7d") = some (str "func(a, if, ])\x7b\x7d;") ∧
    (Parse (str "var 1 = 2")).map (fun r => r.2) =
      some [str "line 1 column 5: expected next token to be IDENTIFIER, got INTEGER instead",
        str "missing prefix parse function for ="] := by
  refine ⟨by rfl, by rfl, by rfl, by rfl⟩

/-! ### Missing mandatory tokens -/

theorem expectToken_false {p : Parser} {t : TokenType} (h : p.next.Typ ≠ t) :
    p.expectToken t = (false, p.withIssue (expectIssue t p.next)) := by
  unfold Parser.expectToken
  rw [if_neg h]
  rfl

theorem expectToken_true_of {p : Parser} {t : TokenType} (h : p.next.Typ = t) :
    p.expectToken t = (true, p.nextToken) := by
  unfold Parser.expectToken
  rw [if_pos h]

section missing

variable (pe : Parser.PE)

theorem parseVarStatement_missing_identifier {p : Parser} (h : p.next.Typ ≠ .IDENTIFIER) :
    Parser.parseVarStatement pe p = some (none, p.withIssue (expectIssue .IDENTIFIER p.next)) := by
  unfold Parser.parseVarStatement
  simp only [expectToken_false h]

theorem parseVarStatement_missing_assign {p : Parser} (h1 : p.next.Typ = .IDENTIFIER)
    (h2 : p.nextToken.next.Typ ≠ .ASSIGN) :
    Parser.parseVarStatement pe p =
      some (none, p.nextToken.withIssue (expectIssue .ASSIGN p.nextToken.next)) := by
  unfold Parser.parseVarStatement
  simp only [expectToken_true_of h1, expectToken_false h2]

theorem parseGroupedExpression_missing {p p1 : Parser} {e : Expr}
    (h1 : pe Marble.lowest p.nextToken = some (e, p1)) (h2 : p1.next.Typ ≠ .RPAREN) :
    Parser.parseGroupedExpression pe p =
      some (.nil, p1.withIssue (expectIssue .RPAREN p1.next)) := by
  unfold Parser.parseGroupedExpression
  simp only [h1, expectToken_false h2]

theorem parseIndexExpression_missing {p p1 : Parser} {left e : Expr}
    (h1 : pe Marble.lowest p.nextToken = some (e, p1)) (h2 : p1.next.Typ ≠ .RBRACKET) :
    Parser.parseIndexExpression pe left p =
      some (.nilIndexExpression, p1.withIssue (expectIssue .RBRACKET p1.next)) := by
  unfold Parser.parseIndexExpression
  simp only [h1, expectToken_false h2]

theorem parseIfExpression_missing_lparen (fuel : Nat) {p : Parser} (h : p.next.Typ ≠ .LPAREN) :
    Parser.parseIfExpression pe fuel p =
      some (.nilIfExpression, p.withIssue (expectIssue .LPAREN p.next)) := by
  unfold Parser.parseIfExpression
  simp only [expectToken_false h]

theorem parseIfExpression_missing_rparen (fuel : Nat) {p p2 : Parser} {c : Expr}
    (h1 : p.next.Typ = .LPAREN) (h2 : pe Marble.lowest p.nextToken.nextToken = some (c, p2))
    (h3 : p2.next.Typ ≠ .RPAREN) :
    Parser.parseIfExpression pe fuel p =
      some (.nilIfExpression, p2.withIssue (expectIssue .RPAREN p2.next)) := by
  unfold Parser.parseIfExpression
  simp only [expectToken_true_of h1, h2, expectToken_false h3]

theorem parseIfExpression_missing_lbrace (fuel : Nat) {p p2 : Parser} {c : Expr}
    (h1 : p.next.Typ = .LPAREN) (h2 : pe Marble.lowest p.nextToken.nextToken = some (c, p2))
    (h3 : p2.next.Typ = .RPAREN) (h4 : p2.nextToken.next.Typ ≠ .LBRACE) :
    Parser.parseIfExpression pe fuel p =
      some (.nilIfExpression, p2.nextToken.withIssue (expectIssue .LBRACE p2.nextToken.next)) := by
  unfold Parser.parseIfExpression
  simp only [expectToken_true_of h1, h2, expectToken_true_of h3, expectToken_false h4]

theorem parseIfExpression_missing_else_lbrace (fuel : Nat) {p p2 p5 : Parser} {c : Expr}
    {consequence : BlockStatement}
    (h1 : p.next.Typ = .LPAREN) (h2 : pe Marble.lowest p.nextToken.nextToken = some (c, p2))
    (h3 : p2.next.Typ = .RPAREN) (h4 : p2.nextToken.next.Typ = .LBRACE)
    (h5 : Parser.parseBlockStatement pe fuel p2.nextToken.nextToken = some (consequence, p5))
    (h6 : p5.next.Typ = .ELSE) (h7 : p5.nextToken.next.Typ ≠ .LBRACE) :
    Parser.parseIfExpression pe fuel p =
      some (.nilIfExpression, p5.nextToken.withIssue (expectIssue .LBRACE p5.nextToken.next)) := by
  unfold Parser.parseIfExpression
  simp only [expectToken_true_of h1, h2, expectToken_true_of h3, expectToken_true_of h4, h5,
    if_pos h6, expectToken_false h7]

theorem parseIfExpression_complete (fuel : Nat) {p p2 p5 : Parser} {c : Expr}
    {consequence : BlockStatement}
    (h1 : p.next.Typ = .LPAREN) (h2 : pe Marble.lowest p.nextToken.nextToken = some (c, p2))
    (h3 : p2.next.Typ = .RPAREN) (h4 : p2.nextToken.next.Typ = .LBRACE)
    (h5 : Parser.parseBlockStatement pe fuel p2.nextToken.nextToken = some (consequence, p5))
    (h6 : p5.next.Typ ≠ .ELSE) :
    Parser.parseIfExpression pe fuel p =
      some (.ifExpression p.current c consequence none, p5) := by
  unfold Parser.parseIfExpression
  simp only [expectToken_true_of h1, h2, expectToken_true_of h3, expectToken_true_of h4, h5,
    if_neg h6]

theorem parseFunctionExpression_missing_lparen (fuel : Nat) {p : Parser}
    (h : p.next.Typ ≠ .LPAREN) :
    Parser.parseFunctionExpression pe fuel p =
      some (.nilFunctionExpression, p.withIssue (expectIssue .LPAREN p.next)) := by
  unfold Parser.parseFunctionExpression
  simp only [expectToken_false h]

theorem parseFunctionExpression_missing_lbrace (fuel : Nat) {p p2 : Parser}
    {parameters : List Identifier} (h1 : p.next.Typ = .LPAREN)
    (h2 : Parser.parseFunctionParameters fuel p.nextToken = some (parameters, p2))
    (h3 : p2.next.Typ ≠ .LBRACE) :
    Parser.parseFunctionExpression pe fuel p =
      some (.nilFunctionExpression, p2.withIssue (expectIssue .LBRACE p2.next)) := by
  unfold Parser.parseFunctionExpression
  simp only [expectToken_true_of h1, h2, expectToken_false h3]

theorem parseExpressionList_missing (fuel : Nat) (stop : TokenType) {p p1 p2 : Parser}
    {e : Expr} {es : List Expr} (h0 : p.next.Typ ≠ stop)
    (h1 : pe Marble.lowest p.nextToken = some (e, p1))
    (h2 : Parser.parseExpressionListLoop pe fuel [e] p1 = some (es, p2))
    (h3 : p2.next.Typ ≠ stop) :
    Parser.parseExpressionList pe fuel stop p =
      some ([], p2.withIssue (expectIssue stop p2.next)) := by
  unfold Parser.parseExpressionList
  simp only [if_neg h0, h1, h2, expectToken_false h3]

theorem parseFunctionParameters_missing (fuel : Nat) {p p2 : Parser} {ids : List Identifier}
    (h0 : p.next.Typ ≠ .RPAREN)
    (h2 : Parser.parseFunctionParametersLoop fuel [⟨p.nextToken.current⟩] p.nextToken =
      some (ids, p2))
    (h3 : p2.next.Typ ≠ .RPAREN) :
    Parser.parseFunctionParameters fuel p =
      some ([], p2.withIssue (expectIssue .RPAREN p2.next)) := by
  unfold Parser.parseFunctionParameters
  simp only [if_neg h0, h2, expectToken_false h3]

end missing

/-! ### C24: the shape of an if-expression -/

theorem withIssue_ne_nil (p : Parser) (issue : Bytes) : (p.withIssue issue).issues ≠ [] := by
  simp [Parser.withIssue]

theorem Parser.Advances.issues_ne_nil {p p' : Parser} (a : p.Advances p') (h : p.issues ≠ []) :
    p'.issues ≠ [] := by
  obtain ⟨extra, hx⟩ := a.2
  rw [hx]
  simp [h]

/-- An `if` in expression position: `parseExpression` goes through `parseIfExpression` and
keeps whatever that one recorded. -/
theorem parseExpression_if (n precedence : Nat) (p : Parser) (hif : p.current.Typ = .IF)
    (hw : p.weight + 2 ≤ n) :
    ∃ e q, Parser.parseIfExpression (Parser.parseExpression n) n p = some (e, q) ∧
      p.Advances q ∧
      ∃ e' p', Parser.parseExpression (n + 1) precedence p = some (e', p') ∧ q.Advances p' := by
  have hpos : 1 ≤ p.weight := weight_pos_of_current (by rw [hif]; decide)
  obtain ⟨e, q, h1, a1⟩ := parseIfExpression_total (parseExpression_total n) p (by omega) hpos
  obtain ⟨e', p', h2, a2⟩ := parseExpressionLoop_total (parseExpression_total n) precedence n e q
    (by have := a1.1; omega) (by have := a1.1; omega)
  refine ⟨e, q, h1, a1, e', p', ?_, a2⟩
  show Parser.parseExpressionBody (Parser.parseExpression n) n precedence p = _
  unfold Parser.parseExpressionBody
  have hterm : Parser.parsePrefixTerm (Parser.parseExpression n) n p = some (some e, q) := by
    unfold Parser.parsePrefixTerm
    simp only [hif, h1]
    rfl
  simp only [hterm]
  exact h2

theorem parseIfExpression_absent (pe : Parser.PE) (fuel : Nat) (p q : Parser)
    (h : Parser.parseIfExpression pe fuel p = some (.nilIfExpression, q)) : q.issues ≠ [] := by
  unfold Parser.parseIfExpression at h
  by_cases h1 : p.next.Typ = .LPAREN
  · simp only [expectToken_true_of h1] at h
    rcases h2 : pe Marble.lowest p.nextToken.nextToken with _ | ⟨c, p2⟩
    · simp only [h2] at h; exact absurd h (by simp)
    simp only [h2] at h
    by_cases h3 : p2.next.Typ = .RPAREN
    · simp only [expectToken_true_of h3] at h
      by_cases h4 : p2.nextToken.next.Typ = .LBRACE
      · simp only [expectToken_true_of h4] at h
        rcases h5 : Parser.parseBlockStatement pe fuel p2.nextToken.nextToken with _ | ⟨b, p5⟩
        · simp only [h5] at h; exact absurd h (by simp)
        simp only [h5] at h
        by_cases h6 : p5.next.Typ = .ELSE
        · simp only [if_pos h6] at h
          by_cases h7 : p5.nextToken.next.Typ = .LBRACE
          · simp only [expectToken_true_of h7] at h
            rcases h8 : Parser.parseBlockStatement pe fuel p5.nextToken.nextToken with _ | ⟨b', p7⟩
            · simp only [h8] at h; exact absurd h (by simp)
            simp only [h8] at h
            exact absurd h (by simp)
          · simp only [expectToken_false h7] at h
            simp only [Option.some.injEq, Prod.mk.injEq, true_and] at h
            rw [← h]; exact withIssue_ne_nil _ _
        · simp only [if_neg h6] at h
          exact absurd h (by simp)
      · simp only [expectToken_false h4] at h
        simp only [Option.some.injEq, Prod.mk.injEq, true_and] at h
        rw [← h]; exact withIssue_ne_nil _ _
    · simp only [expectToken_false h3] at h
      simp only [Option.some.injEq, Prod.mk.injEq, true_and] at h
      rw [← h]; exact withIssue_ne_nil _ _
  · simp only [expectToken_false h1] at h
    simp only [Option.some.injEq, Prod.mk.injEq, true_and] at h
    rw [← h]; exact withIssue_ne_nil _ _

theorem parseBlockStatementLoop_eof (pe : Parser.PE) (k : Nat) (statements : List Statement)
    (p : Parser) (h : p.current.Typ = .EOF) :
    Parser.parseBlockStatementLoop pe (k + 1) statements p = some (statements, p) := by
  unfold Parser.parseBlockStatementLoop
  rw [if_neg (by simp [h])]

theorem ParseProgramLoop_expression (n : Nat) (p p1 : Parser) (e : Expr)
    (hv : p.current.Typ ≠ .VARIABLE) (hr : p.current.Typ ≠ .RETURN) (he : p.current.Typ ≠ .EOF)
    (hw : p.weight + 2 ≤ n)
    (h : Parser.parseExpression n Marble.lowest p = some (e, p1)) (a : p.Advances p1) :
    ∀ k statements, p.weight < k →
      ∃ ss p', Parser.ParseProgramLoop n k statements p = some (ss, p') ∧ p1.Advances p' := by
  intro k statements hk
  cases k with
  | zero => omega
  | succ k =>
    have hstmt : Parser.parseStatement (Parser.parseExpression n) p =
        some (some (.expressionStatement p.current e), Parser.skipSemicolon p1) := by
      unfold Parser.parseStatement
      split
      · rename_i hx; exact absurd hx hv
      · rename_i hx; exact absurd hx hr
      · simp only [Parser.parseExpressionStatement, h]
    have a2 := skipSemicolon_advances p1
    have a3 := Parser.Advances.nextToken (Parser.skipSemicolon p1)
    have hpos := weight_pos_of_current he
    have w3 := weight_nextToken (Parser.skipSemicolon p1)
    obtain ⟨ss, p', h4, a4, _⟩ := ParseProgramLoop_total n k
      (statements ++ [.expressionStatement p.current e]) (Parser.skipSemicolon p1).nextToken
      (by have := a2.1; have := a.1; omega) (by have := a2.1; have := a.1; omega)
    refine ⟨ss, p', ?_, a2.trans (a3.trans a4)⟩
    unfold Parser.ParseProgramLoop
    rw [if_pos he]
    simp only [hstmt]
    exact h4

set_option maxRecDepth 100000 in
/-- C24 (counterexample). In `if (true) { 1` the closing brace of the block is missing and
`ParseProgram` records no diagnostic: the loop of `parseBlockStatement` also stops at the end
of the input, and nothing checks which of the two ended it. The program holds the complete
if-expression. The same goes for the block of an else branch and for the outer block of two
nested ones. -/
theorem unclosed_block_is_accepted :
    (Parse (str "if (true) \x7b 1")).map (fun r => r.2) = some [] ∧
    renderParsed (str "if (true) \x7b 1") = some (str "if (true) \x7b1;\x7d;") ∧
    (Parse (str "if (true) \x7b\x7d else \x7b 1")).map (fun r => r.2) = some [] ∧
    renderParsed (str "if (true) \x7b\x7d else \x7b 1") =
      some (str "if (true) \x7b\x7d else \x7b1;\x7d;") ∧
    (Parse (str "if (true) \x7b if (false) \x7b 1 \x7d")).map (fun r => r.2) = some [] := by
  refine ⟨by rfl, by rfl, by rfl, by rfl, by rfl⟩

set_option maxRecDepth 100000 in
/-- C24 (as amended). Let the current token be an `if` in expression position, with budget
for what is left of the input. `parseIfExpression` returns, and when the token after the
`if` is not `(`, or the token after the condition is not `)`, or the token after that `)` is
not `{`, or the token after an `else` is not `{`, it returns no node and has appended
"line L column C: expected next token to be K, got K' instead" for the token found in its
place. It returns no node in no other case, so an absent if-expression always comes with a
diagnostic. The diagnostics are kept by `parseExpression` and, for an `if` that starts a
statement, by the loop of `ParseProgram`, whose final list is then not empty. The closing
`}` of a block is left out: the loop of `parseBlockStatement` stops at the end of the input
as it does at a `}`, recording nothing. -/
theorem if_mandatory_tokens (n precedence : Nat) (p : Parser) (hif : p.current.Typ = .IF)
    (hw : p.weight + 2 ≤ n) :
    ∃ e q, Parser.parseIfExpression (Parser.parseExpression n) n p = some (e, q) ∧
      (p.next.Typ ≠ .LPAREN →
        e = .nilIfExpression ∧ q = p.withIssue (expectIssue .LPAREN p.next)) ∧
      (∀ c p2, p.next.Typ = .LPAREN →
        Parser.parseExpression n lowest p.nextToken.nextToken = some (c, p2) →
        (p2.next.Typ ≠ .RPAREN →
          e = .nilIfExpression ∧ q = p2.withIssue (expectIssue .RPAREN p2.next)) ∧
        (p2.next.Typ = .RPAREN → p2.nextToken.next.Typ ≠ .LBRACE →
          e = .nilIfExpression ∧
            q = p2.nextToken.withIssue (expectIssue .LBRACE p2.nextToken.next)) ∧
        (∀ consequence p5, p2.next.Typ = .RPAREN → p2.nextToken.next.Typ = .LBRACE →
          Parser.parseBlockStatement (Parser.parseExpression n) n p2.nextToken.nextToken =
            some (consequence, p5) →
          p5.next.Typ = .ELSE → p5.nextToken.next.Typ ≠ .LBRACE →
          e = .nilIfExpression ∧
            q = p5.nextToken.withIssue (expectIssue .LBRACE p5.nextToken.next))) ∧
      (e = .nilIfExpression → q.issues ≠ []) ∧
      (∃ e' p', Parser.parseExpression (n + 1) precedence p = some (e', p') ∧
        ∃ extra, p'.issues = q.issues ++ extra) ∧
      (∀ k statements, p.weight < k →
        ∃ ss p', Parser.ParseProgramLoop (n + 1) k statements p = some (ss, p') ∧
          ∃ extra, p'.issues = q.issues ++ extra) ∧
      (∀ k statements p0, p0.current.Typ = .EOF →
        Parser.parseBlockStatementLoop (Parser.parseExpression n) (k + 1) statements p0 =
          some (statements, p0)) ∧
      (Parse (str "if")).map (fun r => r.2) =
        some [str "line 1 column 3: expected next token to be (, got EOF instead"] ∧
      (Parse (str "if (true")).map (fun r => r.2) =
        some [str "line 1 column 9: expected next token to be ), got EOF instead"] ∧
      (Parse (str "if (true)")).map (fun r => r.2) =
        some [str "line 1 column 10: expected next token to be \x7b, got EOF instead"] ∧
      (Parse (str "if (true) \x7b\x7d else")).map (fun r => r.2) =
        some [str "line 1 column 18: expected next token to be \x7b, got EOF instead"] := by
  obtain ⟨e, q, h1, a1, e', p', h2, a2⟩ := parseExpression_if n precedence p hif hw
  obtain ⟨_, _, h1', _, e0, p0, h0, a0⟩ := parseExpression_if n Marble.lowest p hif hw
  rw [h1] at h1'
  simp only [Option.some.injEq, Prod.mk.injEq] at h1'
  obtain ⟨he0, hq0⟩ := h1'
  subst he0 hq0
  have key : ∀ {x : Expr × Parser},
      Parser.parseIfExpression (Parser.parseExpression n) n p = some x → e = x.1 ∧ q = x.2 := by
    intro x hx
    rw [h1] at hx
    simp only [Option.some.injEq] at hx
    rw [← hx]
    exact ⟨rfl, rfl⟩
  refine ⟨e, q, h1, ?_, ?_, ?_, ⟨e', p', h2, a2.2⟩, ?_,
    fun k statements p0 h0 => parseBlockStatementLoop_eof _ k statements p0 h0,
    by rfl, by rfl, by rfl, by rfl⟩
  · intro hl
    exact key (parseIfExpression_missing_lparen _ n hl)
  · intro c p2 hl hc
    refine ⟨?_, ?_, ?_⟩
    · intro hr
      exact key (parseIfExpression_missing_rparen _ n hl hc hr)
    · intro hr hb
      exact key (parseIfExpression_missing_lbrace _ n hl hc hr hb)
    · intro consequence p5 hr hb hblock helse hb2
      exact key (parseIfExpression_missing_else_lbrace _ n hl hc hr hb hblock helse hb2)
  · intro he
    rw [he] at h1
    exact parseIfExpression_absent _ n p q h1
  · intro k statements hk
    obtain ⟨ss, p'', h4, a4⟩ := ParseProgramLoop_expression (n + 1) p p0 e0
      (by rw [hif]; decide) (by rw [hif]; decide) (by rw [hif]; decide) (by omega) h0
      (a1.trans a0) k statements hk
    exact ⟨ss, p'', h4, (a0.trans a4).2⟩

set_option maxRecDepth 100000 in
/-- C24 (as amended) at the parser of the input `if`, where the `(` is missing. -/
theorem if_mandatory_tokens_witness :
    (NewParser (NewLexer (str "if"))).current.Typ = .IF ∧
    (NewParser (NewLexer (str "if"))).weight + 2 ≤ 4 ∧
    ∃ e q, Parser.parseIfExpression (Parser.parseExpression 4) 4
        (NewParser (NewLexer (str "if"))) = some (e, q) ∧
      (e = .nilIfExpression → q.issues ≠ []) :=
  ⟨by decide, by decide,
    match if_mandatory_tokens 4 0 (NewParser (NewLexer (str "if"))) (by decide) (by decide) with
    | ⟨e, q, h, _, _, h3, _⟩ => ⟨e, q, h, h3⟩⟩

/-! ### C26: the diagnostic of a missing expected token -/

set_option maxRecDepth 100000 in
/-- C26 (counterexample). In `[1, 2` the `]` is missing: the diagnostic is recorded, and the
array literal is still returned as a node, with no elements. In the same way the call
`f(1, 2` without its `)` is returned as a call with no arguments, and in `func(a {}` the
missing `)` of the parameters leaves a function literal with no parameters. -/
theorem failed_list_keeps_the_node :
    Parse (str "[1, 2") =
      some (⟨[.expressionStatement ⟨.LBRACKET, str "[", 1, 1⟩
        (.arrayLiteral ⟨.LBRACKET, str "[", 1, 1⟩ [])]⟩,
        [str "line 1 column 6: expected next token to be ], got EOF instead"]) ∧
    Parse (str "f(1, 2") =
      some (⟨[.expressionStatement ⟨.IDENTIFIER, str "f", 1, 1⟩
        (.callExpression ⟨.LPAREN, str "(", 1, 2⟩ (.identifier ⟨.IDENTIFIER, str "f", 1, 1⟩) [])]⟩,
        [str "line 1 column 7: expected next token to be ), got EOF instead"]) ∧
    Parse (str "func(a \x7b\x7d") =
      some (⟨[.expressionStatement ⟨.FUNCTION, str "func", 1, 1⟩
        (.functionExpression ⟨.FUNCTION, str "func", 1, 1⟩ []
          (.mk ⟨.LBRACE, str "\x7b", 1, 8⟩ []))]⟩,
        [str "line 1 column 8: expected next token to be ), got \x7b instead"]) := by
  refine ⟨by rfl, by rfl, by rfl⟩

set_option maxRecDepth 100000 in
/-- C26 (as amended). Let the token after the parser's position not be of the expected kind
K. `expectToken` appends "line L column C: expected next token to be K, got K' instead",
with L, C and K' taken from that token, and consumes nothing: the lexer and both tokens stay
as they were. At the check for the name and the `=` of a var statement, the `)` of a
grouped expression, the `]` of an index expression, the `(`, `)`, `{` and else-`{` of an if,
and the `(` and `{` of a func, the production returns no node, leaving the parser in that
state. At the closing token of an element list, an argument list or a parameter list, the
list comes back absent with the parser in that state, and the array literal or the call
that asked for it is returned as a node without elements or arguments. -/
theorem expected_token_diagnostic (pe : Parser.PE) (fuel : Nat) (p : Parser) (K : TokenType)
    (h : p.next.Typ ≠ K) :
    p.expectToken K = (false, p.withIssue (expectIssue K p.next)) ∧
    (p.withIssue (expectIssue K p.next)).issues = p.issues ++
      [str "line " ++ decimal p.next.LineNumber ++ str " column " ++
        decimal p.next.ColNumber ++ str ": expected next token to be " ++ K.name ++
        str ", got " ++ p.next.Typ.name ++ str " instead"] ∧
    (p.withIssue (expectIssue K p.next)).l = p.l ∧
    (p.withIssue (expectIssue K p.next)).next = p.next ∧
    (p.withIssue (expectIssue K p.next)).current = p.current ∧
    (K = .IDENTIFIER →
      Parser.parseVarStatement pe p = some (none, p.withIssue (expectIssue K p.next))) ∧
    (K = .ASSIGN → ∀ p0 : Parser, p0.next.Typ = .IDENTIFIER → p0.nextToken = p →
      Parser.parseVarStatement pe p0 = some (none, p.withIssue (expectIssue K p.next))) ∧
    (K = .RPAREN → ∀ (p0 : Parser) (e : Expr), pe lowest p0.nextToken = some (e, p) →
      Parser.parseGroupedExpression pe p0 = some (.nil, p.withIssue (expectIssue K p.next))) ∧
    (K = .RBRACKET → ∀ (p0 : Parser) (left e : Expr), pe lowest p0.nextToken = some (e, p) →
      Parser.parseIndexExpression pe left p0 =
        some (.nilIndexExpression, p.withIssue (expectIssue K p.next))) ∧
    (K = .LPAREN →
      Parser.parseIfExpression pe fuel p =
        some (.nilIfExpression, p.withIssue (expectIssue K p.next))) ∧
    (K = .RPAREN → ∀ (p0 : Parser) (c : Expr), p0.next.Typ = .LPAREN →
      pe lowest p0.nextToken.nextToken = some (c, p) →
      Parser.parseIfExpression pe fuel p0 =
        some (.nilIfExpression, p.withIssue (expectIssue K p.next))) ∧
    (K = .LBRACE → ∀ (p0 p2 : Parser) (c : Expr), p0.next.Typ = .LPAREN →
      pe lowest p0.nextToken.nextToken = some (c, p2) → p2.next.Typ = .RPAREN →
      p2.nextToken = p →
      Parser.parseIfExpression pe fuel p0 =
        some (.nilIfExpression, p.withIssue (expectIssue K p.next))) ∧
    (K = .LBRACE → ∀ (p0 p2 p5 : Parser) (c : Expr) (consequence : BlockStatement),
      p0.next.Typ = .LPAREN → pe lowest p0.nextToken.nextToken = some (c, p2) →
      p2.next.Typ = .RPAREN → p2.nextToken.next.Typ = .LBRACE →
      Parser.parseBlockStatement pe fuel p2.nextToken.nextToken = some (consequence, p5) →
      p5.next.Typ = .ELSE → p5.nextToken = p →
      Parser.parseIfExpression pe fuel p0 =
        some (.nilIfExpression, p.withIssue (expectIssue K p.next))) ∧
    (K = .LPAREN →
      Parser.parseFunctionExpression pe fuel p =
        some (.nilFunctionExpression, p.withIssue (expectIssue K p.next))) ∧
    (K = .LBRACE → ∀ (p0 : Parser) (parameters : List Identifier), p0.next.Typ = .LPAREN →
      Parser.parseFunctionParameters fuel p0.nextToken = some (parameters, p) →
      Parser.parseFunctionExpression pe fuel p0 =
        some (.nilFunctionExpression, p.withIssue (expectIssue K p.next))) ∧
    (∀ (p0 p1 : Parser) (e : Expr) (es : List Expr), p0.next.Typ ≠ K →
      pe lowest p0.nextToken = some (e, p1) →
      Parser.parseExpressionListLoop pe fuel [e] p1 = some (es, p) →
      Parser.parseExpressionList pe fuel K p0 =
        some ([], p.withIssue (expectIssue K p.next)) ∧
      (K = .RBRACKET → Parser.parseArrayLiteral pe fuel p0 =
        some (.arrayLiteral p0.current [], p.withIssue (expectIssue K p.next))) ∧
      (K = .RPAREN → ∀ function : Expr, Parser.parseCallExpression pe fuel function p0 =
        some (.callExpression p0.current function [], p.withIssue (expectIssue K p.next)))) ∧
    (K = .RPAREN → ∀ (p0 : Parser) (ids : List Identifier), p0.next.Typ ≠ .RPAREN →
      Parser.parseFunctionParametersLoop fuel [⟨p0.nextToken.current⟩] p0.nextToken =
        some (ids, p) →
      Parser.parseFunctionParameters fuel p0 =
        some ([], p.withIssue (expectIssue K p.next))) := by
  refine ⟨expectToken_false h, rfl, rfl, rfl, rfl, ?_, ?_, ?_, ?_, ?_, ?_, ?_, ?_, ?_, ?_, ?_, ?_⟩
  · intro hK; subst hK
    exact parseVarStatement_missing_identifier pe h
  · intro hK p0 h1 h2; subst hK; subst h2
    exact parseVarStatement_missing_assign pe h1 h
  · intro hK p0 e h1; subst hK
    exact parseGroupedExpression_missing pe h1 h
  · intro hK p0 left e h1; subst hK
    exact parseIndexExpression_missing pe h1 h
  · intro hK; subst hK
    exact parseIfExpression_missing_lparen pe fuel h
  · intro hK p0 c h1 h2; subst hK
    exact parseIfExpression_missing_rparen pe fuel h1 h2 h
  · intro hK p0 p2 c h1 h2 h3 h4; subst hK; subst h4
    exact parseIfExpression_missing_lbrace pe fuel h1 h2 h3 h
  · intro hK p0 p2 p5 c consequence h1 h2 h3 h4 h5 h6 h7; subst hK; subst h7
    exact parseIfExpression_missing_else_lbrace pe fuel h1 h2 h3 h4 h5 h6 h
  · intro hK; subst hK
    exact parseFunctionExpression_missing_lparen pe fuel h
  · intro hK p0 parameters h1 h2; subst hK
    exact parseFunctionExpression_missing_lbrace pe fuel h1 h2 h
  · intro p0 p1 e es h0 h1 h2
    have hl := parseExpressionList_missing pe fuel K h0 h1 h2 h
    refine ⟨hl, ?_, ?_⟩
    · intro hK; subst hK
      unfold Parser.parseArrayLiteral
      simp only [hl]
    · intro hK function; subst hK
      unfold Parser.parseCallExpression
      simp only [hl]
  · intro hK p0 ids h0 h2; subst hK
    exact parseFunctionParameters_missing fuel h0 h2 h

set_option maxRecDepth 100000 in
/-- C26 (as amended) at the parser of the input `var`, where the name is missing. -/
theorem expected_token_diagnostic_witness :
    (NewParser (NewLexer (str "var"))).next.Typ ≠ .IDENTIFIER ∧
    ((NewParser (NewLexer (str "var"))).expectToken .IDENTIFIER).2.issues =
      [str "line 1 column 4: expected next token to be IDENTIFIER, got EOF instead"] ∧
    Parser.parseVarStatement (Parser.parseExpression 4) (NewParser (NewLexer (str "var"))) =
      some (none, (NewParser (NewLexer (str "var"))).withIssue
        (expectIssue .IDENTIFIER (NewParser (NewLexer (str "var"))).next)) :=
  ⟨by decide, by rfl,
    (expected_token_diagnostic (Parser.parseExpression 4) 4 (NewParser (NewLexer (str "var")))
      .IDENTIFIER (by decide)).2.2.2.2.2.1 rfl⟩

/-! ### The lexer on a shifted input -/

theorem Lexer.Shifted.byteAt_next {pre : Bytes} {l l' : Lexer} (h : Lexer.Shifted pre l l') :
    byteAt l.input l.nextIndex = byteAt l'.input l'.nextIndex := by
  rw [h.1, h.2.2.2, Nat.add_comm, byteAt_append_offset]

theorem Lexer.Shifted.readByte {pre : Bytes} {l l' : Lexer} (h : Lexer.Shifted pre l l') :
    Lexer.Shifted pre l.readByte l'.readByte := by
  refine ⟨?_, ?_, ?_, ?_⟩
  · rw [readByte_input, readByte_input]; exact h.1
  · rw [readByte_currentByte, readByte_currentByte]; exact h.byteAt_next
  · rw [readByte_currentIndex, readByte_currentIndex]; exact h.2.2.2
  · rw [readByte_nextIndex, readByte_nextIndex, h.2.2.2]; omega

theorem Lexer.Shifted.peekNextByte {pre : Bytes} {l l' : Lexer} (h : Lexer.Shifted pre l l') :
    l.peekNextByte = l'.peekNextByte := by
  rw [peekNextByte_eq, peekNextByte_eq]; exact h.byteAt_next

theorem Lexer.Shifted.budget {pre : Bytes} {l l' : Lexer} (h : Lexer.Shifted pre l l') :
    l.budget = l'.budget := by
  unfold Lexer.budget
  rw [h.1, h.2.2.2, List.length_append]
  omega

theorem Lexer.Shifted.skipWhitespace {pre : Bytes} : ∀ (fuel : Nat) (l l' : Lexer) (m : Bool),
    Lexer.Shifted pre l l' →
    Lexer.Shifted pre (Lexer.skipWhitespace fuel l m).1 (Lexer.skipWhitespace fuel l' m).1 ∧
      (Lexer.skipWhitespace fuel l m).2 = (Lexer.skipWhitespace fuel l' m).2 := by
  intro fuel
  induction fuel with
  | zero => intro l l' m h; exact ⟨h, rfl⟩
  | succ fuel ih =>
    intro l l' m h
    unfold Lexer.skipWhitespace
    rw [h.2.1]
    split
    · exact ih _ _ _ h.readByte
    · exact ⟨h, rfl⟩

theorem Lexer.Shifted.skipComment {pre : Bytes} : ∀ (fuel : Nat) (l l' : Lexer),
    Lexer.Shifted pre l l' →
    Lexer.Shifted pre (Lexer.skipComment fuel l) (Lexer.skipComment fuel l') := by
  intro fuel
  induction fuel with
  | zero => intro l l' h; exact h
  | succ fuel ih =>
    intro l l' h
    unfold Lexer.skipComment
    simp only
    rw [h.readByte.2.1]
    split
    · exact h.readByte
    · exact ih _ _ h.readByte

theorem Lexer.Shifted.skipWhitespaceAndCommentsLoop {pre : Bytes} : ∀ (fuel : Nat) (l l' : Lexer),
    Lexer.Shifted pre l l' →
    Lexer.Shifted pre (Lexer.skipWhitespaceAndCommentsLoop fuel l)
      (Lexer.skipWhitespaceAndCommentsLoop fuel l') := by
  intro fuel
  induction fuel with
  | zero => intro l l' h; exact h
  | succ fuel ih =>
    intro l l' h
    unfold Lexer.skipWhitespaceAndCommentsLoop
    simp only
    rw [h.budget]
    obtain ⟨h1, h2⟩ := Lexer.Shifted.skipWhitespace (l'.budget + 1) l l' false h
    rw [h1.2.1, h1.peekNextByte, h2, h1.budget]
    split
    · exact ih _ _ (Lexer.Shifted.skipComment _ _ _ h1)
    · split
      · exact ih _ _ h1
      · exact h1

theorem Lexer.Shifted.skipWhitespaceAndComments {pre : Bytes} {l l' : Lexer}
    (h : Lexer.Shifted pre l l') :
    Lexer.Shifted pre l.skipWhitespaceAndComments l'.skipWhitespaceAndComments := by
  unfold Lexer.skipWhitespaceAndComments
  rw [h.budget]
  exact Lexer.Shifted.skipWhitespaceAndCommentsLoop _ _ _ h

theorem Lexer.Shifted.readStringLoop {pre : Bytes} : ∀ (fuel : Nat) (l l' : Lexer),
    Lexer.Shifted pre l l' →
    Lexer.Shifted pre (Lexer.readStringLoop fuel l) (Lexer.readStringLoop fuel l') := by
  intro fuel
  induction fuel with
  | zero => intro l l' h; exact h
  | succ fuel ih =>
    intro l l' h
    unfold Lexer.readStringLoop
    simp only
    rw [h.readByte.2.1]
    split
    · exact h.readByte
    · exact ih _ _ h.readByte

theorem Lexer.Shifted.readIdentifierLoop {pre : Bytes} : ∀ (fuel : Nat) (l l' : Lexer),
    Lexer.Shifted pre l l' →
    Lexer.Shifted pre (Lexer.readIdentifierLoop fuel l) (Lexer.readIdentifierLoop fuel l') := by
  intro fuel
  induction fuel with
  | zero => intro l l' h; exact h
  | succ fuel ih =>
    intro l l' h
    unfold Lexer.readIdentifierLoop
    rw [h.2.1]
    split
    · exact ih _ _ h.readByte
    · exact h

theorem Lexer.Shifted.readNumberLoop {pre : Bytes} : ∀ (fuel : Nat) (l l' : Lexer) (m : Bool),
    Lexer.Shifted pre l l' →
    Lexer.Shifted pre (Lexer.readNumberLoop fuel l m).1 (Lexer.readNumberLoop fuel l' m).1 ∧
      (Lexer.readNumberLoop fuel l m).2 = (Lexer.readNumberLoop fuel l' m).2 := by
  intro fuel
  induction fuel with
  | zero => intro l l' m h; exact ⟨h, rfl⟩
  | succ fuel ih =>
    intro l l' m h
    unfold Lexer.readNumberLoop
    simp only
    rw [h.2.1, h.readByte.2.1, h.readByte.peekNextByte]
    split
    · split
      · exact ih _ _ _ h.readByte.readByte
      · exact ih _ _ _ h.readByte
    · exact ⟨h, rfl⟩

theorem Lexer.Shifted.slice_eq {pre : Bytes} {l l' : Lexer} (h : Lexer.Shifted pre l l') (lo : Nat) :
    slice l.input (lo + pre.length) l.currentIndex = slice l'.input lo l'.currentIndex := by
  unfold Marble.slice
  rw [h.1, h.2.2.1, Nat.add_comm lo, List.drop_append]
  congr 1
  omega

theorem Lexer.Shifted.newToken {pre : Bytes} {l l' : Lexer} (h : Lexer.Shifted pre l l')
    (tt : TokenType) (literal : Bytes) :
    Lexer.TokenShifted pre (l.newToken tt literal, l.readByte)
      (l'.newToken tt literal, l'.readByte) :=
  ⟨rfl, rfl, h.readByte⟩

theorem Lexer.Shifted.readOperator {pre : Bytes} {l l' : Lexer} (h : Lexer.Shifted pre l l')
    (previous : Nat) (single combined : TokenType) :
    Lexer.TokenShifted pre
      ((l.readOperator previous single combined).1,
        (l.readOperator previous single combined).2.readByte)
      ((l'.readOperator previous single combined).1,
        (l'.readOperator previous single combined).2.readByte) := by
  unfold Lexer.readOperator
  rw [h.peekNextByte]
  split
  · exact ⟨rfl, rfl, h.readByte.readByte⟩
  · exact ⟨rfl, rfl, h.readByte⟩

theorem Lexer.Shifted.readString {pre : Bytes} {l l' : Lexer} (h : Lexer.Shifted pre l l') :
    Lexer.TokenShifted pre (l.readString.1, l.readString.2.readByte)
      (l'.readString.1, l'.readString.2.readByte) := by
  unfold Lexer.readString
  simp only
  rw [h.budget]
  have h1 := Lexer.Shifted.readStringLoop (l'.budget + 1) l l' h
  refine ⟨rfl, ?_, h1.readByte⟩
  show slice _ (l.currentIndex + 1) _ = slice _ (l'.currentIndex + 1) _
  rw [h.2.2.1, Nat.add_right_comm]
  exact h1.slice_eq _

theorem Lexer.Shifted.readIdentifier {pre : Bytes} {l l' : Lexer} (h : Lexer.Shifted pre l l') :
    Lexer.TokenShifted pre l.readIdentifier l'.readIdentifier := by
  unfold Lexer.readIdentifier
  simp only
  rw [h.budget]
  have h1 := Lexer.Shifted.readIdentifierLoop (l'.budget + 1) l l' h
  have hs : slice (Lexer.readIdentifierLoop (l'.budget + 1) l).input l.currentIndex
      (Lexer.readIdentifierLoop (l'.budget + 1) l).currentIndex =
      slice (Lexer.readIdentifierLoop (l'.budget + 1) l').input l'.currentIndex
      (Lexer.readIdentifierLoop (l'.budget + 1) l').currentIndex := by
    rw [h.2.2.1]
    exact h1.slice_eq _
  rw [hs]
  exact ⟨rfl, rfl, h1⟩

theorem Lexer.Shifted.readNumber {pre : Bytes} {l l' : Lexer} (h : Lexer.Shifted pre l l') :
    Lexer.TokenShifted pre l.readNumber l'.readNumber := by
  unfold Lexer.readNumber
  simp only
  rw [h.budget]
  obtain ⟨h1, h2⟩ := Lexer.Shifted.readNumberLoop (l'.budget + 1) l l' false h
  have hs : slice (Lexer.readNumberLoop (l'.budget + 1) l false).1.input l.currentIndex
      (Lexer.readNumberLoop (l'.budget + 1) l false).1.currentIndex =
      slice (Lexer.readNumberLoop (l'.budget + 1) l' false).1.input l'.currentIndex
      (Lexer.readNumberLoop (l'.budget + 1) l' false).1.currentIndex := by
    rw [h.2.2.1]
    exact h1.slice_eq _
  rw [hs, h2]
  exact ⟨rfl, rfl, h1⟩

/-- One `NextToken` on two lexers that are shifted after the skip. -/
theorem Lexer.Shifted.scan {pre : Bytes} {l0 l0' : Lexer}
    (h : Lexer.Shifted pre l0.skipWhitespaceAndComments l0'.skipWhitespaceAndComments) :
    Lexer.TokenShifted pre l0.NextToken l0'.NextToken := by
  unfold Lexer.NextToken
  dsimp only
  generalize l0.skipWhitespaceAndComments = l at h ⊢
  generalize l0'.skipWhitespaceAndComments = l' at h ⊢
  rw [h.2.1]
  by_cases h61 : l'.currentByte = 61
  · simp only [if_pos h61]
    exact h.readOperator _ _ _
  simp only [if_neg h61]
  by_cases h43 : l'.currentByte = 43
  · simp only [if_pos h43]
    exact h.newToken _ _
  simp only [if_neg h43]
  by_cases h45 : l'.currentByte = 45
  · simp only [if_pos h45]
    exact h.newToken _ _
  simp only [if_neg h45]
  by_cases h42 : l'.currentByte = 42
  · simp only [if_pos h42]
    exact h.newToken _ _
  simp only [if_neg h42]
  by_cases h47 : l'.currentByte = 47
  · simp only [if_pos h47]
    exact h.newToken _ _
  simp only [if_neg h47]
  by_cases h33 : l'.currentByte = 33
  · simp only [if_pos h33]
    exact h.readOperator _ _ _
  simp only [if_neg h33]
  by_cases h60 : l'.currentByte = 60
  · simp only [if_pos h60]
    exact h.readOperator _ _ _
  simp only [if_neg h60]
  by_cases h62 : l'.currentByte = 62
  · simp only [if_pos h62]
    exact h.readOperator _ _ _
  simp only [if_neg h62]
  by_cases h44 : l'.currentByte = 44
  · simp only [if_pos h44]
    exact h.newToken _ _
  simp only [if_neg h44]
  by_cases h59 : l'.currentByte = 59
  · simp only [if_pos h59]
    exact h.newToken _ _
  simp only [if_neg h59]
  by_cases h40 : l'.currentByte = 40
  · simp only [if_pos h40]
    exact h.newToken _ _
  simp only [if_neg h40]
  by_cases h41 : l'.currentByte = 41
  · simp only [if_pos h41]
    exact h.newToken _ _
  simp only [if_neg h41]
  by_cases h123 : l'.currentByte = 123
  · simp only [if_pos h123]
    exact h.newToken _ _
  simp only [if_neg h123]
  by_cases h125 : l'.currentByte = 125
  · simp only [if_pos h125]
    exact h.newToken _ _
  simp only [if_neg h125]
  by_cases h91 : l'.currentByte = 91
  · simp only [if_pos h91]
    exact h.newToken _ _
  simp only [if_neg h91]
  by_cases h93 : l'.currentByte = 93
  · simp only [if_pos h93]
    exact h.newToken _ _
  simp only [if_neg h93]
  by_cases h34 : l'.currentByte = 34
  · simp only [if_pos h34]
    exact h.readString
  simp only [if_neg h34]
  by_cases h0 : l'.currentByte = 0
  · simp only [if_pos h0]
    exact h.newToken _ _
  simp only [if_neg h0]
  by_cases hid : Lexer.validIdentifierByte l'.currentByte = true
  · simp only [if_pos hid]
    exact h.readIdentifier
  simp only [if_neg hid]
  by_cases hnum : Lexer.validNumberDigit l'.currentByte = true
  · simp only [if_pos hnum]
    exact h.readNumber
  simp only [if_neg hnum]
  exact h.newToken _ _

theorem Lexer.Shifted.NextToken {pre : Bytes} {l l' : Lexer} (h : Lexer.Shifted pre l l') :
    Lexer.TokenShifted pre l.NextToken l'.NextToken :=
  Lexer.Shifted.scan h.skipWhitespaceAndComments

theorem Lexer.Shifted.tokens {pre : Bytes} : ∀ (n : Nat) (l l' : Lexer), Lexer.Shifted pre l l' →
    (tokens n l).map (fun t => (t.Typ, t.Literal)) =
      (tokens n l').map (fun t => (t.Typ, t.Literal)) := by
  intro n
  induction n with
  | zero => intro l l' _; rfl
  | succ n ih =>
    intro l l' h
    obtain ⟨h1, h2, h3⟩ := Lexer.Shifted.NextToken h
    simp only [Marble.tokens, List.map_cons, h1, h2, ih _ _ h3]

/-! ### Skipping a run of whitespace and comments -/

theorem skipWhitespace_flag : ∀ (fuel : Nat) (l : Lexer) (m : Bool),
    (Lexer.skipWhitespace fuel l m).1 = (Lexer.skipWhitespace fuel l false).1 := by
  intro fuel
  induction fuel with
  | zero => intro l m; rfl
  | succ fuel ih =>
    intro l m
    unfold Lexer.skipWhitespace
    split
    · rw [ih _ true]
    · rfl

theorem skipWhitespace_true : ∀ (fuel : Nat) (l : Lexer),
    (Lexer.skipWhitespace fuel l true).2 = true := by
  intro fuel
  induction fuel with
  | zero => intro l; rfl
  | succ fuel ih =>
    intro l
    unfold Lexer.skipWhitespace
    split
    · exact ih _
    · rfl

theorem skipWhitespace_none (fuel : Nat) (l : Lexer) (m : Bool)
    (h : Lexer.isWhitespace l.currentByte = false) :
    Lexer.skipWhitespace (fuel + 1) l m = (l, m) := by
  unfold Lexer.skipWhitespace
  rw [if_neg (by rw [h]; decide)]

theorem Positioned.index_le {l l' : Lexer} (hl : l.Positioned) (h : Lexer.ReadsTo l l') :
    l'.Positioned ∧ l.currentIndex ≤ l'.currentIndex ∧ l'.input = l.input := by
  have hp := h.positioned hl
  have hn := h.nextIndex_le
  rw [hl.1, hp.1] at hn
  exact ⟨hp, by omega, h.input_eq⟩

theorem Positioned.index_lt {l l' : Lexer} (hl : l.Positioned) (h : Lexer.ReadsTo l.readByte l') :
    l'.Positioned ∧ l.currentIndex + 1 ≤ l'.currentIndex ∧ l'.input = l.input := by
  obtain ⟨hp, hi, hin⟩ := Positioned.index_le (Positioned_readByte hl) h
  rw [readByte_currentIndex, hl.1] at hi
  exact ⟨hp, hi, hin⟩

theorem skipLoop_fuel : ∀ (f f' : Nat) (l : Lexer), l.Positioned →
    l.input.length - l.currentIndex < f → l.input.length - l.currentIndex < f' →
    Lexer.skipWhitespaceAndCommentsLoop f l = Lexer.skipWhitespaceAndCommentsLoop f' l := by
  intro f
  induction f with
  | zero => intro _ l _ h; omega
  | succ f ih =>
    intro f' l hl hf hf'
    cases f' with
    | zero => omega
    | succ f' =>
      unfold Lexer.skipWhitespaceAndCommentsLoop
      simp only
      obtain ⟨hp1, hi1, hin1⟩ := Positioned.index_le hl (skipWhitespace_reads (l.budget + 1) l false)
      by_cases hc : (Lexer.skipWhitespace (l.budget + 1) l false).1.currentByte = 47 ∧
          (Lexer.skipWhitespace (l.budget + 1) l false).1.peekNextByte = 47
      · rw [if_pos hc, if_pos hc]
        have hlt := Positioned.lt_length hp1 (by rw [hc.1]; decide)
        obtain ⟨hp2, hi2, hin2⟩ := Positioned.index_lt hp1
          (skipComment_reads_one (Lexer.skipWhitespace (l.budget + 1) l false).1.budget
            (Lexer.skipWhitespace (l.budget + 1) l false).1)
        rw [hin1] at hlt hin2
        exact ih f' _ hp2 (by rw [hin2]; omega) (by rw [hin2]; omega)
      · rw [if_neg hc, if_neg hc]
        by_cases hm : (Lexer.skipWhitespace (l.budget + 1) l false).2 = true
        · rw [if_pos hm, if_pos hm]
          obtain ⟨hw, hr⟩ := skipWhitespace_moved _ _ hm
          have hlt := Positioned.lt_length hl (isWhitespace_ne_zero hw)
          obtain ⟨_, hi3, _⟩ := Positioned.index_lt hl hr
          exact ih f' _ hp1 (by rw [hin1]; omega) (by rw [hin1]; omega)
        · rw [if_neg hm, if_neg hm]

theorem skipLoop_eq_skip {l : Lexer} (hl : l.Positioned) (f : Nat)
    (hf : l.input.length - l.currentIndex < f) :
    Lexer.skipWhitespaceAndCommentsLoop f l = l.skipWhitespaceAndComments := by
  unfold Lexer.skipWhitespaceAndComments
  exact skipLoop_fuel f _ l hl hf (by rw [budget_of_positioned hl]; omega)

/-- A lexer that the skip leaves where it is. -/
theorem skipLoop_stay (f : Nat) (l : Lexer) (hw : Lexer.isWhitespace l.currentByte = false)
    (hc : ¬ (l.currentByte = 47 ∧ l.peekNextByte = 47)) :
    Lexer.skipWhitespaceAndCommentsLoop f l = l := by
  cases f with
  | zero => rfl
  | succ f =>
    unfold Lexer.skipWhitespaceAndCommentsLoop
    simp only
    rw [skipWhitespace_none _ _ _ hw]
    simp only
    rw [if_neg hc]
    simp

theorem skip_whitespace_step {l : Lexer} (hl : l.Positioned)
    (hw : Lexer.isWhitespace l.currentByte = true) :
    l.skipWhitespaceAndComments = l.readByte.skipWhitespaceAndComments := by
  have hlt := Positioned.lt_length hl (isWhitespace_ne_zero hw)
  have hpr := Positioned_readByte hl
  have hir : l.readByte.currentIndex = l.currentIndex + 1 := by
    rw [readByte_currentIndex, hl.1]
  have hB : l.budget = l.readByte.budget + 1 := by
    rw [budget_of_positioned hl, budget_of_positioned hpr, hir, readByte_input]
    omega
  have hreads : Lexer.ReadsTo l.readByte (Lexer.skipWhitespace (l.readByte.budget + 1) l.readByte false).1 :=
    skipWhitespace_reads _ _ _
  obtain ⟨hp1, hi1, hin1⟩ := Positioned.index_lt hl hreads
  have hstop := skipWhitespace_stops (l.readByte.budget + 1) l.readByte false hpr
    (by rw [budget_of_positioned hpr]; omega)
  have lhs : l.skipWhitespaceAndComments =
      if (Lexer.skipWhitespace (l.readByte.budget + 1) l.readByte false).1.currentByte = 47 ∧
          (Lexer.skipWhitespace (l.readByte.budget + 1) l.readByte false).1.peekNextByte = 47 then
        Lexer.skipWhitespaceAndCommentsLoop l.budget
          (Lexer.skipComment ((Lexer.skipWhitespace (l.readByte.budget + 1) l.readByte false).1.budget + 1)
            (Lexer.skipWhitespace (l.readByte.budget + 1) l.readByte false).1)
      else Lexer.skipWhitespaceAndCommentsLoop l.budget
        (Lexer.skipWhitespace (l.readByte.budget + 1) l.readByte false).1 := by
    have hr : Lexer.skipWhitespace (l.budget + 1) l false =
        Lexer.skipWhitespace (l.readByte.budget + 1) l.readByte true := by
      conv => lhs; unfold Lexer.skipWhitespace
      rw [if_pos hw, hB]
    have h2 : (Lexer.skipWhitespace (l.readByte.budget + 1) l.readByte true).2 = true := by
      unfold Lexer.skipWhitespace
      split
      · exact skipWhitespace_true _ _
      · rfl
    conv => lhs; unfold Lexer.skipWhitespaceAndComments Lexer.skipWhitespaceAndCommentsLoop
    simp only
    rw [hr, skipWhitespace_flag _ _ true, h2]
    simp only [if_true]
  rw [lhs]
  have rhs : l.readByte.skipWhitespaceAndComments =
      Lexer.skipWhitespaceAndCommentsLoop (l.readByte.budget + 1) l.readByte := rfl
  rw [rhs]
  conv => rhs; unfold Lexer.skipWhitespaceAndCommentsLoop
  simp only
  by_cases hc : (Lexer.skipWhitespace (l.readByte.budget + 1) l.readByte false).1.currentByte = 47 ∧
      (Lexer.skipWhitespace (l.readByte.budget + 1) l.readByte false).1.peekNextByte = 47
  · rw [if_pos hc, if_pos hc]
    have hlt1 := Positioned.lt_length hp1 (by rw [hc.1]; decide)
    obtain ⟨hp2, hi2, hin2⟩ := Positioned.index_lt hp1
      (skipComment_reads_one (Lexer.skipWhitespace (l.readByte.budget + 1) l.readByte false).1.budget
        (Lexer.skipWhitespace (l.readByte.budget + 1) l.readByte false).1)
    rw [hin1] at hlt1 hin2
    have hb := budget_of_positioned hl
    exact skipLoop_fuel _ _ _ hp2 (by rw [hin2]; omega) (by rw [hin2]; omega)
  · rw [if_neg hc, if_neg hc]
    rw [skipLoop_stay _ _ hstop hc]
    split
    · exact (skipLoop_stay _ _ hstop hc).symm
    · rfl

theorem skip_comment_step {l : Lexer} (hl : l.Positioned) (h1 : l.currentByte = 47)
    (h2 : l.peekNextByte = 47) :
    l.skipWhitespaceAndComments =
      (Lexer.skipComment (l.budget + 1) l).skipWhitespaceAndComments := by
  have hlt := Positioned.lt_length hl (by rw [h1]; decide)
  obtain ⟨hp2, hi2, hin2⟩ := Positioned.index_lt hl (skipComment_reads_one l.budget l)
  have hb := budget_of_positioned hl
  rw [← skipLoop_eq_skip hp2 l.budget (by rw [hin2]; omega)]
  conv => lhs; unfold Lexer.skipWhitespaceAndComments Lexer.skipWhitespaceAndCommentsLoop
  simp only
  rw [skipWhitespace_none _ _ _ (by rw [h1]; decide)]
  simp only
  rw [if_pos ⟨h1, h2⟩]

theorem byteAt_append_head (pre : Bytes) (b : Nat) (t : Bytes) :
    byteAt (pre ++ b :: t) pre.length = b := by
  have := byteAt_append_offset pre (b :: t) 0
  simpa [byteAt] using this

theorem skipComment_body : ∀ (body : Bytes), (∀ x ∈ body, x ≠ 10 ∧ x ≠ 0) →
    ∀ (f : Nat) (l : Lexer) (pre rest : Bytes), l.input = pre ++ (body ++ 10 :: rest) →
      l.nextIndex = pre.length → body.length < f →
      (Lexer.skipComment f l).currentIndex = pre.length + body.length := by
  intro body
  induction body with
  | nil =>
    intro _ f l pre rest hin hn hf
    cases f with
    | zero => simp at hf
    | succ f =>
      unfold Lexer.skipComment
      simp only
      have hb : l.readByte.currentByte = 10 := by
        rw [readByte_currentByte, hin, hn]
        exact byteAt_append_head pre 10 rest
      rw [if_pos (Or.inr hb), readByte_currentIndex, hn]
      rfl
  | cons x body ih =>
    intro hbody f l pre rest hin hn hf
    cases f with
    | zero => simp at hf
    | succ f =>
      unfold Lexer.skipComment
      simp only
      have hb : l.readByte.currentByte = x := by
        rw [readByte_currentByte, hin, hn]
        exact byteAt_append_head pre x _
      have hx := hbody x (List.mem_cons_self _ _)
      rw [if_neg (by rw [hb]; exact fun h => h.elim hx.2 hx.1)]
      have := ih (fun y hy => hbody y (List.mem_cons_of_mem _ hy)) f l.readByte (pre ++ [x]) rest
        (by rw [readByte_input, hin]; simp) (by rw [readByte_nextIndex, hn]; simp)
        (by simpa using hf)
      rw [this]
      simp
      omega

theorem skip_run {ok : Nat → Prop} (hok : ∀ x, ok x → x ≠ 0) {w : Bytes} (hw : Skipped ok w) :
    ∀ (l : Lexer) (pre s : Bytes), l.Positioned → l.input = pre ++ (w ++ s) →
      l.currentIndex = pre.length →
      ∃ l' : Lexer, l'.Positioned ∧ l'.input = l.input ∧
        l'.currentIndex = pre.length + w.length ∧
        l.skipWhitespaceAndComments = l'.skipWhitespaceAndComments := by
  induction hw with
  | nil =>
    intro l pre s hl _ hi
    exact ⟨l, hl, rfl, by simpa using hi, rfl⟩
  | @whitespace b w hb _ ih =>
    intro l pre s hl hin hi
    have hcur : l.currentByte = b := by
      rw [hl.2.1, hin, hi]
      exact byteAt_append_head pre b _
    obtain ⟨l', hp, hin', hi', hs⟩ := ih l.readByte (pre ++ [b]) s (Positioned_readByte hl)
      (by rw [readByte_input, hin]; simp) (by rw [readByte_currentIndex, hl.1, hi]; simp)
    refine ⟨l', hp, by rw [hin', readByte_input], ?_, ?_⟩
    · rw [hi']; simp; omega
    · rw [skip_whitespace_step hl (by rw [hcur]; exact hb)]
      exact hs
  | @comment body w hbody _ ih =>
    intro l pre s hl hin hi
    have hcur : l.currentByte = 47 := by
      rw [hl.2.1, hin, hi]
      exact byteAt_append_head pre 47 _
    have hpeek : l.peekNextByte = 47 := by
      rw [peekNextByte_eq, hl.1, hin, hi]
      have := byteAt_append_head (pre ++ [47]) 47 (body ++ 10 :: w ++ s)
      simpa using this
    obtain ⟨hp2, _, hin2⟩ := Positioned.index_lt hl (skipComment_reads_one l.budget l)
    have hlen : l.input.length = pre.length + (body.length + (w.length + s.length) + 3) := by
      rw [hin]; simp; omega
    have hidx : (Lexer.skipComment (l.budget + 1) l).currentIndex =
        (pre ++ [47]).length + (47 :: body).length := by
      apply skipComment_body (47 :: body) _ (l.budget + 1) l (pre ++ [47]) (w ++ s)
      · rw [hin]; simp
      · rw [hl.1, hi]; simp
      · rw [budget_of_positioned hl, hlen, hi]; simp; omega
      · intro x hx
        rcases List.mem_cons.mp hx with h | h
        · subst h; exact ⟨by decide, by decide⟩
        · exact ⟨(hbody x h).1, hok x (hbody x h).2⟩
    have hcur2 : (Lexer.skipComment (l.budget + 1) l).currentByte = 10 := by
      rw [hp2.2.1, hin2, hin, hidx]
      have := byteAt_append_head (pre ++ 47 :: 47 :: body) 10 (w ++ s)
      have hl2 : (pre ++ [47]).length + (47 :: body).length =
          (pre ++ 47 :: 47 :: body).length := by simp; omega
      rw [hl2]
      simpa using this
    obtain ⟨l', hp, hin', hi', hs⟩ := ih (Lexer.skipComment (l.budget + 1) l).readByte
      (pre ++ 47 :: 47 :: (body ++ [10])) s (Positioned_readByte hp2)
      (by rw [readByte_input, hin2, hin]; simp)
      (by rw [readByte_currentIndex, hp2.1, hidx]; simp; omega)
    refine ⟨l', hp, by rw [hin', readByte_input, hin2], ?_, ?_⟩
    · rw [hi']; simp; omega
    · rw [skip_comment_step hl hcur hpeek,
        skip_whitespace_step hp2 (by rw [hcur2]; decide)]
      exact hs

/-- The skip at the start of a skipped run `w` followed by `s` ends where the skip at the
start of `s` alone ends, `w.length` positions further. -/
theorem skip_shifted {ok : Nat → Prop} (hok : ∀ x, ok x → x ≠ 0) {w : Bytes}
    (hw : Skipped ok w) (s : Bytes) :
    ∃ l' : Lexer, (NewLexer (w ++ s)).skipWhitespaceAndComments = l'.skipWhitespaceAndComments ∧
      l'.input = w ++ s ∧ l'.currentByte = (NewLexer s).currentByte ∧
      l'.currentIndex = (NewLexer s).currentIndex + w.length ∧
      l'.nextIndex = (NewLexer s).nextIndex + w.length := by
  obtain ⟨l', hp, hin, hi, hs⟩ := skip_run hok hw (NewLexer (w ++ s)) [] s
    (Positioned_NewLexer _) rfl rfl
  have hin2 : l'.input = w ++ s := hin
  have hi2 : l'.currentIndex = w.length := by simpa using hi
  refine ⟨l', hs, hin2, ?_, ?_, ?_⟩
  · rw [hp.2.1, hin2, hi2, (Positioned_NewLexer s).2.1]
    have := byteAt_append_offset w s 0
    simpa using this
  · rw [hi2]; show w.length = 0 + w.length; omega
  · rw [hp.1, hi2]; show w.length + 1 = 1 + w.length; omega

/-! ### C29: whitespace and comments before the input -/

set_option maxRecDepth 100000 in
/-- C29 (counterexample). The prefix `//`, NUL, newline is a line comment whose body holds no
newline, and `a` holds no NUL; yet the tokens of the prefix followed by `a` start with EOF,
before the identifier, while those of `a` alone start with the identifier: the loop that
skips a comment stops at a NUL byte as it does at a newline, and `NextToken` reads the NUL
as the end of the input. -/
theorem nul_ends_a_comment :
    Skipped (fun _ => True) [47, 47, 0, 10] ∧
    (0 : Nat) ∉ str "a" ∧
    (tokens 2 (NewLexer ([47, 47, 0, 10] ++ str "a"))).map (fun t => (t.Typ, t.Literal)) =
      [(.EOF, []), (.IDENTIFIER, str "a")] ∧
    (tokens 2 (NewLexer (str "a"))).map (fun t => (t.Typ, t.Literal)) =
      [(.IDENTIFIER, str "a"), (.EOF, [])] := by
  refine ⟨?_, by decide, by rfl, by rfl⟩
  exact @Skipped.comment _ [0] [] (by decide) Skipped.nil

/-- C29 (as amended). Let `w` be made of spaces, tabs, carriage returns, newlines and line
comments, each comment being `//`, then bytes that are neither a newline nor NUL, then a
newline, in any order and number. For every input `s`, with or without NUL bytes, and every
`n`, the kinds and literals of the first `n` tokens of `w` followed by `s` are those of the
first `n` tokens of `s` alone. -/
theorem skipped_prefix (w s : Bytes) (hw : Skipped (fun x => x ≠ 0) w) (n : Nat) :
    (tokens n (NewLexer (w ++ s))).map (fun t => (t.Typ, t.Literal)) =
      (tokens n (NewLexer s)).map (fun t => (t.Typ, t.Literal)) := by
  cases n with
  | zero => rfl
  | succ n =>
    obtain ⟨l', hs, hin, hcur, hi, hn⟩ := skip_shifted (fun _ h => h) hw s
    have hsh : Lexer.Shifted w l' (NewLexer s) := ⟨hin, hcur, hi, hn⟩
    have hskip := hsh.skipWhitespaceAndComments
    rw [← hs] at hskip
    obtain ⟨h1, h2, h3⟩ := Lexer.Shifted.scan hskip
    simp only [tokens, List.map_cons, h1, h2, Lexer.Shifted.tokens n _ _ h3]

set_option maxRecDepth 100000 in
/-- C29 (as amended) for a comment followed by whitespace and another comment: all of it is
skipped, and the tokens are those of `var x` alone. -/
theorem skipped_prefix_witness :
    Skipped (fun x => x ≠ 0) (str "//a\n \t\r//b\n") ∧
    (tokens 3 (NewLexer (str "//a\n \t\r//b\n" ++ str "var x"))).map (fun t => (t.Typ, t.Literal)) =
      (tokens 3 (NewLexer (str "var x"))).map (fun t => (t.Typ, t.Literal)) ∧
    (tokens 3 (NewLexer (str "//a\n \t\r//b\nvar x"))).map (fun t => (t.Typ, t.Literal)) =
      [(.VARIABLE, str "var"), (.IDENTIFIER, str "x"), (.EOF, [])] :=
  have h : Skipped (fun x => x ≠ 0) (str "//a\n \t\r//b\n") :=
    @Skipped.comment _ [97] [32, 9, 13, 47, 47, 98, 10] (by decide)
      (Skipped.whitespace (by decide) (Skipped.whitespace (by decide)
        (Skipped.whitespace (by decide)
          (@Skipped.comment _ [98] [] (by decide) Skipped.nil))))
  ⟨h, skipped_prefix _ _ h 3, by rfl⟩

/-! ### C31: columns are counted from one -/

theorem colOf_line_start (input : Bytes) (q : Nat) (hq : q ≤ input.length)
    (h : q = 0 ∨ byteAt input (q - 1) = 10) : colOf input q = 1 := by
  cases q with
  | zero => simp [colOf]
  | succ q =>
    rcases h with h | h
    · omega
    · rw [colOf_succ input q (by omega)]
      simp only [Nat.add_sub_cancel] at h
      rw [if_pos h]

theorem colOf_on_line (input : Bytes) (q : Nat) (h : q = 0 ∨ byteAt input (q - 1) = 10) :
    ∀ d : Nat, q + d ≤ input.length → (∀ i, q ≤ i → i < q + d → byteAt input i ≠ 10) →
      colOf input (q + d) = (d : Int) + 1 := by
  intro d
  induction d with
  | zero =>
    intro hlen _
    rw [Nat.add_zero, colOf_line_start input q (by omega) h]
    simp
  | succ d ih =>
    intro hlen hline
    have h1 := ih (by omega) (fun i hi hi2 => hline i hi (by omega))
    have h2 := hline (q + d) (by omega) (by omega)
    rw [← Nat.add_assoc, colOf_succ input (q + d) (by omega), if_neg h2, h1]
    push_cast
    ring

/-- C31 (counterexample). The first token of `var five = 5;` starts at the first byte of the
input and has column 1, not 0, as the test of the lexer expects; in `a`, newline, `b` the
token `b` starts at the first byte after a newline and has column 1 as well. -/
theorem first_column_is_one :
    (NewLexer (str "var five = 5;")).NextToken.1 = ⟨.VARIABLE, str "var", 1, 1⟩ ∧
    (tokens 2 (NewLexer (str "a\nb"))).map (fun t => (t.Literal, t.LineNumber, t.ColNumber)) =
      [(str "a", 1, 1), (str "b", 2, 1)] := by
  refine ⟨by decide, by decide⟩

/-- C31 (as amended). Line and column numbers are both 1-based. From a lexer whose counters
agree with its position, as after `NewLexer` and any number of tokens, a token that is not
EOF and starts at offset `p` has as line number one plus the number of newlines before `p`,
line 1 at the start of the input. When `p` is the first byte of the input or the first byte
after a newline its column is 1, and when the line of `p` starts at offset `q` its column is
`p - q + 1`: each further byte on the line adds one. -/
theorem columns_count_from_one (l : Lexer) (hl : l.Positioned)
    (h : l.NextToken.1.Typ ≠ .EOF) :
    l.NextToken.1.LineNumber =
      1 + ((l.input.take l.skipWhitespaceAndComments.currentIndex).count 10 : Nat) ∧
    lineOf l.input 0 = 1 ∧
    ((l.skipWhitespaceAndComments.currentIndex = 0 ∨
        byteAt l.input (l.skipWhitespaceAndComments.currentIndex - 1) = 10) →
      l.NextToken.1.ColNumber = 1) ∧
    (∀ q d : Nat, l.skipWhitespaceAndComments.currentIndex = q + d →
      (q = 0 ∨ byteAt l.input (q - 1) = 10) →
      (∀ i, q ≤ i → i < q + d → byteAt l.input i ≠ 10) →
      l.NextToken.1.ColNumber = (d : Int) + 1) := by
  obtain ⟨h1, h2, h3⟩ := NextToken_position hl h
  refine ⟨h1, by simp [lineOf], ?_, ?_⟩
  · intro hp
    rw [h2]
    exact colOf_line_start _ _ (by omega) hp
  · intro q d hp hq hline
    rw [h2, hp]
    exact colOf_on_line _ q hq d (by omega) hline

/-- C31 (as amended) at the second token of `var five = 5;`, five bytes into the line. -/
theorem columns_count_from_one_witness :
    (lexerAfter 1 (NewLexer (str "var five = 5;"))).NextToken.1.Typ ≠ .EOF ∧
    (lexerAfter 1 (NewLexer (str "var five = 5;"))).NextToken.1.ColNumber = ((4 : Nat) : Int) + 1 :=
  ⟨by decide,
    (columns_count_from_one (lexerAfter 1 (NewLexer (str "var five = 5;")))
      (Positioned_lexerAfter 1 _ (Positioned_NewLexer _)) (by decide)).2.2.2 0 4 (by decide)
      (Or.inl rfl) (by decide)⟩

/-! ### C38: integer literals in range -/

set_option maxRecDepth 100000 in
/-- C38 (counterexample). The literal `010` is a run of decimal digits that denotes 10 in
base 10, within range, yet the node that `parseIntegerLiteral` produces holds 8: the call
`strconv.ParseInt(literal, 0, 64)` reads a leading `0` as the octal prefix. The literal `08`
denotes 8 in base 10 and is not parsed at all: a diagnostic is recorded. -/
theorem leading_zero_changes_the_value :
    digitsValue 10 (str "010") 0 = some 10 ∧
    Parse (str "010") =
      some (⟨[.expressionStatement ⟨.INTEGER, str "010", 1, 1⟩
        (.integerLiteral ⟨.INTEGER, str "010", 1, 1⟩ 8)]⟩, []) ∧
    digitsValue 10 (str "08") 0 = some 8 ∧
    (Parse (str "08")).map (fun r => r.2) =
      some [str "line 1 column 1: could not parse 08 as integer"] := by
  refine ⟨by decide, by rfl, by decide, by rfl⟩

/-- C38 (as amended). For a token whose literal is a run of decimal digits that does not
start with `0`, or is the single digit `0`, and denotes in base 10 a value `n` of at most
2^63 - 1, `strconv.ParseInt` returns `n`, and `parseIntegerLiteral` produces the integer
literal node with the token and the value `n`, leaving the parser, and so its diagnostics,
as they were. -/
theorem decimal_integer_literal (p : Parser) (b : Nat) (rest : Bytes) (n : Nat)
    (hs : p.current.Literal = b :: rest) (hb : b ≠ 48 ∨ rest = [])
    (hv : digitsValue 10 (b :: rest) 0 = some n) (hrange : n ≤ 2 ^ 63 - 1) :
    parseInt p.current.Literal = some (n : Int) ∧
    Parser.parseIntegerLiteral p = (.integerLiteral p.current (n : Int), p) ∧
    (Parser.parseIntegerLiteral p).2.issues = p.issues := by
  have hnone : parseInt p.current.Literal = some (n : Int) := by
    rw [hs]
    unfold parseInt
    by_cases h48 : b = 48
    · rcases hb with hb | hb
      · exact absurd h48 hb
      · subst hb
        subst h48
        have hn : n = 0 := by
          simp [digitsValue] at hv
          omega
        subst hn
        simp [digitsValue]
    · simp only [if_neg h48, hv]
      rw [if_pos (by exact_mod_cast hrange)]
  have hlit : Parser.parseIntegerLiteral p = (.integerLiteral p.current (n : Int), p) := by
    unfold Parser.parseIntegerLiteral
    rw [hnone]
  exact ⟨hnone, hlit, by rw [hlit]⟩

/-- C38 (as amended) at a parser whose current token is the integer 9223372036854775807. -/
theorem decimal_integer_literal_witness :
    digitsValue 10 (str "9223372036854775807") 0 = some 9223372036854775807 ∧
    Parser.parseIntegerLiteral
        ⟨NewLexer [], [], Token.zero, ⟨.INTEGER, str "9223372036854775807", 1, 1⟩⟩ =
      (.integerLiteral ⟨.INTEGER, str "9223372036854775807", 1, 1⟩ 9223372036854775807,
        ⟨NewLexer [], [], Token.zero, ⟨.INTEGER, str "9223372036854775807", 1, 1⟩⟩) :=
  ⟨by decide,
    (decimal_integer_literal
      ⟨NewLexer [], [], Token.zero, ⟨.INTEGER, str "9223372036854775807", 1, 1⟩⟩
      57 (str "223372036854775807") 9223372036854775807 rfl (Or.inl (by decide)) (by decide)
      (by decide)).2.1⟩

/-! ### Soundness of the parser: steps and well-formed results -/

theorem Parser.Steps.followedBy {a b c : Parser} (h1 : Parser.Steps a b) (h2 : Parser.Steps b c) :
    Parser.Steps a c := by
  induction h1 with
  | refl => exact h2
  | next _ ih => exact .next (ih h2)
  | issue msg _ ih => exact .issue msg (ih h2)

theorem Parser.Steps.issues_le {a b : Parser} (h : Parser.Steps a b) :
    a.issues.length ≤ b.issues.length := by
  induction h with
  | refl => exact Nat.le_refl _
  | next _ ih => exact ih
  | @issue p p' msg _ ih =>
    have : (p.withIssue msg).issues.length = p.issues.length + 1 := by
      simp [Parser.withIssue]
    omega

theorem Parser.Steps.issues_lt {a b : Parser} (msg : Bytes)
    (h : Parser.Steps (a.withIssue msg) b) : a.issues.length < b.issues.length := by
  have := h.issues_le
  have h2 : (a.withIssue msg).issues.length = a.issues.length + 1 := by
    simp [Parser.withIssue]
  omega

theorem Parser.Yields.done {p : Parser} {good : Prop} (h : good) : Parser.Yields p p good :=
  ⟨.refl p, fun _ => h⟩

theorem Parser.Yields.failed {p p' : Parser} {good : Prop} (msg : Bytes)
    (h : Parser.Steps (p.withIssue msg) p') : Parser.Yields p p' good :=
  ⟨.issue msg h, fun hl => by have := h.issues_lt; omega⟩

theorem Parser.Yields.after {p p' : Parser} {good : Prop}
    (h : Parser.Yields p.nextToken p' good) : Parser.Yields p p' good :=
  ⟨.next h.1, fun hl => h.2 hl⟩

theorem Parser.Yields.bind {a b c : Parser} {g1 g2 g : Prop} (h1 : Parser.Yields a b g1)
    (h2 : Parser.Yields b c g2) (h : g1 → g2 → g) : Parser.Yields a c g := by
  refine ⟨h1.1.followedBy h2.1, fun hl => ?_⟩
  have l1 := h1.1.issues_le
  have l2 := h2.1.issues_le
  exact h (h1.2 (by omega)) (h2.2 (by omega))

theorem Parser.Yields.mono {a b : Parser} {g1 g : Prop} (h1 : Parser.Yields a b g1)
    (h : g1 → g) : Parser.Yields a b g :=
  ⟨h1.1, fun hl => h (h1.2 hl)⟩

theorem Expr_wellFormedList_append (xs : List Expr) (e : Expr) :
    Expr.wellFormedList (xs ++ [e]) = (Expr.wellFormedList xs && e.wellFormed) := by
  induction xs with
  | nil => simp [Expr.wellFormedList]
  | cons x xs ih => simp [Expr.wellFormedList, ih, Bool.and_assoc]

theorem Statement_wellFormedList_append (xs : List Statement) (s : Statement) :
    Statement.wellFormedList (xs ++ [s]) = (Statement.wellFormedList xs && s.wellFormed) := by
  induction xs with
  | nil => simp [Statement.wellFormedList]
  | cons x xs ih => simp [Statement.wellFormedList, ih, Bool.and_assoc]

theorem skipSemicolon_yields {good : Prop} (p : Parser) (h : good) :
    Parser.Yields p (Parser.skipSemicolon p) good := by
  unfold Parser.skipSemicolon
  split
  · exact (Parser.Yields.done h).after
  · exact .done h

section sound

variable {pe : Parser.PE}

theorem parseStatement_sound (hpe : pe.Sound) (p p' : Parser) (r : Option Statement)
    (h : Parser.parseStatement pe p = some (r, p')) :
    Parser.Yields p p' (∃ s, r = some s ∧ s.wellFormed = true) := by
  have hexpr : ∀ (r : Option Statement) (p' : Parser),
      Parser.parseExpressionStatement pe p = some (r, p') →
      Parser.Yields p p' (∃ s, r = some s ∧ s.wellFormed = true) := by
    intro r p' h
    unfold Parser.parseExpressionStatement at h
    rcases h1 : pe Marble.lowest p with _ | ⟨e, p1⟩
    · simp [h1] at h
    · simp only [h1, Option.some.injEq, Prod.mk.injEq] at h
      obtain ⟨hr, hp⟩ := h
      subst hr hp
      exact (hpe _ _ _ _ h1).bind (skipSemicolon_yields p1 trivial)
        (fun hwf _ => ⟨_, rfl, hwf⟩)
  have hret : ∀ (r : Option Statement) (p' : Parser),
      Parser.parseReturnStatement pe p = some (r, p') →
      Parser.Yields p p' (∃ s, r = some s ∧ s.wellFormed = true) := by
    intro r p' h
    unfold Parser.parseReturnStatement at h
    rcases h1 : pe Marble.lowest p.nextToken with _ | ⟨e, p1⟩
    · simp [h1] at h
    · simp only [h1, Option.some.injEq, Prod.mk.injEq] at h
      obtain ⟨hr, hp⟩ := h
      subst hr hp
      exact ((hpe _ _ _ _ h1).bind (skipSemicolon_yields p1 trivial)
        (fun hwf _ => ⟨_, rfl, hwf⟩)).after
  have hvar : ∀ (r : Option Statement) (p' : Parser),
      Parser.parseVarStatement pe p = some (r, p') →
      Parser.Yields p p' (∃ s, r = some s ∧ s.wellFormed = true) := by
    intro r p' h
    unfold Parser.parseVarStatement at h
    by_cases hi : p.next.Typ = .IDENTIFIER
    · simp only [expectToken_true_of hi] at h
      by_cases ha : p.nextToken.next.Typ = .ASSIGN
      · simp only [expectToken_true_of ha] at h
        rcases h1 : pe Marble.lowest p.nextToken.nextToken.nextToken with _ | ⟨e, p1⟩
        · simp [h1] at h
        · simp only [h1, Option.some.injEq, Prod.mk.injEq] at h
          obtain ⟨hr, hp⟩ := h
          subst hr hp
          exact ((hpe _ _ _ _ h1).bind (skipSemicolon_yields p1 trivial)
            (fun hwf _ => ⟨_, rfl, hwf⟩)).after.after.after
      · simp only [expectToken_false ha, Option.some.injEq, Prod.mk.injEq] at h
        obtain ⟨_, hp⟩ := h
        subst hp
        exact (Parser.Yields.failed _ (.refl _)).after
    · simp only [expectToken_false hi, Option.some.injEq, Prod.mk.injEq] at h
      obtain ⟨_, hp⟩ := h
      subst hp
      exact .failed _ (.refl _)
  unfold Parser.parseStatement at h
  split at h
  · exact hvar _ _ h
  · exact hret _ _ h
  · exact hexpr _ _ h

theorem parseExpressionListLoop_sound (hpe : pe.Sound) :
    ∀ (k : Nat) (expressions es : List Expr) (p p' : Parser),
      Parser.parseExpressionListLoop pe k expressions p = some (es, p') →
      Parser.Yields p p' (Expr.wellFormedList expressions = true →
        Expr.wellFormedList es = true) := by
  intro k
  induction k with
  | zero => intro _ _ _ _ h; simp [Parser.parseExpressionListLoop] at h
  | succ k ih =>
    intro expressions es p p' h
    unfold Parser.parseExpressionListLoop at h
    by_cases hc : p.next.Typ = .COMMA
    · rw [if_pos hc] at h
      rcases h1 : pe Marble.lowest p.nextToken.nextToken with _ | ⟨e, p1⟩
      · simp [h1] at h
      · simp only [h1] at h
        exact ((hpe _ _ _ _ h1).bind (ih _ _ _ _ h) (fun hwf hrest hx =>
          hrest (by rw [Expr_wellFormedList_append, hx, hwf]; rfl))).after.after
    · rw [if_neg hc] at h
      simp only [Option.some.injEq, Prod.mk.injEq] at h
      obtain ⟨hr, hp⟩ := h
      subst hr hp
      exact .done (fun hx => hx)

theorem parseExpressionList_sound (hpe : pe.Sound) (fuel : Nat) (stop : TokenType)
    (es : List Expr) (p p' : Parser)
    (h : Parser.parseExpressionList pe fuel stop p = some (es, p')) :
    Parser.Yields p p' (Expr.wellFormedList es = true) := by
  unfold Parser.parseExpressionList at h
  by_cases hc : p.next.Typ = stop
  · rw [if_pos hc] at h
    simp only [Option.some.injEq, Prod.mk.injEq] at h
    obtain ⟨hr, hp⟩ := h
    subst hr hp
    exact (Parser.Yields.done rfl).after
  · rw [if_neg hc] at h
    rcases h1 : pe Marble.lowest p.nextToken with _ | ⟨e, p1⟩
    · simp [h1] at h
    simp only [h1] at h
    rcases h2 : Parser.parseExpressionListLoop pe fuel [e] p1 with _ | ⟨es2, p2⟩
    · simp [h2] at h
    simp only [h2] at h
    have y1 := hpe _ _ _ _ h1
    have y2 := parseExpressionListLoop_sound hpe fuel _ _ _ _ h2
    by_cases hs : p2.next.Typ = stop
    · simp only [expectToken_true_of hs, Option.some.injEq, Prod.mk.injEq] at h
      obtain ⟨hr, hp⟩ := h
      subst hr hp
      exact ((y1.bind y2 (fun hwf hrest => hrest (by simp [Expr.wellFormedList, hwf]))).bind
        (Parser.Yields.done trivial).after (fun hx _ => hx)).after
    · simp only [expectToken_false hs, Option.some.injEq, Prod.mk.injEq] at h
      obtain ⟨hr, hp⟩ := h
      subst hr hp
      exact ((y1.bind y2 (fun _ _ => trivial)).bind
        (Parser.Yields.failed _ (.refl _)) (fun _ hx => hx)).after

theorem parseBlockStatementLoop_sound (hpe : pe.Sound) :
    ∀ (k : Nat) (statements ss : List Statement) (p p' : Parser),
      Parser.parseBlockStatementLoop pe k statements p = some (ss, p') →
      Parser.Yields p p' (Statement.wellFormedList statements = true →
        Statement.wellFormedList ss = true) := by
  intro k
  induction k with
  | zero => intro _ _ _ _ h; simp [Parser.parseBlockStatementLoop] at h
  | succ k ih =>
    intro statements ss p p' h
    unfold Parser.parseBlockStatementLoop at h
    by_cases hc : p.current.Typ ≠ .RBRACE ∧ p.current.Typ ≠ .EOF
    · rw [if_pos hc] at h
      rcases h1 : Parser.parseStatement pe p with _ | ⟨r, p1⟩
      · simp [h1] at h
      have y1 := parseStatement_sound hpe _ _ _ h1
      cases r with
      | none =>
        simp only [h1] at h
        exact y1.bind (ih _ _ _ _ h).after (fun hs _ => by
          obtain ⟨s, hs, _⟩ := hs
          exact absurd hs (by simp))
      | some s =>
        simp only [h1] at h
        exact y1.bind (ih _ _ _ _ h).after (fun hs hrest hx => by
          obtain ⟨s', hs', hwf⟩ := hs
          simp only [Option.some.injEq] at hs'
          subst hs'
          exact hrest (by rw [Statement_wellFormedList_append, hx, hwf]; rfl))
    · rw [if_neg hc] at h
      simp only [Option.some.injEq, Prod.mk.injEq] at h
      obtain ⟨hr, hp⟩ := h
      subst hr hp
      exact .done (fun hx => hx)

theorem parseBlockStatement_sound (hpe : pe.Sound) (fuel : Nat) (b : BlockStatement)
    (p p' : Parser) (h : Parser.parseBlockStatement pe fuel p = some (b, p')) :
    Parser.Yields p p' (b.wellFormed = true) := by
  unfold Parser.parseBlockStatement at h
  rcases h1 : Parser.parseBlockStatementLoop pe fuel [] p.nextToken with _ | ⟨ss, p1⟩
  · simp [h1] at h
  simp only [h1, Option.some.injEq, Prod.mk.injEq] at h
  obtain ⟨hr, hp⟩ := h
  subst hr hp
  exact ((parseBlockStatementLoop_sound hpe fuel _ _ _ _ h1).mono
    (fun hx => by simpa [BlockStatement.wellFormed] using hx rfl)).after

theorem parseFunctionParametersLoop_steps :
    ∀ (k : Nat) (identifiers ids : List Identifier) (p p' : Parser),
      Parser.parseFunctionParametersLoop k identifiers p = some (ids, p') →
      Parser.Yields p p' True := by
  intro k
  induction k with
  | zero => intro _ _ _ _ h; simp [Parser.parseFunctionParametersLoop] at h
  | succ k ih =>
    intro identifiers ids p p' h
    unfold Parser.parseFunctionParametersLoop at h
    by_cases hc : p.next.Typ = .COMMA
    · rw [if_pos hc] at h
      exact (ih _ _ _ _ h).after.after
    · rw [if_neg hc] at h
      simp only [Option.some.injEq, Prod.mk.injEq] at h
      obtain ⟨_, hp⟩ := h
      subst hp
      exact .done trivial

theorem parseFunctionParameters_steps (fuel : Nat) (ids : List Identifier) (p p' : Parser)
    (h : Parser.parseFunctionParameters fuel p = some (ids, p')) :
    Parser.Yields p p' True := by
  unfold Parser.parseFunctionParameters at h
  by_cases hc : p.next.Typ = .RPAREN
  · rw [if_pos hc] at h
    simp only [Option.some.injEq, Prod.mk.injEq] at h
    obtain ⟨_, hp⟩ := h
    subst hp
    exact (Parser.Yields.done trivial).after
  · rw [if_neg hc] at h
    simp only at h
    rcases h2 : Parser.parseFunctionParametersLoop fuel [⟨p.nextToken.current⟩] p.nextToken
      with _ | ⟨ids2, p2⟩
    · simp [h2] at h
    simp only [h2] at h
    have y2 := parseFunctionParametersLoop_steps fuel _ _ _ _ h2
    by_cases hs : p2.next.Typ = .RPAREN
    · simp only [expectToken_true_of hs, Option.some.injEq, Prod.mk.injEq] at h
      obtain ⟨_, hp⟩ := h
      subst hp
      exact (y2.bind (Parser.Yields.done trivial).after (fun _ _ => trivial)).after
    · simp only [expectToken_false hs, Option.some.injEq, Prod.mk.injEq] at h
      obtain ⟨_, hp⟩ := h
      subst hp
      exact (y2.bind (Parser.Yields.failed _ (.refl _)) (fun _ (hx : True) => hx)).after

theorem parseArrayLiteral_sound (hpe : pe.Sound) (fuel : Nat) (e : Expr) (p p' : Parser)
    (h : Parser.parseArrayLiteral pe fuel p = some (e, p')) :
    Parser.Yields p p' (e.wellFormed = true) := by
  unfold Parser.parseArrayLiteral at h
  rcases h1 : Parser.parseExpressionList pe fuel .RBRACKET p with _ | ⟨es, p1⟩
  · simp [h1] at h
  simp only [h1, Option.some.injEq, Prod.mk.injEq] at h
  obtain ⟨hr, hp⟩ := h
  subst hr hp
  exact (parseExpressionList_sound hpe fuel _ _ _ _ h1).mono
    (fun hx => by simpa [Expr.wellFormed] using hx)

theorem parseCallExpression_sound (hpe : pe.Sound) (fuel : Nat) (function e : Expr)
    (p p' : Parser) (h : Parser.parseCallExpression pe fuel function p = some (e, p')) :
    Parser.Yields p p' (function.wellFormed = true → e.wellFormed = true) := by
  unfold Parser.parseCallExpression at h
  rcases h1 : Parser.parseExpressionList pe fuel .RPAREN p with _ | ⟨es, p1⟩
  · simp [h1] at h
  simp only [h1, Option.some.injEq, Prod.mk.injEq] at h
  obtain ⟨hr, hp⟩ := h
  subst hr hp
  exact (parseExpressionList_sound hpe fuel _ _ _ _ h1).mono
    (fun hx hf => by simp [Expr.wellFormed, hx, hf])

theorem parsePrefixExpression_sound (hpe : pe.Sound) (e : Expr) (p p' : Parser)
    (h : Parser.parsePrefixExpression pe p = some (e, p')) :
    Parser.Yields p p' (e.wellFormed = true) := by
  unfold Parser.parsePrefixExpression at h
  rcases h1 : pe Marble.prefixPrecedence p.nextToken with _ | ⟨r, p1⟩
  · simp [h1] at h
  simp only [h1, Option.some.injEq, Prod.mk.injEq] at h
  obtain ⟨hr, hp⟩ := h
  subst hr hp
  exact ((hpe _ _ _ _ h1).mono (fun hx => by simpa [Expr.wellFormed] using hx)).after

theorem parseInfixExpression_sound (hpe : pe.Sound) (left e : Expr) (p p' : Parser)
    (h : Parser.parseInfixExpression pe left p = some (e, p')) :
    Parser.Yields p p' (left.wellFormed = true → e.wellFormed = true) := by
  unfold Parser.parseInfixExpression at h
  simp only at h
  rcases h1 : pe (tokenPrecedence p.current.Typ) p.nextToken with _ | ⟨r, p1⟩
  · simp [h1] at h
  simp only [h1, Option.some.injEq, Prod.mk.injEq] at h
  obtain ⟨hr, hp⟩ := h
  subst hr hp
  exact ((hpe _ _ _ _ h1).mono (fun hx hl => by simp [Expr.wellFormed, hx, hl])).after

theorem parseGroupedExpression_sound (hpe : pe.Sound) (e : Expr) (p p' : Parser)
    (h : Parser.parseGroupedExpression pe p = some (e, p')) :
    Parser.Yields p p' (e.wellFormed = true) := by
  unfold Parser.parseGroupedExpression at h
  rcases h1 : pe Marble.lowest p.nextToken with _ | ⟨r, p1⟩
  · simp [h1] at h
  simp only [h1] at h
  have y1 := hpe _ _ _ _ h1
  by_cases hs : p1.next.Typ = .RPAREN
  · simp only [expectToken_true_of hs, Option.some.injEq, Prod.mk.injEq] at h
    obtain ⟨hr, hp⟩ := h
    subst hr hp
    exact (y1.bind (Parser.Yields.done trivial).after (fun hx _ => hx)).after
  · simp only [expectToken_false hs, Option.some.injEq, Prod.mk.injEq] at h
    obtain ⟨hr, hp⟩ := h
    subst hr hp
    exact (y1.bind (Parser.Yields.failed _ (.refl _)) (fun _ hx => hx)).after

theorem parseIndexExpression_sound (hpe : pe.Sound) (left e : Expr) (p p' : Parser)
    (h : Parser.parseIndexExpression pe left p = some (e, p')) :
    Parser.Yields p p' (left.wellFormed = true → e.wellFormed = true) := by
  unfold Parser.parseIndexExpression at h
  rcases h1 : pe Marble.lowest p.nextToken with _ | ⟨r, p1⟩
  · simp [h1] at h
  simp only [h1] at h
  have y1 := hpe _ _ _ _ h1
  by_cases hs : p1.next.Typ = .RBRACKET
  · simp only [expectToken_true_of hs, Option.some.injEq, Prod.mk.injEq] at h
    obtain ⟨hr, hp⟩ := h
    subst hr hp
    exact (y1.bind (Parser.Yields.done trivial).after
      (fun hx _ hl => by simp [Expr.wellFormed, hx, hl])).after
  · simp only [expectToken_false hs, Option.some.injEq, Prod.mk.injEq] at h
    obtain ⟨hr, hp⟩ := h
    subst hr hp
    exact (y1.bind (Parser.Yields.failed _ (.refl _)) (fun _ hx => hx)).after

theorem parseIfExpression_sound (hpe : pe.Sound) (fuel : Nat) (e : Expr) (p p' : Parser)
    (h : Parser.parseIfExpression pe fuel p = some (e, p')) :
    Parser.Yields p p' (e.wellFormed = true) := by
  unfold Parser.parseIfExpression at h
  by_cases h1 : p.next.Typ = .LPAREN
  · simp only [expectToken_true_of h1] at h
    rcases h2 : pe Marble.lowest p.nextToken.nextToken with _ | ⟨c, p2⟩
    · simp [h2] at h
    simp only [h2] at h
    have y2 := hpe _ _ _ _ h2
    by_cases h3 : p2.next.Typ = .RPAREN
    · simp only [expectToken_true_of h3] at h
      by_cases h4 : p2.nextToken.next.Typ = .LBRACE
      · simp only [expectToken_true_of h4] at h
        rcases h5 : Parser.parseBlockStatement pe fuel p2.nextToken.nextToken with _ | ⟨b, p5⟩
        · simp [h5] at h
        simp only [h5] at h
        have y5 := parseBlockStatement_sound hpe fuel _ _ _ h5
        have y25 := y2.bind y5.after.after (fun hc hb => And.intro hc hb)
        by_cases h6 : p5.next.Typ = .ELSE
        · simp only [if_pos h6] at h
          by_cases h7 : p5.nextToken.next.Typ = .LBRACE
          · simp only [expectToken_true_of h7] at h
            rcases h8 : Parser.parseBlockStatement pe fuel p5.nextToken.nextToken with _ | ⟨b', p7⟩
            · simp [h8] at h
            simp only [h8, Option.some.injEq, Prod.mk.injEq] at h
            obtain ⟨hr, hp⟩ := h
            subst hr hp
            have y8 := parseBlockStatement_sound hpe fuel _ _ _ h8
            exact (y25.bind y8.after.after
              (fun hx hb' => by simp [Expr.wellFormed, hx.1, hx.2, hb'])).after.after
          · simp only [expectToken_false h7, Option.some.injEq, Prod.mk.injEq] at h
            obtain ⟨hr, hp⟩ := h
            subst hr hp
            exact (y25.bind (Parser.Yields.failed _ (.refl _)).after
              (fun _ hx => hx)).after.after
        · simp only [if_neg h6, Option.some.injEq, Prod.mk.injEq] at h
          obtain ⟨hr, hp⟩ := h
          subst hr hp
          exact (y25.mono (fun hx => by simp [Expr.wellFormed, hx.1, hx.2])).after.after
      · simp only [expectToken_false h4, Option.some.injEq, Prod.mk.injEq] at h
        obtain ⟨hr, hp⟩ := h
        subst hr hp
        exact (y2.bind (Parser.Yields.failed _ (.refl _)).after (fun _ hx => hx)).after.after
    · simp only [expectToken_false h3, Option.some.injEq, Prod.mk.injEq] at h
      obtain ⟨hr, hp⟩ := h
      subst hr hp
      exact (y2.bind (Parser.Yields.failed _ (.refl _)) (fun _ hx => hx)).after.after
  · simp only [expectToken_false h1, Option.some.injEq, Prod.mk.injEq] at h
    obtain ⟨hr, hp⟩ := h
    subst hr hp
    exact .failed _ (.refl _)

theorem parseFunctionExpression_sound (hpe : pe.Sound) (fuel : Nat) (e : Expr)
    (p p' : Parser) (h : Parser.parseFunctionExpression pe fuel p = some (e, p')) :
    Parser.Yields p p' (e.wellFormed = true) := by
  unfold Parser.parseFunctionExpression at h
  by_cases h1 : p.next.Typ = .LPAREN
  · simp only [expectToken_true_of h1] at h
    rcases h2 : Parser.parseFunctionParameters fuel p.nextToken with _ | ⟨ids, p2⟩
    · simp [h2] at h
    simp only [h2] at h
    have y2 := parseFunctionParameters_steps fuel _ _ _ h2
    by_cases h3 : p2.next.Typ = .LBRACE
    · simp only [expectToken_true_of h3] at h
      rcases h5 : Parser.parseBlockStatement pe fuel p2.nextToken with _ | ⟨b, p5⟩
      · simp [h5] at h
      simp only [h5, Option.some.injEq, Prod.mk.injEq] at h
      obtain ⟨hr, hp⟩ := h
      subst hr hp
      have y5 := parseBlockStatement_sound hpe fuel _ _ _ h5
      exact (y2.bind y5.after (fun _ hb => by simpa [Expr.wellFormed] using hb)).after
    · simp only [expectToken_false h3, Option.some.injEq, Prod.mk.injEq] at h
      obtain ⟨hr, hp⟩ := h
      subst hr hp
      exact (y2.bind (Parser.Yields.failed _ (.refl _)) (fun _ hx => hx)).after
  · simp only [expectToken_false h1, Option.some.injEq, Prod.mk.injEq] at h
    obtain ⟨hr, hp⟩ := h
    subst hr hp
    exact .failed _ (.refl _)

theorem parseIntegerLiteral_sound (p : Parser) :
    Parser.Yields p (Parser.parseIntegerLiteral p).2
      ((Parser.parseIntegerLiteral p).1.wellFormed = true) := by
  unfold Parser.parseIntegerLiteral
  split
  · exact .failed _ (.refl _)
  · exact .done rfl

theorem parseFloatLiteral_sound (p : Parser) :
    Parser.Yields p (Parser.parseFloatLiteral p).2
      ((Parser.parseFloatLiteral p).1.wellFormed = true) := by
  unfold Parser.parseFloatLiteral
  split
  · exact .failed _ (.refl _)
  · exact .done rfl

theorem parsePrefixTerm_sound (hpe : pe.Sound) (fuel : Nat) (r : Option Expr) (p p' : Parser)
    (h : Parser.parsePrefixTerm pe fuel p = some (r, p')) :
    Parser.Yields p p' (∃ e, r = some e ∧ e.wellFormed = true) := by
  have lift : ∀ f : Option (Expr × Parser),
      (∀ e p', f = some (e, p') → Parser.Yields p p' (e.wellFormed = true)) →
      f.map (fun x => (some x.1, x.2)) = some (r, p') →
      Parser.Yields p p' (∃ e, r = some e ∧ e.wellFormed = true) := by
    intro f hf hm
    rcases hx : f with _ | ⟨e, q⟩
    · simp [hx] at hm
    · simp only [hx, Option.map_some', Option.some.injEq, Prod.mk.injEq] at hm
      obtain ⟨hr, hp⟩ := hm
      subst hr hp
      exact (hf _ _ hx).mono (fun hwf => ⟨_, rfl, hwf⟩)
  unfold Parser.parsePrefixTerm at h
  simp only at h
  split at h
  · simp only [Option.some.injEq, Prod.mk.injEq] at h
    obtain ⟨hr, hp⟩ := h
    subst hr hp
    exact .done ⟨_, rfl, rfl⟩
  · refine lift _ ?_ h
    intro e q hx
    simp only [Option.some.injEq] at hx
    have hs := parseIntegerLiteral_sound p
    rw [hx] at hs
    exact hs
  · refine lift _ ?_ h
    intro e q hx
    simp only [Option.some.injEq] at hx
    have hs := parseFloatLiteral_sound p
    rw [hx] at hs
    exact hs
  · simp only [Option.some.injEq, Prod.mk.injEq] at h
    obtain ⟨hr, hp⟩ := h
    subst hr hp
    exact .done ⟨_, rfl, rfl⟩
  · simp only [Option.some.injEq, Prod.mk.injEq] at h
    obtain ⟨hr, hp⟩ := h
    subst hr hp
    exact .done ⟨_, rfl, rfl⟩
  · simp only [Option.some.injEq, Prod.mk.injEq] at h
    obtain ⟨hr, hp⟩ := h
    subst hr hp
    exact .done ⟨_, rfl, rfl⟩
  · exact lift _ (fun e q hx => parseArrayLiteral_sound hpe fuel e p q hx) h
  · exact lift _ (fun e q hx => parsePrefixExpression_sound hpe e p q hx) h
  · exact lift _ (fun e q hx => parsePrefixExpression_sound hpe e p q hx) h
  · exact lift _ (fun e q hx => parseGroupedExpression_sound hpe e p q hx) h
  · exact lift _ (fun e q hx => parseIfExpression_sound hpe fuel e p q hx) h
  · exact lift _ (fun e q hx => parseFunctionExpression_sound hpe fuel e p q hx) h
  · simp only [Option.some.injEq, Prod.mk.injEq] at h
    obtain ⟨hr, hp⟩ := h
    subst hr hp
    exact .failed _ (.refl _)

theorem parseExpressionLoop_sound (hpe : pe.Sound) (fuel precedence : Nat) :
    ∀ (k : Nat) (left e : Expr) (p p' : Parser),
      Parser.parseExpressionLoop pe fuel precedence k left p = some (e, p') →
      Parser.Yields p p' (left.wellFormed = true → e.wellFormed = true) := by
  intro k
  induction k with
  | zero => intro _ _ _ _ h; simp [Parser.parseExpressionLoop] at h
  | succ k ih =>
    intro left e p p' h
    unfold Parser.parseExpressionLoop at h
    by_cases hc : p.next.Typ ≠ .SEMICOLON ∧ precedence < tokenPrecedence p.next.Typ
    · rw [if_pos hc] at h
      by_cases hi : Parser.isInfixOperator p.next.Typ = true
      · rw [if_pos hi] at h
        rcases h1 : Parser.parseInfixExpression pe left p.nextToken with _ | ⟨e1, p1⟩
        · simp [h1] at h
        simp only [h1] at h
        exact ((parseInfixExpression_sound hpe _ _ _ _ h1).bind (ih _ _ _ _ h)
          (fun h1 h2 hl => h2 (h1 hl))).after
      · rw [if_neg hi] at h
        by_cases hp : p.next.Typ = .LPAREN
        · rw [if_pos hp] at h
          rcases h1 : Parser.parseCallExpression pe fuel left p.nextToken with _ | ⟨e1, p1⟩
          · simp [h1] at h
          simp only [h1] at h
          exact ((parseCallExpression_sound hpe fuel _ _ _ _ h1).bind (ih _ _ _ _ h)
            (fun h1 h2 hl => h2 (h1 hl))).after
        · rw [if_neg hp] at h
          by_cases hb : p.next.Typ = .LBRACKET
          · rw [if_pos hb] at h
            rcases h1 : Parser.parseIndexExpression pe left p.nextToken with _ | ⟨e1, p1⟩
            · simp [h1] at h
            simp only [h1] at h
            exact ((parseIndexExpression_sound hpe _ _ _ _ h1).bind (ih _ _ _ _ h)
              (fun h1 h2 hl => h2 (h1 hl))).after
          · rw [if_neg hb] at h
            simp only [Option.some.injEq, Prod.mk.injEq] at h
            obtain ⟨hr, hp⟩ := h
            subst hr hp
            exact .done (fun hx => hx)
    · rw [if_neg hc] at h
      simp only [Option.some.injEq, Prod.mk.injEq] at h
      obtain ⟨hr, hp⟩ := h
      subst hr hp
      exact .done (fun hx => hx)

theorem parseExpressionBody_sound (hpe : pe.Sound) (fuel precedence : Nat) (e : Expr)
    (p p' : Parser) (h : Parser.parseExpressionBody pe fuel precedence p = some (e, p')) :
    Parser.Yields p p' (e.wellFormed = true) := by
  unfold Parser.parseExpressionBody at h
  rcases h1 : Parser.parsePrefixTerm pe fuel p with _ | ⟨r, p1⟩
  · simp [h1] at h
  have y1 := parsePrefixTerm_sound hpe fuel _ _ _ h1
  cases r with
  | none =>
    simp only [h1, Option.some.injEq, Prod.mk.injEq] at h
    obtain ⟨hr, hp⟩ := h
    subst hr hp
    exact y1.mono (fun hx => by
      obtain ⟨_, hx, _⟩ := hx
      exact absurd hx (by simp))
  | some left =>
    simp only [h1] at h
    exact y1.bind (parseExpressionLoop_sound hpe fuel precedence _ _ _ _ _ h)
      (fun hx hrest => by
        obtain ⟨e', he', hwf⟩ := hx
        simp only [Option.some.injEq] at he'
        subst he'
        exact hrest hwf)

end sound

theorem parseExpression_sound : ∀ n : Nat, Parser.PE.Sound (Parser.parseExpression n) := by
  intro n
  induction n with
  | zero => intro _ _ _ _ h; simp [Parser.parseExpression] at h
  | succ n ih =>
    intro precedence p e p' h
    exact parseExpressionBody_sound ih n precedence e p p' h

theorem ParseProgramLoop_sound (fuel : Nat) :
    ∀ (k : Nat) (statements ss : List Statement) (p p' : Parser),
      Parser.ParseProgramLoop fuel k statements p = some (ss, p') →
      Parser.Yields p p' (Statement.wellFormedList statements = true →
        Statement.wellFormedList ss = true) := by
  intro k
  induction k with
  | zero => intro _ _ _ _ h; simp [Parser.ParseProgramLoop] at h
  | succ k ih =>
    intro statements ss p p' h
    unfold Parser.ParseProgramLoop at h
    by_cases hc : p.current.Typ ≠ .EOF
    · rw [if_pos hc] at h
      rcases h1 : Parser.parseStatement (Parser.parseExpression fuel) p with _ | ⟨r, p1⟩
      · simp [h1] at h
      have y1 := parseStatement_sound (parseExpression_sound fuel) _ _ _ h1
      cases r with
      | none =>
        simp only [h1] at h
        exact y1.bind (ih _ _ _ _ h).after (fun hs _ => by
          obtain ⟨s, hs, _⟩ := hs
          exact absurd hs (by simp))
      | some s =>
        simp only [h1] at h
        exact y1.bind (ih _ _ _ _ h).after (fun hs hrest hx => by
          obtain ⟨s', hs', hwf⟩ := hs
          simp only [Option.some.injEq] at hs'
          subst hs'
          exact hrest (by rw [Statement_wellFormedList_append, hx, hwf]; rfl))
    · rw [if_neg hc] at h
      simp only [Option.some.injEq, Prod.mk.injEq] at h
      obtain ⟨hr, hp⟩ := h
      subst hr hp
      exact .done (fun hx => hx)

theorem ParseProgram_sound (fuel : Nat) (program : Program) (p p' : Parser)
    (h : Parser.ParseProgram fuel p = some (program, p')) :
    Parser.Yields p p' (program.wellFormed = true) := by
  unfold Parser.ParseProgram at h
  rcases h1 : Parser.ParseProgramLoop fuel fuel [] p with _ | ⟨ss, p1⟩
  · simp [h1] at h
  simp only [h1, Option.some.injEq, Prod.mk.injEq] at h
  obtain ⟨hr, hp⟩ := h
  subst hr hp
  exact (ParseProgramLoop_sound fuel fuel _ _ _ _ h1).mono (fun hx => hx rfl)

/-! ### Rendering of a well-formed program -/

theorem cat_some (parts : List (Option Bytes)) (h : ∀ x ∈ parts, x ≠ none) :
    cat parts ≠ none := by
  induction parts with
  | nil => simp [cat]
  | cons x rest ih =>
    cases x with
    | none => exact absurd rfl (h none (List.mem_cons_self _ _))
    | some v =>
      have := ih (fun y hy => h y (List.mem_cons_of_mem _ hy))
      unfold cat
      cases hc : cat rest with
      | none => exact absurd hc this
      | some r => simp

mutual
theorem Expr_String_of_wellFormed : ∀ e : Expr, e.wellFormed = true → e.String ≠ none
  | .nil, h => by simp [Expr.wellFormed] at h
  | .identifier _, _ => by simp [Expr.String]
  | .integerLiteral _ _, _ => by simp [Expr.String]
  | .nilIntegerLiteral, _ => by simp [Expr.String]
  | .floatLiteral _ _, _ => by simp [Expr.String]
  | .nilFloatLiteral, _ => by simp [Expr.String]
  | .booleanLiteral _ _, _ => by simp [Expr.String]
  | .stringLiteral _, _ => by simp [Expr.String]
  | .arrayLiteral _ elements, h => by
    have := Expr_StringList_of_wellFormed elements (by simpa [Expr.wellFormed] using h)
    unfold Expr.String
    cases hc : Expr.StringList elements with
    | none => exact absurd hc this
    | some r => simp
  | .prefixExpression _ right, h => by
    have := Expr_String_of_wellFormed right (by simpa [Expr.wellFormed] using h)
    unfold Expr.String
    apply cat_some
    intro x hx
    simp only [List.mem_cons, List.mem_singleton, List.not_mem_nil, or_false] at hx
    rcases hx with hx | hx | hx | hx <;> subst hx <;> simp [this]
  | .infixExpression _ left right, h => by
    simp only [Expr.wellFormed, Bool.and_eq_true] at h
    have h1 := Expr_String_of_wellFormed left h.1
    have h2 := Expr_String_of_wellFormed right h.2
    unfold Expr.String
    apply cat_some
    intro x hx
    simp only [List.mem_cons, List.mem_singleton, List.not_mem_nil, or_false] at hx
    rcases hx with hx | hx | hx | hx | hx | hx | hx <;> subst hx <;> simp [h1, h2]
  | .ifExpression _ condition consequence none, h => by
    simp only [Expr.wellFormed, Bool.and_eq_true] at h
    have h1 := Expr_String_of_wellFormed condition h.1
    have h2 := BlockStatement_String_of_wellFormed consequence h.2
    unfold Expr.String
    apply cat_some
    intro x hx
    simp only [List.mem_cons, List.mem_singleton, List.not_mem_nil, or_false] at hx
    rcases hx with hx | hx | hx | hx | hx <;> subst hx <;> simp [h1, h2]
  | .ifExpression _ condition consequence (some alternative), h => by
    simp only [Expr.wellFormed, Bool.and_eq_true] at h
    have h1 := Expr_String_of_wellFormed condition h.1.1
    have h2 := BlockStatement_String_of_wellFormed consequence h.1.2
    have h3 := BlockStatement_String_of_wellFormed alternative h.2
    unfold Expr.String
    apply cat_some
    intro x hx
    simp only [List.mem_cons, List.mem_singleton, List.not_mem_nil, or_false] at hx
    rcases hx with hx | hx | hx | hx | hx | hx | hx <;> subst hx <;> simp [h1, h2, h3]
  | .nilIfExpression, _ => by simp [Expr.String]
  | .functionExpression _ _ body, h => by
    have h2 := BlockStatement_String_of_wellFormed body (by simpa [Expr.wellFormed] using h)
    unfold Expr.String
    apply cat_some
    intro x hx
    simp only [List.mem_cons, List.mem_singleton, List.not_mem_nil, or_false] at hx
    rcases hx with hx | hx | hx | hx | hx <;> subst hx <;> simp [h2]
  | .nilFunctionExpression, _ => by simp [Expr.String]
  | .callExpression _ function arguments, h => by
    simp only [Expr.wellFormed, Bool.and_eq_true] at h
    have h1 := Expr_String_of_wellFormed function h.1
    have h2 := Expr_StringList_of_wellFormed arguments h.2
    unfold Expr.String
    cases hc : Expr.StringList arguments with
    | none => exact absurd hc h2
    | some r =>
      simp only
      apply cat_some
      intro x hx
      simp only [List.mem_cons, List.mem_singleton, List.not_mem_nil, or_false] at hx
      rcases hx with hx | hx | hx | hx <;> subst hx <;> simp [h1]
  | .indexExpression _ left index, h => by
    simp only [Expr.wellFormed, Bool.and_eq_true] at h
    have h1 := Expr_String_of_wellFormed left h.1
    have h2 := Expr_String_of_wellFormed index h.2
    unfold Expr.String
    apply cat_some
    intro x hx
    simp only [List.mem_cons, List.mem_singleton, List.not_mem_nil, or_false] at hx
    rcases hx with hx | hx | hx | hx | hx <;> subst hx <;> simp [h1, h2]
  | .nilIndexExpression, _ => by simp [Expr.String]
theorem Expr_StringList_of_wellFormed :
    ∀ es : List Expr, Expr.wellFormedList es = true → Expr.StringList es ≠ none
  | [], _ => by simp [Expr.StringList]
  | e :: rest, h => by
    simp only [Expr.wellFormedList, Bool.and_eq_true] at h
    have h1 := Expr_String_of_wellFormed e h.1
    have h2 := Expr_StringList_of_wellFormed rest h.2
    unfold Expr.StringList
    cases hc : e.String with
    | none => exact absurd hc h1
    | some x =>
      cases hd : Expr.StringList rest with
      | none => exact absurd hd h2
      | some xs => simp
theorem Statement_String_of_wellFormed :
    ∀ s : Statement, s.wellFormed = true → s.String ≠ none
  | .varStatement _ _ value, h => by
    have h1 := Expr_String_of_wellFormed value (by simpa [Statement.wellFormed] using h)
    unfold Statement.String
    apply cat_some
    intro x hx
    simp only [List.mem_cons, List.mem_singleton, List.not_mem_nil, or_false] at hx
    rcases hx with hx | hx | hx | hx | hx | hx <;> subst hx <;> simp [h1]
  | .returnStatement _ value, h => by
    have h1 := Expr_String_of_wellFormed value (by simpa [Statement.wellFormed] using h)
    unfold Statement.String
    apply cat_some
    intro x hx
    simp only [List.mem_cons, List.mem_singleton, List.not_mem_nil, or_false] at hx
    rcases hx with hx | hx | hx | hx <;> subst hx <;> simp [h1]
  | .expressionStatement _ value, h => by
    have h1 := Expr_String_of_wellFormed value (by simpa [Statement.wellFormed] using h)
    unfold Statement.String
    apply cat_some
    intro x hx
    simp only [List.mem_cons, List.mem_singleton, List.not_mem_nil, or_false] at hx
    rcases hx with hx | hx <;> subst hx <;> simp [h1]
theorem Statement_StringList_of_wellFormed :
    ∀ ss : List Statement, Statement.wellFormedList ss = true → Statement.StringList ss ≠ none
  | [], _ => by simp [Statement.StringList]
  | s :: rest, h => by
    simp only [Statement.wellFormedList, Bool.and_eq_true] at h
    have h1 := Statement_String_of_wellFormed s h.1
    have h2 := Statement_StringList_of_wellFormed rest h.2
    unfold Statement.StringList
    cases hc : s.String with
    | none => exact absurd hc h1
    | some x =>
      cases hd : Statement.StringList rest with
      | none => exact absurd hd h2
      | some xs => simp
theorem BlockStatement_String_of_wellFormed :
    ∀ b : BlockStatement, b.wellFormed = true → b.String ≠ none
  | .mk _ statements, h => by
    have h1 := Statement_StringList_of_wellFormed statements
      (by simpa [BlockStatement.wellFormed] using h)
    unfold BlockStatement.String
    apply cat_some
    intro x hx
    simp only [List.mem_cons, List.mem_singleton, List.not_mem_nil, or_false] at hx
    rcases hx with hx | hx | hx <;> subst hx <;> simp [h1]
end

/-! ### C35: a parse without diagnostics is well formed -/

theorem NewParser_steps (l : Lexer) :
    Parser.Steps ⟨l, [], Token.zero, Token.zero⟩ (NewParser l) :=
  .next (.next (.refl _))

set_option maxRecDepth 100000 in
/-- C35. `Parse` returns on every input, and when its diagnostics list is empty the program
is well formed: no expression slot of any statement, at any depth, holds the nil interface
or a typed nil, and rendering the program does not panic. Statements cannot be absent in a
program or a block, and a call of `parseStatement` that adds no diagnostic always returns
a statement, itself well formed. -/
theorem clean_parse_is_well_formed (input : Bytes) :
    (∃ program issues, Parse input = some (program, issues) ∧
      (issues = [] → program.wellFormed = true ∧ ∃ text, program.String = some text)) ∧
    (∀ fuel p r p', Parser.parseStatement (Parser.parseExpression fuel) p = some (r, p') →
      p'.issues = p.issues → ∃ s, r = some s ∧ s.wellFormed = true) ∧
    (∀ fuel precedence p e p', Parser.parseExpression fuel precedence p = some (e, p') →
      p'.issues = p.issues → e.wellFormed = true) := by
  refine ⟨?_, ?_, ?_⟩
  · obtain ⟨program, p, h, _, _⟩ := ParseProgram_total input
    refine ⟨program, p.Errors, by simp only [Parse, h], ?_⟩
    intro hi
    have y := ParseProgram_sound _ _ _ _ h
    have hwf : program.wellFormed = true := y.2 (by
      have : p.issues = [] := hi
      rw [this]
      rfl)
    refine ⟨hwf, ?_⟩
    have := Statement_StringList_of_wellFormed program.statements hwf
    cases hs : program.String with
    | none => exact absurd hs this
    | some text => exact ⟨text, rfl⟩
  · intro fuel p r p' h hi
    exact (parseStatement_sound (parseExpression_sound fuel) _ _ _ h).2 (by rw [hi])
  · intro fuel precedence p e p' h hi
    exact (parseExpression_sound fuel _ _ _ _ h).2 (by rw [hi])

set_option maxRecDepth 100000 in
/-- C35 on a program with an if-else, a function literal, a call and an index expression. -/
theorem clean_parse_is_well_formed_witness :
    ∃ program, Parse (str "var f = func(a) \x7b if (a) \x7b return [1, -a][0]; \x7d else \x7b f(a + 1) \x7d \x7d;") =
        some (program, []) ∧
      program.wellFormed = true := by
  obtain ⟨⟨program, issues, h, hw⟩, _⟩ := clean_parse_is_well_formed
    (str "var f = func(a) \x7b if (a) \x7b return [1, -a][0]; \x7d else \x7b f(a + 1) \x7d \x7d;")
  have h0 : (Parse (str "var f = func(a) \x7b if (a) \x7b return [1, -a][0]; \x7d else \x7b f(a + 1) \x7d \x7d;")).map
      (fun r => r.2) = some [] := by rfl
  rw [h] at h0
  simp only [Option.map_some', Option.some.injEq] at h0
  subst h0
  exact ⟨program, h, (hw rfl).1⟩

/-! ### C39: EOF before the end of the input -/

theorem eof_at_end {l : Lexer} (hl : l.Positioned) (hnul : ∀ x ∈ l.input, x ≠ 0)
    (h : l.NextToken.1.Typ = .EOF) :
    l.input.length ≤ l.skipWhitespaceAndComments.currentIndex ∧
    l.input.length < l.NextToken.2.nextIndex := by
  obtain ⟨h1, h2, _⟩ := NextToken_eof_lexer h
  have hreads := skipWhitespaceAndComments_reads l
  have hpos := hreads.positioned hl
  have hin := hreads.input_eq
  have hidx : l.input.length ≤ l.skipWhitespaceAndComments.currentIndex := by
    by_contra hlt
    have hlt : l.skipWhitespaceAndComments.currentIndex < l.input.length := by omega
    have hmem := byteAt_mem hlt
    rw [← hin, ← hpos.2.1, h2] at hmem
    exact hnul 0 (by rw [← hin]; exact hmem) rfl
  refine ⟨hidx, ?_⟩
  rw [h1, readByte_nextIndex, hpos.1]
  omega

theorem Drained_nextToken {p : Parser} (h : p.Drained) : p.nextToken.Drained := by
  obtain ⟨hl, hnul, hc, hn⟩ := h
  have hreads : Lexer.ReadsTo p.l p.l.NextToken.2 :=
    (skipWhitespaceAndComments_reads p.l).append ((Lexer.ReadsTo.one _).append
      (NextToken_reads_one p.l))
  have hin := hreads.input_eq
  have hle := hreads.nextIndex_le
  refine ⟨Positioned_NextToken hl, ?_, ?_, ?_⟩
  · show ∀ x ∈ p.l.NextToken.2.input, x ≠ 0
    rw [hin]; exact hnul
  · intro he
    show p.l.NextToken.2.input.length < p.l.NextToken.2.nextIndex
    have := hn he
    rw [hin]; omega
  · intro he
    show p.l.NextToken.2.input.length < p.l.NextToken.2.nextIndex
    rw [hin]
    exact (eof_at_end hl hnul he).2

theorem Parser.Steps.drained {p p' : Parser} (h : Parser.Steps p p') (hd : p.Drained) :
    p'.Drained := by
  induction h with
  | refl => exact hd
  | next _ ih => exact ih (Drained_nextToken hd)
  | issue msg _ ih => exact ih hd

theorem Parser.Steps.lexer_input {p p' : Parser} (h : Parser.Steps p p') :
    p'.l.input = p.l.input := by
  induction h with
  | refl => rfl
  | next _ ih =>
    rw [ih]
    exact NextToken_input _
  | issue msg _ ih => exact ih

theorem lexerAfter_succ_last : ∀ (n : Nat) (l : Lexer),
    lexerAfter (n + 1) l = (lexerAfter n l).NextToken.2 := by
  intro n
  induction n with
  | zero => intro l; rfl
  | succ n ih =>
    intro l
    show lexerAfter (n + 1) l.NextToken.2 = _
    rw [ih]
    rfl

theorem lexerAfter_input : ∀ (n : Nat) (l : Lexer), (lexerAfter n l).input = l.input := by
  intro n
  induction n with
  | zero => intro l; rfl
  | succ n ih =>
    intro l
    show (lexerAfter n l.NextToken.2).input = _
    rw [ih, NextToken_input]

set_option maxRecDepth 100000 in
/-- C39 (counterexample). In the input `a`, NUL, `b` the second token is EOF although the
byte `b` has not been read, and `b` comes after it: `NextToken` reads a NUL byte as the end
of the input. `ParseProgram` stops at that token: the program holds the statement `a`
alone, with no diagnostic, and `b` is never parsed. -/
theorem nul_is_read_as_eof :
    (tokens 3 (NewLexer [97, 0, 98])).map (fun t => (t.Typ, t.Literal)) =
      [(.IDENTIFIER, str "a"), (.EOF, []), (.IDENTIFIER, str "b")] ∧
    Parse [97, 0, 98] =
      some (⟨[.expressionStatement ⟨.IDENTIFIER, str "a", 1, 1⟩
        (.identifier ⟨.IDENTIFIER, str "a", 1, 1⟩)]⟩, []) := by
  refine ⟨by rfl, by rfl⟩

set_option maxRecDepth 100000 in
/-- C39 (as amended). Let the input hold no NUL byte. After any number of tokens, when
`NextToken` returns a token of kind EOF the lexer stood, after the skip, at or past the end
of the input: every byte had been consumed, and it is past the end afterwards.
`ParseProgram` returns with EOF as the current token and the lexer past the last byte, so
it does not stop before it. -/
theorem eof_only_at_the_end (input : Bytes) (hnul : ∀ x ∈ input, x ≠ 0) :
    (∀ n, (lexerAfter n (NewLexer input)).NextToken.1.Typ = .EOF →
      input.length ≤ (lexerAfter n (NewLexer input)).skipWhitespaceAndComments.currentIndex ∧
      input.length < (lexerAfter (n + 1) (NewLexer input)).nextIndex) ∧
    (∃ program p, (NewParser (NewLexer input)).ParseProgram (input.length + 4) =
        some (program, p) ∧
      p.current.Typ = .EOF ∧ p.l.input = input ∧ input.length < p.l.nextIndex) := by
  constructor
  · intro n h
    have hin : (lexerAfter n (NewLexer input)).input = input := lexerAfter_input n _
    have := eof_at_end (Positioned_lexerAfter n _ (Positioned_NewLexer input))
      (by rw [hin]; exact hnul) h
    rw [hin] at this
    rw [lexerAfter_succ_last]
    exact this
  · obtain ⟨program, p, h, _, hcur⟩ := ParseProgram_total input
    have hsteps := (NewParser_steps (NewLexer input)).followedBy (ParseProgram_sound _ _ _ _ h).1
    have h0 : Parser.Drained ⟨NewLexer input, [], Token.zero, Token.zero⟩ :=
      ⟨Positioned_NewLexer input, hnul,
        fun he => absurd (show Token.zero.Typ = .EOF from he) (by decide),
        fun he => absurd (show Token.zero.Typ = .EOF from he) (by decide)⟩
    have hd := hsteps.drained h0
    have hin : p.l.input = input := hsteps.lexer_input
    refine ⟨program, p, h, hcur, hin, ?_⟩
    have := hd.2.2.1 hcur
    rw [hin] at this
    exact this

/-- C39 (as amended) on the input `a b`: the third token is EOF, with the lexer at the end. -/
theorem eof_only_at_the_end_witness :
    (∀ x ∈ str "a b", x ≠ 0) ∧
    (lexerAfter 2 (NewLexer (str "a b"))).NextToken.1.Typ = .EOF ∧
    (str "a b").length ≤
      (lexerAfter 2 (NewLexer (str "a b"))).skipWhitespaceAndComments.currentIndex :=
  ⟨by decide, by decide,
    ((eof_only_at_the_end (str "a b") (by decide)).1 2 (by decide)).1⟩

/-! ### C27: the parser ends at the end of the input -/

theorem exhausted_of_past {l : Lexer} (hl : l.Positioned) (h : l.input.length < l.nextIndex) :
    l.exhausted := by
  refine ⟨by omega, ?_⟩
  rw [hl.2.1]
  exact byteAt_of_le (by have := hl.1; omega)

theorem Parser.Steps.eof_stays {p q : Parser} (h : Parser.Steps p q) (hd : p.Drained)
    (hn : p.current.Typ = .EOF → p.next.Typ = .EOF) :
    q.Drained ∧ (q.current.Typ = .EOF → q.next.Typ = .EOF) := by
  induction h with
  | refl => exact ⟨hd, hn⟩
  | next _ ih =>
    refine ih (Drained_nextToken hd) ?_
    intro he
    have he : _ = TokenType.EOF := he
    have hex := exhausted_of_past hd.1 (hd.2.2.2 he)
    show (Lexer.NextToken _).1.Typ = .EOF
    rw [(NextToken_exhausted hex).1]
  | issue msg _ ih => exact ih hd hn

theorem Parser.Steps.after_eof {p q : Parser} (h : Parser.Steps p q) (hd : p.Drained)
    (hc : p.current.Typ = .EOF) (hn : p.next.Typ = .EOF) :
    q.current.Typ = .EOF ∧ q.next.Typ = .EOF := by
  induction h with
  | refl => exact ⟨hc, hn⟩
  | next _ ih =>
    refine ih (Drained_nextToken hd) hn ?_
    have hex := exhausted_of_past hd.1 (hd.2.2.2 hn)
    show (Lexer.NextToken _).1.Typ = .EOF
    rw [(NextToken_exhausted hex).1]
  | issue msg _ ih => exact ih hd hc hn

theorem NewParser_drained (input : Bytes) (hnul : ∀ x ∈ input, x ≠ 0) :
    (NewParser (NewLexer input)).Drained ∧
    ((NewParser (NewLexer input)).current.Typ = .EOF →
      (NewParser (NewLexer input)).next.Typ = .EOF) := by
  have h0 : Parser.Drained ⟨NewLexer input, [], Token.zero, Token.zero⟩ :=
    ⟨Positioned_NewLexer input, hnul,
      fun he => absurd (show Token.zero.Typ = .EOF from he) (by decide),
      fun he => absurd (show Token.zero.Typ = .EOF from he) (by decide)⟩
  exact (NewParser_steps (NewLexer input)).eof_stays h0
    (fun he => absurd (show Token.zero.Typ = .EOF from he) (by decide))

theorem tokens_after_eof (input : Bytes) (hnul : ∀ x ∈ input, x ≠ 0) (n : Nat)
    (h : (lexerAfter n (NewLexer input)).NextToken.1.Typ = .EOF) :
    input.length < (lexerAfter (n + 1) (NewLexer input)).nextIndex ∧
    ∀ k, ∀ t ∈ tokens k (lexerAfter (n + 1) (NewLexer input)), t.Typ = .EOF := by
  have hin : (lexerAfter n (NewLexer input)).input = input := lexerAfter_input n _
  have hpos := Positioned_lexerAfter n _ (Positioned_NewLexer input)
  have hlt := (eof_at_end hpos (by rw [hin]; exact hnul) h).2
  rw [hin] at hlt
  rw [lexerAfter_succ_last]
  refine ⟨hlt, fun k t ht => (tokens_exhausted k _ ?_ t ht).1⟩
  apply exhausted_of_past (Positioned_NextToken hpos)
  rw [NextToken_input, hin]
  exact hlt

theorem ParseProgramLoop_eof (fuel k : Nat) (ss : List Statement) (q : Parser)
    (h : q.current.Typ = .EOF) : q.ParseProgramLoop fuel (k + 1) ss = some (ss, q) := by
  unfold Parser.ParseProgramLoop
  rw [if_neg (fun hne => hne h)]

set_option maxRecDepth 100000 in
/-- C27 (counterexample). In the input `if (a) { b`, NUL, `c` the seventh token is EOF, for
the NUL byte, and the identifier `c` comes after it. The loop of `parseBlockStatement` ends
on that EOF token, the if-expression is complete without a closing brace, and the
`nextToken` that the loop of `ParseProgram` calls after each statement moves past the EOF
token: the loop goes on and parses `c` as a second statement, with no diagnostic. Without
the NUL and what follows it the program has the one statement. After `(`, NUL, `b` too a
second statement follows the EOF token, there with diagnostics. -/
theorem nul_in_a_block_is_passed :
    (tokens 9 (NewLexer (str "if (a) \x7b b" ++ [0] ++ str "c"))).map
        (fun t => (t.Typ, t.Literal)) =
      [(.IF, str "if"), (.LPAREN, str "("), (.IDENTIFIER, str "a"), (.RPAREN, str ")"),
        (.LBRACE, str "\x7b"), (.IDENTIFIER, str "b"), (.EOF, []), (.IDENTIFIER, str "c"),
        (.EOF, [])] ∧
    (Parse (str "if (a) \x7b b" ++ [0] ++ str "c")).map
        (fun r => (r.1.statements.length, r.2)) = some (2, []) ∧
    renderParsed (str "if (a) \x7b b" ++ [0] ++ str "c") = some (str "if (a) \x7bb;\x7d;c;") ∧
    renderParsed (str "if (a) \x7b b") = some (str "if (a) \x7bb;\x7d;") ∧
    (Parse [40, 0, 98]).map (fun r => (r.1.statements.length, r.2.length)) = some (2, 2) := by
  refine ⟨by rfl, by rfl, by rfl, by rfl, by rfl⟩

set_option maxRecDepth 100000 in
/-- C27 (as amended). On every input, `ParseProgram` on the parser that `NewParser` makes
returns within the budget of `Parse`, with EOF as the current token, whatever diagnostics it
records. The reason is the weight of the parser, at most the length of the input at the
start: every `nextToken` lowers it by one until it is zero, when the current token is EOF,
every loop of the parser and every nested call of `parseExpression` comes after such a
step, and every call of `NextToken` lowers the number of bytes left to the lexer. The loop
of `ParseProgram` and the loop of `parseBlockStatement` end at once on an EOF current token,
with the statements collected so far. When the input holds no NUL byte, the first EOF token
comes with the lexer past the last byte and every token after it is EOF; so once the
current token of the parser is EOF, the whole input has been read and, whatever calls of
`nextToken` and new diagnostics follow, the current and the next token stay EOF: nothing is
parsed after the first EOF token, and `ParseProgram` returns in such a state. -/
theorem parse_terminates (input : Bytes) :
    (∃ program p,
      (NewParser (NewLexer input)).ParseProgram (input.length + 4) = some (program, p) ∧
      p.current.Typ = .EOF ∧ Parse input = some (program, p.Errors)) ∧
    (NewParser (NewLexer input)).weight ≤ input.length ∧
    (∀ p : Parser, p.nextToken.weight ≤ p.weight - 1) ∧
    (∀ p : Parser, p.current.Typ = .EOF ∨ 1 ≤ p.weight) ∧
    (∀ l : Lexer, l.NextToken.2.remaining ≤ l.remaining - 1) ∧
    (∀ n : Nat, Parser.PE.Total (Parser.parseExpression n) n) ∧
    (Parse (str "if (((")).map (fun r => r.2.length) = some 4 ∧
    (Parse (str "[1, [2, [3, func(a, b \x7b if (x) \x7b y")).map (fun r => r.2.length) = some 4 ∧
    (∀ (fuel k : Nat) (ss : List Statement) (q : Parser), q.current.Typ = .EOF →
      q.ParseProgramLoop fuel (k + 1) ss = some (ss, q)) ∧
    (∀ (pe : Parser.PE) (k : Nat) (ss : List Statement) (q : Parser), q.current.Typ = .EOF →
      Parser.parseBlockStatementLoop pe (k + 1) ss q = some (ss, q)) ∧
    ((∀ x ∈ input, x ≠ 0) →
      (∀ n, (lexerAfter n (NewLexer input)).NextToken.1.Typ = .EOF →
        input.length < (lexerAfter (n + 1) (NewLexer input)).nextIndex ∧
        ∀ k, ∀ t ∈ tokens k (lexerAfter (n + 1) (NewLexer input)), t.Typ = .EOF) ∧
      (∀ q, Parser.Steps (NewParser (NewLexer input)) q → q.current.Typ = .EOF →
        input.length < q.l.nextIndex ∧
        ∀ q', Parser.Steps q q' → q'.current.Typ = .EOF ∧ q'.next.Typ = .EOF) ∧
      ∃ program p,
        (NewParser (NewLexer input)).ParseProgram (input.length + 4) = some (program, p) ∧
        Parser.Steps (NewParser (NewLexer input)) p ∧
        p.current.Typ = .EOF ∧ p.next.Typ = .EOF ∧ input.length < p.l.nextIndex) := by
  refine ⟨?_, NewParser_weight input, weight_nextToken, weight_zero_or_pos, NextToken_remaining,
    parseExpression_total, by rfl, by rfl, ParseProgramLoop_eof, parseBlockStatementLoop_eof, ?_⟩
  · obtain ⟨program, p, h, _, hend⟩ := ParseProgram_total input
    exact ⟨program, p, h, hend, by simp only [Parse, h]⟩
  · intro hnul
    obtain ⟨hd0, hn0⟩ := NewParser_drained input hnul
    have hq : ∀ q, Parser.Steps (NewParser (NewLexer input)) q → q.current.Typ = .EOF →
        q.next.Typ = .EOF ∧ input.length < q.l.nextIndex ∧
        ∀ q', Parser.Steps q q' → q'.current.Typ = .EOF ∧ q'.next.Typ = .EOF := by
      intro q hs hc
      obtain ⟨hd, hn⟩ := hs.eof_stays hd0 hn0
      have hin : q.l.input = input :=
        ((NewParser_steps (NewLexer input)).followedBy hs).lexer_input
      have hlt := hd.2.2.1 hc
      rw [hin] at hlt
      exact ⟨hn hc, hlt, fun q' hs' => Parser.Steps.after_eof hs' hd hc (hn hc)⟩
    refine ⟨tokens_after_eof input hnul, fun q hs hc => (hq q hs hc).2, ?_⟩
    obtain ⟨program, p, h, _, hend⟩ := ParseProgram_total input
    have hs := (ParseProgram_sound _ _ _ _ h).1
    obtain ⟨hn, hlt, _⟩ := hq p hs hend
    exact ⟨program, p, h, hs, hend, hn, hlt⟩

set_option maxRecDepth 100000 in
/-- C27 (as amended) on the input `if (a) { b`, which holds no NUL byte: the seventh token is
EOF and every token after it is EOF, and `ParseProgram` returns with EOF as the current and
as the next token and the lexer past the last byte. -/
theorem parse_terminates_witness :
    (∀ x ∈ str "if (a) \x7b b", x ≠ 0) ∧
    (lexerAfter 6 (NewLexer (str "if (a) \x7b b"))).NextToken.1.Typ = .EOF ∧
    (∀ k, ∀ t ∈ tokens k (lexerAfter (6 + 1) (NewLexer (str "if (a) \x7b b"))), t.Typ = .EOF) ∧
    ∃ program p,
      (NewParser (NewLexer (str "if (a) \x7b b"))).ParseProgram ((str "if (a) \x7b b").length + 4) =
        some (program, p) ∧
      Parser.Steps (NewParser (NewLexer (str "if (a) \x7b b"))) p ∧
      p.current.Typ = .EOF ∧ p.next.Typ = .EOF ∧ (str "if (a) \x7b b").length < p.l.nextIndex :=
  ⟨by decide, by decide,
    ((((parse_terminates (str "if (a) \x7b b")).2.2.2.2.2.2.2.2.2.2 (by decide)).1 6
      (by decide)).2),
    ((parse_terminates (str "if (a) \x7b b")).2.2.2.2.2.2.2.2.2.2 (by decide)).2.2⟩

/-! ### C33: string literals -/

theorem dropWhile_head {α : Type} (f : α → Bool) : ∀ xs : List α,
    xs.dropWhile f = [] ∨ ∃ x t, xs.dropWhile f = x :: t ∧ f x = false := by
  intro xs
  induction xs with
  | nil => exact Or.inl rfl
  | cons x xs ih =>
    by_cases hx : f x = true
    · rw [List.dropWhile_cons_of_pos hx]; exact ih
    · right
      exact ⟨x, xs, List.dropWhile_cons_of_neg hx, by simpa using hx⟩

/-- The input of a positioned lexer, cut at its current byte and after a run of bytes that
satisfy `f`. -/
theorem input_split (l : Lexer) (hlt : l.currentIndex < l.input.length) (f : Nat → Bool) :
    l.input = (l.input.take (l.currentIndex + 1)) ++
      ((l.input.drop (l.currentIndex + 1)).takeWhile f ++
        (l.input.drop (l.currentIndex + 1)).dropWhile f) ∧
    (l.input.take (l.currentIndex + 1)).length = l.currentIndex + 1 := by
  constructor
  · rw [List.takeWhile_append_dropWhile, List.take_append_drop]
  · rw [List.length_take]; omega

theorem readStringLoop_content : ∀ (content : Bytes), (∀ x ∈ content, x ≠ 0 ∧ x ≠ 34) →
    ∀ (f : Nat) (l : Lexer) (pre rest : Bytes), l.input = pre ++ (content ++ rest) →
      l.nextIndex = pre.length → (rest = [] ∨ ∃ t, rest = 34 :: t) → content.length < f →
      (Lexer.readStringLoop f l).currentIndex = pre.length + content.length := by
  intro content
  induction content with
  | nil =>
    intro _ f l pre rest hin hn hrest hf
    cases f with
    | zero => simp at hf
    | succ f =>
      unfold Lexer.readStringLoop
      simp only
      have hb : l.readByte.currentByte = 0 ∨ l.readByte.currentByte = 34 := by
        rw [readByte_currentByte, hin, hn]
        rcases hrest with h | ⟨t, h⟩
        · left; subst h; exact byteAt_of_le (by simp)
        · right; subst h; exact byteAt_append_head pre 34 t
      rw [if_pos hb, readByte_currentIndex, hn]
      rfl
  | cons x content ih =>
    intro hc f l pre rest hin hn hrest hf
    cases f with
    | zero => simp at hf
    | succ f =>
      unfold Lexer.readStringLoop
      simp only
      have hb : l.readByte.currentByte = x := by
        rw [readByte_currentByte, hin, hn]
        exact byteAt_append_head pre x _
      have hx := hc x (List.mem_cons_self _ _)
      rw [if_neg (by rw [hb]; exact fun h => h.elim hx.1 hx.2)]
      have := ih (fun y hy => hc y (List.mem_cons_of_mem _ hy)) f l.readByte (pre ++ [x]) rest
        (by rw [readByte_input, hin]; simp) (by rw [readByte_nextIndex, hn]; simp) hrest
        (by simpa using hf)
      rw [this]
      simp
      omega

theorem NextToken_string {l0 : Lexer} (h : l0.skipWhitespaceAndComments.currentByte = 34) :
    l0.NextToken = (l0.skipWhitespaceAndComments.readString.1,
      l0.skipWhitespaceAndComments.readString.2.readByte) := by
  unfold Lexer.NextToken
  simp [h]

set_option maxRecDepth 100000 in
/-- C33 (counterexample). In the input `"a`, NUL, `b"` the bytes after the opening quote up
to the next quote are `a`, NUL, `b`, yet the literal of the STRING token is `a` alone, and
the next token is the identifier `b`: the loop of `readString` stops at a NUL byte as it
does at a quote. -/
theorem nul_ends_a_string :
    ([97, 0, 98, 34] : Bytes).takeWhile (fun b => b != 34) = [97, 0, 98] ∧
    (tokens 2 (NewLexer [34, 97, 0, 98, 34])).map (fun t => (t.Typ, t.Literal)) =
      [(.STRING, [97]), (.IDENTIFIER, [98])] := by
  refine ⟨by decide, by rfl⟩

set_option maxRecDepth 100000 in
/-- C33 (as amended). Let the lexer stand, after the skip, on a `"` at offset `p`, and let
the bytes after it up to the next `"`, or up to the end of the input when there is none,
hold no NUL. `NextToken` returns a STRING token whose literal is exactly those bytes,
backslashes included, and the lexer resumes one byte after the closing quote, or after the
end of the input. -/
theorem string_token (l0 : Lexer) (hl : l0.Positioned)
    (hq : l0.skipWhitespaceAndComments.currentByte = 34)
    (hnul : ∀ x ∈ (l0.input.drop (l0.skipWhitespaceAndComments.currentIndex + 1)).takeWhile
      (fun b => b != 34), x ≠ 0) :
    l0.NextToken.1.Typ = .STRING ∧
    l0.NextToken.1.Literal =
      (l0.input.drop (l0.skipWhitespaceAndComments.currentIndex + 1)).takeWhile
        (fun b => b != 34) ∧
    l0.NextToken.2.currentIndex = l0.skipWhitespaceAndComments.currentIndex + 1 +
      ((l0.input.drop (l0.skipWhitespaceAndComments.currentIndex + 1)).takeWhile
        (fun b => b != 34)).length + 1 ∧
    l0.NextToken.2.Positioned := by
  have hreads := skipWhitespaceAndComments_reads l0
  have hpos := hreads.positioned hl
  have hin := hreads.input_eq
  have hlt := Positioned.lt_length hpos (by rw [hq]; decide)
  obtain ⟨hsplit, hlen⟩ := input_split l0.skipWhitespaceAndComments hlt (fun b => b != 34)
  rw [hin] at hsplit hlen hlt
  have hrest := dropWhile_head (fun b => b != 34)
    (l0.input.drop (l0.skipWhitespaceAndComments.currentIndex + 1))
  have hidx := readStringLoop_content _
    (fun x hx => ⟨hnul x hx, by simpa using List.mem_takeWhile_imp hx⟩)
    (l0.skipWhitespaceAndComments.budget + 1) l0.skipWhitespaceAndComments _ _
    (by rw [hin]; exact hsplit) (by rw [hlen, hpos.1])
    (by
      rcases hrest with h | ⟨x, t, h, hx⟩
      · exact Or.inl h
      · right
        have : x = 34 := by simpa using hx
        subst this
        exact ⟨t, h⟩)
    (by
      rw [budget_of_positioned hpos, hin]
      have := congrArg List.length hsplit
      simp only [List.length_append] at this
      omega)
  rw [hlen] at hidx
  rw [NextToken_string hq]
  refine ⟨rfl, ?_, ?_, ?_⟩
  · show slice (Lexer.readStringLoop _ _).input (l0.skipWhitespaceAndComments.currentIndex + 1)
      (Lexer.readStringLoop _ _).currentIndex = _
    rw [(readStringLoop_reads _ _).input_eq, hin, hidx]
    have := slice_seg (l0.input.take (l0.skipWhitespaceAndComments.currentIndex + 1))
      ((l0.input.drop (l0.skipWhitespaceAndComments.currentIndex + 1)).takeWhile
        (fun b => b != 34))
      ((l0.input.drop (l0.skipWhitespaceAndComments.currentIndex + 1)).dropWhile
        (fun b => b != 34))
    rw [← hsplit, hlen] at this
    exact this
  · show (Lexer.readStringLoop _ _).readByte.currentIndex = _
    rw [readByte_currentIndex, ((readStringLoop_reads _ _).positioned hpos).1, hidx]
  · rw [← NextToken_string hq]
    exact Positioned_NextToken hl

set_option maxRecDepth 100000 in
/-- C33 (as amended) on a string with a backslash and an escaped-looking quote: the literal
runs to the first quote, the backslash kept. -/
theorem string_token_witness :
    (NewLexer (str "\"a\\\"b\"")).skipWhitespaceAndComments.currentByte = 34 ∧
    (NewLexer (str "\"a\\\"b\"")).NextToken.1.Literal = str "a\\" ∧
    (tokens 3 (NewLexer (str "\"a\\\"b\""))).map (fun t => (t.Typ, t.Literal)) =
      [(.STRING, str "a\\"), (.IDENTIFIER, str "b"), (.STRING, [])] :=
  ⟨by decide,
    (string_token (NewLexer (str "\"a\\\"b\"")) (Positioned_NewLexer _) (by decide)
      (by decide)).2.1.trans (by decide), by decide⟩

/-! ### C32: number literals -/

theorem numberDigit_range {b : Nat} (h : Lexer.validNumberDigit b = true) : 48 ≤ b ∧ b ≤ 57 := by
  simpa [Lexer.validNumberDigit] using h

theorem input_split_at (input : Bytes) (i : Nat) (hi : i ≤ input.length) (f : Nat → Bool) :
    input = input.take i ++ ((input.drop i).takeWhile f ++ (input.drop i).dropWhile f) ∧
    (input.take i).length = i := by
  constructor
  · rw [List.takeWhile_append_dropWhile, List.take_append_drop]
  · rw [List.length_take]; omega

theorem Lexer.Positioned.currentByte_at {l : Lexer} (hl : l.Positioned) (pre : Bytes) (b : Nat)
    (t : Bytes) (hin : l.input = pre ++ b :: t) (hi : l.currentIndex = pre.length) :
    l.currentByte = b := by
  rw [hl.2.1, hin, hi]
  exact byteAt_append_head pre b t

theorem Lexer.Positioned.currentByte_end {l : Lexer} (hl : l.Positioned) (pre : Bytes)
    (hin : l.input = pre) (hi : l.currentIndex = pre.length) : l.currentByte = 0 := by
  rw [hl.2.1, hin, hi]
  exact byteAt_of_le (Nat.le_refl _)

theorem Lexer.Positioned.peek_at {l : Lexer} (hl : l.Positioned) (pre : Bytes) (c b : Nat)
    (t : Bytes) (hin : l.input = pre ++ c :: b :: t) (hi : l.currentIndex = pre.length) :
    l.peekNextByte = b := by
  have h1 : l.input = (pre ++ [c]) ++ b :: t := by rw [hin]; simp
  have h2 : l.nextIndex = (pre ++ [c]).length := by rw [hl.1, hi]; simp
  rw [peekNextByte_eq, h1, h2]
  exact byteAt_append_head _ b t

theorem Lexer.Positioned.peek_end {l : Lexer} (hl : l.Positioned) (pre : Bytes) (c : Nat)
    (hin : l.input = pre ++ [c]) (hi : l.currentIndex = pre.length) :
    l.peekNextByte = 0 := by
  rw [peekNextByte_eq, hl.1, hi, hin]
  exact byteAt_of_le (by simp)

/-- The loop of `readNumber` over a run of digits once a period has been read. -/
theorem readNumberLoop_digits : ∀ (digits : Bytes),
    (∀ x ∈ digits, Lexer.validNumberDigit x = true) →
    ∀ (f : Nat) (l : Lexer) (pre rest : Bytes), l.Positioned →
      l.input = pre ++ (digits ++ rest) → l.currentIndex = pre.length →
      (rest = [] ∨ ∃ x t, rest = x :: t ∧ Lexer.validNumberDigit x = false) →
      digits.length < f →
      (Lexer.readNumberLoop f l true).2 = true ∧
      (Lexer.readNumberLoop f l true).1.currentIndex = pre.length + digits.length := by
  intro digits
  induction digits with
  | nil =>
    intro _ f l pre rest hl hin hi hrest hf
    cases f with
    | zero => simp at hf
    | succ f =>
      unfold Lexer.readNumberLoop
      have hb : Lexer.validNumberDigit l.currentByte = false := by
        rcases hrest with h | ⟨x, t, h, hx⟩
        · subst h
          rw [hl.currentByte_end pre (by simpa using hin) hi]
          rfl
        · subst h
          rw [hl.currentByte_at pre x t (by simpa using hin) hi]
          exact hx
      rw [if_neg (by rw [hb]; decide)]
      exact ⟨rfl, by simpa using hi⟩
  | cons x digits ih =>
    intro hd f l pre rest hl hin hi hrest hf
    cases f with
    | zero => simp at hf
    | succ f =>
      unfold Lexer.readNumberLoop
      have hb : l.currentByte = x := hl.currentByte_at pre x _ (by simpa using hin) hi
      rw [if_pos (by rw [hb]; exact hd x (List.mem_cons_self _ _))]
      simp only
      rw [if_neg (by simp)]
      have := ih (fun y hy => hd y (List.mem_cons_of_mem _ hy)) f l.readByte (pre ++ [x]) rest
        (Positioned_readByte hl) (by rw [readByte_input, hin]; simp)
        (by rw [readByte_currentIndex, hl.1, hi]; simp) hrest (by simpa using hf)
      refine ⟨this.1, ?_⟩
      rw [this.2]
      simp
      omega

/-- The loop of `readNumber` over a run of digits that no `.` and digit follow. -/
theorem readNumberLoop_integer : ∀ (digits : Bytes),
    (∀ x ∈ digits, Lexer.validNumberDigit x = true) →
    ∀ (f : Nat) (l : Lexer) (pre rest : Bytes), l.Positioned →
      l.input = pre ++ (digits ++ rest) → l.currentIndex = pre.length →
      (rest = [] ∨ ∃ x t, rest = x :: t ∧ Lexer.validNumberDigit x = false) →
      (∀ d tail, rest = 46 :: d :: tail → Lexer.validNumberDigit d = false) →
      digits.length < f →
      (Lexer.readNumberLoop f l false).2 = false ∧
      (Lexer.readNumberLoop f l false).1.currentIndex = pre.length + digits.length := by
  intro digits
  induction digits with
  | nil =>
    intro _ f l pre rest hl hin hi hrest _ hf
    cases f with
    | zero => simp at hf
    | succ f =>
      unfold Lexer.readNumberLoop
      have hb : Lexer.validNumberDigit l.currentByte = false := by
        rcases hrest with h | ⟨x, t, h, hx⟩
        · subst h
          rw [hl.currentByte_end pre (by simpa using hin) hi]
          rfl
        · subst h
          rw [hl.currentByte_at pre x t (by simpa using hin) hi]
          exact hx
      rw [if_neg (by rw [hb]; decide)]
      exact ⟨rfl, by simpa using hi⟩
  | cons x digits ih =>
    intro hd f l pre rest hl hin hi hrest hdot hf
    cases f with
    | zero => simp at hf
    | succ f =>
      unfold Lexer.readNumberLoop
      have hb : l.currentByte = x := hl.currentByte_at pre x _ (by simpa using hin) hi
      rw [if_pos (by rw [hb]; exact hd x (List.mem_cons_self _ _))]
      simp only
      have hl1 := Positioned_readByte hl
      have hin1 : l.readByte.input = (pre ++ [x]) ++ (digits ++ rest) := by
        rw [readByte_input, hin]; simp
      have hi1 : l.readByte.currentIndex = (pre ++ [x]).length := by
        rw [readByte_currentIndex, hl.1, hi]; simp
      have hcond : ¬ (l.readByte.currentByte = 46 ∧
          Lexer.validNumberDigit l.readByte.peekNextByte = true) := by
        rintro ⟨h46, hpeek⟩
        cases digits with
        | cons y ys =>
          have hy := hl1.currentByte_at (pre ++ [x]) y (ys ++ rest) (by simpa using hin1) hi1
          have := numberDigit_range (hd y (by simp))
          omega
        | nil =>
          rcases hrest with h | ⟨z, t, h, hz⟩
          · subst h
            have := hl1.currentByte_end (pre ++ [x]) (by simpa using hin1) hi1
            omega
          · subst h
            have hz2 := hl1.currentByte_at (pre ++ [x]) z t (by simpa using hin1) hi1
            have hz46 : z = 46 := by omega
            subst hz46
            cases t with
            | nil =>
              rw [hl1.peek_end (pre ++ [x]) 46 (by simpa using hin1) hi1] at hpeek
              exact absurd hpeek (by decide)
            | cons d tail =>
              rw [hl1.peek_at (pre ++ [x]) 46 d tail (by simpa using hin1) hi1,
                hdot d tail rfl] at hpeek
              exact absurd hpeek (by decide)
      rw [if_neg (fun h => hcond ⟨h.1, h.2.2⟩)]
      have := ih (fun y hy => hd y (List.mem_cons_of_mem _ hy)) f l.readByte (pre ++ [x]) rest
        hl1 hin1 hi1 hrest hdot (by simpa using hf)
      refine ⟨this.1, ?_⟩
      rw [this.2]
      simp
      omega

/-- The loop of `readNumber` over a run of digits followed by `.` and a second run. -/
theorem readNumberLoop_float : ∀ (digits : Bytes) (x : Nat),
    (∀ y ∈ x :: digits, Lexer.validNumberDigit y = true) →
    ∀ (f : Nat) (l : Lexer) (pre frac rest : Bytes), l.Positioned →
      l.input = pre ++ (x :: digits ++ 46 :: (frac ++ rest)) → l.currentIndex = pre.length →
      frac ≠ [] → (∀ y ∈ frac, Lexer.validNumberDigit y = true) →
      (rest = [] ∨ ∃ z t, rest = z :: t ∧ Lexer.validNumberDigit z = false) →
      digits.length + frac.length + 2 < f →
      (Lexer.readNumberLoop f l false).2 = true ∧
      (Lexer.readNumberLoop f l false).1.currentIndex =
        pre.length + (digits.length + 1) + 1 + frac.length := by
  intro digits
  induction digits with
  | nil =>
    intro x hd f l pre frac rest hl hin hi hne hfrac hrest hf
    cases f with
    | zero => omega
    | succ f =>
      unfold Lexer.readNumberLoop
      have hb : l.currentByte = x := hl.currentByte_at pre x _ (by simpa using hin) hi
      rw [if_pos (by rw [hb]; exact hd x (List.mem_cons_self _ _))]
      simp only
      have hl1 := Positioned_readByte hl
      have hin1 : l.readByte.input = (pre ++ [x]) ++ 46 :: (frac ++ rest) := by
        rw [readByte_input, hin]; simp
      have hi1 : l.readByte.currentIndex = (pre ++ [x]).length := by
        rw [readByte_currentIndex, hl.1, hi]; simp
      have h46 := hl1.currentByte_at (pre ++ [x]) 46 _ hin1 hi1
      obtain ⟨d, ftail, hfr⟩ := List.exists_cons_of_ne_nil hne
      have hpeek : Lexer.validNumberDigit l.readByte.peekNextByte = true := by
        rw [hl1.peek_at (pre ++ [x]) 46 d (ftail ++ rest) (by rw [hin1, hfr]; simp) hi1]
        exact hfrac d (by rw [hfr]; simp)
      rw [if_pos ⟨h46, by simp, hpeek⟩]
      have := readNumberLoop_digits frac hfrac f l.readByte.readByte (pre ++ [x] ++ [46]) rest
        (Positioned_readByte hl1) (by rw [readByte_input, hin1]; simp)
        (by rw [readByte_currentIndex, hl1.1, hi1]; simp) hrest (by simp at hf; omega)
      refine ⟨this.1, ?_⟩
      rw [this.2]
      simp
  | cons y digits ih =>
    intro x hd f l pre frac rest hl hin hi hne hfrac hrest hf
    cases f with
    | zero => omega
    | succ f =>
      unfold Lexer.readNumberLoop
      have hb : l.currentByte = x := hl.currentByte_at pre x _ (by simpa using hin) hi
      rw [if_pos (by rw [hb]; exact hd x (List.mem_cons_self _ _))]
      simp only
      have hl1 := Positioned_readByte hl
      have hin1 : l.readByte.input = (pre ++ [x]) ++ (y :: digits ++ 46 :: (frac ++ rest)) := by
        rw [readByte_input, hin]; simp
      have hi1 : l.readByte.currentIndex = (pre ++ [x]).length := by
        rw [readByte_currentIndex, hl.1, hi]; simp
      have hy := hl1.currentByte_at (pre ++ [x]) y _ (by simpa using hin1) hi1
      have hyr := numberDigit_range (hd y (by simp))
      rw [if_neg (by rintro ⟨h46, _⟩; omega)]
      have := ih y (fun z hz => hd z (List.mem_cons_of_mem _ hz)) f l.readByte (pre ++ [x])
        frac rest hl1 hin1 hi1 hne hfrac hrest (by simp at hf ⊢; omega)
      refine ⟨this.1, ?_⟩
      rw [this.2]
      simp
      omega

theorem NextToken_number {l0 : Lexer}
    (h : Lexer.validNumberDigit l0.skipWhitespaceAndComments.currentByte = true) :
    l0.NextToken = l0.skipWhitespaceAndComments.readNumber := by
  have hr := numberDigit_range h
  have hid : ¬ Lexer.validIdentifierByte l0.skipWhitespaceAndComments.currentByte = true := by
    simp only [Lexer.validIdentifierByte, Bool.or_eq_true, Bool.and_eq_true, decide_eq_true_eq]
    omega
  unfold Lexer.NextToken
  dsimp only
  rw [if_neg (show ¬ l0.skipWhitespaceAndComments.currentByte = 61 by omega),
    if_neg (show ¬ l0.skipWhitespaceAndComments.currentByte = 43 by omega),
    if_neg (show ¬ l0.skipWhitespaceAndComments.currentByte = 45 by omega),
    if_neg (show ¬ l0.skipWhitespaceAndComments.currentByte = 42 by omega),
    if_neg (show ¬ l0.skipWhitespaceAndComments.currentByte = 47 by omega),
    if_neg (show ¬ l0.skipWhitespaceAndComments.currentByte = 33 by omega),
    if_neg (show ¬ l0.skipWhitespaceAndComments.currentByte = 60 by omega),
    if_neg (show ¬ l0.skipWhitespaceAndComments.currentByte = 62 by omega),
    if_neg (show ¬ l0.skipWhitespaceAndComments.currentByte = 44 by omega),
    if_neg (show ¬ l0.skipWhitespaceAndComments.currentByte = 59 by omega),
    if_neg (show ¬ l0.skipWhitespaceAndComments.currentByte = 40 by omega),
    if_neg (show ¬ l0.skipWhitespaceAndComments.currentByte = 41 by omega),
    if_neg (show ¬ l0.skipWhitespaceAndComments.currentByte = 123 by omega),
    if_neg (show ¬ l0.skipWhitespaceAndComments.currentByte = 125 by omega),
    if_neg (show ¬ l0.skipWhitespaceAndComments.currentByte = 91 by omega),
    if_neg (show ¬ l0.skipWhitespaceAndComments.currentByte = 93 by omega),
    if_neg (show ¬ l0.skipWhitespaceAndComments.currentByte = 34 by omega),
    if_neg (show ¬ l0.skipWhitespaceAndComments.currentByte = 0 by omega),
    if_neg hid, if_pos h]

theorem numberLiteral_float (rest : Bytes) (d : Nat) (tail : Bytes)
    (h : rest.dropWhile Lexer.validNumberDigit = 46 :: d :: tail)
    (hd : Lexer.validNumberDigit d = true) :
    numberLiteral rest = rest.takeWhile Lexer.validNumberDigit ++
      46 :: (d :: tail).takeWhile Lexer.validNumberDigit := by
  unfold numberLiteral
  rw [h]
  simp only [hd, if_true]

theorem numberLiteral_integer (rest : Bytes)
    (h : ∀ d tail, rest.dropWhile Lexer.validNumberDigit = 46 :: d :: tail →
      Lexer.validNumberDigit d = false) :
    numberLiteral rest = rest.takeWhile Lexer.validNumberDigit := by
  unfold numberLiteral
  split
  · rename_i d tail heq
    rw [if_neg (by rw [h d tail heq]; decide)]
  · rfl

theorem readNumber_literal (l : Lexer) (hl : l.Positioned)
    (hd : Lexer.validNumberDigit l.currentByte = true) :
    l.readNumber.1.Literal = numberLiteral (l.input.drop l.currentIndex) ∧
    (l.readNumber.1.Typ = .FLOAT ↔ 46 ∈ l.readNumber.1.Literal) ∧
    (l.readNumber.1.Typ = .INTEGER ↔ 46 ∉ l.readNumber.1.Literal) ∧
    l.readNumber.2.currentIndex = l.currentIndex + l.readNumber.1.Literal.length := by
  have hlt := Positioned.lt_length hl (numberDigit_ne hd).1
  obtain ⟨hsplit, hlen⟩ := input_split_at l.input l.currentIndex (by omega)
    Lexer.validNumberDigit
  have hwhole : ∀ y ∈ (l.input.drop l.currentIndex).takeWhile Lexer.validNumberDigit,
      Lexer.validNumberDigit y = true := fun y hy => List.mem_takeWhile_imp hy
  have haft := dropWhile_head Lexer.validNumberDigit (l.input.drop l.currentIndex)
  have hsum := congrArg List.length hsplit
  simp only [List.length_append, hlen] at hsum
  have hinput : (Lexer.readNumberLoop (l.budget + 1) l false).1.input = l.input :=
    (readNumberLoop_reads _ _ _).input_eq
  have hnot46 : (46 : Nat) ∉ (l.input.drop l.currentIndex).takeWhile Lexer.validNumberDigit :=
    fun h => absurd (hwhole 46 h) (by decide)
  by_cases hA : ∃ d tail, (l.input.drop l.currentIndex).dropWhile Lexer.validNumberDigit =
      46 :: d :: tail ∧ Lexer.validNumberDigit d = true
  · obtain ⟨d, tail, hdrop, hdd⟩ := hA
    rw [numberLiteral_float _ d tail hdrop hdd]
    have hfsplit := List.takeWhile_append_dropWhile Lexer.validNumberDigit (d :: tail)
    have hfne : (d :: tail).takeWhile Lexer.validNumberDigit ≠ [] := by
      rw [List.takeWhile_cons_of_pos hdd]; simp
    have hfrac : ∀ y ∈ (d :: tail).takeWhile Lexer.validNumberDigit,
        Lexer.validNumberDigit y = true := fun y hy => List.mem_takeWhile_imp hy
    have hfrest := dropWhile_head Lexer.validNumberDigit (d :: tail)
    cases hw : (l.input.drop l.currentIndex).takeWhile Lexer.validNumberDigit with
    | nil =>
      exfalso
      rw [hw, hdrop] at hsplit
      have := hl.currentByte_at _ 46 _ (by simpa using hsplit) hlen.symm
      rw [this] at hd
      exact absurd hd (by decide)
    | cons x ds =>
      rw [hw] at hwhole hsum hnot46
      have hin2 : l.input = l.input.take l.currentIndex ++
          (x :: ds ++ 46 :: ((d :: tail).takeWhile Lexer.validNumberDigit ++
            (d :: tail).dropWhile Lexer.validNumberDigit)) := by
        rw [hfsplit, ← hdrop, ← hw]
        exact hsplit
      have hsum2 := congrArg List.length hin2
      simp only [List.length_append, List.length_cons, hlen] at hsum2
      obtain ⟨h1, h2⟩ := readNumberLoop_float ds x hwhole (l.budget + 1) l _ _ _ hl hin2
        hlen.symm hfne hfrac
        (by
          rcases hfrest with h | ⟨z, t, h, hz⟩
          · exact Or.inl h
          · exact Or.inr ⟨z, t, h, hz⟩)
        (by rw [budget_of_positioned hl]; omega)
      rw [hlen] at h2
      have hlit : l.readNumber.1.Literal =
          x :: ds ++ 46 :: (d :: tail).takeWhile Lexer.validNumberDigit := by
        show slice (Lexer.readNumberLoop (l.budget + 1) l false).1.input l.currentIndex
          (Lexer.readNumberLoop (l.budget + 1) l false).1.currentIndex = _
        rw [hinput, h2]
        have hin3 : l.input = l.input.take l.currentIndex ++
            ((x :: ds ++ 46 :: (d :: tail).takeWhile Lexer.validNumberDigit) ++
              (d :: tail).dropWhile Lexer.validNumberDigit) :=
          hin2.trans (by simp)
        have := slice_seg (l.input.take l.currentIndex)
          (x :: ds ++ 46 :: (d :: tail).takeWhile Lexer.validNumberDigit)
          ((d :: tail).dropWhile Lexer.validNumberDigit)
        rw [← hin3, hlen] at this
        rw [← this]
        congr 1
        simp
        omega
      have hty : l.readNumber.1.Typ = .FLOAT := by
        show (if (Lexer.readNumberLoop (l.budget + 1) l false).2 = true then TokenType.FLOAT
          else TokenType.INTEGER) = _
        rw [if_pos h1]
      have hmem : (46 : Nat) ∈ l.readNumber.1.Literal := by rw [hlit]; simp
      refine ⟨hlit, ⟨fun _ => hmem, fun _ => hty⟩, ⟨fun h => ?_, fun h => absurd hmem h⟩, ?_⟩
      · rw [hty] at h; exact absurd h (by decide)
      · show (Lexer.readNumberLoop (l.budget + 1) l false).1.currentIndex = _
        rw [h2, hlit]
        simp
        omega
  · have hdot : ∀ d tail, (l.input.drop l.currentIndex).dropWhile Lexer.validNumberDigit =
        46 :: d :: tail → Lexer.validNumberDigit d = false := by
      intro d tail h
      by_contra hc
      exact hA ⟨d, tail, h, by simpa using hc⟩
    rw [numberLiteral_integer _ hdot]
    obtain ⟨h1, h2⟩ := readNumberLoop_integer _ hwhole (l.budget + 1) l _ _ hl hsplit
      hlen.symm haft hdot (by rw [budget_of_positioned hl]; omega)
    rw [hlen] at h2
    have hlit : l.readNumber.1.Literal =
        (l.input.drop l.currentIndex).takeWhile Lexer.validNumberDigit := by
      show slice (Lexer.readNumberLoop (l.budget + 1) l false).1.input l.currentIndex
        (Lexer.readNumberLoop (l.budget + 1) l false).1.currentIndex = _
      rw [hinput, h2]
      have := slice_seg (l.input.take l.currentIndex)
        ((l.input.drop l.currentIndex).takeWhile Lexer.validNumberDigit)
        ((l.input.drop l.currentIndex).dropWhile Lexer.validNumberDigit)
      rw [← hsplit, hlen] at this
      exact this
    have hty : l.readNumber.1.Typ = .INTEGER := by
      show (if (Lexer.readNumberLoop (l.budget + 1) l false).2 = true then TokenType.FLOAT
        else TokenType.INTEGER) = _
      rw [if_neg (by rw [h1]; decide)]
    have hmem : (46 : Nat) ∉ l.readNumber.1.Literal := by rw [hlit]; exact hnot46
    refine ⟨hlit, ⟨fun h => ?_, fun h => absurd h hmem⟩, ⟨fun _ => hmem, fun _ => hty⟩, ?_⟩
    · rw [hty] at h; exact absurd h (by decide)
    · show (Lexer.readNumberLoop (l.budget + 1) l false).1.currentIndex = _
      rw [h2, hlit]

set_option maxRecDepth 100000 in
/-- C32. Let the lexer stand, after the skip, on a decimal digit at offset `p`. `NextToken`
returns a token whose literal is the longest prefix of the input from `p` on that is a run
of digits, optionally followed by one `.` and at least one digit; its kind is FLOAT exactly
when the literal holds the `.` and INTEGER exactly when it does not, and the lexer resumes
right after the literal. So `5.` gives INTEGER `5` and then an illegal `.`, and `1.2.3`
gives FLOAT `1.2` first. -/
theorem number_token (l0 : Lexer) (hl : l0.Positioned)
    (hd : Lexer.validNumberDigit l0.skipWhitespaceAndComments.currentByte = true) :
    l0.NextToken.1.Literal =
      numberLiteral (l0.input.drop l0.skipWhitespaceAndComments.currentIndex) ∧
    (l0.NextToken.1.Typ = .FLOAT ↔ 46 ∈ l0.NextToken.1.Literal) ∧
    (l0.NextToken.1.Typ = .INTEGER ↔ 46 ∉ l0.NextToken.1.Literal) ∧
    l0.NextToken.2.currentIndex =
      l0.skipWhitespaceAndComments.currentIndex + l0.NextToken.1.Literal.length ∧
    l0.NextToken.2.Positioned ∧
    (tokens 2 (NewLexer (str "5."))).map (fun t => (t.Typ, t.Literal)) =
      [(.INTEGER, str "5"), (.ILLEGAL, str ".")] ∧
    (tokens 3 (NewLexer (str "1.2.3"))).map (fun t => (t.Typ, t.Literal)) =
      [(.FLOAT, str "1.2"), (.ILLEGAL, str "."), (.INTEGER, str "3")] := by
  have hreads := skipWhitespaceAndComments_reads l0
  have hpos := hreads.positioned hl
  have hin := hreads.input_eq
  obtain ⟨h1, h2, h3, h4⟩ := readNumber_literal l0.skipWhitespaceAndComments hpos hd
  rw [hin] at h1
  have hp := Positioned_NextToken hl
  rw [NextToken_number hd] at hp ⊢
  exact ⟨h1, h2, h3, h4, hp, by decide, by decide⟩

set_option maxRecDepth 100000 in
/-- C32 on the input `12.50.1+`: the first token is the FLOAT `12.50`. -/
theorem number_token_witness :
    Lexer.validNumberDigit (NewLexer (str "12.50.1+")).skipWhitespaceAndComments.currentByte =
      true ∧
    (NewLexer (str "12.50.1+")).NextToken.1.Literal = numberLiteral (str "12.50.1+") ∧
    numberLiteral (str "12.50.1+") = str "12.50" ∧
    (NewLexer (str "12.50.1+")).NextToken.1.Typ = .FLOAT :=
  ⟨by decide,
    (number_token (NewLexer (str "12.50.1+")) (Positioned_NewLexer _) (by decide)).1,
    by decide, by decide⟩

/-! ### C40: the lexer stays within the input -/

theorem Lexer.Positioned.readByte_index {l : Lexer} (hl : l.Positioned) :
    l.readByte.Positioned ∧ l.readByte.currentIndex = l.currentIndex + 1 ∧
      l.readByte.input = l.input :=
  ⟨Positioned_readByte hl, by rw [readByte_currentIndex, hl.1], rfl⟩

theorem readStringLoop_stops : ∀ (f : Nat) (l : Lexer), l.Positioned →
    l.currentIndex < l.input.length → l.input.length - l.currentIndex ≤ f →
    ((Lexer.readStringLoop f l).currentByte = 0 ∨ (Lexer.readStringLoop f l).currentByte = 34) ∧
    l.currentIndex + 1 ≤ (Lexer.readStringLoop f l).currentIndex ∧
    (Lexer.readStringLoop f l).currentIndex ≤ l.input.length := by
  intro f
  induction f with
  | zero => intro l _ h1 h2; omega
  | succ f ih =>
    intro l hl hlt hf
    obtain ⟨hl1, hi1, hin1⟩ := hl.readByte_index
    unfold Lexer.readStringLoop
    simp only
    by_cases hc : l.readByte.currentByte = 0 ∨ l.readByte.currentByte = 34
    · rw [if_pos hc]
      exact ⟨hc, by omega, by omega⟩
    · rw [if_neg hc]
      have hlt1 := Positioned.lt_length hl1 (fun h => hc (Or.inl h))
      rw [hin1] at hlt1
      obtain ⟨h1, h2, h3⟩ := ih l.readByte hl1 (by rw [hin1]; exact hlt1) (by rw [hin1]; omega)
      rw [hin1] at h3
      exact ⟨h1, by omega, h3⟩

theorem readIdentifierLoop_stops : ∀ (f : Nat) (l : Lexer), l.Positioned →
    l.currentIndex ≤ l.input.length → l.input.length - l.currentIndex < f →
    Lexer.validIdentifierByte (Lexer.readIdentifierLoop f l).currentByte = false ∧
    l.currentIndex ≤ (Lexer.readIdentifierLoop f l).currentIndex ∧
    (Lexer.readIdentifierLoop f l).currentIndex ≤ l.input.length := by
  intro f
  induction f with
  | zero => intro l _ _ h2; omega
  | succ f ih =>
    intro l hl hle hf
    obtain ⟨hl1, hi1, hin1⟩ := hl.readByte_index
    unfold Lexer.readIdentifierLoop
    by_cases hc : Lexer.validIdentifierByte l.currentByte = true
    · rw [if_pos hc]
      have hlt := Positioned.lt_length hl (identifierByte_ne hc).1
      obtain ⟨h1, h2, h3⟩ := ih l.readByte hl1 (by rw [hin1]; omega) (by rw [hin1]; omega)
      rw [hin1] at h3
      exact ⟨h1, by omega, h3⟩
    · rw [if_neg hc]
      exact ⟨by simpa using hc, Nat.le_refl _, hle⟩

theorem readNumberLoop_stops : ∀ (f : Nat) (l : Lexer) (pp : Bool), l.Positioned →
    l.currentIndex ≤ l.input.length → l.input.length - l.currentIndex < f →
    Lexer.validNumberDigit (Lexer.readNumberLoop f l pp).1.currentByte = false ∧
    l.currentIndex ≤ (Lexer.readNumberLoop f l pp).1.currentIndex ∧
    (Lexer.readNumberLoop f l pp).1.currentIndex ≤ l.input.length := by
  intro f
  induction f with
  | zero => intro l _ _ _ h2; omega
  | succ f ih =>
    intro l pp hl hle hf
    obtain ⟨hl1, hi1, hin1⟩ := hl.readByte_index
    obtain ⟨hl2, hi2, hin2⟩ := hl1.readByte_index
    unfold Lexer.readNumberLoop
    by_cases hc : Lexer.validNumberDigit l.currentByte = true
    · rw [if_pos hc]
      simp only
      have hlt := Positioned.lt_length hl (numberDigit_ne hc).1
      split
      · rename_i hdot
        have hlt1 := Positioned.lt_length hl1 (by rw [hdot.1]; decide)
        rw [hin1] at hlt1
        obtain ⟨h1, h2, h3⟩ := ih l.readByte.readByte true hl2
          (by rw [hin2, hin1]; omega) (by rw [hin2, hin1]; omega)
        rw [hin2, hin1] at h3
        exact ⟨h1, by omega, h3⟩
      · obtain ⟨h1, h2, h3⟩ := ih l.readByte pp hl1 (by rw [hin1]; omega) (by rw [hin1]; omega)
        rw [hin1] at h3
        exact ⟨h1, by omega, h3⟩
    · rw [if_neg hc]
      exact ⟨by simpa using hc, Nat.le_refl _, hle⟩

theorem skipComment_stops : ∀ (f : Nat) (l : Lexer), l.Positioned →
    l.currentIndex < l.input.length → l.input.length - l.currentIndex ≤ f →
    ((Lexer.skipComment f l).currentByte = 0 ∨ (Lexer.skipComment f l).currentByte = 10) ∧
    (Lexer.skipComment f l).currentIndex ≤ l.input.length := by
  intro f
  induction f with
  | zero => intro l _ h1 h2; omega
  | succ f ih =>
    intro l hl hlt hf
    obtain ⟨hl1, hi1, hin1⟩ := hl.readByte_index
    unfold Lexer.skipComment
    simp only
    by_cases hc : l.readByte.currentByte = 0 ∨ l.readByte.currentByte = 10
    · rw [if_pos hc]
      exact ⟨hc, by omega⟩
    · rw [if_neg hc]
      have hlt1 := Positioned.lt_length hl1 (fun h => hc (Or.inl h))
      rw [hin1] at hlt1
      obtain ⟨h1, h3⟩ := ih l.readByte hl1 (by rw [hin1]; exact hlt1) (by rw [hin1]; omega)
      rw [hin1] at h3
      exact ⟨h1, h3⟩

theorem readByte_guarded (l : Lexer) :
    l.readByte.currentByte =
      if h : l.nextIndex < l.input.length then l.input[l.nextIndex] else 0 := by
  rw [readByte_currentByte]
  split
  · rename_i h
    unfold byteAt
    rw [List.getD_eq_getElem?_getD, List.getElem?_eq_getElem h]
    rfl
  · exact byteAt_of_le (by omega)

theorem peekNextByte_guarded (l : Lexer) :
    l.peekNextByte = if h : l.nextIndex < l.input.length then l.input[l.nextIndex] else 0 := by
  rw [peekNextByte_eq, ← readByte_currentByte]
  exact readByte_guarded l

/-- C40. After any number of calls of `NextToken` on the lexer of any input, the next call
stays within the input. The byte that `readByte` and `peekNextByte` read is the one at
`nextIndex` when that is below the length, and 0 otherwise. Each loop ends by its own
condition within its budget: the skip stops on a byte that is neither whitespace nor the
start of a comment, the loop of a string on a quote or on 0, the loop of an identifier on
a byte that is not an identifier byte, the loop of a number on a byte that is not a digit.
The offsets that cut the literal satisfy `start <= end <= len(input)`: for a string the
start is one past the opening quote, also when the string is not terminated, and for an
identifier or a number it is the offset of the first byte. -/
theorem lexer_stays_in_bounds (input : Bytes) (n : Nat) :
    (∀ l : Lexer, l.readByte.currentByte =
      if h : l.nextIndex < l.input.length then l.input[l.nextIndex] else 0) ∧
    (∀ l : Lexer, l.peekNextByte =
      if h : l.nextIndex < l.input.length then l.input[l.nextIndex] else 0) ∧
    (Lexer.isWhitespace (lexerAfter n (NewLexer input)).skipWhitespaceAndComments.currentByte =
        false ∧
      ¬ ((lexerAfter n (NewLexer input)).skipWhitespaceAndComments.currentByte = 47 ∧
        (lexerAfter n (NewLexer input)).skipWhitespaceAndComments.peekNextByte = 47)) ∧
    ((lexerAfter n (NewLexer input)).skipWhitespaceAndComments.currentByte = 34 →
      ((lexerAfter n (NewLexer input)).skipWhitespaceAndComments.readString.2.currentByte = 0 ∨
        (lexerAfter n (NewLexer input)).skipWhitespaceAndComments.readString.2.currentByte =
          34) ∧
      (lexerAfter n (NewLexer input)).skipWhitespaceAndComments.currentIndex + 1 ≤
        (lexerAfter n (NewLexer input)).skipWhitespaceAndComments.readString.2.currentIndex ∧
      (lexerAfter n (NewLexer input)).skipWhitespaceAndComments.readString.2.currentIndex ≤
        input.length) ∧
    (Lexer.validIdentifierByte
        (lexerAfter n (NewLexer input)).skipWhitespaceAndComments.currentByte = true →
      Lexer.validIdentifierByte
        (lexerAfter n (NewLexer input)).skipWhitespaceAndComments.readIdentifier.2.currentByte =
          false ∧
      (lexerAfter n (NewLexer input)).skipWhitespaceAndComments.currentIndex ≤
        (lexerAfter n (NewLexer input)).skipWhitespaceAndComments.readIdentifier.2.currentIndex ∧
      (lexerAfter n (NewLexer input)).skipWhitespaceAndComments.readIdentifier.2.currentIndex ≤
        input.length) ∧
    (Lexer.validNumberDigit
        (lexerAfter n (NewLexer input)).skipWhitespaceAndComments.currentByte = true →
      Lexer.validNumberDigit
        (lexerAfter n (NewLexer input)).skipWhitespaceAndComments.readNumber.2.currentByte =
          false ∧
      (lexerAfter n (NewLexer input)).skipWhitespaceAndComments.currentIndex ≤
        (lexerAfter n (NewLexer input)).skipWhitespaceAndComments.readNumber.2.currentIndex ∧
      (lexerAfter n (NewLexer input)).skipWhitespaceAndComments.readNumber.2.currentIndex ≤
        input.length) := by
  have hl := Positioned_lexerAfter n _ (Positioned_NewLexer input)
  have hreads := skipWhitespaceAndComments_reads (lexerAfter n (NewLexer input))
  have hpos := hreads.positioned hl
  have hin : (lexerAfter n (NewLexer input)).skipWhitespaceAndComments.input = input := by
    rw [hreads.input_eq, lexerAfter_input]
    rfl
  have hb := budget_of_positioned hpos
  refine ⟨readByte_guarded, peekNextByte_guarded, skipWhitespaceAndComments_stops hl, ?_, ?_, ?_⟩
  · intro hq
    have hlt := Positioned.lt_length hpos (by rw [hq]; decide)
    have := readStringLoop_stops
      ((lexerAfter n (NewLexer input)).skipWhitespaceAndComments.budget + 1) _ hpos hlt
      (by omega)
    rw [hin] at this
    exact this
  · intro hq
    have hlt := Positioned.lt_length hpos (identifierByte_ne hq).1
    have := readIdentifierLoop_stops
      ((lexerAfter n (NewLexer input)).skipWhitespaceAndComments.budget + 1) _ hpos
      (by omega) (by omega)
    rw [hin] at this
    exact this
  · intro hq
    have hlt := Positioned.lt_length hpos (numberDigit_ne hq).1
    have := readNumberLoop_stops
      ((lexerAfter n (NewLexer input)).skipWhitespaceAndComments.budget + 1) _ false hpos
      (by omega) (by omega)
    rw [hin] at this
    exact this

set_option maxRecDepth 100000 in
/-- C40 on an unterminated string that ends the input: the literal is cut from offset 4 to
offset 6, the length of the input. -/
theorem lexer_stays_in_bounds_witness :
    (lexerAfter 1 (NewLexer (str "ab \"cd"))).skipWhitespaceAndComments.currentByte = 34 ∧
    (lexerAfter 1 (NewLexer (str "ab \"cd"))).skipWhitespaceAndComments.currentIndex + 1 ≤
      (lexerAfter 1 (NewLexer (str "ab \"cd"))).skipWhitespaceAndComments.readString.2.currentIndex ∧
    (lexerAfter 1 (NewLexer (str "ab \"cd"))).skipWhitespaceAndComments.readString.2.currentIndex ≤
      (str "ab \"cd").length ∧
    (lexerAfter 1 (NewLexer (str "ab \"cd"))).skipWhitespaceAndComments.readString.2.currentIndex = 6 :=
  ⟨by decide,
    ((lexer_stays_in_bounds (str "ab \"cd") 1).2.2.2.1 (by decide)).2.1,
    ((lexer_stays_in_bounds (str "ab \"cd") 1).2.2.2.1 (by decide)).2.2, by decide⟩

/-! ### C34: a double-quoted argument of the shell -/

/-- The tests of `parseArg` in the repository, run on the embedding. -/
theorem shell_tests :
    (Shell.parseArg []).map (fun r => r.2) = some [] ∧
    (Shell.parseArg (str "asd   ghj  'ssd   ddfff\" ss'")).map (fun r => r.2) =
      some (str "asd ghj ssd   ddfff\" ss") ∧
    (Shell.parseArg (str "\\\" \"gh fh\" abc  def \"ssdd's\"")).map (fun r => r.2) =
      some (str "\" gh fh abc def ssdd's") ∧
    (Shell.parseArg (str "'ac\\c\\cd\\n\\\"' \\\" \\\\")).map (fun r => r.2) =
      some (str "ac\\c\\cd\\n\\\" \" \\") ∧
    (Shell.parseArg (str "\"ab  c\" asd")).map (fun r => r.2) = some (str "ab  c asd") ∧
    (Shell.parseArg (str "\"hello\\\"insidequotes\"script\\\"")).map (fun r => r.2) =
      some (str "hello\"insidequotesscript\"") ∧
    (Shell.parseArg (str "\"mixed\\\"quote'shell'\\\\\"")).map (fun r => r.2) =
      some (str "mixed\"quote'shell'\\") ∧
    (Shell.parseArg (str "\"\\\\\"")).map (fun r => r.2) = some (str "\\") ∧
    (Shell.parseArg (str "example\\ \\ \\ \\ \\ \\ world")).map (fun r => r.2) =
      some (str "example      world") := by
  refine ⟨by decide, by decide, by decide, by decide, by decide, by decide, by decide,
    by decide, by decide⟩

/-- C34 (evaluation at the failing input). The argument `"\\\\"` is one double-quoted
segment that holds two escapes `\\` and stands for two backslashes, yet `parseArg` gives
three: a backslash is dropped only when the byte before it is not a backslash, so the
second escape of a run is kept whole. In `"a\\\"b"` the quote of the escape `\"` closes
the segment, because the byte two places before it is a backslash, and the output is `a\\`
instead of `a\"b`. The two examples of the claim come out as stated. -/
theorem escapes_in_a_row_are_miscounted :
    Shell.unquote [92, 92, 92, 92] = [92, 92] ∧
    (Shell.parseArg [34, 92, 92, 92, 92, 34]).map (fun r => r.2) = some [92, 92, 92] ∧
    Shell.unquote [97, 92, 92, 92, 34, 98] = [97, 92, 34, 98] ∧
    (Shell.parseArg [34, 97, 92, 92, 92, 34, 98, 34]).map (fun r => r.2) =
      some [97, 92, 92] ∧
    (Shell.parseArg (str "\"\\\\\"")).map (fun r => r.2) = some (str "\\") ∧
    (Shell.parseArg (str "\"mixed\\\"quote'shell'\\\\\"")).map (fun r => r.2) =
      some (Shell.unquote (str "mixed\\\"quote'shell'\\\\")) ∧
    Shell.unquote (str "mixed\\\"quote'shell'\\\\") = str "mixed\"quote'shell'\\" := by
  refine ⟨by decide, by decide, by decide, by decide, by decide, by decide, by decide⟩

/-! ### C36: absent values at the operators -/

set_option maxRecDepth 100000 in
/-- C36 (evaluation at the failing inputs). The programs `-if (true) {}` and
`func(){}() + 1` parse without diagnostics, and evaluating them panics: an empty block
evaluates to the absent value, which `Eval` passes on to `evalPrefixExpression` and to
`evalInfixExpression` because it is not an error, and both call `objectType` on it. The
same happens for an absent index, an absent callee and the absent result of a body that
ends in a var statement. An if-expression whose condition is false and that has no else
branch yields the null object instead, and the operator reports an error. -/
theorem absent_value_reaches_an_operator :
    Run 10 (str "if (true) \x7b\x7d") = some (.ok none ⟨[⟨[], none⟩], 6, []⟩) ∧
    Run 10 (str "-if (true) \x7b\x7d") = some .panic ∧
    Run 10 (str "func()\x7b\x7d() + 1") = some .panic ∧
    Run 10 (str "[1][if (true) \x7b\x7d]") = some .panic ∧
    Run 10 (str "if (true) \x7b\x7d()") = some .panic ∧
    Run 10 (str "var a = func() \x7b var b = 1; \x7d; a() + 1") = some .panic ∧
    Run 10 (str "-if (false) \x7b\x7d") =
      some (.ok (some (.objError 6 (str "line 1 col 1: unknown operator: -NULL")))
        ⟨[⟨[], none⟩], 7, []⟩) := by
  refine ⟨by rfl, by rfl, by rfl, by rfl, by rfl, by rfl, by rfl⟩

/-! ### C37: a call leaves the earlier environments alone -/

theorem EvalState.Extends.same (E : Nat) (st : EvalState) : st.Extends E st :=
  ⟨Nat.le_refl _, fun _ _ _ => rfl⟩

theorem EvalState.Extends.andThen {E : Nat} {a b c : EvalState} (h1 : a.Extends E b)
    (h2 : b.Extends E c) : a.Extends E c :=
  ⟨Nat.le_trans h1.1 h2.1, fun i hi hE => by
    rw [h2.2 i (Nat.lt_of_lt_of_le hi h1.1) hE, h1.2 i hi hE]⟩

theorem EvalState.Extends.of_envs {E : Nat} {a b : EvalState} (h : b.envs = a.envs) :
    a.Extends E b :=
  ⟨by rw [h], fun _ _ _ => by rw [h]⟩

theorem set_extends (st : EvalState) (E : Nat) (key : Bytes) (v : Value) :
    st.Extends E (st.set E key v) :=
  ⟨by rw [set_envs_length], fun i _ hE => set_get?_other st E i key v hE⟩

theorem Res.Pure.to_extends {α : Type} {st : EvalState} {r : Res α} (h : r.Pure st) (E : Nat) :
    r.Extends E st := by
  cases r with
  | ok v st' => exact EvalState.Extends.of_envs h
  | timeout => trivial
  | panic => trivial

/-- Composition: a result that extends a state that extends `st`. -/
theorem Res.Extends.from_state {α : Type} {E : Nat} {st st1 : EvalState} {r : Res α}
    (h1 : st.Extends E st1) (h2 : r.Extends E st1) : r.Extends E st := by
  cases r with
  | ok v st' => exact h1.andThen h2
  | timeout => trivial
  | panic => trivial

theorem Res.Pure.ite {α : Type} {st : EvalState} {c : Prop} [Decidable c] {a b : Res α}
    (ha : a.Pure st) (hb : b.Pure st) : (if c then a else b).Pure st := by
  split <;> assumption

theorem newError_pure (message : Bytes) (st : EvalState) : (newError message st).Pure st := rfl

theorem evalIdentifier_pure (token : Token) (env : Nat) (st : EvalState) :
    (evalIdentifier token env st).Pure st := by
  unfold evalIdentifier
  split
  · rfl
  · split
    · rfl
    · rfl

theorem evalPrefixExpression_pure (operator : Token) (right : Value) (st : EvalState) :
    (evalPrefixExpression operator right st).Pure st := by
  unfold evalPrefixExpression
  split
  · split <;> rfl
  · split
    · trivial
    · split <;> rfl

theorem unknownOperator_pure (operator : Token) (left right : Obj) (st : EvalState) :
    (unknownOperator operator left right st).Pure st := rfl

theorem evalIntegerInfixExpression_pure (operator : Token) (left right : Obj)
    (st : EvalState) : (evalIntegerInfixExpression operator left right st).Pure st := by
  unfold evalIntegerInfixExpression
  split
  · repeat' (first | apply Res.Pure.ite | exact rfl)
  · trivial

theorem evalFloatInfixExpression_pure (operator : Token) (left right : Obj)
    (st : EvalState) : (evalFloatInfixExpression operator left right st).Pure st := by
  unfold evalFloatInfixExpression
  repeat' (first | apply Res.Pure.ite | exact rfl)

theorem evalStringInfixExpression_pure (operator : Token) (left right : Obj)
    (st : EvalState) : (evalStringInfixExpression operator left right st).Pure st := by
  unfold evalStringInfixExpression
  split
  · repeat' (first | apply Res.Pure.ite | exact rfl)
  · trivial

theorem evalInfixExpression_pure (operator : Token) (left right : Value) (st : EvalState) :
    (evalInfixExpression operator left right st).Pure st := by
  unfold evalInfixExpression
  split
  · trivial
  · split
    · split_ifs <;> first | rfl | trivial
    · split_ifs
      · exact evalIntegerInfixExpression_pure _ _ _ _
      · exact evalFloatInfixExpression_pure _ _ _ _
      · exact evalStringInfixExpression_pure _ _ _ _
      · rfl
      · rfl
      · rfl

theorem evalArrayIndexExpression_pure (token : Token) (left right : Obj) (st : EvalState) :
    (evalArrayIndexExpression token left right st).Pure st := by
  unfold evalArrayIndexExpression
  split
  · apply Res.Pure.ite
    · exact rfl
    · split
      · exact rfl
      · trivial
  · trivial

theorem evalIndexExpression_pure (token : Token) (left right : Value) (st : EvalState) :
    (evalIndexExpression token left right st).Pure st := by
  unfold evalIndexExpression
  split
  · trivial
  · split
    · split
      · trivial
      · split
        · exact evalArrayIndexExpression_pure _ _ _ _
        · rfl
    · rfl

theorem builtinPrint_pure : ∀ (args : List Value) (st : EvalState),
    (builtinPrint args st).Pure st := by
  intro args
  induction args with
  | nil => intro st; rfl
  | cons a rest ih =>
    intro st
    cases a with
    | none => trivial
    | some o =>
      unfold builtinPrint
      split
      · have := ih { st with output := st.output ++ [o] }
        revert this
        cases builtinPrint rest { st with output := st.output ++ [o] } with
        | ok v st' => exact fun h => h
        | timeout => exact fun _ => trivial
        | panic => exact fun _ => trivial
      · trivial

theorem callBuiltin_pure (b : Builtin) (token : Token) (args : List Value) (st : EvalState) :
    (callBuiltin b token args st).Pure st := by
  cases b with
  | len =>
    show (builtinLen token args st).Pure st
    unfold builtinLen
    split
    · split <;> first | rfl | trivial
    · rfl
  | push =>
    show (builtinPush token args st).Pure st
    unfold builtinPush
    split
    · rfl
    · rfl
    · split <;> first | rfl | trivial
  | print => exact builtinPrint_pure args st

theorem Res.Extends.ok_iff {α : Type} (E : Nat) (st st' : EvalState) (v : α) :
    (Res.ok v st' : Res α).Extends E st ↔ st.Extends E st' := Iff.rfl

theorem Ev.Framed.ok {ev : Ev} (hev : ev.Framed) {node : Node} {E : Nat} {st st' : EvalState}
    {v : Value} (h : ev node E st = .ok v st') : st.Extends E st' := by
  have := hev node E st
  rw [h] at this
  exact this

theorem EvalState.Extends.of_fresh {st st' : EvalState} (h : st.Extends st.envs.length st')
    (E : Nat) : st.Extends E st' :=
  ⟨h.1, fun i hi _ => h.2 i hi (by omega)⟩

section framed

variable {ev : Ev}

theorem evalProgramLoop_framed (hev : ev.Framed) (E : Nat) :
    ∀ (stmts : List Statement) (result : Value) (st : EvalState),
      (evalProgramLoop ev E stmts result st).Extends E st := by
  intro stmts
  induction stmts with
  | nil => intro result st; exact EvalState.Extends.same E st
  | cons s rest ih =>
    intro result st
    unfold evalProgramLoop
    rcases hr : ev (.statement s) E st with _ | _ | ⟨v, st1⟩
    · trivial
    · trivial
    · have h1 := hev.ok hr
      simp only
      split
      · exact h1
      · exact h1
      · exact Res.Extends.from_state h1 (ih _ _)

theorem evalBlockStatementLoop_framed (hev : ev.Framed) (E : Nat) :
    ∀ (stmts : List Statement) (result : Value) (st : EvalState),
      (evalBlockStatementLoop ev E stmts result st).Extends E st := by
  intro stmts
  induction stmts with
  | nil => intro result st; exact EvalState.Extends.same E st
  | cons s rest ih =>
    intro result st
    unfold evalBlockStatementLoop
    rcases hr : ev (.statement s) E st with _ | _ | ⟨v, st1⟩
    · trivial
    · trivial
    · have h1 := hev.ok hr
      simp only
      split
      · exact h1
      · exact Res.Extends.from_state h1 (ih _ _)

theorem evalIfExpression_framed (hev : ev.Framed) (condition : Expr)
    (consequence : BlockStatement) (alternative : Option BlockStatement) (E : Nat)
    (st : EvalState) :
    (evalIfExpression ev condition consequence alternative E st).Extends E st := by
  unfold evalIfExpression
  rcases hr : ev (.expression condition) E st with _ | _ | ⟨c, st1⟩
  · trivial
  · trivial
  · have h1 := hev.ok hr
    simp only
    split
    · exact h1
    · split
      · exact Res.Extends.from_state h1 (hev _ _ _)
      · split
        · exact Res.Extends.from_state h1 (hev _ _ _)
        · exact h1

theorem evalExpressionsLoop_framed (hev : ev.Framed) (E : Nat) :
    ∀ (exprs : List Expr) (result : List Value) (st : EvalState),
      (evalExpressionsLoop ev E exprs result st).Extends E st := by
  intro exprs
  induction exprs with
  | nil => intro result st; exact EvalState.Extends.same E st
  | cons e rest ih =>
    intro result st
    unfold evalExpressionsLoop
    rcases hr : ev (.expression e) E st with _ | _ | ⟨v, st1⟩
    · trivial
    · trivial
    · have h1 := hev.ok hr
      simp only
      split
      · exact h1
      · exact Res.Extends.from_state h1 (ih _ _)

theorem callState_extends (st : EvalState) (parameters : List Identifier) (args : List Value)
    (fenv : Nat) (E : Nat) : st.Extends E (callState st parameters args fenv) := by
  rw [callState_eq]
  refine ⟨by simp, fun i hi _ => ?_⟩
  show (st.envs ++ _).get? i = st.envs.get? i
  rw [List.get?_eq_getElem?, List.get?_eq_getElem?, List.getElem?_append_left hi]

theorem unwrapReturn_extends (E : Nat) (st : EvalState) (r : Res Value) (h : r.Extends E st) :
    (unwrapReturn r).Extends E st := by
  unfold unwrapReturn
  split
  · exact h
  · exact h

/-- A call leaves every environment that existed before it as it was. -/
theorem applyFunction_framed (hev : ev.Framed) (token : Token) (o : Value) (args : List Value)
    (st : EvalState) : (applyFunction ev token o args st).Extends st.envs.length st := by
  cases o with
  | none => trivial
  | some f =>
    cases f with
    | objFunction a parameters body fenv =>
      by_cases harity : args.length = parameters.length
      · rw [applyFunction_function ev token a parameters body fenv args st harity]
        apply unwrapReturn_extends
        have h1 := callState_extends st parameters args fenv st.envs.length
        exact Res.Extends.from_state h1 (hev _ _ _)
      · unfold applyFunction
        simp only [ne_eq, harity, not_false_eq_true, if_true]
        exact (newError_pure _ _).to_extends _
    | objBuiltin a function => exact (callBuiltin_pure function token args st).to_extends _
    | objInteger a v => exact (newError_pure _ _).to_extends _
    | objFloat a v => exact (newError_pure _ _).to_extends _
    | objBoolean a v => exact (newError_pure _ _).to_extends _
    | objString a v => exact (newError_pure _ _).to_extends _
    | objArray a v => exact (newError_pure _ _).to_extends _
    | objNull a => exact (newError_pure _ _).to_extends _
    | objReturn a v => exact (newError_pure _ _).to_extends _
    | objError a v => exact (newError_pure _ _).to_extends _

theorem evalNode_framed (hev : ev.Framed) (node : Node) (E : Nat) (st : EvalState) :
    (evalNode ev node E st).Extends E st := by
  cases node with
  | program p => exact evalProgramLoop_framed hev E _ _ _
  | block b => exact evalBlockStatementLoop_framed hev E _ _ _
  | statement s =>
    cases s with
    | varStatement token name value =>
      simp only [evalNode]
      rcases hr : ev (.expression value) E st with _ | _ | ⟨v, st1⟩
      · trivial
      · trivial
      · have h1 := hev.ok hr
        simp only
        split
        · exact h1
        · exact h1.andThen (set_extends _ _ _ _)
    | returnStatement token value =>
      simp only [evalNode]
      rcases hr : ev (.expression value) E st with _ | _ | ⟨v, st1⟩
      · trivial
      · trivial
      · have h1 := hev.ok hr
        simp only
        split
        · exact h1
        · exact h1.andThen (EvalState.Extends.of_envs rfl)
    | expressionStatement token value => exact hev _ _ _
  | expression e =>
    cases e with
    | nil => exact EvalState.Extends.same E st
    | identifier token => exact (evalIdentifier_pure token E st).to_extends E
    | integerLiteral token value => exact EvalState.Extends.of_envs rfl
    | nilIntegerLiteral => trivial
    | floatLiteral token value => exact EvalState.Extends.of_envs rfl
    | nilFloatLiteral => trivial
    | booleanLiteral token value => exact EvalState.Extends.same E st
    | stringLiteral token => exact EvalState.Extends.of_envs rfl
    | arrayLiteral token elements =>
      simp only [evalNode, evalExpressions]
      have h := evalExpressionsLoop_framed hev E elements [] st
      rcases hr : evalExpressionsLoop ev E elements [] st with _ | _ | ⟨⟨elems, flag⟩, st1⟩
      · trivial
      · trivial
      · rw [hr] at h
        have h1 : st.Extends E st1 := h
        cases flag with
        | true => exact h1.andThen (EvalState.Extends.of_envs rfl)
        | false =>
          simp only
          split
          · exact h1
          · trivial
    | prefixExpression operator right =>
      simp only [evalNode]
      rcases hr : ev (.expression right) E st with _ | _ | ⟨r, st1⟩
      · trivial
      · trivial
      · have h1 := hev.ok hr
        simp only
        split
        · exact h1
        · exact Res.Extends.from_state h1 ((evalPrefixExpression_pure _ _ _).to_extends E)
    | infixExpression operator left right =>
      simp only [evalNode]
      rcases hr : ev (.expression left) E st with _ | _ | ⟨l, st1⟩
      · trivial
      · trivial
      · have h1 := hev.ok hr
        simp only
        split
        · exact h1
        · rcases hr2 : ev (.expression right) E st1 with _ | _ | ⟨r, st2⟩
          · trivial
          · trivial
          · have h2 := h1.andThen (hev.ok hr2)
            simp only
            split
            · exact h2
            · exact Res.Extends.from_state h2 ((evalInfixExpression_pure _ _ _ _).to_extends E)
    | ifExpression token condition consequence alternative =>
      exact evalIfExpression_framed hev _ _ _ _ _
    | nilIfExpression => trivial
    | functionExpression token parameters body => exact EvalState.Extends.of_envs rfl
    | nilFunctionExpression => trivial
    | callExpression token function arguments =>
      simp only [evalNode]
      rcases hr : ev (.expression function) E st with _ | _ | ⟨f, st1⟩
      · trivial
      · trivial
      · have h1 := hev.ok hr
        simp only
        split
        · exact h1
        · simp only [evalExpressions]
          have h := evalExpressionsLoop_framed hev E arguments [] st1
          rcases hr2 : evalExpressionsLoop ev E arguments [] st1 with
            _ | _ | ⟨⟨args, flag⟩, st2⟩
          · trivial
          · trivial
          · rw [hr2] at h
            have h2 : st.Extends E st2 := h1.andThen h
            cases flag with
            | true =>
              simp only
              have h3 := applyFunction_framed hev token f args st2
              revert h3
              cases applyFunction ev token f args st2 with
              | ok v st3 => exact fun h3 => h2.andThen (EvalState.Extends.of_fresh h3 E)
              | timeout => exact fun _ => trivial
              | panic => exact fun _ => trivial
            | false =>
              simp only
              split
              · exact h2
              · trivial
    | indexExpression token left index =>
      simp only [evalNode]
      rcases hr : ev (.expression left) E st with _ | _ | ⟨l, st1⟩
      · trivial
      · trivial
      · have h1 := hev.ok hr
        simp only
        split
        · exact h1
        · rcases hr2 : ev (.expression index) E st1 with _ | _ | ⟨r, st2⟩
          · trivial
          · trivial
          · have h2 := h1.andThen (hev.ok hr2)
            simp only
            split
            · exact h2
            · exact Res.Extends.from_state h2 ((evalIndexExpression_pure _ _ _ _).to_extends E)
    | nilIndexExpression => trivial

end framed

theorem Eval_framed : ∀ n : Nat, Ev.Framed (Eval n) := by
  intro n
  induction n with
  | zero => intro node E st; trivial
  | succ n ih => intro node E st; exact evalNode_framed ih node E st

theorem getLoop_kept {st st' : EvalState} (hwf : st.WellFormed)
    (hkeep : ∀ i, i < st.envs.length → st'.envs.get? i = st.envs.get? i) (key : Bytes) :
    ∀ (f f' E : Nat), E < f → E < f' → E < st.envs.length →
      EvalState.getLoop st'.envs key f E = EvalState.getLoop st.envs key f' E := by
  intro f
  induction f with
  | zero => intro f' E h; omega
  | succ f ih =>
    intro f' E h1 h2 hE
    cases f' with
    | zero => omega
    | succ f' =>
      simp only [EvalState.getLoop, hkeep E hE]
      cases he : st.envs.get? E with
      | none => rfl
      | some e =>
        simp only
        cases mapGet e.store key with
        | some v => rfl
        | none =>
          simp only
          cases ho : e.outer with
          | none => rfl
          | some o =>
            have hlt := hwf E e he o ho
            exact ih f' o (by omega) (by omega) (by omega)

/-- C37. When `applyFunction` returns, for any function object, built-in or other value,
and any arguments, every environment that existed before the call is as it was: the state
has the same environments at the same addresses, followed by those created during the
call. Hence, in a state whose `outer` pointers refer to earlier environments, the lookup
of every name in every environment that existed before, the captured one, the one of the
caller and the enclosing ones, returns what it returned before. The reason is that every
evaluation, and so every var statement at any nesting of blocks and calls, writes into the
environment it runs in and into environments created after it started, and the body runs
in an environment created by the call. -/
theorem call_leaves_environments (n : Nat) (token : Token) (f : Value) (args : List Value)
    (st st' : EvalState) (v : Value)
    (h : applyFunction (Eval n) token f args st = .ok v st') :
    st.envs.length ≤ st'.envs.length ∧
    (∀ i, i < st.envs.length → st'.envs.get? i = st.envs.get? i) ∧
    (st.WellFormed → ∀ E key, E < st.envs.length → st'.get E key = st.get E key) ∧
    (∀ (m : Nat) (node : Node) (E : Nat) (s s' : EvalState) (r : Value),
      Eval m node E s = .ok r s' →
      s.envs.length ≤ s'.envs.length ∧
      ∀ i, i < s.envs.length → i ≠ E → s'.envs.get? i = s.envs.get? i) := by
  have hframe := applyFunction_framed (Eval_framed n) token f args st
  rw [h] at hframe
  have hx : st.Extends st.envs.length st' := hframe
  have hkeep : ∀ i, i < st.envs.length → st'.envs.get? i = st.envs.get? i :=
    fun i hi => hx.2 i hi (by omega)
  refine ⟨hx.1, hkeep, ?_, ?_⟩
  · intro hwf E key hE
    exact getLoop_kept hwf hkeep key _ _ E (by have := hx.1; omega) hE hE
  · intro m node E s s' r hm
    exact (Eval_framed m).ok hm

set_option maxRecDepth 100000 in
/-- C37 for a call of `func() { var x = 2 }` from an environment in which `x` is 1: the
body binds `x` in the environment of the call, and `x` is still 1 in the first one. -/
theorem call_leaves_environments_witness :
    applyFunction (Eval 5) ⟨.LPAREN, str "(", 1, 2⟩
        (some (.objFunction 6 []
          (.mk ⟨.LBRACE, str "\x7b", 1, 1⟩
            [.varStatement ⟨.VARIABLE, str "var", 1, 1⟩ ⟨⟨.IDENTIFIER, str "x", 1, 1⟩⟩
              (.integerLiteral ⟨.INTEGER, str "2", 1, 1⟩ 2)]) 0)) []
        ⟨[⟨[(str "x", some (.objInteger 7 1))], none⟩], 8, []⟩ =
      .ok none ⟨[⟨[(str "x", some (.objInteger 7 1))], none⟩,
        ⟨[(str "x", some (.objInteger 8 2))], some 0⟩], 9, []⟩ ∧
    EvalState.get ⟨[⟨[(str "x", some (.objInteger 7 1))], none⟩,
        ⟨[(str "x", some (.objInteger 8 2))], some 0⟩], 9, []⟩ 0 (str "x") =
      EvalState.get ⟨[⟨[(str "x", some (.objInteger 7 1))], none⟩], 8, []⟩ 0 (str "x") :=
  have hwf : EvalState.WellFormed ⟨[⟨[(str "x", some (.objInteger 7 1))], none⟩], 8, []⟩ := by
    intro i e h o ho
    cases i with
    | zero =>
      simp only [List.get?_cons_zero, Option.some.injEq] at h
      subst h
      simp at ho
    | succ j => simp at h
  have hcall : applyFunction (Eval 5) ⟨.LPAREN, str "(", 1, 2⟩
        (some (.objFunction 6 []
          (.mk ⟨.LBRACE, str "\x7b", 1, 1⟩
            [.varStatement ⟨.VARIABLE, str "var", 1, 1⟩ ⟨⟨.IDENTIFIER, str "x", 1, 1⟩⟩
              (.integerLiteral ⟨.INTEGER, str "2", 1, 1⟩ 2)]) 0)) []
        ⟨[⟨[(str "x", some (.objInteger 7 1))], none⟩], 8, []⟩ =
      .ok none ⟨[⟨[(str "x", some (.objInteger 7 1))], none⟩,
        ⟨[(str "x", some (.objInteger 8 2))], some 0⟩], 9, []⟩ := by rfl
  ⟨hcall,
    (call_leaves_environments 5 _ _ _ _ _ _ hcall).2.2.1 hwf 0 (str "x") (by decide)⟩

end Marble
